import Mathlib

/-! # MLST format checker: a shallow embedding and its verification

The development follows the Go sources `config.go`, `graph.go` and `reader.go`.

Modelling conventions.

* A Go `string` and the unread part of the `bufio.Reader` are lists of characters.  The
  reader only ever inspects the characters newline, space and the ASCII digits.
* A Go `int` is a mathematical integer; the only place where the width of `int` is visible
  is `strconv.Atoi`, which refuses values that do not fit (`intSize = 64`).
* A Go `map[Edge]bool` used as a set is the list of its keys.  The order in which
  `for e := range E` enumerates the keys is unspecified in Go, so every function that
  ranges over an edge set receives the enumeration as a parameter (`MapOrder`).
* A run-time panic (index out of range, nil dereference, length out of range) is an
  explicit `Fault`.
* Memory is unbounded: an allocation never fails for lack of memory.  The run-time check
  of `make([]T, n)` on the requested length (`runtime.makeslice`) is modelled where the
  length is read from the text, in `ReadInputFile`: a length of more than `maxAlloc` bytes
  is the fault `lenOutOfRange`.  Everywhere else the length is a constant or the length of
  an existing slice of elements of the same size, for which the check passes.
* The stream behind the `bufio.Reader` is a finite text; the only error of a read is `io.EOF`.
* The recursive closure `dfsFunc` is a function on the pair (visited array, cycle flag)
  with a bound on the recursion depth; exceeding the bound is the fault `depthExceeded`.
-/

namespace Mlst

/-! ## config.go -/

def MaxNumNodes : Int := 100

def MaxNumEdges : Int := 2000

/-! ## Faults and results -/

/-- Run-time failures of the Go program that are not reported as an `Error` value. -/
inductive Fault where
  | indexOutOfRange
  | nilDereference
  | depthExceeded
  | lenOutOfRange
deriving DecidableEq, Repr

/-! ## Allocation -/

/-- The constant `maxAlloc` of the Go run time, the largest size in bytes of an allocation,
on a 64-bit platform with 48-bit heap addresses. -/
def maxAlloc : Int := 2 ^ 48

/-- The size in bytes of a word: an `int`, a pointer, a map. -/
def wordSize : Int := 8

/-- The run-time check of `make([]T, len)` for elements of `elemSize` bytes
(`runtime.makeslice`): a negative length, or a length whose size in bytes exceeds
`maxAlloc`, panics with `makeslice: len out of range`. -/
def makeslice (elemSize len : Int) : Except Fault Unit :=
  if len < 0 ∨ elemSize * len > maxAlloc then .error .lenOutOfRange else .ok ()

/-! ## graph.go -/

structure Edge where
  Ends : Int × Int
deriving DecidableEq, Repr

abbrev EdgeSet := List Edge

abbrev AdjList := List Int

structure Graph where
  Neighbors : List AdjList
  NumOfComponents : Int
  NumNodes : Int
  NumLeaves : Int
  HasCycle : Bool
deriving DecidableEq, Repr

/-- Go's `string` type for messages. -/
abbrev GoString := String

/-- The verb `%d` of `fmt`. -/
def fmtInt (n : Int) : GoString := toString n

/-- Text of `Edge.String`: `fmt.Sprintf("(%d,%d)", e.Ends[0], e.Ends[1])`. -/
def Edge.String (e : Edge) : GoString :=
  "(" ++ fmtInt e.Ends.1 ++ "," ++ fmtInt e.Ends.2 ++ ")"

/-- Message of the first `fmt.Errorf` of `Edge.Error`. -/
def outOfRangeMsg (node : Int) (e : Edge) : GoString :=
  "Node " ++ fmtInt node ++ " out of range [0--" ++ fmtInt (MaxNumNodes - 1) ++ "] in edge "
    ++ e.String ++ "."

/-- Message of the second `fmt.Errorf` of `Edge.Error`. -/
def selfLoopMsg (e : Edge) : GoString :=
  "Self-loop not allowed in edge " ++ e.String ++ "."

/-- Method `Edge.Error`: `none` is Go's `nil`, `some m` an error with text `m`.
The loop over the two ends is unrolled. -/
def Edge.Error (e : Edge) : Option GoString :=
  if e.Ends.1 < 0 ∨ e.Ends.1 ≥ MaxNumNodes then some (outOfRangeMsg e.Ends.1 e)
  else if e.Ends.2 < 0 ∨ e.Ends.2 ≥ MaxNumNodes then some (outOfRangeMsg e.Ends.2 e)
  else if e.Ends.1 = e.Ends.2 then some (selfLoopMsg e)
  else none

/-- Method `Edge.Normalize`. -/
def Edge.Normalize (e : Edge) : Edge :=
  if e.Ends.1 > e.Ends.2 then ⟨(e.Ends.2, e.Ends.1)⟩ else e

/-- Map update `E[e] = true` on the list of keys. -/
def EdgeSet.insert (E : EdgeSet) (e : Edge) : EdgeSet :=
  if e ∈ E then E else E ++ [e]

def NewEmptyGraph (numNodes : Int) : Graph :=
  { Neighbors := List.replicate numNodes.toNat []
    NumOfComponents := 0
    NumNodes := 0
    NumLeaves := 0
    HasCycle := false }

/-- Method `addDirectedEdgeUV`: `G.Neighbors[u] = append(G.Neighbors[u], v)`. -/
def Graph.addDirectedEdgeUV (G : Graph) (u v : Int) : Except Fault Graph :=
  if 0 ≤ u ∧ u.toNat < G.Neighbors.length then
    .ok { G with Neighbors := G.Neighbors.modify (fun l => l ++ [v]) u.toNat }
  else .error .indexOutOfRange

def Graph.addEdgeUV (G : Graph) (u v : Int) : Except Fault Graph :=
  match G.addDirectedEdgeUV u v with
  | .error f => .error f
  | .ok G1 => G1.addDirectedEdgeUV v u

def Graph.AddEdge (G : Graph) (e : Edge) : Except Fault Graph :=
  G.addEdgeUV e.Ends.1 e.Ends.2

/-- The loop `for e := range E { G.AddEdge(e) }` over an enumeration of the keys. -/
def addEdges : List Edge → Graph → Except Fault Graph
  | [], G => .ok G
  | e :: es, G =>
    match G.AddEdge e with
    | .error f => .error f
    | .ok G1 => addEdges es G1

/-- Method `EdgeSet.Graph`; `keys` is the sequence in which `range E` yields the keys. -/
def EdgeSet.Graph (keys : List Edge) : Except Fault Graph :=
  addEdges keys (NewEmptyGraph MaxNumNodes)

def Graph.EdgesInOneComponent (G : Graph) : Bool :=
  G.NumOfComponents == 1

/-- The variables captured and written by the closure `dfsFunc`. -/
structure DfsState where
  visited : List Bool
  HasCycle : Bool
deriving DecidableEq, Repr

/-- Slice read `a[i]` for a Go `int` index. -/
def index? {α : Type} (a : List α) (i : Int) : Option α :=
  if 0 ≤ i then a[i.toNat]? else none

/-- One iteration of `for _, n := range G.Neighbors[node]`, the recursive call being `call`. -/
def dfsStep (call : Int → DfsState → Except Fault DfsState) (parent : Int)
    (s : DfsState) (n : Int) : Except Fault DfsState :=
  if n ≠ parent then
    match index? s.visited n with
    | none => .error .indexOutOfRange
    | some false => call n s
    | some true => .ok { s with HasCycle := true }
  else .ok s

/-- The loop `for _, n := range G.Neighbors[node]`. -/
def dfsRange (call : Int → DfsState → Except Fault DfsState) (parent : Int) :
    List Int → DfsState → Except Fault DfsState
  | [], s => .ok s
  | n :: ns, s =>
    match dfsStep call parent s n with
    | .error f => .error f
    | .ok s1 => dfsRange call parent ns s1

/-- The closure `dfsFunc(node, parent)`.  The first argument bounds the depth of the
recursion. -/
def dfsFunc (N : List AdjList) : Nat → Int → Int → DfsState → Except Fault DfsState
  | 0, _, _, _ => .error .depthExceeded
  | depth + 1, node, parent, s =>
    if 0 ≤ node ∧ node.toNat < s.visited.length then
      match index? N node with
      | none => .error .indexOutOfRange
      | some nbrs =>
        dfsRange (fun n s1 => dfsFunc N depth n node s1) parent nbrs
          { s with visited := s.visited.set node.toNat true }
    else .error .indexOutOfRange

/-- The variables written by the main loop of `Search`. -/
structure SearchState where
  dfs : DfsState
  NumNodes : Int
  NumLeaves : Int
  NumOfComponents : Int
deriving DecidableEq, Repr

/-- Body of `for i := range G.Neighbors` in `Search`, for index `i` with `adj = G.Neighbors[i]`. -/
def searchStep (N : List AdjList) (i : Nat) (adj : AdjList) (a : SearchState) :
    Except Fault SearchState :=
  if adj.length > 0 then
    let a1 := { a with NumNodes := a.NumNodes + 1 }
    let a2 := if adj.length = 1 then { a1 with NumLeaves := a1.NumLeaves + 1 } else a1
    match index? a2.dfs.visited (i : Int) with
    | none => .error .indexOutOfRange
    | some true => .ok a2
    | some false =>
      match dfsFunc N MaxNumNodes.toNat (i : Int) (-1) a2.dfs with
      | .error f => .error f
      | .ok d => .ok { a2 with dfs := d, NumOfComponents := a2.NumOfComponents + 1 }
  else .ok a

/-- The loop `for i := range G.Neighbors`, from index `i` on; `rest` are the remaining
adjacency lists. -/
def searchLoop (N : List AdjList) : Nat → List AdjList → SearchState → Except Fault SearchState
  | _, [], a => .ok a
  | i, adj :: rest, a =>
    match searchStep N i adj a with
    | .error f => .error f
    | .ok a1 => searchLoop N (i + 1) rest a1

/-- The assignments at the start of `Search`: a fresh `visited` array and zeroed fields. -/
def searchInit : SearchState :=
  { dfs := { visited := List.replicate MaxNumNodes.toNat false, HasCycle := false }
    NumNodes := 0
    NumLeaves := 0
    NumOfComponents := 0 }

/-- Method `Graph.Search`. -/
def Graph.Search (G : Graph) : Except Fault Graph :=
  match searchLoop G.Neighbors 0 G.Neighbors searchInit with
  | .error f => .error f
  | .ok a =>
    .ok { G with
          NumNodes := a.NumNodes
          NumLeaves := a.NumLeaves
          NumOfComponents := a.NumOfComponents
          HasCycle := a.dfs.HasCycle }

/-! ## Library functions used by reader.go -/

/-- The error values a read of the underlying stream can produce. -/
inductive IOError where
  | EOF
deriving DecidableEq, Repr

def IOError.Error : IOError → GoString
  | .EOF => "EOF"

/-- Function `bufio.Reader.ReadString(delim)` on the unread characters: the characters up to
and including the first `delim`, the characters left unread, and `io.EOF` when the stream ends
before a `delim` is found. -/
def ReadString (delim : Char) : List Char → List Char × List Char × Option IOError
  | [] => ([], [], some .EOF)
  | c :: cs =>
    if c = delim then ([c], cs, none)
    else
      let res := ReadString delim cs
      (c :: res.1, res.2.1, res.2.2)

/-- The regular expression `\d+` at the start of `s`: the longest run of ASCII digits, which
has to be non-empty, and the rest of `s`. -/
def matchDigits (s : List Char) : Option (List Char × List Char) :=
  if s.takeWhile Char.isDigit = [] then none
  else some (s.takeWhile Char.isDigit, s.dropWhile Char.isDigit)

/-- The regular expression `\n?$` on the whole of `s`. -/
def matchEnd (s : List Char) : Bool :=
  s = [] || s = ['\n']

/-- The compiled expressions `NumberFormatRegexp[n]` applied with `FindStringSubmatch`:
`^(\d+)\n?$` for `n = 1` and `^(\d+) (\d+)\n?$` for `n = 2`; entry `0` is a nil pointer and
the array has three entries.  The result `some none` is Go's `nil` slice (no match). -/
def NumberFormatRegexp (n : Int) (line : List Char) :
    Except Fault (Option (List (List Char))) :=
  if n = 1 then
    match matchDigits line with
    | none => .ok none
    | some (d, rest) => if matchEnd rest then .ok (some [line, d]) else .ok none
  else if n = 2 then
    match matchDigits line with
    | none => .ok none
    | some (d1, rest) =>
      match rest with
      | ' ' :: rest1 =>
        match matchDigits rest1 with
        | none => .ok none
        | some (d2, rest2) => if matchEnd rest2 then .ok (some [line, d1, d2]) else .ok none
      | _ => .ok none
  else if n = 0 then .error .nilDereference
  else .error .indexOutOfRange

/-- The texts `NumberExpectedMsg[n]`. -/
def NumberExpectedMsg (n : Int) : GoString :=
  if n = 1 then "Expecting one natural number on a line with no leading or trailing spaces."
  else if n = 2 then
    "Expecting two natural numbers separated by a single space on a line with no leading " ++
      "or trailing spaces."
  else ""

/-- Width of Go's `int`. -/
def intSize : Nat := 64

/-- Value of a character as a decimal digit. -/
def digitVal (c : Char) : Nat := c.toNat - '0'.toNat

/-- The accumulation `n = n*10 + digit` over a run of digits. -/
def decimalValue (ds : List Char) : Nat :=
  ds.foldl (fun n c => n * 10 + digitVal c) 0

/-- Text of a `*strconv.NumError` of `Atoi`. -/
def atoiErrorMsg (s : List Char) (reason : GoString) : GoString :=
  "strconv.Atoi: parsing \"" ++ String.mk s ++ "\": " ++ reason

/-- The text after an optional sign. -/
def stripSign : List Char → List Char
  | '+' :: t => t
  | '-' :: t => t
  | s => s

/-- Function `strconv.Atoi`: an optional sign, then a non-empty run of decimal digits whose
value has to fit an `int`. -/
def Atoi (s : List Char) : Except GoString Int :=
  let body := stripSign s
  if body = [] ∨ ¬ body.all Char.isDigit then .error (atoiErrorMsg s "invalid syntax")
  else if s.head? = some '-' then
    if decimalValue body > 2 ^ (intSize - 1) then .error (atoiErrorMsg s "value out of range")
    else .ok (- (decimalValue body : Int))
  else
    if decimalValue body > 2 ^ (intSize - 1) - 1 then
      .error (atoiErrorMsg s "value out of range")
    else .ok (decimalValue body : Int)

/-! ## reader.go -/

structure Reader where
  reader : List Char
  lineNum : Int
  caseNum : Int
  line : List Char
deriving DecidableEq, Repr

structure Error where
  lineNum : Int
  caseNum : Int
  line : List Char
  message : GoString
deriving DecidableEq, Repr

/-- Result of a method that returns `(value, *Error)` or panics: `ok a` is the pair
`(a, nil)`, and `fail a e` is the pair `(a, e)` with an error `e`. -/
inductive Run (α : Type) where
  | ok (a : α)
  | fail (a : α) (e : Mlst.Error)
  | crash (f : Fault)
deriving DecidableEq, Repr

def InvalidNumLeaves : Int := -1

def Error.caseInfo (e : Mlst.Error) : GoString :=
  if e.caseNum = 0 then "" else " (Graph #" ++ fmtInt e.caseNum ++ ")"

/-- Method `Error.Error`. -/
def Error.Error (e : Mlst.Error) : GoString :=
  "Error on line " ++ fmtInt e.lineNum ++ e.caseInfo ++ ": Got '" ++ String.mk e.line ++ "'. "
    ++ e.message

def Reader.readLine (r : Reader) : Reader × Option IOError :=
  let res := ReadString '\n' r.reader
  let r1 : Reader := { r with lineNum := r.lineNum + 1, line := res.1, reader := res.2.1 }
  if res.1.length > 0 then (r1, none) else (r1, res.2.2)

def Reader.strippedLine (r : Reader) : List Char :=
  if r.line.length > 0 ∧ r.line.getLast? = some '\n' then r.line.dropLast else r.line

def Reader.Error (r : Reader) (msg : GoString) : Mlst.Error :=
  { lineNum := r.lineNum, caseNum := r.caseNum, line := r.strippedLine, message := msg }

def Reader.ErrorWithExpected (r : Reader) (msg expected : GoString) : Mlst.Error :=
  r.Error (msg ++ " " ++ expected)

/-- The loop of `readNumbers` that converts the submatches, `ints` being the numbers
converted so far. -/
def convertMatches (r : Reader) (msg : GoString) (n : Int) :
    List (List Char) → List Int → Run (List Int)
  | [], ints => .ok ints
  | m :: ms, ints =>
    match Atoi m with
    | .error err =>
      .fail [] (r.ErrorWithExpected (msg ++ " (" ++ err ++ ")") (NumberExpectedMsg n))
    | .ok num => convertMatches r msg n ms (ints ++ [num])

/-- The part of `readNumbers` that follows the successful read of a line: the line is
matched against the format and the submatches are converted. -/
def Reader.parseNumbers (r : Reader) (msg : GoString) (n : Int) : Run (List Int) :=
  match NumberFormatRegexp n r.line with
  | .error f => .crash f
  | .ok none => .fail [] (r.ErrorWithExpected msg (NumberExpectedMsg n))
  | .ok (some found) =>
    if (found.length : Int) ≠ n + 1 then
      .fail [] (r.ErrorWithExpected msg (NumberExpectedMsg n))
    else convertMatches r msg n found.tail []

def Reader.readNumbers (r : Reader) (msg : GoString) (n : Int) : Reader × Run (List Int) :=
  match r.readLine with
  | (r1, some err) =>
    (r1, .fail [] (r1.ErrorWithExpected (msg ++ " (" ++ err.Error ++ ")")
      "Expecting the next line."))
  | (r1, none) => (r1, r1.parseNumbers msg n)

/-- The order in which `for e := range E` enumerates an edge set.  The enumeration may differ
from one loop to the next, so it is looked up by the reader's line number at the time of the
loop together with the set. -/
abbrev MapOrder := Int → EdgeSet → List Edge

def NewInFileReader (rd : List Char) : Reader :=
  { reader := rd, lineNum := 0, caseNum := 0, line := [] }

/-- The loop `for i := 0; i < NumEdges; i++` of `ReadInputGraph`; `k` counts the iterations
that remain. -/
def readInputEdges : Nat → Reader → EdgeSet → Reader × Run EdgeSet
  | 0, r, edgeSet => (r, .ok edgeSet)
  | k + 1, r, edgeSet =>
    match r.readNumbers "Cannot parse the next edge." 2 with
    | (r1, .crash f) => (r1, .crash f)
    | (r1, .fail _ err) => (r1, .fail [] err)
    | (r1, .ok nums) =>
      match index? nums 0, index? nums 1 with
      | some u, some v =>
        let e := (Edge.mk (u, v)).Normalize
        match e.Error with
        | some err => (r1, .fail [] (r1.Error err))
        | none =>
          if e ∈ edgeSet then
            (r1, .fail [] (r1.Error ("Edge " ++ e.String ++ " (or its reverse) is duplicated.")))
          else readInputEdges k r1 (edgeSet.insert e)
      | _, _ => (r1, .crash .indexOutOfRange)

def Reader.ReadInputGraph (r : Reader) : Reader × Run EdgeSet :=
  match r.readNumbers "Cannot parse the number of edges." 1 with
  | (r1, .crash f) => (r1, .crash f)
  | (r1, .fail _ err) => (r1, .fail [] err)
  | (r1, .ok nums) =>
    match index? nums 0 with
    | none => (r1, .crash .indexOutOfRange)
    | some NumEdges =>
      if NumEdges > MaxNumEdges then
        (r1, .fail [] (r1.Error ("Number of edges cannot exceed " ++ fmtInt MaxNumEdges ++ ".")))
      else readInputEdges NumEdges.toNat r1 []

/-- The two calls `G := edgeSet.Graph(); G.Search()`. -/
def searchedGraph (keys : List Edge) : Except Fault Graph :=
  match EdgeSet.Graph keys with
  | .error f => .error f
  | .ok G => G.Search

/-- The loop `for r.caseNum = 1; r.caseNum <= NumCases; r.caseNum++` of `ReadInputFile`, entered
with `r.caseNum` already set; `k` counts the iterations that remain and `edgeSets` holds the
entries assigned so far. -/
def readInputCases (order : MapOrder) : Nat → Reader → List EdgeSet → Reader × Run (List EdgeSet)
  | 0, r, edgeSets => (r, .ok edgeSets)
  | k + 1, r, edgeSets =>
    match r.ReadInputGraph with
    | (r1, .crash f) => (r1, .crash f)
    | (r1, .fail _ err) => (r1, .fail [] err)
    | (r1, .ok edgeSet) =>
      match searchedGraph (order r1.lineNum edgeSet) with
      | .error f => (r1, .crash f)
      | .ok G =>
        if !G.EdgesInOneComponent then
          (r1, .fail [] (r1.Error ("Disconnected graph: after reading the last edge of " ++
            "this graph, the edges are not in the same component.")))
        else
          readInputCases order k { r1 with caseNum := r1.caseNum + 1 } (edgeSets ++ [edgeSet])

/-- Message of the check for end of input after the last case. -/
def extraLinesMsg (NumCases : Int) : GoString :=
  "Extra lines after Graph #" ++ fmtInt NumCases ++ " (line 1 says the number of graphs is "
    ++ fmtInt NumCases ++ ")."

/-- Method `ReadInputFile`.  The allocation `make([]EdgeSet, NumCases)` is the call of
`makeslice`; the slice that the loop fills is the list `edgeSets`. -/
def Reader.ReadInputFile (order : MapOrder) (r : Reader) : Reader × Run (List EdgeSet) :=
  match r.readNumbers "Cannot parse the number of input graphs." 1 with
  | (r1, .crash f) => (r1, .crash f)
  | (r1, .fail _ err) => (r1, .fail [] err)
  | (r1, .ok nums) =>
    match index? nums 0 with
    | none => (r1, .crash .indexOutOfRange)
    | some NumCases =>
      match makeslice wordSize NumCases with
      | .error f => (r1, .crash f)
      | .ok _ =>
        match readInputCases order NumCases.toNat { r1 with caseNum := 1 } [] with
        | (r2, .crash f) => (r2, .crash f)
        | (r2, .fail _ err) => (r2, .fail [] err)
        | (r2, .ok edgeSets) =>
          match r2.readLine with
          | (r3, some .EOF) => (r3, .ok edgeSets)
          | (r3, none) =>
            (r3, .fail [] (r3.ErrorWithExpected (extraLinesMsg NumCases) "Expecting EOF."))

def NewOutFileReader (rd : List Char) : Reader :=
  { reader := rd, lineNum := 0, caseNum := 0, line := [] }

/-- The loop `for i := 0; i < NumEdges; i++` of `ReadOutputGraph`; `k` counts the iterations
that remain. -/
def readOutputEdges (inEdgeSet : EdgeSet) : Nat → Reader → EdgeSet → Reader × Run EdgeSet
  | 0, r, outEdgeSet => (r, .ok outEdgeSet)
  | k + 1, r, outEdgeSet =>
    match r.readNumbers "Cannot parse the next edge." 2 with
    | (r1, .crash f) => (r1, .crash f)
    | (r1, .fail _ err) => (r1, .fail [] err)
    | (r1, .ok nums) =>
      match index? nums 0, index? nums 1 with
      | some u, some v =>
        let e := (Edge.mk (u, v)).Normalize
        if e ∉ inEdgeSet then
          (r1, .fail [] (r1.Error ("Edge " ++ e.String ++ " in the output " ++
            "graph is absent in the input graph.")))
        else if e ∈ outEdgeSet then
          (r1, .fail [] (r1.Error ("Edge " ++ e.String ++ " (or its reverse) is duplicated.")))
        else readOutputEdges inEdgeSet k r1 (outEdgeSet.insert e)
      | _, _ => (r1, .crash .indexOutOfRange)

/-- Message of the edge-count check of `ReadOutputGraph`. -/
def edgeCountMsg (numNodes got : Int) : GoString :=
  "Input graph has " ++ fmtInt numNodes ++ " non-isolated nodes, output graph should have "
    ++ fmtInt (numNodes - 1) ++ " edges, got " ++ fmtInt got ++ " instead."

/-- Message of the node-count check of `ReadOutputGraph`. -/
def nodeCountMsg (outNodes inNodes : Int) : GoString :=
  "Aftering reading the last edge, the number of non-isolated nodes in the output graph ("
    ++ fmtInt outNodes ++ ") should equal that of the input graph (" ++ fmtInt inNodes
    ++ ") to be a spanning tree."

def Reader.ReadOutputGraph (order : MapOrder) (r : Reader) (inEdgeSet : EdgeSet) :
    Reader × Run Int :=
  match r.readNumbers "Cannot parse the number of edges." 1 with
  | (r1, .crash f) => (r1, .crash f)
  | (r1, .fail _ err) => (r1, .fail InvalidNumLeaves err)
  | (r1, .ok nums) =>
    match searchedGraph (order r1.lineNum inEdgeSet) with
    | .error f => (r1, .crash f)
    | .ok Gin =>
      match index? nums 0 with
      | none => (r1, .crash .indexOutOfRange)
      | some NumEdges =>
        if NumEdges ≠ Gin.NumNodes - 1 then
          (r1, .fail InvalidNumLeaves (r1.Error (edgeCountMsg Gin.NumNodes NumEdges)))
        else
          match readOutputEdges inEdgeSet NumEdges.toNat r1 [] with
          | (r2, .crash f) => (r2, .crash f)
          | (r2, .fail _ err) => (r2, .fail InvalidNumLeaves err)
          | (r2, .ok outEdgeSet) =>
            match searchedGraph (order r2.lineNum outEdgeSet) with
            | .error f => (r2, .crash f)
            | .ok Gout =>
              if Gout.NumNodes ≠ Gin.NumNodes then
                (r2, .fail InvalidNumLeaves (r2.Error (nodeCountMsg Gout.NumNodes Gin.NumNodes)))
              else if !Gout.EdgesInOneComponent then
                (r2, .fail InvalidNumLeaves (r2.Error ("Disconnected graph: after reading " ++
                  "the last edge, the output graph should be connected to be a spanning tree.")))
              else if Gout.HasCycle then
                (r2, .fail InvalidNumLeaves (r2.Error ("Cycle detected: after reading the " ++
                  "last edge, the output graph should not have cycles to be a spanning tree.")))
              else (r2, .ok Gout.NumLeaves)

/-- The loop `for r.caseNum = 1; r.caseNum <= NumCases; r.caseNum++` of `ReadOutputFile`, entered
with `r.caseNum` already set; `rest` are the input edge sets of the cases that remain and
`NumLeaves` holds the entries assigned so far. -/
def readOutputCases (order : MapOrder) : List EdgeSet → Reader → List Int → Reader × Run (List Int)
  | [], r, NumLeaves => (r, .ok NumLeaves)
  | inEdgeSet :: rest, r, NumLeaves =>
    match r.ReadOutputGraph order inEdgeSet with
    | (r1, .crash f) => (r1, .crash f)
    | (r1, .fail _ err) => (r1, .fail [] err)
    | (r1, .ok leaves) =>
      readOutputCases order rest { r1 with caseNum := r1.caseNum + 1 } (NumLeaves ++ [leaves])

/-- Message of the case-count check of `ReadOutputFile`. -/
def caseCountMsg (got want : Int) : GoString :=
  "The number of output graphs (" ++ fmtInt got ++ ") should equal the number of input graphs ("
    ++ fmtInt want ++ ")."

/-- Method `ReadOutputFile`.  The allocation `make([]int, NumCases)` has the length of the
existing slice `edgeSets`, whose elements have the size of an `int`, so that its run-time
check passes. -/
def Reader.ReadOutputFile (order : MapOrder) (r : Reader) (edgeSets : List EdgeSet) :
    Reader × Run (List Int) :=
  match r.readNumbers "Cannot parse the number of output graphs." 1 with
  | (r1, .crash f) => (r1, .crash f)
  | (r1, .fail _ err) => (r1, .fail [] err)
  | (r1, .ok nums) =>
    match index? nums 0 with
    | none => (r1, .crash .indexOutOfRange)
    | some n0 =>
      if n0 ≠ (edgeSets.length : Int) then
        (r1, .fail [] (r1.Error (caseCountMsg n0 edgeSets.length)))
      else
        match readOutputCases order edgeSets { r1 with caseNum := 1 } [] with
        | (r2, .crash f) => (r2, .crash f)
        | (r2, .fail _ err) => (r2, .fail [] err)
        | (r2, .ok NumLeaves) =>
          match r2.readLine with
          | (r3, some .EOF) => (r3, .ok NumLeaves)
          | (r3, none) =>
            (r3, .fail [] (r3.ErrorWithExpected (extraLinesMsg edgeSets.length) "Expecting EOF."))

/-! ## Specification vocabulary -/

/-- The entry `y` occurs in the adjacency list of node `x`. -/
def Entry (N : List AdjList) (x y : Int) : Prop :=
  ∃ adj, index? N x = some adj ∧ y ∈ adj

/-- Node `v` is marked in the `visited` array. -/
def Vis (s : DfsState) (v : Int) : Prop :=
  index? s.visited v = some true

/-- The assignment `visited[node] = true`. -/
def mark (s : DfsState) (node : Int) : DfsState :=
  { s with visited := s.visited.set node.toNat true }

/-- Number of entries of the `visited` array that are still `false`. -/
def unvisited (s : DfsState) : Nat :=
  s.visited.count false

/-- The undirected simple graph described by adjacency lists. -/
def graphOf (N : List AdjList) : SimpleGraph Int :=
  SimpleGraph.fromRel (Entry N)

/-- The part of a graph that lies inside a set of nodes. -/
def restrict (G : SimpleGraph Int) (S : Set Int) : SimpleGraph Int where
  Adj a b := G.Adj a b ∧ a ∈ S ∧ b ∈ S
  symm := fun _ _ h => ⟨h.1.symm, h.2.2, h.2.1⟩
  loopless := fun a h => G.loopless a h.1

/-- Some edge of the graph is not a bridge: its ends stay connected when it is removed. -/
def HasNonBridge (G : SimpleGraph Int) : Prop :=
  ∃ x y, G.Adj x y ∧ (G \ SimpleGraph.fromEdgeSet {s(x, y)}).Reachable x y

/-- Adjacency lists as `EdgeSet.Graph` produces them: one list per index below `L`, every
entry an index below `L`. -/
structure InRange (N : List AdjList) (L : Nat) : Prop where
  len : N.length = L
  range : ∀ x y, Entry N x y → 0 ≤ y ∧ y.toNat < L

/-- Every edge is recorded in both directions. -/
def Symmetric (N : List AdjList) : Prop :=
  ∀ x y, Entry N x y → Entry N y x

/-- No self-loop and no parallel edge. -/
structure Simple (N : List AdjList) : Prop where
  nodup : ∀ x adj, index? N x = some adj → adj.Nodup
  irrefl : ∀ x, ¬ Entry N x x

/-- The nodes marked in state `s`. -/
def visitedSet (s : DfsState) : Set Int :=
  {w | Vis s w}

/-- The nodes marked in state `t` but not yet in state `s`. -/
def newNodes (s t : DfsState) : Set Int :=
  {w | Vis t w ∧ ¬ Vis s w}

/-- What holds when the closure `dfsFunc(node, parent)` is entered in state `s`: the node is
an unmarked index, the parent is either the null value of the outermost call or a marked
neighbour, and every marked node either has all its neighbours marked or is joined to the
parent inside the marked nodes. -/
structure DfsPre (N : List AdjList) (L : Nat) (node parent : Int) (s : DfsState) : Prop where
  len : s.visited.length = L
  fresh : index? s.visited node = some false
  parentOK : parent < 0 ∨ (Vis s parent ∧ Entry N node parent)
  inv : ∀ y, Vis s y → (∀ z, (graphOf N).Adj y z → Vis s z) ∨
    (restrict (graphOf N) (visitedSet s)).Reachable parent y

/-- What holds when the call `dfsFunc(node, parent)` entered in state `s` returns in state
`t`. -/
structure DfsPost (N : List AdjList) (node parent : Int) (s t : DfsState) : Prop where
  len : t.visited.length = s.visited.length
  mono : ∀ v, Vis s v → Vis t v
  self : Vis t node
  reach : ∀ w ∈ newNodes s t, (restrict (graphOf N) (newNodes s t)).Reachable node w
  closed : ∀ w ∈ newNodes s t, ∀ y, Entry N w y → Vis t y
  flagMono : s.HasCycle = true → t.HasCycle = true
  sep : t.HasCycle = false → ∀ x ∈ newNodes s t, ∀ y, Entry N x y →
    y ∈ newNodes s t ∨ (x = node ∧ y = parent)
  bridge : t.HasCycle = false → ∀ x ∈ newNodes s t, ∀ y ∈ newNodes s t, (graphOf N).Adj x y →
    ¬ (graphOf N \ SimpleGraph.fromEdgeSet {s(x, y)}).Reachable x y
  cyc : Simple N → t.HasCycle = true → s.HasCycle = true ∨ HasNonBridge (graphOf N)

/-- Invariant of the loop over the adjacency list of `x` inside `dfsFunc(x, p)`, entered in
state `s0`: `done` are the entries already handled and `t` is the current state. -/
structure LoopInv (N : List AdjList) (L : Nat) (x p : Int) (s0 : DfsState) (done : List Int)
    (t : DfsState) : Prop where
  len : t.visited.length = L
  mono : ∀ v, Vis (mark s0 x) v → Vis t v
  doneVis : ∀ y ∈ done, Vis t y
  reach : ∀ w ∈ newNodes (mark s0 x) t, ∃ n ∈ done,
    (restrict (graphOf N) (newNodes (mark s0 x) t)).Reachable n w
  closed : ∀ w ∈ newNodes (mark s0 x) t, ∀ y, Entry N w y → Vis t y
  flagMono : s0.HasCycle = true → t.HasCycle = true
  sepKids : t.HasCycle = false → ∀ w ∈ newNodes (mark s0 x) t, ∀ y, Entry N w y →
    y ∈ newNodes (mark s0 x) t ∨ y = x
  sepDone : t.HasCycle = false → ∀ y ∈ done, y = p ∨ y ∈ newNodes (mark s0 x) t
  bridgeKids : t.HasCycle = false → ∀ a ∈ newNodes (mark s0 x) t,
    ∀ b ∈ newNodes (mark s0 x) t, (graphOf N).Adj a b →
    ¬ (graphOf N \ SimpleGraph.fromEdgeSet {s(a, b)}).Reachable a b
  bridgeDone : t.HasCycle = false → ∀ b ∈ done, b ∈ newNodes (mark s0 x) t →
    ¬ (graphOf N \ SimpleGraph.fromEdgeSet {s(x, b)}).Reachable x b
  cyc : Simple N → t.HasCycle = true → s0.HasCycle = true ∨ HasNonBridge (graphOf N)

/-- Node `u` has a non-empty adjacency list. -/
def NonIso (N : List AdjList) (u : Int) : Prop :=
  ∃ y, Entry N u y

/-- Node `u` is non-isolated and no smaller non-isolated node is connected to it. -/
def IsRoot (N : List AdjList) (u : Int) : Prop :=
  0 ≤ u ∧ NonIso N u ∧
    ∀ v, 0 ≤ v → v < u → NonIso N v → ¬ (graphOf N).Reachable v u

/-- Invariant of the main loop of `Search`: `done` are the adjacency lists of the indices
already handled and `a` is the current state. -/
structure SearchInv (N : List AdjList) (L : Nat) (done : List AdjList) (a : SearchState) :
    Prop where
  len : a.dfs.visited.length = L
  closed : ∀ y, Vis a.dfs y → ∀ z, Entry N y z → Vis a.dfs z
  visChar : ∀ v, Vis a.dfs v ↔
    ∃ u, 0 ≤ u ∧ u < (done.length : Int) ∧ NonIso N u ∧ (graphOf N).Reachable u v
  numNodes : a.NumNodes = done.countP (fun adj => decide (0 < adj.length))
  numLeaves : a.NumLeaves = done.countP (fun adj => decide (adj.length = 1))
  numComp : a.NumOfComponents = Set.ncard {u : Int | u < (done.length : Int) ∧ IsRoot N u}
  bridge : a.dfs.HasCycle = false → ∀ x y, Vis a.dfs x → Vis a.dfs y → (graphOf N).Adj x y →
    ¬ (graphOf N \ SimpleGraph.fromEdgeSet {s(x, y)}).Reachable x y
  cyc : Simple N → a.dfs.HasCycle = true → HasNonBridge (graphOf N)

/-- The undirected simple graph on the integers whose edges are those of an edge set. -/
def EdgeSet.toSimpleGraph (E : EdgeSet) : SimpleGraph Int :=
  SimpleGraph.fromRel (fun u v => Edge.mk (u, v) ∈ E)

/-- The nodes that are an end of some edge of the set (the non-isolated nodes). -/
def EdgeSet.nodes (E : EdgeSet) : Set Int :=
  {u | ∃ e ∈ E, e.Ends.1 = u ∨ e.Ends.2 = u}

/-- The entries that the edges of `keys`, added in that order, append to the adjacency list
of node `u`. -/
def adjOf : List Edge → Int → AdjList
  | [], _ => []
  | e :: es, u =>
    (if e.Ends.1 = u then [e.Ends.2] else []) ++ ((if e.Ends.2 = u then [e.Ends.1] else []) ++
      adjOf es u)

/-- The adjacency lists `N` have one list per node index, the list of `u` being `f u`. -/
def AdjAre (N : List AdjList) (f : Int → AdjList) : Prop :=
  N.length = MaxNumNodes.toNat ∧ ∀ u, 0 ≤ u → u < MaxNumNodes → index? N u = some (f u)

/-- The degree of a node: the number of edges of the set incident to it. -/
def EdgeSet.degree (E : EdgeSet) (u : Int) : Nat :=
  E.countP (fun e => decide (e.Ends.1 = u ∨ e.Ends.2 = u))

/-- Both ends of the edge are node indices. -/
def Edge.InRange (e : Edge) : Prop :=
  (0 ≤ e.Ends.1 ∧ e.Ends.1 < MaxNumNodes) ∧ (0 ≤ e.Ends.2 ∧ e.Ends.2 < MaxNumNodes)

/-- What `ReadInputGraph` stores: normalized, in range, no self-loop. -/
def Edge.Valid (e : Edge) : Prop :=
  0 ≤ e.Ends.1 ∧ e.Ends.1 < e.Ends.2 ∧ e.Ends.2 < MaxNumNodes

/-! ### Text -/

/-- The lines of a text, without their newlines: a newline ends a line, and the characters
after the last newline, if any, form a last line. -/
def textLines (t : List Char) : List (List Char) :=
  t.foldr (fun c acc =>
    if c = '\n' then [] :: acc
    else match acc with
      | [] => [[c]]
      | l :: ls => (c :: l) :: ls) []

/-- A non-empty run of ASCII decimal digits. -/
def IsNumeral (ds : List Char) : Prop :=
  ds ≠ [] ∧ ∀ c ∈ ds, c.isDigit = true

/-- The number that a run of decimal digits denotes, most significant digit first. -/
def numeralValue (ds : List Char) : Nat :=
  Nat.ofDigits 10 (ds.reverse.map digitVal)

/-- Largest value of Go's `int`. -/
def maxInt : Nat := 2 ^ (intSize - 1) - 1

/-- The run of digits `ds` denotes `n`, and `n` fits Go's `int`. -/
def Denotes (ds : List Char) (n : Int) : Prop :=
  IsNumeral ds ∧ numeralValue ds ≤ maxInt ∧ n = numeralValue ds

/-- The line body `b` (a line without its newline) is one number `n`. -/
def NumLine (b : List Char) (n : Int) : Prop :=
  Denotes b n

/-- The line body `b` is two numbers `u v` separated by exactly one space. -/
def PairLine (b : List Char) (u v : Int) : Prop :=
  ∃ d1 d2, b = d1 ++ ' ' :: d2 ∧ Denotes d1 u ∧ Denotes d2 v

/-- The grammar of a line body for arity `n`: one number, or two numbers separated by one
space; `nums` are the numbers in textual order. -/
def BodyGrammar (n : Int) (b : List Char) (nums : List Int) : Prop :=
  (n = 1 ∧ ∃ k, NumLine b k ∧ nums = [k]) ∨ (n = 2 ∧ ∃ u v, PairLine b u v ∧ nums = [u, v])

/-- The grammar of a line for `readNumbers` with arity `n`: the body, optionally followed by
one newline, holds exactly `n` numbers. -/
def LineGrammar (n : Int) (line : List Char) (nums : List Int) : Prop :=
  ∃ b, (line = b ∨ line = b ++ ['\n']) ∧ BodyGrammar n b nums

/-! ### Files -/

/-- The edge that the readers store for the two numbers of an edge line. -/
def normEdge (p : Int × Int) : Edge :=
  (Edge.mk p).Normalize

/-- The line bodies `bs` are edge lines holding the pairs of numbers `pairs`, in order. -/
def EdgeLines (bs : List (List Char)) (pairs : List (Int × Int)) : Prop :=
  List.Forall₂ (fun b p => PairLine b p.1 p.2) bs pairs

/-- The line bodies `ls` are one case: an edge-count line followed by as many edge lines as
it announces, which hold `pairs`. -/
def CaseLines (ls : List (List Char)) (pairs : List (Int × Int)) : Prop :=
  ∃ mb ebs, ls = mb :: ebs ∧ NumLine mb (ebs.length : Int) ∧ EdgeLines ebs pairs

/-- All edges of the set lie in a single connected component: the ends of the edges are
connected to each other. -/
def EdgeSet.EdgesConnected (E : EdgeSet) : Prop :=
  ∀ u ∈ E.nodes, ∀ v ∈ E.nodes, E.toSimpleGraph.Reachable u v

/-- The line bodies `ls` are a case that the input format allows, and `E` is the list of its
normalized edges: at least `minEdges` and at most `MaxNumEdges` edges, ends below
`MaxNumNodes` and distinct, no unordered pair repeated, all edges in a single connected
component. -/
def AllowedCase (minEdges : Nat) (ls : List (List Char)) (E : EdgeSet) : Prop :=
  ∃ pairs, CaseLines ls pairs ∧ minEdges ≤ pairs.length ∧
    (pairs.length : Int) ≤ MaxNumEdges ∧
    (∀ p ∈ pairs, p.1 < MaxNumNodes ∧ p.2 < MaxNumNodes ∧ p.1 ≠ p.2) ∧
    (pairs.map normEdge).Nodup ∧ E = pairs.map normEdge ∧ EdgeSet.EdgesConnected E

/-- The text `t` is an input file that the format allows, and `sets` are the edge sets of its
cases, in order: a count line, then that many allowed cases, then nothing. -/
def AllowedInputFile (minEdges : Nat) (t : List Char) (sets : List EdgeSet) : Prop :=
  ∃ nb cls, textLines t = nb :: cls.flatten ∧ NumLine nb (sets.length : Int) ∧
    List.Forall₂ (AllowedCase minEdges) cls sets

/-- A slice of `n` words passes the run-time check of `make`: `n` is not negative and the
slice takes at most `maxAlloc` bytes, that is, `n ≤ 2 ^ 45`. -/
def Allocatable (n : Int) : Prop :=
  0 ≤ n ∧ wordSize * n ≤ maxAlloc

/-- The conditions under which `ReadOutputGraph` accepts the edges `E` listed for an output
case with announced edge count `M`, for the input edge set `G`. -/
def Accepts (G : EdgeSet) (M : Int) (E : EdgeSet) : Prop :=
  E.Nodup ∧ M = (Set.ncard (EdgeSet.nodes G) : Int) - 1 ∧ EdgeSet.nodes E = EdgeSet.nodes G ∧
    EdgeSet.EdgesConnected E ∧ (EdgeSet.toSimpleGraph E).IsAcyclic

/-- The line bodies `ls` are an output case that `ReadOutputGraph` accepts for the input edge
set `G`, and `L` is the number of nodes of degree exactly one of the listed edges. -/
def OutputCase (G : EdgeSet) (ls : List (List Char)) (L : Int) : Prop :=
  ∃ pairs, CaseLines ls pairs ∧ (∀ p ∈ pairs, normEdge p ∈ G) ∧
    Accepts G (pairs.length : Int) (pairs.map normEdge) ∧
    L = (Set.ncard {u : Int | EdgeSet.degree (pairs.map normEdge) u = 1} : Int)

/-- The text `t` is an output file that is accepted for the input edge sets `sets`: a count
line with their number, then one accepted case per input edge set, then nothing; `leaves`
are the leaf counts of the cases, in order. -/
def ValidOutputFile (sets : List EdgeSet) (t : List Char) (leaves : List Int) : Prop :=
  ∃ nb xs, textLines t = nb :: (xs.map Prod.fst).flatten ∧ NumLine nb (sets.length : Int) ∧
    List.Forall₂ (fun G (x : List (List Char) × Int) => OutputCase G x.1 x.2) sets xs ∧
    leaves = xs.map Prod.snd

/-- The reader `r` is at a position of the text `t`: it has read `r.lineNum` lines, the rest
of the text is unread, and the line it holds is the last one read. -/
structure Synced (t : List Char) (r : Reader) : Prop where
  nonneg : 0 ≤ r.lineNum
  rest : textLines r.reader = (textLines t).drop r.lineNum.toNat
  line : 1 ≤ r.lineNum → r.strippedLine = (textLines t).getD (r.lineNum.toNat - 1) []

/-- The diagnostic `e` carries the position of the reader `r`: its line number, its case
number and its line without the newline. -/
def Stamped (r : Reader) (e : Mlst.Error) : Prop :=
  e.lineNum = r.lineNum ∧ e.caseNum = r.caseNum ∧ e.line = r.strippedLine

/-- The enumerations of a `MapOrder` list exactly the keys of the set. -/
def MapOrder.Fair (order : MapOrder) : Prop :=
  ∀ k E, (order k E).Perm E

/-- The enumeration of an edge set in the order of insertion. -/
def idOrder : MapOrder := fun _ E => E

/-- The triangle on the nodes `0`, `1`, `2`, as `ReadInputGraph` stores it. -/
def triangle : EdgeSet := [⟨(0, 1)⟩, ⟨(1, 2)⟩, ⟨(0, 2)⟩]

instance (e : Edge) : Decidable e.InRange := by
  unfold Edge.InRange
  infer_instance

instance (e : Edge) : Decidable e.Valid := by
  unfold Edge.Valid
  infer_instance

/-! ### The position of a reader in a text -/

/-- The lines that the reader has read and the lines that are still unread make up the
text `t`: no read has met the end of the text. -/
def Before (t : List Char) (r : Reader) : Prop :=
  r.lineNum + ((textLines r.reader).length : Int) = ((textLines t).length : Int)

/-- The last read of the reader returned a line of the text `t`, the line of index
`r.lineNum`, and the lines after it are unread. -/
def Held (t : List Char) (r : Reader) : Prop :=
  r.line ≠ [] ∧ Before t r

/-- The last read of the reader met the end of the text `t`: it returned no byte, nothing is
unread, and the line number is the number of lines of the text plus one. -/
def PastEnd (t : List Char) (r : Reader) : Prop :=
  r.line = [] ∧ r.reader = [] ∧ r.lineNum = ((textLines t).length : Int) + 1

/-- The reader has attempted to read the line of index `r.lineNum` of the text `t`: it holds
that line, or that index is one past the last line. -/
def Reached (t : List Char) (r : Reader) : Prop :=
  Held t r ∨ PastEnd t r

/-! ### The traversal on arbitrary adjacency lists -/

/-- Multiplicities of the adjacency entries are symmetric: `b` occurs in the list of `a` as
often as `a` occurs in the list of `b`. -/
def MultSym (N : List AdjList) : Prop :=
  ∀ a b adjA adjB, index? N a = some adjA → index? N b = some adjB →
    adjA.count b = adjB.count a

/-- The adjacency list of `w` has no entry `w`, and no entry twice except for the entries
in `P`. -/
def Plain (N : List AdjList) (w : Int) (P : Int → Prop) : Prop :=
  ∀ adj, index? N w = some adj → w ∉ adj ∧ ∀ y, P y ∨ adj.count y ≤ 1

/-- What holds when the call `dfsFunc(node, parent)`, entered in state `s`, returns in state
`t`, whatever the adjacency lists are: the node is marked, marks are only added, the number of
unmarked nodes has decreased, and while no cycle is flagged the lists of the newly marked
nodes repeat no entry, the entry `parent` of `node` apart. -/
structure CallPost (N : List AdjList) (node parent : Int) (s t : DfsState) : Prop where
  len : t.visited.length = s.visited.length
  mono : ∀ v, Vis s v → Vis t v
  self : Vis t node
  flagMono : s.HasCycle = true → t.HasCycle = true
  fewer : unvisited t < unvisited s
  plain : MultSym N → t.HasCycle = false →
    ∀ w ∈ newNodes s t, Plain N w (fun y => w = node ∧ y = parent)

/-- Invariant of the loop over the adjacency list of `x` inside `dfsFunc(x, p)` entered in
state `s0`, whatever the adjacency lists are: `done` are the entries already handled and `t`
is the current state. -/
structure RangeInv (N : List AdjList) (x p : Int) (s0 : DfsState) (done : List Int)
    (t : DfsState) : Prop where
  len : t.visited.length = s0.visited.length
  mono : ∀ v, Vis (mark s0 x) v → Vis t v
  doneVis : ∀ y ∈ done, y ≠ p → Vis t y
  flagMono : s0.HasCycle = true → t.HasCycle = true
  fewer : unvisited t ≤ unvisited (mark s0 x)
  plainDone : t.HasCycle = false → x ∉ done ∧ ∀ y, y ≠ p → done.count y ≤ 1
  plainKids : MultSym N → t.HasCycle = false →
    ∀ w ∈ newNodes (mark s0 x) t, Plain N w (fun y => y = x ∧ w ∈ done)

/-- Invariant of the main loop of `Search`, whatever the adjacency lists are: `done` are the
adjacency lists of the indices already handled and `a` is the current state. -/
structure SweepInv (N : List AdjList) (done : List AdjList) (a : SearchState) : Prop where
  len : a.dfs.visited.length = MaxNumNodes.toNat
  seen : ∀ i : Nat, i < done.length → (∃ adj, N[i]? = some adj ∧ adj ≠ []) → Vis a.dfs (i : Int)
  plain : MultSym N → a.dfs.HasCycle = false →
    ∀ w, Vis a.dfs w → Plain N w (fun y => y = -1)

/-- The text `x` starts with the characters `p`. -/
def BeginsWith (p : List Char) (x : GoString) : Prop :=
  x.data.take p.length = p

/-- The enumeration of an edge set against the order of insertion. -/
def revOrder : MapOrder := fun _ E => E.reverse

/-! ## Slices and the visited array -/

theorem index?_eq_some_iff {α : Type} (a : List α) (i : Int) (x : α) :
    index? a i = some x ↔ 0 ≤ i ∧ a[i.toNat]? = some x := by
  unfold index?
  split <;> simp_all

theorem index?_lt {α : Type} {a : List α} {i : Int} {x : α} (h : index? a i = some x) :
    0 ≤ i ∧ i.toNat < a.length := by
  rw [index?_eq_some_iff] at h
  refine ⟨h.1, ?_⟩
  have := h.2
  rw [List.getElem?_eq_some] at this
  exact this.1

theorem index?_isSome {α : Type} {a : List α} {i : Int} (h0 : 0 ≤ i) (h1 : i.toNat < a.length) :
    ∃ x, index? a i = some x := by
  unfold index?
  rw [if_pos h0]
  exact ⟨a[i.toNat], List.getElem?_eq_getElem h1⟩

theorem index?_set_self (a : List Bool) (i : Int) (h0 : 0 ≤ i) (h1 : i.toNat < a.length) :
    index? (a.set i.toNat true) i = some true := by
  unfold index?
  rw [if_pos h0]
  simp [h1]

theorem index?_set_ne (a : List Bool) (i j : Int) (h0 : 0 ≤ i) (hij : j ≠ i) :
    index? (a.set i.toNat true) j = index? a j := by
  unfold index?
  split
  · rename_i hj
    have : i.toNat ≠ j.toNat := by
      intro h
      apply hij
      omega
    rw [List.getElem?_set_ne this]
  · rfl

theorem Vis.range {s : DfsState} {v : Int} (h : Vis s v) : 0 ≤ v ∧ v.toNat < s.visited.length :=
  index?_lt h

theorem not_vis_iff {s : DfsState} {v : Int} (h0 : 0 ≤ v) (h1 : v.toNat < s.visited.length) :
    ¬ Vis s v ↔ index? s.visited v = some false := by
  obtain ⟨b, hb⟩ := index?_isSome (a := s.visited) h0 h1
  unfold Vis
  rw [hb]
  cases b <;> simp

theorem vis_mark_iff (s : DfsState) (node v : Int) (h0 : 0 ≤ node)
    (h1 : node.toNat < s.visited.length) : Vis (mark s node) v ↔ v = node ∨ Vis s v := by
  unfold Vis mark
  by_cases hv : v = node
  · subst hv
    simp [index?_set_self _ _ h0 h1]
  · simp [index?_set_ne _ _ _ h0 hv, hv]

theorem count_false_set (a : List Bool) (i : Nat) (h : a[i]? = some false) :
    (a.set i true).count false + 1 = a.count false := by
  induction a generalizing i with
  | nil => simp at h
  | cons b t ih =>
    cases i with
    | zero =>
      simp at h
      subst h
      simp
    | succ k =>
      simp at h
      have := ih k h
      simp only [List.set_cons_succ, List.count_cons]
      omega

theorem unvisited_mark (s : DfsState) (node : Int) (h : index? s.visited node = some false) :
    unvisited (mark s node) + 1 = unvisited s := by
  rw [index?_eq_some_iff] at h
  exact count_false_set _ _ h.2

theorem count_false_le (a b : List Bool) (hlen : b.length = a.length)
    (h : ∀ i : Nat, a[i]? = some true → b[i]? = some true) : b.count false ≤ a.count false := by
  induction a generalizing b with
  | nil =>
    cases b with
    | nil => simp
    | cons _ _ => simp at hlen
  | cons x t ih =>
    cases b with
    | nil => simp at hlen
    | cons y u =>
      simp at hlen
      have h0 := h 0
      have ht := ih u hlen (fun i hi => by simpa using h (i + 1) (by simpa using hi))
      simp only [List.count_cons]
      cases x <;> cases y <;> simp at h0 ⊢ <;> omega

theorem unvisited_le {s s' : DfsState} (hlen : s'.visited.length = s.visited.length)
    (h : ∀ v, Vis s v → Vis s' v) : unvisited s' ≤ unvisited s := by
  apply count_false_le _ _ hlen
  intro i hi
  have := h (i : Int) (by
    unfold Vis
    rw [index?_eq_some_iff]
    exact ⟨by omega, by simpa using hi⟩)
  unfold Vis at this
  rw [index?_eq_some_iff] at this
  simpa using this.2

/-! ## Graphs restricted to a set of nodes -/

theorem restrict_le (G : SimpleGraph Int) (S : Set Int) : restrict G S ≤ G :=
  fun _ _ h => h.1

theorem restrict_mono (G : SimpleGraph Int) {S T : Set Int} (h : S ⊆ T) :
    restrict G S ≤ restrict G T :=
  fun _ _ hab => ⟨hab.1, h hab.2.1, h hab.2.2⟩

theorem restrict_le_deleteEdge (G : SimpleGraph Int) (S : Set Int) (x y : Int) (hx : x ∉ S) :
    restrict G S ≤ G \ SimpleGraph.fromEdgeSet {s(x, y)} := by
  intro a b hab
  rw [SimpleGraph.sdiff_adj]
  refine ⟨hab.1, ?_⟩
  rw [SimpleGraph.fromEdgeSet_adj]
  rintro ⟨h, -⟩
  simp only [Set.mem_singleton_iff, Sym2.eq, Sym2.rel_iff', Prod.mk.injEq, Prod.swap_prod_mk] at h
  rcases h with ⟨h1, -⟩ | ⟨-, h2⟩
  · exact hx (h1 ▸ hab.2.1)
  · exact hx (h2 ▸ hab.2.2)

theorem restrict_reachable_mem {G : SimpleGraph Int} {S : Set Int} {a b : Int}
    (h : (restrict G S).Reachable a b) : a = b ∨ (a ∈ S ∧ b ∈ S) := by
  obtain ⟨w⟩ := h
  induction w with
  | nil => exact Or.inl rfl
  | cons hadj _ ih =>
    right
    refine ⟨hadj.2.1, ?_⟩
    rcases ih with rfl | ⟨-, hb⟩
    · exact hadj.2.2
    · exact hb

/-- A set that can only be left through the edge `x y` separates `x` from `y` once that edge
is removed. -/
theorem sep_not_reachable (G : SimpleGraph Int) (S : Set Int) (x y : Int) (hx : x ∈ S)
    (hy : y ∉ S) (hS : ∀ a ∈ S, ∀ b, G.Adj a b → b ∈ S ∨ (a = x ∧ b = y)) :
    ¬ (G \ SimpleGraph.fromEdgeSet {s(x, y)}).Reachable x y := by
  intro h
  have key : ∀ a b, (G \ SimpleGraph.fromEdgeSet {s(x, y)}).Reachable a b → a ∈ S → b ∈ S := by
    intro a b hab
    obtain ⟨w⟩ := hab
    induction w with
    | nil => exact id
    | cons hadj _ ih =>
      intro ha
      apply ih
      rw [SimpleGraph.sdiff_adj, SimpleGraph.fromEdgeSet_adj] at hadj
      rcases hS _ ha _ hadj.1 with hb | ⟨rfl, rfl⟩
      · exact hb
      · exact absurd ⟨rfl, hadj.1.ne⟩ hadj.2
  exact hy (key x y h hx)

theorem deleteEdge_adj_of_ne (G : SimpleGraph Int) {x y a b : Int} (h : G.Adj a b)
    (hne : s(a, b) ≠ s(x, y)) : (G \ SimpleGraph.fromEdgeSet {s(x, y)}).Adj a b := by
  rw [SimpleGraph.sdiff_adj, SimpleGraph.fromEdgeSet_adj]
  exact ⟨h, fun h' => hne h'.1⟩

/-! ## The depth-first traversal -/

theorem graphOf_adj {N : List AdjList} (hS : Symmetric N) {a b : Int} :
    (graphOf N).Adj a b ↔ a ≠ b ∧ Entry N a b := by
  unfold graphOf
  rw [SimpleGraph.fromRel_adj]
  constructor
  · rintro ⟨hne, h | h⟩
    · exact ⟨hne, h⟩
    · exact ⟨hne, hS _ _ h⟩
  · rintro ⟨hne, h⟩
    exact ⟨hne, Or.inl h⟩

theorem entry_iff_mem {N : List AdjList} {x : Int} {nbrs : AdjList}
    (h : index? N x = some nbrs) (y : Int) : Entry N x y ↔ y ∈ nbrs := by
  unfold Entry
  rw [h]
  simp

theorem sym2_ne_of_ne {x y n : Int} (h1 : n ≠ y) (h2 : n ≠ x) : s(x, n) ≠ s(x, y) := by
  intro h
  simp only [Sym2.eq, Sym2.rel_iff', Prod.mk.injEq, Prod.swap_prod_mk] at h
  rcases h with ⟨-, h⟩ | ⟨-, h⟩
  · exact h1 h
  · exact h2 h

theorem vis_mark_self {s : DfsState} {x : Int} (h : index? s.visited x = some false) :
    Vis (mark s x) x := by
  have := index?_lt h
  exact (vis_mark_iff s x x this.1 this.2).2 (Or.inl rfl)

theorem vis_mark_of_vis {s : DfsState} {x v : Int} (h : index? s.visited x = some false)
    (hv : Vis s v) : Vis (mark s x) v := by
  have := index?_lt h
  exact (vis_mark_iff s x v this.1 this.2).2 (Or.inr hv)

theorem not_vis_of_fresh {s : DfsState} {x : Int} (h : index? s.visited x = some false) :
    ¬ Vis s x := by
  unfold Vis
  rw [h]
  simp

theorem mark_length (s : DfsState) (x : Int) : (mark s x).visited.length = s.visited.length := by
  simp [mark]

theorem mark_hasCycle (s : DfsState) (x : Int) : (mark s x).HasCycle = s.HasCycle := rfl

/-- The nodes marked since `x` itself was marked are new with respect to the state in which
`dfsFunc` was entered, and differ from `x`. -/
theorem kids_subset_new {s0 t : DfsState} {x w : Int}
    (hf : index? s0.visited x = some false) (hw : w ∈ newNodes (mark s0 x) t) :
    w ∈ newNodes s0 t ∧ w ≠ x := by
  refine ⟨⟨hw.1, fun h => hw.2 (vis_mark_of_vis hf h)⟩, ?_⟩
  rintro rfl
  exact hw.2 (vis_mark_self hf)

theorem new_cases {s0 t : DfsState} {x w : Int}
    (hf : index? s0.visited x = some false) (hw : w ∈ newNodes s0 t) :
    w = x ∨ w ∈ newNodes (mark s0 x) t := by
  by_cases h : w = x
  · exact Or.inl h
  · right
    refine ⟨hw.1, fun hm => ?_⟩
    have := index?_lt hf
    rcases (vis_mark_iff s0 x w this.1 this.2).1 hm with h1 | h1
    · exact h h1
    · exact hw.2 h1

/-- After a call from state `t` to state `u`, the nodes marked since `x` are the ones marked
before the call or during the call. -/
theorem kids_call_cases {m t u : DfsState} {w : Int} (hw : w ∈ newNodes m u) :
    w ∈ newNodes m t ∨ w ∈ newNodes t u := by
  by_cases h : Vis t w
  · exact Or.inl ⟨h, hw.2⟩
  · exact Or.inr ⟨hw.1, h⟩

theorem kids_mono {m t u : DfsState} (hmono : ∀ v, Vis t v → Vis u v) :
    newNodes m t ⊆ newNodes m u :=
  fun _ hw => ⟨hmono _ hw.1, hw.2⟩

theorem call_subset_kids {m t u : DfsState} (hmono : ∀ v, Vis m v → Vis t v) :
    newNodes t u ⊆ newNodes m u :=
  fun _ hw => ⟨hw.1, fun h => hw.2 (hmono _ h)⟩

theorem flag_false_of_post {a b : Bool} (h : a = true → b = true) (hb : b = false) : a = false := by
  cases a
  · rfl
  · simp [h rfl] at hb

/-- The invariant handed to a recursive call. -/
theorem inv_for_call {N : List AdjList} {L : Nat} {x p : Int} {s0 t : DfsState}
    {done : List Int} {nbrs : AdjList} (hS : Symmetric N)
    (hpre : DfsPre N L x p s0) (hx : index? N x = some nbrs)
    (hdone : ∀ n ∈ done, n ∈ nbrs)
    (hinv : LoopInv N L x p s0 done t) :
    ∀ v, Vis t v → (∀ z, (graphOf N).Adj v z → Vis t z) ∨
      (restrict (graphOf N) (visitedSet t)).Reachable x v := by
  intro v hv
  have hxt : Vis t x := hinv.mono _ (vis_mark_self hpre.fresh)
  have hnx : ¬ Vis s0 x := not_vis_of_fresh hpre.fresh
  by_cases hv0 : Vis s0 v
  · rcases hpre.inv v hv0 with hcl | hr
    · left
      intro z hz
      exact hinv.mono _ (vis_mark_of_vis hpre.fresh (hcl z hz))
    · right
      have hp : Vis s0 p := by
        rcases restrict_reachable_mem hr with h | h
        · rw [h]; exact hv0
        · exact h.1
      have hpx : Entry N x p := by
        rcases hpre.parentOK with h | h
        · have := hp.range
          omega
        · exact h.2
      have hxp : (restrict (graphOf N) (visitedSet t)).Adj x p := by
        refine ⟨(graphOf_adj hS).2 ⟨?_, hpx⟩, hxt, hinv.mono _ (vis_mark_of_vis hpre.fresh hp)⟩
        rintro rfl
        exact hnx hp
      refine (SimpleGraph.Adj.reachable hxp).trans (hr.mono (restrict_mono _ ?_))
      intro w hw
      exact hinv.mono _ (vis_mark_of_vis hpre.fresh hw)
  · right
    by_cases hvx : v = x
    · rw [hvx]
    · have hk : v ∈ newNodes (mark s0 x) t := by
        refine ⟨hv, fun hm => ?_⟩
        have := index?_lt hpre.fresh
        rcases (vis_mark_iff s0 x v this.1 this.2).1 hm with h1 | h1
        · exact hvx h1
        · exact hv0 h1
      obtain ⟨n, hn, hr⟩ := hinv.reach v hk
      have hnk : n ∈ newNodes (mark s0 x) t := by
        rcases restrict_reachable_mem hr with h | h
        · rw [h]; exact hk
        · exact h.1
      have hxn : (restrict (graphOf N) (visitedSet t)).Adj x n := by
        refine ⟨(graphOf_adj hS).2 ⟨?_, (entry_iff_mem hx n).2 (hdone n hn)⟩, hxt, hnk.1⟩
        exact fun h => (kids_subset_new hpre.fresh hnk).2 h.symm
      refine (SimpleGraph.Adj.reachable hxn).trans (hr.mono (restrict_mono _ ?_))
      intro w hw
      exact hw.1

/-- Loop step when the entry is the parent: nothing changes. -/
theorem loopInv_skip {N : List AdjList} {L : Nat} {x p : Int} {s0 t : DfsState}
    {done : List Int} (hN : InRange N L) (hpre : DfsPre N L x p s0)
    (hpx : Entry N x p) (hinv : LoopInv N L x p s0 done t) :
    LoopInv N L x p s0 (done ++ [p]) t := by
  have hp0 : Vis s0 p := by
    rcases hpre.parentOK with h | h
    · have := (hN.range _ _ hpx).1
      omega
    · exact h.1
  have hpk : p ∉ newNodes (mark s0 x) t := fun h => h.2 (vis_mark_of_vis hpre.fresh hp0)
  refine { hinv with doneVis := ?_, reach := ?_, sepDone := ?_, bridgeDone := ?_ }
  · intro y hy
    rcases List.mem_append.1 hy with h | h
    · exact hinv.doneVis y h
    · rw [List.mem_singleton.1 h]
      exact hinv.mono _ (vis_mark_of_vis hpre.fresh hp0)
  · intro w hw
    obtain ⟨n, hn, hr⟩ := hinv.reach w hw
    exact ⟨n, List.mem_append_left _ hn, hr⟩
  · intro hf y hy
    rcases List.mem_append.1 hy with h | h
    · exact hinv.sepDone hf y h
    · exact Or.inl (List.mem_singleton.1 h)
  · intro hf b hb hbk
    rcases List.mem_append.1 hb with h | h
    · exact hinv.bridgeDone hf b h hbk
    · rw [List.mem_singleton.1 h] at hbk
      exact absurd hbk hpk

/-- Loop step when the entry is an already marked node other than the parent: the cycle flag
is raised, and in a simple graph the edge to that node is indeed not a bridge. -/
theorem loopInv_flag {N : List AdjList} {L : Nat} {x p y : Int} {s0 t : DfsState}
    {done : List Int} {nbrs : AdjList} (hS : Symmetric N)
    (hpre : DfsPre N L x p s0) (hx : index? N x = some nbrs)
    (hdone : ∀ n ∈ done, n ∈ nbrs) (hy : y ∈ nbrs) (hyd : Simple N → y ∉ done)
    (hyp : y ≠ p) (hyv : Vis t y)
    (hinv : LoopInv N L x p s0 done t) :
    LoopInv N L x p s0 (done ++ [y]) { t with HasCycle := true } := by
  have hnx : ¬ Vis s0 x := not_vis_of_fresh hpre.fresh
  have hvis : ∀ v, Vis { t with HasCycle := true } v ↔ Vis t v := fun v => Iff.rfl
  have hkids : newNodes (mark s0 x) { t with HasCycle := true } = newNodes (mark s0 x) t := rfl
  refine ⟨hinv.len, hinv.mono, ?_, ?_, ?_, fun _ => rfl, ?_, ?_, ?_, ?_, ?_⟩
  · intro z hz
    rcases List.mem_append.1 hz with h | h
    · exact hinv.doneVis z h
    · rw [List.mem_singleton.1 h]
      exact hyv
  · intro w hw
    obtain ⟨n, hn, hr⟩ := hinv.reach w hw
    exact ⟨n, List.mem_append_left _ hn, hr⟩
  · exact hinv.closed
  · intro h; simp at h
  · intro h; simp at h
  · intro h; simp at h
  · intro h; simp at h
  · intro hsimple _
    right
    have hxy : Entry N x y := (entry_iff_mem hx y).2 hy
    have hne : x ≠ y := by
      rintro rfl
      exact hsimple.irrefl _ hxy
    refine ⟨x, y, (graphOf_adj hS).2 ⟨hne, hxy⟩, ?_⟩
    by_cases hy0 : Vis s0 y
    · -- marked before the call: joined to the parent inside the old marked set
      rcases hpre.inv y hy0 with hcl | hr
      · exact absurd (hcl x ((graphOf_adj hS).2 ⟨hne.symm, hS _ _ hxy⟩)) hnx
      · have hp : Vis s0 p := by
          rcases restrict_reachable_mem hr with h | h
          · exact absurd h.symm hyp
          · exact h.1
        have hpx : Entry N x p := by
          rcases hpre.parentOK with h | h
          · have := hp.range
            omega
          · exact h.2
        have hxp : x ≠ p := by
          rintro rfl
          exact hnx hp
        have h1 : (graphOf N \ SimpleGraph.fromEdgeSet {s(x, y)}).Adj x p :=
          deleteEdge_adj_of_ne _ ((graphOf_adj hS).2 ⟨hxp, hpx⟩)
            (sym2_ne_of_ne (Ne.symm hyp) hxp.symm)
        exact (SimpleGraph.Adj.reachable h1).trans
          (hr.mono (restrict_le_deleteEdge _ _ x y hnx))
    · -- marked during an earlier recursive call
      have hk : y ∈ newNodes (mark s0 x) t := by
        refine ⟨hyv, fun hm => ?_⟩
        have := index?_lt hpre.fresh
        rcases (vis_mark_iff s0 x y this.1 this.2).1 hm with h1 | h1
        · exact hne h1.symm
        · exact hy0 h1
      obtain ⟨n, hn, hr⟩ := hinv.reach y hk
      have hny : n ≠ y := by
        rintro rfl
        exact hyd hsimple hn
      have hnk : n ∈ newNodes (mark s0 x) t := by
        rcases restrict_reachable_mem hr with h | h
        · exact absurd h hny
        · exact h.1
      have hnx' : n ≠ x := (kids_subset_new hpre.fresh hnk).2
      have h1 : (graphOf N \ SimpleGraph.fromEdgeSet {s(x, y)}).Adj x n :=
        deleteEdge_adj_of_ne _
          ((graphOf_adj hS).2 ⟨hnx'.symm, (entry_iff_mem hx n).2 (hdone n hn)⟩)
          (sym2_ne_of_ne hny hnx')
      refine (SimpleGraph.Adj.reachable h1).trans (hr.mono (restrict_le_deleteEdge _ _ x y ?_))
      exact fun h => (kids_subset_new hpre.fresh h).2 rfl

/-- Loop step when the entry is an unmarked node: the state after the recursive call. -/
theorem loopInv_call {N : List AdjList} {L : Nat} {x p y : Int} {s0 t u : DfsState}
    {done : List Int} (hS : Symmetric N)
    (hpre : DfsPre N L x p s0) (hyf : index? t.visited y = some false)
    (hinv : LoopInv N L x p s0 done t) (hpost : DfsPost N y x t u) :
    LoopInv N L x p s0 (done ++ [y]) u := by
  have hxm : Vis (mark s0 x) x := vis_mark_self hpre.fresh
  have hkm : newNodes (mark s0 x) t ⊆ newNodes (mark s0 x) u := kids_mono hpost.mono
  have hcm : newNodes t u ⊆ newNodes (mark s0 x) u := call_subset_kids hinv.mono
  have hyu : y ∈ newNodes t u := ⟨hpost.self, not_vis_of_fresh hyf⟩
  have hxu : x ∉ newNodes t u := fun h => h.2 (hinv.mono _ hxm)
  have hflag : u.HasCycle = false → t.HasCycle = false :=
    fun h => flag_false_of_post hpost.flagMono h
  -- leaving the nodes of the call is only possible from `y` to `x`
  have hsepS : u.HasCycle = false → ∀ a ∈ newNodes t u, ∀ b, (graphOf N).Adj a b →
      b ∈ newNodes t u ∨ (a = y ∧ b = x) := by
    intro hf a ha b hab
    exact hpost.sep hf a ha b ((graphOf_adj hS).1 hab).2
  refine ⟨?_, ?_, ?_, ?_, ?_, ?_, ?_, ?_, ?_, ?_, ?_⟩
  · rw [hpost.len]; exact hinv.len
  · exact fun v hv => hpost.mono _ (hinv.mono _ hv)
  · intro z hz
    rcases List.mem_append.1 hz with h | h
    · exact hpost.mono _ (hinv.doneVis z h)
    · rw [List.mem_singleton.1 h]
      exact hpost.self
  · intro w hw
    rcases kids_call_cases (t := t) hw with h | h
    · obtain ⟨n, hn, hr⟩ := hinv.reach w h
      exact ⟨n, List.mem_append_left _ hn, hr.mono (restrict_mono _ hkm)⟩
    · exact ⟨y, List.mem_append_right _ (List.mem_singleton.2 rfl),
        (hpost.reach w h).mono (restrict_mono _ hcm)⟩
  · intro w hw z hz
    rcases kids_call_cases (t := t) hw with h | h
    · exact hpost.mono _ (hinv.closed w h z hz)
    · exact hpost.closed w h z hz
  · exact fun h => hpost.flagMono (hinv.flagMono h)
  · intro hf w hw z hz
    rcases kids_call_cases (t := t) hw with h | h
    · rcases hinv.sepKids (hflag hf) w h z hz with h1 | h1
      · exact Or.inl (hkm h1)
      · exact Or.inr h1
    · rcases hpost.sep hf w h z hz with h1 | h1
      · exact Or.inl (hcm h1)
      · exact Or.inr h1.2
  · intro hf z hz
    rcases List.mem_append.1 hz with h | h
    · rcases hinv.sepDone (hflag hf) z h with h1 | h1
      · exact Or.inl h1
      · exact Or.inr (hkm h1)
    · rw [List.mem_singleton.1 h]
      exact Or.inr (hcm hyu)
  · intro hf a ha b hb hab
    rcases kids_call_cases (t := t) ha with h1 | h1 <;>
      rcases kids_call_cases (t := t) hb with h2 | h2
    · exact hinv.bridgeKids (hflag hf) a h1 b h2 hab
    · exact absurd (hinv.closed a h1 b ((graphOf_adj hS).1 hab).2) h2.2
    · exact absurd (hinv.closed b h2 a ((graphOf_adj hS).1 hab.symm).2) h1.2
    · exact hpost.bridge hf a h1 b h2 hab
  · intro hf b hb hbk
    rcases List.mem_append.1 hb with h | h
    · rcases kids_call_cases (t := t) hbk with h1 | h1
      · exact hinv.bridgeDone (hflag hf) b h h1
      · exact absurd (hinv.doneVis b h) h1.2
    · rw [List.mem_singleton.1 h]
      have := sep_not_reachable (graphOf N) (newNodes t u) y x hyu hxu (hsepS hf)
      intro hr
      apply this
      rw [Sym2.eq_swap]
      exact hr.symm
  · intro hsimple hf
    rcases hpost.cyc hsimple hf with h | h
    · exact hinv.cyc hsimple h
    · exact Or.inr h

/-- The invariant holds when the loop is entered. -/
theorem loopInv_init {N : List AdjList} {L : Nat} {x p : Int} {s0 : DfsState}
    (hpre : DfsPre N L x p s0) : LoopInv N L x p s0 [] (mark s0 x) := by
  have hempty : ∀ w, w ∉ newNodes (mark s0 x) (mark s0 x) := fun w hw => hw.2 hw.1
  refine ⟨?_, ?_, ?_, ?_, ?_, ?_, ?_, ?_, ?_, ?_, ?_⟩
  · rw [mark_length]; exact hpre.len
  · exact fun _ h => h
  · intro y hy; simp at hy
  · exact fun w hw => absurd hw (hempty w)
  · exact fun w hw => absurd hw (hempty w)
  · exact fun h => h
  · exact fun _ w hw => absurd hw (hempty w)
  · intro _ y hy; simp at hy
  · exact fun _ w hw => absurd hw (hempty w)
  · intro _ y hy; simp at hy
  · exact fun _ h => Or.inl h

/-- When the loop has handled the whole adjacency list, the call has done its work. -/
theorem dfsPost_of_loopInv {N : List AdjList} {L : Nat} {x p : Int} {s0 t : DfsState}
    {nbrs : AdjList} (hS : Symmetric N)
    (hpre : DfsPre N L x p s0) (hx : index? N x = some nbrs)
    (hinv : LoopInv N L x p s0 nbrs t) : DfsPost N x p s0 t := by
  have hnx : ¬ Vis s0 x := not_vis_of_fresh hpre.fresh
  have hxm : Vis (mark s0 x) x := vis_mark_self hpre.fresh
  have hxt : Vis t x := hinv.mono _ hxm
  have hxnew : x ∈ newNodes s0 t := ⟨hxt, hnx⟩
  have hkn : newNodes (mark s0 x) t ⊆ newNodes s0 t :=
    fun w hw => (kids_subset_new hpre.fresh hw).1
  refine ⟨?_, ?_, hxt, ?_, ?_, hinv.flagMono, ?_, ?_, hinv.cyc⟩
  · rw [hinv.len, hpre.len]
  · exact fun v hv => hinv.mono _ (vis_mark_of_vis hpre.fresh hv)
  · intro w hw
    rcases new_cases hpre.fresh hw with h | h
    · rw [h]
    · obtain ⟨n, hn, hr⟩ := hinv.reach w h
      have hnk : n ∈ newNodes (mark s0 x) t := by
        rcases restrict_reachable_mem hr with h1 | h1
        · rw [h1]; exact h
        · exact h1.1
      have hxn : (restrict (graphOf N) (newNodes s0 t)).Adj x n :=
        ⟨(graphOf_adj hS).2 ⟨(kids_subset_new hpre.fresh hnk).2.symm,
          (entry_iff_mem hx n).2 hn⟩, hxnew, hkn hnk⟩
      exact (SimpleGraph.Adj.reachable hxn).trans (hr.mono (restrict_mono _ hkn))
  · intro w hw y hy
    rcases new_cases hpre.fresh hw with h | h
    · rw [h] at hy
      exact hinv.doneVis y ((entry_iff_mem hx y).1 hy)
    · exact hinv.closed w h y hy
  · intro hf w hw y hy
    rcases new_cases hpre.fresh hw with h | h
    · rw [h] at hy
      rcases hinv.sepDone hf y ((entry_iff_mem hx y).1 hy) with h1 | h1
      · exact Or.inr ⟨h, h1⟩
      · exact Or.inl (hkn h1)
    · rcases hinv.sepKids hf w h y hy with h1 | h1
      · exact Or.inl (hkn h1)
      · rw [h1]; exact Or.inl hxnew
  · intro hf a ha b hb hab
    rcases new_cases hpre.fresh ha with h1 | h1 <;> rcases new_cases hpre.fresh hb with h2 | h2
    · rw [h1, h2] at hab
      exact absurd rfl hab.ne
    · rw [h1] at hab ⊢
      exact hinv.bridgeDone hf b ((entry_iff_mem hx b).1 ((graphOf_adj hS).1 hab).2) h2
    · rw [h2] at hab ⊢
      have := hinv.bridgeDone hf a ((entry_iff_mem hx a).1 ((graphOf_adj hS).1 hab.symm).2) h1
      intro hr
      apply this
      rw [Sym2.eq_swap]
      exact hr.symm
    · exact hinv.bridgeKids hf a h1 b h2 hab

theorem dfsRange_spec {N : List AdjList} {L : Nat} {x p : Int} {s0 : DfsState}
    {nbrs : AdjList} (hN : InRange N L) (hS : Symmetric N)
    (hpre : DfsPre N L x p s0) (hx : index? N x = some nbrs)
    (call : Int → DfsState → Except Fault DfsState) (d : Nat)
    (hcall : ∀ n t, DfsPre N L n x t → unvisited t ≤ d →
      ∃ u, call n t = .ok u ∧ DfsPost N n x t u)
    (hd : unvisited (mark s0 x) ≤ d) :
    ∀ rest done t, done ++ rest = nbrs → LoopInv N L x p s0 done t →
      ∃ u, dfsRange call p rest t = .ok u ∧ LoopInv N L x p s0 nbrs u := by
  intro rest
  induction rest with
  | nil =>
    intro done t hdr hinv
    simp only [List.append_nil] at hdr
    subst hdr
    exact ⟨t, rfl, hinv⟩
  | cons y rest ih =>
    intro done t hdr hinv
    have hynb : y ∈ nbrs := by rw [← hdr]; simp
    have hdone : ∀ n ∈ done, n ∈ nbrs := by
      intro n hn; rw [← hdr]; exact List.mem_append_left _ hn
    have hxy : Entry N x y := (entry_iff_mem hx y).2 hynb
    have hyr := hN.range x y hxy
    have hnext : (done ++ [y]) ++ rest = nbrs := by rw [← hdr]; simp
    have hyd : Simple N → y ∉ done := by
      intro hs hyd
      have hnd := hs.nodup x nbrs hx
      rw [← hdr] at hnd
      have := (List.nodup_append.1 hnd).2.2
      exact this hyd (List.mem_cons_self _ _) 
    unfold dfsRange dfsStep
    by_cases hyp : y = p
    · subst hyp
      simp only [ne_eq, not_true_eq_false, if_false]
      exact ih (done ++ [y]) t hnext (loopInv_skip hN hpre hxy hinv)
    · simp only [ne_eq, hyp, not_false_eq_true, if_true]
      obtain ⟨b, hb⟩ := index?_isSome (a := t.visited) hyr.1 (by rw [hinv.len]; exact hyr.2)
      rw [hb]
      cases b with
      | true =>
        exact ih (done ++ [y]) _ hnext
          (loopInv_flag hS hpre hx hdone hynb hyd hyp hb hinv)
      | false =>
        have hpre' : DfsPre N L y x t :=
          ⟨hinv.len, hb, Or.inr ⟨hinv.mono _ (vis_mark_self hpre.fresh), hS _ _ hxy⟩,
            inv_for_call hS hpre hx hdone hinv⟩
        have hcnt : unvisited t ≤ d :=
          le_trans (unvisited_le (by rw [hinv.len, mark_length, hpre.len]) hinv.mono) hd
        obtain ⟨u, hu, hpost⟩ := hcall y t hpre' hcnt
        simp only [hu]
        exact ih (done ++ [y]) u hnext (loopInv_call hS hpre hb hinv hpost)

/-- Correctness of the closure `dfsFunc`: entered on an unmarked node with a depth bound that
is at least the number of unmarked nodes, it returns, and the state on return is described by
`DfsPost`. -/
theorem dfsFunc_spec {N : List AdjList} {L : Nat} (hN : InRange N L) (hS : Symmetric N) :
    ∀ depth node parent s, DfsPre N L node parent s → unvisited s ≤ depth →
      ∃ t, dfsFunc N depth node parent s = .ok t ∧ DfsPost N node parent s t := by
  intro depth
  induction depth with
  | zero =>
    intro node parent s hpre hcnt
    have := unvisited_mark s node hpre.fresh
    omega
  | succ d ih =>
    intro node parent s hpre hcnt
    have hr := index?_lt hpre.fresh
    obtain ⟨nbrs, hx⟩ := index?_isSome (a := N) hr.1 (by rw [hN.len, ← hpre.len]; exact hr.2)
    have hd : unvisited (mark s node) ≤ d := by
      have := unvisited_mark s node hpre.fresh
      omega
    obtain ⟨u, hu, hinv⟩ := dfsRange_spec hN hS hpre hx
      (fun n s1 => dfsFunc N d n node s1) d (fun n t h1 h2 => ih n node t h1 h2) hd
      nbrs [] (mark s node) rfl (loopInv_init hpre)
    refine ⟨u, ?_, dfsPost_of_loopInv hS hpre hx hinv⟩
    unfold dfsFunc
    rw [if_pos hr, hx]
    exact hu

/-! ## The main loop of `Search` -/

theorem reachable_closed {N : List AdjList} (hS : Symmetric N) {P : Int → Prop}
    (hP : ∀ y, P y → ∀ z, Entry N y z → P z) {a b : Int}
    (h : (graphOf N).Reachable a b) (ha : P a) : P b := by
  obtain ⟨w⟩ := h
  induction w with
  | nil => exact ha
  | cons hadj _ ih => exact ih (hP _ ha _ ((graphOf_adj hS).1 hadj).2)

theorem roots_finite (N : List AdjList) (k : Int) :
    {u : Int | u < k ∧ IsRoot N u}.Finite :=
  (Set.finite_Ico (0 : Int) k).subset (fun _ hu => ⟨hu.2.1, hu.1⟩)

theorem roots_succ_of_root (N : List AdjList) (i : Nat) (h : IsRoot N (i : Int)) :
    Set.ncard {u : Int | u < ((i + 1 : Nat) : Int) ∧ IsRoot N u} =
      Set.ncard {u : Int | u < (i : Int) ∧ IsRoot N u} + 1 := by
  have : {u : Int | u < ((i + 1 : Nat) : Int) ∧ IsRoot N u} =
      insert (i : Int) {u : Int | u < (i : Int) ∧ IsRoot N u} := by
    ext u
    simp only [Set.mem_setOf_eq, Set.mem_insert_iff]
    constructor
    · rintro ⟨h1, h2⟩
      by_cases hu : u = i
      · exact Or.inl hu
      · exact Or.inr ⟨by push_cast at h1; omega, h2⟩
    · rintro (rfl | ⟨h1, h2⟩)
      · exact ⟨by push_cast; omega, h⟩
      · exact ⟨by push_cast; omega, h2⟩
  rw [this, Set.ncard_insert_of_not_mem _ (roots_finite N i)]
  simp

theorem roots_succ_of_not_root (N : List AdjList) (i : Nat) (h : ¬ IsRoot N (i : Int)) :
    Set.ncard {u : Int | u < ((i + 1 : Nat) : Int) ∧ IsRoot N u} =
      Set.ncard {u : Int | u < (i : Int) ∧ IsRoot N u} := by
  congr 1
  ext u
  simp only [Set.mem_setOf_eq]
  constructor
  · rintro ⟨h1, h2⟩
    refine ⟨?_, h2⟩
    by_contra hlt
    have : u = i := by push_cast at h1; omega
    exact h (this ▸ h2)
  · rintro ⟨h1, h2⟩
    exact ⟨by push_cast; omega, h2⟩

theorem index?_append_cons {α : Type} (done : List α) (x : α) (rest : List α) :
    index? (done ++ x :: rest) (done.length : Int) = some x := by
  unfold index?
  simp only [Int.natCast_nonneg, if_true, Int.toNat_ofNat]
  rw [List.getElem?_append_right (Nat.le_refl _)]
  simp

theorem nonIso_iff {N : List AdjList} {i : Int} {adj : AdjList} (h : index? N i = some adj) :
    NonIso N i ↔ 0 < adj.length := by
  unfold NonIso
  simp only [entry_iff_mem h]
  exact List.length_pos_iff_exists_mem.symm

theorem countP_snoc {α : Type} (p : α → Bool) (l : List α) (x : α) :
    ((l ++ [x]).countP p : Int) = l.countP p + (if p x then 1 else 0) := by
  rw [List.countP_append]
  by_cases h : p x <;> simp [h]

theorem searchInv_isolated {N : List AdjList} {L : Nat} {done : List AdjList}
    {adj : AdjList} {a : SearchState}
    (hi : index? N (done.length : Int) = some adj) (hadj : ¬ 0 < adj.length)
    (hinv : SearchInv N L done a) : SearchInv N L (done ++ [adj]) a := by
  have hniso : ¬ NonIso N (done.length : Int) := fun h => hadj ((nonIso_iff hi).1 h)
  have hlen : ((done ++ [adj]).length : Int) = ((done.length + 1 : Nat) : Int) := by simp
  refine { hinv with visChar := ?_, numNodes := ?_, numLeaves := ?_, numComp := ?_ }
  · intro v
    rw [hinv.visChar v, hlen]
    constructor
    · rintro ⟨u, h0, h1, h2, h3⟩
      exact ⟨u, h0, by push_cast; omega, h2, h3⟩
    · rintro ⟨u, h0, h1, h2, h3⟩
      refine ⟨u, h0, ?_, h2, h3⟩
      by_contra hlt
      have : u = done.length := by push_cast at h1; omega
      exact hniso (this ▸ h2)
  · rw [countP_snoc, hinv.numNodes]
    simp [hadj]
  · rw [countP_snoc, hinv.numLeaves]
    have : adj.length ≠ 1 := by omega
    simp [this]
  · rw [hlen, roots_succ_of_not_root N _ (fun h => hniso h.2.1)]
    exact hinv.numComp

theorem searchInv_visited {N : List AdjList} {L : Nat} {done : List AdjList}
    {adj : AdjList} {a : SearchState} (hS : Symmetric N) (hadj : 0 < adj.length)
    (hv : Vis a.dfs (done.length : Int))
    (hinv : SearchInv N L done a) :
    SearchInv N L (done ++ [adj])
      (if adj.length = 1 then
        { a with NumNodes := a.NumNodes + 1, NumLeaves := a.NumLeaves + 1 }
       else { a with NumNodes := a.NumNodes + 1 }) := by
  have hlen : ((done ++ [adj]).length : Int) = ((done.length + 1 : Nat) : Int) := by simp
  have hnr : ¬ IsRoot N (done.length : Int) := by
    intro hr
    obtain ⟨u, h0, h1, h2, h3⟩ := (hinv.visChar _).1 hv
    exact hr.2.2 u h0 h1 h2 h3
  have hdfs : (if adj.length = 1 then
        { a with NumNodes := a.NumNodes + 1, NumLeaves := a.NumLeaves + 1 }
       else { a with NumNodes := a.NumNodes + 1 } : SearchState).dfs = a.dfs := by
    split <;> rfl
  refine ⟨?_, ?_, ?_, ?_, ?_, ?_, ?_, ?_⟩
  · rw [hdfs]; exact hinv.len
  · rw [hdfs]; exact hinv.closed
  · rw [hdfs]
    intro v
    rw [hinv.visChar v, hlen]
    constructor
    · rintro ⟨u, h0, h1, h2, h3⟩
      exact ⟨u, h0, by push_cast; omega, h2, h3⟩
    · rintro ⟨u, h0, h1, h2, h3⟩
      by_cases hu : u = done.length
      · subst hu
        exact (hinv.visChar v).1 (reachable_closed hS hinv.closed h3 hv)
      · exact ⟨u, h0, by push_cast at h1; omega, h2, h3⟩
  · rw [countP_snoc]
    split <;> simp [hinv.numNodes, hadj]
  · rw [countP_snoc]
    split
    · rename_i h1
      simp [hinv.numLeaves, h1]
    · rename_i h1
      simp [hinv.numLeaves, h1]
  · rw [hlen, roots_succ_of_not_root N _ hnr]
    split <;> exact hinv.numComp
  · rw [hdfs]; exact hinv.bridge
  · rw [hdfs]; exact hinv.cyc

theorem searchInv_dfs {N : List AdjList} {L : Nat} {done : List AdjList}
    {adj : AdjList} {a b : SearchState} (hS : Symmetric N) (hadj : 0 < adj.length)
    (hi : index? N (done.length : Int) = some adj)
    (hf : index? a.dfs.visited (done.length : Int) = some false)
    (hpost : DfsPost N (done.length : Int) (-1) a.dfs b.dfs)
    (hn : b.NumNodes = a.NumNodes + 1)
    (hl : b.NumLeaves = a.NumLeaves + (if adj.length = 1 then 1 else 0))
    (hc : b.NumOfComponents = a.NumOfComponents + 1)
    (hinv : SearchInv N L done a) : SearchInv N L (done ++ [adj]) b := by
  have hlen : ((done ++ [adj]).length : Int) = ((done.length + 1 : Nat) : Int) := by simp
  have hniso : NonIso N (done.length : Int) := (nonIso_iff hi).2 hadj
  have hnv : ¬ Vis a.dfs (done.length : Int) := not_vis_of_fresh hf
  have hclosed : ∀ y, Vis b.dfs y → ∀ z, Entry N y z → Vis b.dfs z := by
    intro y hy z hz
    by_cases hy0 : Vis a.dfs y
    · exact hpost.mono _ (hinv.closed y hy0 z hz)
    · exact hpost.closed y ⟨hy, hy0⟩ z hz
  have hroot : IsRoot N (done.length : Int) := by
    refine ⟨by omega, hniso, ?_⟩
    intro v h0 h1 h2 h3
    exact hnv ((hinv.visChar _).2 ⟨v, h0, h1, h2, h3⟩)
  refine ⟨?_, hclosed, ?_, ?_, ?_, ?_, ?_, ?_⟩
  · rw [hpost.len]; exact hinv.len
  · intro v
    rw [hlen]
    constructor
    · intro hv
      by_cases hv0 : Vis a.dfs v
      · obtain ⟨u, h0, h1, h2, h3⟩ := (hinv.visChar v).1 hv0
        exact ⟨u, h0, by push_cast; omega, h2, h3⟩
      · exact ⟨done.length, by omega, by push_cast; omega, hniso,
          (hpost.reach v ⟨hv, hv0⟩).mono (restrict_le _ _)⟩
    · rintro ⟨u, h0, h1, h2, h3⟩
      by_cases hu : u = done.length
      · subst hu
        exact reachable_closed hS hclosed h3 hpost.self
      · exact hpost.mono _ ((hinv.visChar v).2 ⟨u, h0, by push_cast at h1; omega, h2, h3⟩)
  · rw [countP_snoc, hn, hinv.numNodes]
    simp [hadj]
  · rw [countP_snoc, hl, hinv.numLeaves]
    simp
  · rw [hlen, roots_succ_of_root N _ hroot, hc, hinv.numComp]
    push_cast
    rfl
  · intro hfl x y hx hy hxy
    have hfa : a.dfs.HasCycle = false := flag_false_of_post hpost.flagMono hfl
    by_cases hx0 : Vis a.dfs x <;> by_cases hy0 : Vis a.dfs y
    · exact hinv.bridge hfa x y hx0 hy0 hxy
    · exact absurd (hinv.closed x hx0 y ((graphOf_adj hS).1 hxy).2) hy0
    · exact absurd (hinv.closed y hy0 x ((graphOf_adj hS).1 hxy.symm).2) hx0
    · exact hpost.bridge hfl x ⟨hx, hx0⟩ y ⟨hy, hy0⟩ hxy
  · intro hsimple hfl
    rcases hpost.cyc hsimple hfl with h | h
    · exact hinv.cyc hsimple h
    · exact h

theorem count_le_length_false (l : List Bool) : l.count false ≤ l.length :=
  List.count_le_length _ _

theorem searchStep_spec {N : List AdjList} {done rest : List AdjList}
    {adj : AdjList} {a : SearchState} (hN : InRange N MaxNumNodes.toNat) (hS : Symmetric N)
    (hdr : done ++ adj :: rest = N) (hinv : SearchInv N MaxNumNodes.toNat done a) :
    ∃ b, searchStep N done.length adj a = .ok b ∧
      SearchInv N MaxNumNodes.toNat (done ++ [adj]) b := by
  have hi : index? N (done.length : Int) = some adj := by
    rw [← hdr]; exact index?_append_cons _ _ _
  have hiL := index?_lt hi
  unfold searchStep
  by_cases hadj : 0 < adj.length
  · simp only [gt_iff_lt, hadj, if_true]
    have hdfs : (if adj.length = 1 then
        ({ a with NumNodes := a.NumNodes + 1, NumLeaves := a.NumLeaves + 1 } : SearchState)
       else { a with NumNodes := a.NumNodes + 1 }).dfs = a.dfs := by
      split <;> rfl
    obtain ⟨v, hv⟩ := index?_isSome (a := a.dfs.visited) hiL.1
      (by rw [hinv.len, ← hN.len]; exact hiL.2)
    rw [hdfs, hv]
    cases v with
    | true => exact ⟨_, rfl, searchInv_visited hS hadj hv hinv⟩
    | false =>
      have hpre : DfsPre N MaxNumNodes.toNat (done.length : Int) (-1) a.dfs := by
        refine ⟨hinv.len, hv, Or.inl (by omega), ?_⟩
        intro y hy
        left
        intro z hz
        exact hinv.closed y hy z ((graphOf_adj hS).1 hz).2
      have hcnt : unvisited a.dfs ≤ MaxNumNodes.toNat := by
        unfold unvisited
        rw [← hinv.len]
        exact count_le_length_false _
      obtain ⟨t, ht, hpost⟩ := dfsFunc_spec hN hS _ _ _ _ hpre hcnt
      simp only [ht]
      refine ⟨_, rfl, searchInv_dfs (a := a) hS hadj hi hv hpost ?_ ?_ ?_ hinv⟩
      · split <;> rfl
      · split <;> simp
      · split <;> rfl
  · simp only [gt_iff_lt, hadj, if_false]
    exact ⟨a, rfl, searchInv_isolated hi hadj hinv⟩

theorem searchLoop_spec {N : List AdjList} (hN : InRange N MaxNumNodes.toNat)
    (hS : Symmetric N) :
    ∀ rest done a, done ++ rest = N → SearchInv N MaxNumNodes.toNat done a →
      ∃ b, searchLoop N done.length rest a = .ok b ∧ SearchInv N MaxNumNodes.toNat N b := by
  intro rest
  induction rest with
  | nil =>
    intro done a hdr hinv
    simp only [List.append_nil] at hdr
    subst hdr
    exact ⟨a, rfl, hinv⟩
  | cons adj rest ih =>
    intro done a hdr hinv
    obtain ⟨b, hb, hinv'⟩ := searchStep_spec hN hS hdr hinv
    unfold searchLoop
    simp only [hb]
    have := ih (done ++ [adj]) b (by rw [← hdr]; simp) hinv'
    simpa using this

theorem index?_replicate_false (n : Nat) (v : Int) :
    index? (List.replicate n false) v ≠ some true := by
  unfold index?
  split
  · intro h
    rw [List.getElem?_eq_some] at h
    obtain ⟨h1, h2⟩ := h
    simp at h2
  · simp

/-- The state in which the main loop of `Search` starts. -/
theorem searchInv_init (N : List AdjList) :
    SearchInv N MaxNumNodes.toNat [] searchInit := by
  have hnv : ∀ v, ¬ Vis searchInit.dfs v := fun v h => index?_replicate_false _ v h
  refine ⟨by simp [searchInit], ?_, ?_, by simp [searchInit], by simp [searchInit], ?_, ?_, ?_⟩
  · exact fun y hy => absurd hy (hnv y)
  · intro v
    constructor
    · exact fun h => absurd h (hnv v)
    · rintro ⟨u, h0, h1, -, -⟩
      simp at h1
      omega
  · have : {u : Int | u < (([] : List AdjList).length : Int) ∧ IsRoot N u} = ∅ := by
      ext u
      simp only [List.length_nil, Nat.cast_zero, Set.mem_setOf_eq, Set.mem_empty_iff_false,
        iff_false, not_and]
      intro h hr
      have := hr.1
      omega
    rw [this]
    simp [searchInit]
  · exact fun _ x _ hx => absurd hx (hnv x)
  · intro _ h
    simp [searchInit] at h

theorem nonIso_range {N : List AdjList} {u : Int} (h : NonIso N u) :
    0 ≤ u ∧ u < (N.length : Int) := by
  obtain ⟨y, adj, hadj, -⟩ := h
  have := index?_lt hadj
  omega

/-- Summary of `Graph.Search` on adjacency lists of the shape that `EdgeSet.Graph` builds. -/
theorem search_spec (G : Graph) (hN : InRange G.Neighbors MaxNumNodes.toNat)
    (hS : Symmetric G.Neighbors) :
    ∃ H, G.Search = .ok H ∧ H.Neighbors = G.Neighbors ∧
      H.NumNodes = G.Neighbors.countP (fun adj => decide (0 < adj.length)) ∧
      H.NumLeaves = G.Neighbors.countP (fun adj => decide (adj.length = 1)) ∧
      H.NumOfComponents = Set.ncard {u : Int | IsRoot G.Neighbors u} ∧
      (H.HasCycle = false → (graphOf G.Neighbors).IsAcyclic) ∧
      (Simple G.Neighbors → H.HasCycle = true → ¬ (graphOf G.Neighbors).IsAcyclic) := by
  obtain ⟨b, hb, hinv⟩ := searchLoop_spec hN hS G.Neighbors [] _ rfl (searchInv_init G.Neighbors)
  simp only [List.length_nil] at hb
  refine ⟨Graph.mk G.Neighbors b.NumOfComponents b.NumNodes b.NumLeaves b.dfs.HasCycle,
    by unfold Graph.Search; simp only [hb], rfl, hinv.numNodes, hinv.numLeaves, ?_, ?_, ?_⟩
  · show b.NumOfComponents = _
    rw [hinv.numComp]
    congr 2
    ext u
    simp only [Set.mem_setOf_eq, and_iff_right_iff_imp]
    intro hr
    exact (nonIso_range hr.2.1).2
  · intro hf
    rw [SimpleGraph.isAcyclic_iff_forall_adj_isBridge]
    intro x y hxy
    rw [SimpleGraph.isBridge_iff]
    refine ⟨hxy, ?_⟩
    have hvis : ∀ v, NonIso G.Neighbors v → Vis b.dfs v := by
      intro v hv
      have := nonIso_range hv
      exact (hinv.visChar v).2 ⟨v, this.1, this.2, hv, SimpleGraph.Reachable.refl _⟩
    have h1 := (graphOf_adj hS).1 hxy
    have h2 := (graphOf_adj hS).1 hxy.symm
    exact hinv.bridge hf x y (hvis x ⟨y, h1.2⟩) (hvis y ⟨x, h2.2⟩) hxy
  · intro hsimple hf hac
    obtain ⟨x, y, hxy, hr⟩ := hinv.cyc hsimple hf
    rw [SimpleGraph.isAcyclic_iff_forall_adj_isBridge] at hac
    have := hac hxy
    rw [SimpleGraph.isBridge_iff] at this
    exact this.2 hr

/-! ## Building the adjacency lists -/

theorem addDirectedEdgeUV_spec (G : Graph) (f : Int → AdjList) (u v : Int)
    (hG : AdjAre G.Neighbors f) (hu0 : 0 ≤ u) (hu1 : u < MaxNumNodes) :
    ∃ G1, G.addDirectedEdgeUV u v = .ok G1 ∧
      AdjAre G1.Neighbors (fun w => if w = u then f w ++ [v] else f w) := by
  have hlt : u.toNat < G.Neighbors.length := by
    rw [hG.1]; unfold MaxNumNodes at *; omega
  refine ⟨_, by unfold Graph.addDirectedEdgeUV; rw [if_pos ⟨hu0, hlt⟩], ?_, ?_⟩
  · simp [hG.1]
  · intro w hw0 hw1
    have hw := hG.2 w hw0 hw1
    unfold index? at hw ⊢
    rw [if_pos hw0] at hw ⊢
    by_cases hwu : w = u
    · subst hwu
      simp [hw]
    · have : u.toNat ≠ w.toNat := by omega
      simp only [List.getElem?_modify_ne _ _ this, hw, hwu, if_false]

theorem addEdge_spec (G : Graph) (f : Int → AdjList) (e : Edge)
    (hG : AdjAre G.Neighbors f) (he : e.InRange) :
    ∃ G1, G.AddEdge e = .ok G1 ∧
      AdjAre G1.Neighbors (fun w => f w ++ adjOf [e] w) := by
  obtain ⟨G1, h1, hA1⟩ := addDirectedEdgeUV_spec G f e.Ends.1 e.Ends.2 hG he.1.1 he.1.2
  obtain ⟨G2, h2, hA2⟩ := addDirectedEdgeUV_spec G1 _ e.Ends.2 e.Ends.1 hA1 he.2.1 he.2.2
  refine ⟨G2, ?_, hA2.1, ?_⟩
  · unfold Graph.AddEdge Graph.addEdgeUV
    simp only [h1, h2]
  · intro w hw0 hw1
    rw [hA2.2 w hw0 hw1]
    congr 1
    unfold adjOf adjOf
    by_cases h1 : w = e.Ends.1 <;> by_cases h2 : w = e.Ends.2
    · have h3 : e.Ends.1 = e.Ends.2 := h1 ▸ h2
      simp [h1, h3]
    · have h3 : e.Ends.1 ≠ e.Ends.2 := fun h => h2 (h1.trans h)
      simp [h1, h3, h3.symm]
    · have h3 : e.Ends.1 ≠ e.Ends.2 := fun h => h1 (h2.trans h.symm)
      simp [h2, h3, h3.symm]
    · have h3 : e.Ends.1 ≠ w := fun h => h1 h.symm
      have h4 : e.Ends.2 ≠ w := fun h => h2 h.symm
      simp [h1, h2, h3, h4]

theorem adjOf_cons (e : Edge) (es : List Edge) (u : Int) :
    adjOf (e :: es) u = adjOf [e] u ++ adjOf es u := by
  simp [adjOf]

theorem addEdges_spec (keys : List Edge) (hk : ∀ e ∈ keys, e.InRange) :
    ∀ (G : Graph) (f : Int → AdjList), AdjAre G.Neighbors f →
      ∃ G1, addEdges keys G = .ok G1 ∧ AdjAre G1.Neighbors (fun w => f w ++ adjOf keys w) := by
  induction keys with
  | nil =>
    intro G f hG
    exact ⟨G, rfl, by simpa [adjOf] using hG⟩
  | cons e es ih =>
    intro G f hG
    obtain ⟨G1, h1, hA1⟩ := addEdge_spec G f e hG (hk e (List.mem_cons_self _ _))
    obtain ⟨G2, h2, hA2⟩ := ih (fun e' he' => hk e' (List.mem_cons_of_mem _ he')) G1 _ hA1
    refine ⟨G2, ?_, hA2.1, ?_⟩
    · unfold addEdges
      simp only [h1, h2]
    · intro w hw0 hw1
      rw [hA2.2 w hw0 hw1]
      simp only [adjOf_cons e es w, List.append_assoc]

theorem newEmptyGraph_adjAre : AdjAre (NewEmptyGraph MaxNumNodes).Neighbors (fun _ => []) := by
  refine ⟨by simp [NewEmptyGraph], ?_⟩
  intro u hu0 hu1
  unfold index? NewEmptyGraph
  rw [if_pos hu0]
  simp only [List.getElem?_replicate]
  rw [if_pos]
  unfold MaxNumNodes at *
  omega

/-- Method `EdgeSet.Graph` on in-range edges: the adjacency list of every node index `u` is
`adjOf keys u`. -/
theorem edgeSetGraph_spec (keys : List Edge) (hk : ∀ e ∈ keys, e.InRange) :
    ∃ G, EdgeSet.Graph keys = .ok G ∧ AdjAre G.Neighbors (adjOf keys) := by
  obtain ⟨G, h1, hA⟩ := addEdges_spec keys hk _ _ newEmptyGraph_adjAre
  exact ⟨G, h1, by simpa using hA⟩

theorem mem_adjOf (keys : List Edge) (u v : Int) :
    v ∈ adjOf keys u ↔
      ∃ e ∈ keys, (e.Ends.1 = u ∧ e.Ends.2 = v) ∨ (e.Ends.2 = u ∧ e.Ends.1 = v) := by
  induction keys with
  | nil => simp [adjOf]
  | cons e es ih =>
    simp only [adjOf, List.mem_append, ih, List.mem_cons, exists_eq_or_imp]
    by_cases h1 : e.Ends.1 = u <;> by_cases h2 : e.Ends.2 = u <;>
      simp [h1, h2, eq_comm]

theorem mem_adjOf_iff (keys : List Edge) (u v : Int) :
    v ∈ adjOf keys u ↔ Edge.mk (u, v) ∈ keys ∨ Edge.mk (v, u) ∈ keys := by
  rw [mem_adjOf]
  constructor
  · rintro ⟨e, he, ⟨h1, h2⟩ | ⟨h1, h2⟩⟩
    · left
      have : e = Edge.mk (u, v) := by
        cases e with | mk p => cases p; simp_all
      exact this ▸ he
    · right
      have : e = Edge.mk (v, u) := by
        cases e with | mk p => cases p; simp_all
      exact this ▸ he
  · rintro (h | h)
    · exact ⟨_, h, Or.inl ⟨rfl, rfl⟩⟩
    · exact ⟨_, h, Or.inr ⟨rfl, rfl⟩⟩

theorem adjAre_entry {N : List AdjList} {keys : List Edge} (hk : ∀ e ∈ keys, e.InRange)
    (hA : AdjAre N (adjOf keys)) (u v : Int) : Entry N u v ↔ v ∈ adjOf keys u := by
  constructor
  · rintro ⟨adj, hadj, hv⟩
    have hr := index?_lt hadj
    rw [hA.1] at hr
    rw [hA.2 u hr.1 (by unfold MaxNumNodes at *; omega)] at hadj
    simp only [Option.some.injEq] at hadj
    rw [hadj]
    exact hv
  · intro hv
    obtain ⟨e, he, h⟩ := (mem_adjOf keys u v).1 hv
    have hr := hk e he
    refine ⟨_, hA.2 u ?_ ?_, hv⟩
    · rcases h with h | h
      · rw [← h.1]; exact hr.1.1
      · rw [← h.1]; exact hr.2.1
    · rcases h with h | h
      · rw [← h.1]; exact hr.1.2
      · rw [← h.1]; exact hr.2.2

theorem adjAre_inRange {N : List AdjList} {keys : List Edge} (hk : ∀ e ∈ keys, e.InRange)
    (hA : AdjAre N (adjOf keys)) : InRange N MaxNumNodes.toNat := by
  refine ⟨hA.1, ?_⟩
  intro x y hxy
  rw [adjAre_entry hk hA] at hxy
  obtain ⟨e, he, h⟩ := (mem_adjOf keys x y).1 hxy
  have hr := hk e he
  unfold Edge.InRange at hr
  unfold MaxNumNodes at *
  rcases h with h | h
  · rw [← h.2]; omega
  · rw [← h.2]; omega

theorem adjAre_symmetric {N : List AdjList} {keys : List Edge} (hk : ∀ e ∈ keys, e.InRange)
    (hA : AdjAre N (adjOf keys)) : Symmetric N := by
  intro x y hxy
  rw [adjAre_entry hk hA, mem_adjOf_iff] at hxy ⊢
  exact hxy.symm

theorem adjAre_graphOf {N : List AdjList} {keys : List Edge} (hk : ∀ e ∈ keys, e.InRange)
    (hA : AdjAre N (adjOf keys)) : graphOf N = EdgeSet.toSimpleGraph keys := by
  ext a b
  unfold graphOf EdgeSet.toSimpleGraph
  simp only [SimpleGraph.fromRel_adj, adjAre_entry hk hA, mem_adjOf_iff]
  tauto

theorem adjAre_nonIso {N : List AdjList} {keys : List Edge} (hk : ∀ e ∈ keys, e.InRange)
    (hA : AdjAre N (adjOf keys)) (u : Int) : NonIso N u ↔ u ∈ EdgeSet.nodes keys := by
  unfold NonIso EdgeSet.nodes
  simp only [adjAre_entry hk hA, mem_adjOf, Set.mem_setOf_eq]
  constructor
  · rintro ⟨y, e, he, h | h⟩
    · exact ⟨e, he, Or.inl h.1⟩
    · exact ⟨e, he, Or.inr h.1⟩
  · rintro ⟨e, he, h | h⟩
    · exact ⟨_, e, he, Or.inl ⟨h, rfl⟩⟩
    · exact ⟨_, e, he, Or.inr ⟨h, rfl⟩⟩

theorem Edge.Valid.inRange {e : Edge} (h : e.Valid) : e.InRange := by
  unfold Edge.Valid at h
  unfold Edge.InRange
  omega

theorem adjOf_nodup (keys : List Edge) (hv : ∀ e ∈ keys, e.Valid) (hn : keys.Nodup) (u : Int) :
    (adjOf keys u).Nodup := by
  induction keys with
  | nil => simp [adjOf]
  | cons e es ih =>
    have hes := ih (fun e' he' => hv e' (List.mem_cons_of_mem _ he')) (List.nodup_cons.1 hn).2
    have he := hv e (List.mem_cons_self _ _)
    have hne : e ∉ es := (List.nodup_cons.1 hn).1
    unfold Edge.Valid at he
    unfold adjOf
    by_cases h1 : e.Ends.1 = u
    · have h2 : e.Ends.2 ≠ u := by omega
      simp only [h1, h2, if_true, if_false, List.nil_append, List.singleton_append,
        List.nodup_cons]
      refine ⟨?_, hes⟩
      rw [mem_adjOf_iff]
      rintro (h | h)
      · apply hne
        have : e = Edge.mk (u, e.Ends.2) := by
          cases e with | mk p => cases p; simp_all
        rw [this]; exact h
      · have := hv _ (List.mem_cons_of_mem _ h)
        unfold Edge.Valid at this
        simp only at this
        omega
    · by_cases h2 : e.Ends.2 = u
      · simp only [h1, h2, if_true, if_false, List.nil_append, List.singleton_append,
          List.nodup_cons]
        refine ⟨?_, hes⟩
        rw [mem_adjOf_iff]
        rintro (h | h)
        · have := hv _ (List.mem_cons_of_mem _ h)
          unfold Edge.Valid at this
          simp only at this
          omega
        · apply hne
          have : e = Edge.mk (e.Ends.1, u) := by
            cases e with | mk p => cases p; simp_all
          rw [this]; exact h
      · simpa [h1, h2] using hes

theorem adjAre_simple {N : List AdjList} {keys : List Edge} (hv : ∀ e ∈ keys, e.Valid)
    (hn : keys.Nodup) (hA : AdjAre N (adjOf keys)) : Simple N := by
  have hk : ∀ e ∈ keys, e.InRange := fun e he => (hv e he).inRange
  refine ⟨?_, ?_⟩
  · intro x adj hadj
    have hr := index?_lt hadj
    rw [hA.1] at hr
    rw [hA.2 x hr.1 (by unfold MaxNumNodes at *; omega)] at hadj
    simp only [Option.some.injEq] at hadj
    rw [← hadj]
    exact adjOf_nodup keys hv hn x
  · intro x hx
    rw [adjAre_entry hk hA, mem_adjOf_iff] at hx
    rcases hx with h | h <;>
    · have := hv _ h
      unfold Edge.Valid at this
      simp only at this
      omega

/-! ## Counting connected components -/

theorem induce_reachable_iff (G : SimpleGraph Int) (S : Set Int)
    (hadj : ∀ a b, G.Adj a b → a ∈ S ∧ b ∈ S) (a b : S) :
    (G.induce S).Reachable a b ↔ G.Reachable a.1 b.1 := by
  constructor
  · intro h
    exact h.map (SimpleGraph.Embedding.induce S).toHom
  · intro h
    obtain ⟨w⟩ := h
    have key : ∀ (x y : Int) (_ : G.Walk x y) (hx : x ∈ S) (hy : y ∈ S),
        (G.induce S).Reachable ⟨x, hx⟩ ⟨y, hy⟩ := by
      intro x y w
      induction w with
      | nil => intro hx hy; exact SimpleGraph.Reachable.refl _
      | cons h _ ih =>
        intro hx hy
        have hm := (hadj _ _ h).2
        have h1 : (G.induce S).Adj ⟨_, hx⟩ ⟨_, hm⟩ := h
        exact h1.reachable.trans (ih hm hy)
    exact key a.1 b.1 w a.2 b.2

/-- The connected components of the graph induced on `S` correspond to the nodes of `S` that
are least in their component. -/
theorem card_components_eq (G : SimpleGraph Int) (S : Set Int) (hS0 : ∀ u ∈ S, 0 ≤ u)
    (hadj : ∀ a b, G.Adj a b → a ∈ S ∧ b ∈ S) :
    Nat.card (G.induce S).ConnectedComponent =
      Set.ncard {u : Int | u ∈ S ∧ ∀ v ∈ S, v < u → ¬ G.Reachable v u} := by
  classical
  rw [← Set.Nat.card_coe_set_eq]
  symm
  let f : {u : Int | u ∈ S ∧ ∀ v ∈ S, v < u → ¬ G.Reachable v u} →
      (G.induce S).ConnectedComponent :=
    fun u => (G.induce S).connectedComponentMk ⟨u.1, u.2.1⟩
  apply Nat.card_eq_of_bijective f
  constructor
  · rintro ⟨u1, h1⟩ ⟨u2, h2⟩ h
    have hr : G.Reachable u1 u2 :=
      (induce_reachable_iff G S hadj ⟨u1, h1.1⟩ ⟨u2, h2.1⟩).1
        (SimpleGraph.ConnectedComponent.exact h)
    have : u1 = u2 := by
      rcases lt_trichotomy u1 u2 with hlt | heq | hgt
      · exact absurd hr (h2.2 u1 h1.1 hlt)
      · exact heq
      · exact absurd hr.symm (h1.2 u2 h2.1 hgt)
    subst this
    rfl
  · intro c
    induction c using SimpleGraph.ConnectedComponent.ind with
    | h v =>
      obtain ⟨v, hv⟩ := v
      have hex : ∃ k : Nat, (k : Int) ∈ S ∧ G.Reachable (k : Int) v :=
        ⟨v.toNat, by rw [Int.toNat_of_nonneg (hS0 v hv)]; exact ⟨hv, SimpleGraph.Reachable.refl _⟩⟩
      have hm := Nat.find_spec hex
      have hmin : ∀ w ∈ S, w < ((Nat.find hex : Nat) : Int) → ¬ G.Reachable w (Nat.find hex : Nat) := by
        intro w hw hlt hr
        have hw0 := hS0 w hw
        have : w.toNat < Nat.find hex := by omega
        apply Nat.find_min hex this
        rw [Int.toNat_of_nonneg hw0]
        exact ⟨hw, hr.trans hm.2⟩
      refine ⟨⟨(Nat.find hex : Nat), hm.1, hmin⟩, ?_⟩
      apply SimpleGraph.ConnectedComponent.sound
      exact (induce_reachable_iff G S hadj ⟨_, hm.1⟩ ⟨v, hv⟩).2 hm.2

theorem toSimpleGraph_adj_nodes (E : EdgeSet) (a b : Int) (h : E.toSimpleGraph.Adj a b) :
    a ∈ E.nodes ∧ b ∈ E.nodes := by
  unfold EdgeSet.toSimpleGraph at h
  rw [SimpleGraph.fromRel_adj] at h
  rcases h.2 with h | h
  · exact ⟨⟨_, h, Or.inl rfl⟩, ⟨_, h, Or.inr rfl⟩⟩
  · exact ⟨⟨_, h, Or.inr rfl⟩, ⟨_, h, Or.inl rfl⟩⟩

theorem nodes_nonneg (E : EdgeSet) (hk : ∀ e ∈ E, e.InRange) (u : Int) (hu : u ∈ E.nodes) :
    0 ≤ u := by
  obtain ⟨e, he, h | h⟩ := hu
  · rw [← h]; exact (hk e he).1.1
  · rw [← h]; exact (hk e he).2.1

/-- The number of roots of the traversal is the number of connected components of the graph
induced on the non-isolated nodes. -/
theorem roots_eq_components {N : List AdjList} {keys : List Edge}
    (hk : ∀ e ∈ keys, e.InRange) (hA : AdjAre N (adjOf keys)) :
    Set.ncard {u : Int | IsRoot N u} =
      Nat.card ((EdgeSet.toSimpleGraph keys).induce (EdgeSet.nodes keys)).ConnectedComponent := by
  rw [card_components_eq _ _ (nodes_nonneg keys hk) (toSimpleGraph_adj_nodes keys)]
  congr 1
  ext u
  simp only [Set.mem_setOf_eq]
  unfold IsRoot
  rw [adjAre_graphOf hk hA]
  constructor
  · rintro ⟨-, h1, h2⟩
    refine ⟨(adjAre_nonIso hk hA u).1 h1, ?_⟩
    intro v hv hlt
    exact h2 v (nodes_nonneg keys hk v hv) hlt ((adjAre_nonIso hk hA v).2 hv)
  · rintro ⟨h1, h2⟩
    refine ⟨nodes_nonneg keys hk u h1, (adjAre_nonIso hk hA u).2 h1, ?_⟩
    intro v _ hlt hv
    exact h2 v ((adjAre_nonIso hk hA v).1 hv) hlt

/-! ## Counting nodes and leaves -/

theorem adjAre_eq_map {N : List AdjList} {f : Int → AdjList} (hA : AdjAre N f) :
    N = (List.range MaxNumNodes.toNat).map (fun i : Nat => f (i : Int)) := by
  apply List.ext_getElem?
  intro i
  by_cases hi : i < MaxNumNodes.toNat
  · have := hA.2 (i : Int) (by omega) (by unfold MaxNumNodes at *; omega)
    unfold index? at this
    simp only [Int.natCast_nonneg, if_true, Int.toNat_ofNat] at this
    rw [this]
    simp [List.getElem?_range hi, hi]
  · rw [List.getElem?_eq_none (by rw [hA.1]; omega), List.getElem?_eq_none (by simp; omega)]

theorem countP_map_range (p : AdjList → Bool) (f : Int → AdjList) (n : Nat) :
    ((List.range n).map (fun i : Nat => f (i : Int))).countP p =
      Set.ncard {u : Int | 0 ≤ u ∧ u < (n : Int) ∧ p (f u) = true} := by
  induction n with
  | zero =>
    have : {u : Int | 0 ≤ u ∧ u < ((0 : Nat) : Int) ∧ p (f u) = true} = ∅ := by
      ext u
      simp only [Set.mem_setOf_eq, Set.mem_empty_iff_false, iff_false]
      omega
    rw [this]
    simp
  | succ n ih =>
    have hfin : {u : Int | 0 ≤ u ∧ u < (n : Int) ∧ p (f u) = true}.Finite :=
      (Set.finite_Ico (0 : Int) n).subset (fun _ hu => ⟨hu.1, hu.2.1⟩)
    rw [List.range_succ, List.map_append, List.countP_append, ih]
    by_cases hp : p (f (n : Int)) = true
    · have : {u : Int | 0 ≤ u ∧ u < ((n + 1 : Nat) : Int) ∧ p (f u) = true} =
          insert (n : Int) {u : Int | 0 ≤ u ∧ u < (n : Int) ∧ p (f u) = true} := by
        ext u
        simp only [Set.mem_setOf_eq, Set.mem_insert_iff]
        constructor
        · rintro ⟨h0, h1, h2⟩
          by_cases hu : u = n
          · exact Or.inl hu
          · exact Or.inr ⟨h0, by push_cast at h1; omega, h2⟩
        · rintro (rfl | ⟨h0, h1, h2⟩)
          · exact ⟨by omega, by push_cast; omega, hp⟩
          · exact ⟨h0, by push_cast; omega, h2⟩
      rw [this, Set.ncard_insert_of_not_mem _ hfin]
      · simp [hp]
      · simp
    · have : {u : Int | 0 ≤ u ∧ u < ((n + 1 : Nat) : Int) ∧ p (f u) = true} =
          {u : Int | 0 ≤ u ∧ u < (n : Int) ∧ p (f u) = true} := by
        ext u
        simp only [Set.mem_setOf_eq]
        constructor
        · rintro ⟨h0, h1, h2⟩
          refine ⟨h0, ?_, h2⟩
          by_contra hlt
          have : u = n := by push_cast at h1; omega
          exact hp (this ▸ h2)
        · rintro ⟨h0, h1, h2⟩
          exact ⟨h0, by push_cast; omega, h2⟩
      rw [this]
      simp [hp]

theorem length_adjOf (keys : List Edge) (u : Int) :
    (adjOf keys u).length =
      keys.countP (fun e => decide (e.Ends.1 = u)) + keys.countP (fun e => decide (e.Ends.2 = u)) := by
  induction keys with
  | nil => simp [adjOf]
  | cons e es ih =>
    simp only [adjOf, List.length_append, ih, List.countP_cons]
    by_cases h1 : e.Ends.1 = u <;> by_cases h2 : e.Ends.2 = u <;> simp [h1, h2] <;> omega

theorem length_adjOf_valid (keys : List Edge) (hv : ∀ e ∈ keys, e.Valid) (u : Int) :
    (adjOf keys u).length = EdgeSet.degree keys u := by
  rw [length_adjOf]
  unfold EdgeSet.degree
  induction keys with
  | nil => simp
  | cons e es ih =>
    have he := hv e (List.mem_cons_self _ _)
    unfold Edge.Valid at he
    have := ih (fun e' he' => hv e' (List.mem_cons_of_mem _ he'))
    simp only [List.countP_cons]
    by_cases h1 : e.Ends.1 = u <;> by_cases h2 : e.Ends.2 = u <;>
      simp only [h1, h2, decide_True, decide_False, if_true, if_false, or_true, true_or,
        or_self, Bool.false_eq_true] <;> omega

theorem adjOf_nil_of_out_of_range (keys : List Edge) (hk : ∀ e ∈ keys, e.InRange) (u : Int)
    (hu : ¬ (0 ≤ u ∧ u < MaxNumNodes)) : adjOf keys u = [] := by
  rw [List.eq_nil_iff_forall_not_mem]
  intro v hv
  obtain ⟨e, he, h⟩ := (mem_adjOf keys u v).1 hv
  have hr := hk e he
  unfold Edge.InRange at hr
  rcases h with h | h <;> (rw [← h.1] at hu; omega)

/-- Counting the adjacency lists with a property that the empty list lacks counts the nodes
whose list has the property. -/
theorem countP_adjAre {N : List AdjList} {keys : List Edge} (hk : ∀ e ∈ keys, e.InRange)
    (hA : AdjAre N (adjOf keys)) (p : AdjList → Bool) (hp : p [] = false) :
    N.countP p = Set.ncard {u : Int | p (adjOf keys u) = true} := by
  rw [adjAre_eq_map hA, countP_map_range]
  congr 1
  ext u
  simp only [Set.mem_setOf_eq]
  constructor
  · exact fun h => h.2.2
  · intro h
    by_cases hu : 0 ≤ u ∧ u < MaxNumNodes
    · refine ⟨hu.1, ?_, h⟩
      unfold MaxNumNodes at *
      omega
    · rw [adjOf_nil_of_out_of_range keys hk u hu, hp] at h
      simp at h

theorem adjOf_pos_iff (keys : List Edge) (u : Int) :
    0 < (adjOf keys u).length ↔ u ∈ EdgeSet.nodes keys := by
  rw [List.length_pos_iff_exists_mem]
  unfold EdgeSet.nodes
  simp only [mem_adjOf, Set.mem_setOf_eq]
  constructor
  · rintro ⟨y, e, he, h | h⟩
    · exact ⟨e, he, Or.inl h.1⟩
    · exact ⟨e, he, Or.inr h.1⟩
  · rintro ⟨e, he, h | h⟩
    · exact ⟨_, e, he, Or.inl ⟨h, rfl⟩⟩
    · exact ⟨_, e, he, Or.inr ⟨h, rfl⟩⟩

/-- What `EdgeSet.Graph` followed by `Search` computes on in-range edges. -/
theorem searchedGraph_spec (keys : List Edge) (hk : ∀ e ∈ keys, e.InRange) :
    ∃ G, searchedGraph keys = .ok G ∧ AdjAre G.Neighbors (adjOf keys) ∧
      G.NumNodes = Set.ncard (EdgeSet.nodes keys) ∧
      G.NumLeaves = Set.ncard {u : Int | (adjOf keys u).length = 1} ∧
      G.NumOfComponents =
        Nat.card ((EdgeSet.toSimpleGraph keys).induce (EdgeSet.nodes keys)).ConnectedComponent ∧
      (G.HasCycle = false → (EdgeSet.toSimpleGraph keys).IsAcyclic) ∧
      ((∀ e ∈ keys, e.Valid) → keys.Nodup → G.HasCycle = true →
        ¬ (EdgeSet.toSimpleGraph keys).IsAcyclic) := by
  obtain ⟨G0, h0, hA⟩ := edgeSetGraph_spec keys hk
  obtain ⟨G, h1, hN, hnodes, hleaves, hcomp, hacyc, hcyc⟩ :=
    search_spec G0 (adjAre_inRange hk hA) (adjAre_symmetric hk hA)
  refine ⟨G, by unfold searchedGraph; simp only [h0, h1], hN ▸ hA, ?_, ?_, ?_, ?_, ?_⟩
  · rw [hnodes, countP_adjAre hk hA _ (by simp)]
    congr 2
    ext u
    simp only [Set.mem_setOf_eq, decide_eq_true_eq]
    exact adjOf_pos_iff keys u
  · rw [hleaves, countP_adjAre hk hA _ (by simp)]
    simp
  · rw [hcomp, roots_eq_components hk hA]
  · rw [← adjAre_graphOf hk hA]
    exact hacyc
  · intro hv hn
    rw [← adjAre_graphOf hk hA]
    exact hcyc (adjAre_simple hv hn hA)

/-! ## Edge sets and their enumerations -/

theorem toSimpleGraph_perm {E keys : List Edge} (h : keys.Perm E) :
    EdgeSet.toSimpleGraph keys = EdgeSet.toSimpleGraph E := by
  unfold EdgeSet.toSimpleGraph
  congr 1
  funext u v
  exact propext h.mem_iff

theorem nodes_perm {E keys : List Edge} (h : keys.Perm E) :
    EdgeSet.nodes keys = EdgeSet.nodes E := by
  unfold EdgeSet.nodes
  ext u
  simp only [Set.mem_setOf_eq]
  constructor
  · rintro ⟨e, he, h1⟩
    exact ⟨e, h.mem_iff.1 he, h1⟩
  · rintro ⟨e, he, h1⟩
    exact ⟨e, h.mem_iff.2 he, h1⟩

theorem nodes_nonempty_iff (E : EdgeSet) : Nonempty E.nodes ↔ E ≠ [] := by
  constructor
  · rintro ⟨u, e, he, -⟩
    exact List.ne_nil_of_mem he
  · intro h
    obtain ⟨e, he⟩ := List.exists_mem_of_ne_nil E h
    exact ⟨⟨e.Ends.1, e, he, Or.inl rfl⟩⟩

/-- One connected component among the non-isolated nodes: there is an edge, and the ends of
all edges are connected to each other. -/
theorem one_component_iff (E : EdgeSet) :
    Nat.card (E.toSimpleGraph.induce E.nodes).ConnectedComponent = 1 ↔
      E ≠ [] ∧ ∀ u ∈ E.nodes, ∀ v ∈ E.nodes, E.toSimpleGraph.Reachable u v := by
  rw [Nat.card_eq_one_iff_unique, ← nodes_nonempty_iff]
  constructor
  · rintro ⟨hs, ⟨c⟩⟩
    induction c using SimpleGraph.ConnectedComponent.ind with
    | h w =>
      refine ⟨⟨w⟩, ?_⟩
      intro u hu v hv
      have := hs.elim ((E.toSimpleGraph.induce E.nodes).connectedComponentMk ⟨u, hu⟩)
        ((E.toSimpleGraph.induce E.nodes).connectedComponentMk ⟨v, hv⟩)
      exact (induce_reachable_iff _ _ (toSimpleGraph_adj_nodes E) ⟨u, hu⟩ ⟨v, hv⟩).1
        (SimpleGraph.ConnectedComponent.exact this)
  · rintro ⟨⟨w⟩, h⟩
    refine ⟨⟨?_⟩, ⟨(E.toSimpleGraph.induce E.nodes).connectedComponentMk w⟩⟩
    intro a b
    induction a using SimpleGraph.ConnectedComponent.ind with
    | h x =>
      induction b using SimpleGraph.ConnectedComponent.ind with
      | h y =>
        apply SimpleGraph.ConnectedComponent.sound
        exact (induce_reachable_iff _ _ (toSimpleGraph_adj_nodes E) x y).2 (h x.1 x.2 y.1 y.2)

theorem not_acyclic_iff (G : SimpleGraph Int) :
    ¬ G.IsAcyclic ↔ ∃ (v : Int) (c : G.Walk v v), c.IsCycle ∧ 3 ≤ c.length := by
  unfold SimpleGraph.IsAcyclic
  push_neg
  constructor
  · rintro ⟨v, c, hc⟩
    exact ⟨v, c, hc, hc.three_le_length⟩
  · rintro ⟨v, c, hc, -⟩
    exact ⟨v, c, hc⟩

theorem hasCycle_iff_of_spec {G : Graph} {H : SimpleGraph Int}
    (h1 : G.HasCycle = false → H.IsAcyclic) (h2 : G.HasCycle = true → ¬ H.IsAcyclic) :
    G.HasCycle = true ↔ ¬ H.IsAcyclic := by
  constructor
  · exact h2
  · intro h
    by_contra hc
    exact h (h1 (by simpa using hc))

/-! ## Lines and numerals -/

theorem textLines_nil : textLines [] = [] := rfl

theorem textLines_cons_newline (t : List Char) : textLines ('\n' :: t) = [] :: textLines t := by
  simp [textLines]

theorem textLines_cons_ne_nil (c : Char) (t : List Char) : textLines (c :: t) ≠ [] := by
  simp only [textLines, List.foldr_cons]
  split
  · simp
  · split <;> simp

theorem textLines_cons_other (c : Char) (t : List Char) (hc : c ≠ '\n') (l : List Char)
    (ls : List (List Char)) (h : textLines t = l :: ls) :
    textLines (c :: t) = (c :: l) :: ls := by
  unfold textLines at h ⊢
  rw [List.foldr_cons, if_neg hc, h]

theorem textLines_eq_nil_iff (t : List Char) : textLines t = [] ↔ t = [] := by
  cases t with
  | nil => simp [textLines]
  | cons c t => simp [textLines_cons_ne_nil]

/-- What `ReadString` returns on a non-empty stream, in terms of the lines of the stream. -/
theorem readString_lines (c : Char) (t : List Char) :
    ∃ b, textLines (c :: t) = b :: textLines (ReadString '\n' (c :: t)).2.1 ∧
      b.all (fun x => x ≠ '\n') = true ∧
      (((ReadString '\n' (c :: t)).1 = b ++ ['\n'] ∧ (ReadString '\n' (c :: t)).2.2 = none) ∨
       ((ReadString '\n' (c :: t)).1 = b ∧ (ReadString '\n' (c :: t)).2.1 = [] ∧ b ≠ [] ∧
         (ReadString '\n' (c :: t)).2.2 = some .EOF)) := by
  induction t generalizing c with
  | nil =>
    by_cases hc : c = '\n'
    · subst hc
      exact ⟨[], by simp [textLines, ReadString], by simp, Or.inl (by simp [ReadString])⟩
    · exact ⟨[c], by simp [textLines, ReadString, hc], by simp [hc],
        Or.inr (by simp [ReadString, hc])⟩
  | cons d t ih =>
    by_cases hc : c = '\n'
    · subst hc
      exact ⟨[], by simp [textLines_cons_newline, ReadString], by simp,
        Or.inl (by simp [ReadString])⟩
    · obtain ⟨b, h1, h2, h3⟩ := ih d
      have hrs : ReadString '\n' (c :: d :: t) =
          (c :: (ReadString '\n' (d :: t)).1, (ReadString '\n' (d :: t)).2.1,
            (ReadString '\n' (d :: t)).2.2) := by
        rw [ReadString]
        simp [hc]
      refine ⟨c :: b, ?_, by simpa [hc] using h2, ?_⟩
      · rw [textLines_cons_other c _ hc _ _ h1, hrs]
      · rw [hrs]
        rcases h3 with ⟨h4, h5⟩ | ⟨h4, h5, h6, h7⟩
        · exact Or.inl ⟨by simp [h4], h5⟩
        · exact Or.inr ⟨by simp [h4], h5, by simp, h7⟩

theorem strip_append_newline (b : List Char) :
    (b ++ ['\n']).getLast? = some '\n' ∧ (b ++ ['\n']).dropLast = b := by
  simp

theorem getLast?_ne_of_all {b : List Char} (h : b.all (fun x => x ≠ '\n') = true) :
    b.getLast? ≠ some '\n' := by
  intro hl
  have := List.mem_of_getLast?_eq_some hl
  simp only [List.all_eq_true, decide_eq_true_eq] at h
  exact h _ this rfl

/-! ## The number formats -/

theorem decimalValue_eq (ds : List Char) : decimalValue ds = numeralValue ds := by
  unfold decimalValue numeralValue
  induction ds using List.reverseRecOn with
  | nil => simp
  | append_singleton ds c ih =>
    rw [List.foldl_append, List.foldl_cons, List.foldl_nil, ih]
    simp [Nat.ofDigits_cons]
    ring

theorem takeWhile_digits (d rest : List Char) (hd : ∀ c ∈ d, c.isDigit = true)
    (hr : ∀ c, rest.head? = some c → c.isDigit = false) :
    (d ++ rest).takeWhile Char.isDigit = d ∧ (d ++ rest).dropWhile Char.isDigit = rest := by
  induction d with
  | nil =>
    cases rest with
    | nil => simp
    | cons c t =>
      have := hr c rfl
      simp [List.takeWhile_cons, List.dropWhile_cons, this]
  | cons c d ih =>
    have hc := hd c (List.mem_cons_self _ _)
    have := ih (fun x hx => hd x (List.mem_cons_of_mem _ hx))
    simp [List.takeWhile_cons, List.dropWhile_cons, hc, this]

theorem dropWhile_head (s : List Char) (c : Char)
    (h : (s.dropWhile Char.isDigit).head? = some c) : c.isDigit = false := by
  induction s with
  | nil => simp at h
  | cons x t ih =>
    rw [List.dropWhile_cons] at h
    split at h
    · exact ih h
    · simp only [List.head?_cons, Option.some.injEq] at h
      rw [← h]
      simpa using ‹¬ x.isDigit = true›

theorem matchDigits_eq_some (s d rest : List Char) :
    matchDigits s = some (d, rest) ↔
      IsNumeral d ∧ s = d ++ rest ∧ ∀ c, rest.head? = some c → c.isDigit = false := by
  unfold matchDigits IsNumeral
  constructor
  · intro h
    split at h
    · simp at h
    · rename_i hne
      simp only [Option.some.injEq, Prod.mk.injEq] at h
      obtain ⟨h1, h2⟩ := h
      subst h1 h2
      refine ⟨⟨hne, fun c hc => (List.mem_takeWhile_imp hc)⟩, ?_, ?_⟩
      · exact (List.takeWhile_append_dropWhile _ _).symm
      · exact dropWhile_head s
  · rintro ⟨⟨hne, hd⟩, rfl, hr⟩
    obtain ⟨h1, h2⟩ := takeWhile_digits d rest hd hr
    rw [h1, h2, if_neg hne]

theorem matchDigits_eq_none (s : List Char) :
    matchDigits s = none ↔ ∀ c, s.head? = some c → c.isDigit = false := by
  unfold matchDigits
  cases s with
  | nil => simp
  | cons x t =>
    by_cases hx : x.isDigit = true
    · simp [List.takeWhile_cons, hx]
    · simp [List.takeWhile_cons, hx]

theorem isDigit_ne_newline {c : Char} (h : c.isDigit = true) : c ≠ '\n' := by
  rintro rfl
  simp [Char.isDigit] at h

theorem isDigit_ne_space {c : Char} (h : c.isDigit = true) : c ≠ ' ' := by
  rintro rfl
  simp [Char.isDigit] at h

theorem matchEnd_iff (s : List Char) : matchEnd s = true ↔ s = [] ∨ s = ['\n'] := by
  simp [matchEnd]

theorem regexp1_of_grammar (line ds : List Char) (hd : IsNumeral ds)
    (hl : line = ds ∨ line = ds ++ ['\n']) :
    NumberFormatRegexp 1 line = .ok (some [line, ds]) := by
  have hm : ∃ rest, matchDigits line = some (ds, rest) ∧ (rest = [] ∨ rest = ['\n']) := by
    rcases hl with h | h
    · exact ⟨[], (matchDigits_eq_some _ _ _).2 ⟨hd, by simp [h], by simp⟩, Or.inl rfl⟩
    · refine ⟨['\n'], (matchDigits_eq_some _ _ _).2 ⟨hd, h, ?_⟩, Or.inr rfl⟩
      intro c hc
      simp only [List.head?_cons, Option.some.injEq] at hc
      rw [← hc]
      rfl
  obtain ⟨rest, h1, h2⟩ := hm
  unfold NumberFormatRegexp
  simp only [if_true, h1, (matchEnd_iff rest).2 h2]

theorem regexp1_some (line : List Char) (ms : List (List Char))
    (h : NumberFormatRegexp 1 line = .ok (some ms)) :
    ∃ ds, IsNumeral ds ∧ (line = ds ∨ line = ds ++ ['\n']) ∧ ms = [line, ds] := by
  unfold NumberFormatRegexp at h
  simp only [if_true] at h
  split at h
  · simp at h
  · rename_i d rest hm
    obtain ⟨hd, hl, -⟩ := (matchDigits_eq_some _ _ _).1 hm
    split at h
    · rename_i he
      simp only [Except.ok.injEq, Option.some.injEq] at h
      refine ⟨d, hd, ?_, h.symm⟩
      rcases (matchEnd_iff rest).1 he with h1 | h1
      · left; simp [hl, h1]
      · right; simp [hl, h1]
    · simp at h

theorem regexp1_ok (line : List Char) : ∃ o, NumberFormatRegexp 1 line = .ok o := by
  unfold NumberFormatRegexp
  simp only [if_true]
  split
  · exact ⟨_, rfl⟩
  · split <;> exact ⟨_, rfl⟩

theorem regexp2_of_grammar (line d1 d2 : List Char) (h1 : IsNumeral d1) (h2 : IsNumeral d2)
    (hl : line = d1 ++ ' ' :: d2 ∨ line = (d1 ++ ' ' :: d2) ++ ['\n']) :
    NumberFormatRegexp 2 line = .ok (some [line, d1, d2]) := by
  have hm : ∃ tail, line = d1 ++ ' ' :: (d2 ++ tail) ∧ (tail = [] ∨ tail = ['\n']) := by
    rcases hl with h | h
    · exact ⟨[], by simp [h], Or.inl rfl⟩
    · exact ⟨['\n'], by simp [h], Or.inr rfl⟩
  obtain ⟨tail, ht, htl⟩ := hm
  have hm1 : matchDigits line = some (d1, ' ' :: (d2 ++ tail)) := by
    refine (matchDigits_eq_some _ _ _).2 ⟨h1, ht, ?_⟩
    intro c hc
    simp only [List.head?_cons, Option.some.injEq] at hc
    rw [← hc]
    rfl
  have hm2 : matchDigits (d2 ++ tail) = some (d2, tail) := by
    refine (matchDigits_eq_some _ _ _).2 ⟨h2, rfl, ?_⟩
    intro c hc
    rcases htl with h | h
    · simp [h] at hc
    · simp only [h, List.head?_cons, Option.some.injEq] at hc
      rw [← hc]
      rfl
  unfold NumberFormatRegexp
  simp only [show (2 : Int) ≠ 1 by decide, if_false, if_true, hm1, hm2, (matchEnd_iff tail).2 htl]

theorem regexp2_some (line : List Char) (ms : List (List Char))
    (h : NumberFormatRegexp 2 line = .ok (some ms)) :
    ∃ d1 d2, IsNumeral d1 ∧ IsNumeral d2 ∧
      (line = d1 ++ ' ' :: d2 ∨ line = (d1 ++ ' ' :: d2) ++ ['\n']) ∧ ms = [line, d1, d2] := by
  unfold NumberFormatRegexp at h
  simp only [show (2 : Int) ≠ 1 by decide, if_false, if_true] at h
  split at h
  · simp at h
  · rename_i d1 rest hm1
    obtain ⟨hd1, hl1, -⟩ := (matchDigits_eq_some _ _ _).1 hm1
    split at h
    · rename_i rest1
      split at h
      · simp at h
      · rename_i d2 rest2 hm2
        obtain ⟨hd2, hl2, -⟩ := (matchDigits_eq_some _ _ _).1 hm2
        split at h
        · rename_i he
          simp only [Except.ok.injEq, Option.some.injEq] at h
          refine ⟨d1, d2, hd1, hd2, ?_, h.symm⟩
          rcases (matchEnd_iff rest2).1 he with h1 | h1
          · left; simp [hl1, hl2, h1]
          · right; simp [hl1, hl2, h1]
        · simp at h
    · simp at h

theorem regexp2_ok (line : List Char) : ∃ o, NumberFormatRegexp 2 line = .ok o := by
  unfold NumberFormatRegexp
  simp only [show (2 : Int) ≠ 1 by decide, if_false, if_true]
  split
  · exact ⟨_, rfl⟩
  · split
    · split
      · exact ⟨_, rfl⟩
      · split <;> exact ⟨_, rfl⟩
    · exact ⟨_, rfl⟩

/-- Function `Atoi` on a run of digits: the value when it fits, an error otherwise. -/
theorem atoi_numeral (ds : List Char) (hd : IsNumeral ds) :
    (numeralValue ds ≤ maxInt ∧ Atoi ds = .ok (numeralValue ds : Int)) ∨
      (¬ numeralValue ds ≤ maxInt ∧ ∃ m, Atoi ds = .error m) := by
  obtain ⟨hne, hall⟩ := hd
  cases ds with
  | nil => exact absurd rfl hne
  | cons c t =>
    have hc := hall c (List.mem_cons_self _ _)
    have hplus : c ≠ '+' := by rintro rfl; simp [Char.isDigit] at hc
    have hminus : c ≠ '-' := by rintro rfl; simp [Char.isDigit] at hc
    have hbody : stripSign (c :: t) = c :: t := by
      unfold stripSign
      split
      · rename_i heq; simp at heq; exact absurd heq.1 hplus
      · rename_i heq; simp at heq; exact absurd heq.1 hminus
      · rfl
    have hall' : (c :: t).all Char.isDigit = true := by
      simp only [List.all_eq_true]
      exact hall
    unfold Atoi
    simp only [hbody, hall', List.head?_cons, Option.some.injEq, hminus, if_false,
      reduceCtorEq, not_true_eq_false, or_self, decimalValue_eq]
    by_cases hfit : numeralValue (c :: t) ≤ maxInt
    · left
      refine ⟨hfit, ?_⟩
      rw [if_neg (by unfold maxInt at hfit; omega)]
    · right
      refine ⟨hfit, ?_⟩
      rw [if_pos (by unfold maxInt at hfit; omega)]
      exact ⟨_, rfl⟩

/-! ## readNumbers -/

theorem readLine_fst (r : Reader) :
    r.readLine.1 = { r with lineNum := r.lineNum + 1, line := (ReadString '\n' r.reader).1,
                            reader := (ReadString '\n' r.reader).2.1 } := by
  unfold Reader.readLine
  simp only
  split <;> rfl

theorem readLine_snd_none (r : Reader) (h : r.readLine.1.line ≠ []) : r.readLine.2 = none := by
  rw [readLine_fst] at h
  unfold Reader.readLine
  simp only
  split
  · rfl
  · rename_i hlen
    exact absurd (List.length_pos.2 h) hlen

theorem readLine_line_nil (r : Reader) (h : r.readLine.2 ≠ none) : r.readLine.1.line = [] := by
  by_contra hne
  exact h (readLine_snd_none r hne)

theorem readNumbers_fst (r : Reader) (msg : GoString) (n : Int) :
    (r.readNumbers msg n).1 = r.readLine.1 := by
  unfold Reader.readNumbers
  rcases r.readLine with ⟨r1, err⟩
  cases err <;> rfl

theorem convertMatches_one (r : Reader) (msg : GoString) (n : Int) (ds : List Char)
    (ints : List Int) (hd : IsNumeral ds) :
    (numeralValue ds ≤ maxInt ∧
      convertMatches r msg n [ds] ints = .ok (ints ++ [(numeralValue ds : Int)])) ∨
    (¬ numeralValue ds ≤ maxInt ∧ ∃ m, convertMatches r msg n [ds] ints = .fail [] (r.Error m)) := by
  rcases atoi_numeral ds hd with ⟨h1, h2⟩ | ⟨h1, m, h2⟩
  · left
    refine ⟨h1, ?_⟩
    simp only [convertMatches, h2]
  · right
    refine ⟨h1, (msg ++ " (" ++ m ++ ")") ++ " " ++ NumberExpectedMsg n, ?_⟩
    simp only [convertMatches, h2]
    rfl

theorem convertMatches_two (r : Reader) (msg : GoString) (n : Int) (d1 d2 : List Char)
    (h1 : IsNumeral d1) (h2 : IsNumeral d2) :
    (numeralValue d1 ≤ maxInt ∧ numeralValue d2 ≤ maxInt ∧
      convertMatches r msg n [d1, d2] [] =
        .ok [(numeralValue d1 : Int), (numeralValue d2 : Int)]) ∨
    (¬ (numeralValue d1 ≤ maxInt ∧ numeralValue d2 ≤ maxInt) ∧
      ∃ m, convertMatches r msg n [d1, d2] [] = .fail [] (r.Error m)) := by
  rcases atoi_numeral d1 h1 with ⟨h3, h4⟩ | ⟨h3, m, h4⟩
  · rcases convertMatches_one r msg n d2 [(numeralValue d1 : Int)] h2 with ⟨h5, h6⟩ | ⟨h5, m, h6⟩
    · left
      refine ⟨h3, h5, ?_⟩
      rw [convertMatches]
      simp only [h4]
      exact h6
    · right
      refine ⟨fun h => h5 h.2, m, ?_⟩
      rw [convertMatches]
      simp only [h4]
      exact h6
  · right
    refine ⟨fun h => h3 h.1, (msg ++ " (" ++ m ++ ")") ++ " " ++ NumberExpectedMsg n, ?_⟩
    rw [convertMatches]
    simp only [h4]
    rfl

theorem parse_of_grammar (r : Reader) (msg : GoString) (n : Int) (nums : List Int)
    (h : LineGrammar n r.line nums) : r.parseNumbers msg n = .ok nums := by
  obtain ⟨b, hl, h1 | h2⟩ := h
  · obtain ⟨hn, k, ⟨hd, hfit, hk⟩, hnums⟩ := h1
    subst hn
    unfold Reader.parseNumbers
    rw [regexp1_of_grammar r.line b hd hl]
    simp only [List.length_cons, List.length_nil, List.tail_cons]
    rw [if_neg (by simp)]
    rcases convertMatches_one r msg 1 b [] hd with ⟨-, h3⟩ | ⟨h3, -⟩
    · rw [h3, hnums, hk]
      rfl
    · exact absurd hfit h3
  · obtain ⟨hn, u, v, ⟨d1, d2, hb, ⟨hd1, hf1, hu⟩, ⟨hd2, hf2, hv⟩⟩, hnums⟩ := h2
    subst hn
    unfold Reader.parseNumbers
    rw [regexp2_of_grammar r.line d1 d2 hd1 hd2 (by rw [← hb]; exact hl)]
    simp only [List.length_cons, List.length_nil, List.tail_cons]
    rw [if_neg (by simp)]
    rcases convertMatches_two r msg 2 d1 d2 hd1 hd2 with ⟨-, -, h3⟩ | ⟨h3, -⟩
    · rw [h3, hnums, hu, hv]
    · exact absurd ⟨hf1, hf2⟩ h3

/-- The conversion of a line either yields numbers that the grammar allows, or a diagnostic of
the reader. -/
theorem parse_cases (r : Reader) (msg : GoString) (n : Int) (hn : n = 1 ∨ n = 2) :
    (∃ nums, LineGrammar n r.line nums ∧ r.parseNumbers msg n = .ok nums) ∨
      (∃ m, r.parseNumbers msg n = .fail [] (r.Error m)) := by
  rcases hn with hn | hn
  · subst hn
    unfold Reader.parseNumbers
    obtain ⟨o, ho⟩ := regexp1_ok r.line
    rw [ho]
    cases o with
    | none => exact Or.inr ⟨_, rfl⟩
    | some ms =>
      obtain ⟨ds, hd, hl, hms⟩ := regexp1_some r.line ms ho
      subst hms
      simp only [List.length_cons, List.length_nil, List.tail_cons]
      rw [if_neg (by simp)]
      rcases convertMatches_one r msg 1 ds [] hd with ⟨h1, h3⟩ | ⟨-, m, h3⟩
      · left
        refine ⟨_, ⟨ds, hl, Or.inl ⟨rfl, _, ⟨hd, h1, rfl⟩, rfl⟩⟩, ?_⟩
        rw [h3]
        rfl
      · exact Or.inr ⟨m, h3⟩
  · subst hn
    unfold Reader.parseNumbers
    obtain ⟨o, ho⟩ := regexp2_ok r.line
    rw [ho]
    cases o with
    | none => exact Or.inr ⟨_, rfl⟩
    | some ms =>
      obtain ⟨d1, d2, hd1, hd2, hl, hms⟩ := regexp2_some r.line ms ho
      subst hms
      simp only [List.length_cons, List.length_nil, List.tail_cons]
      rw [if_neg (by simp)]
      rcases convertMatches_two r msg 2 d1 d2 hd1 hd2 with ⟨h1, h2, h3⟩ | ⟨-, m, h3⟩
      · left
        exact ⟨_, ⟨d1 ++ ' ' :: d2, hl,
          Or.inr ⟨rfl, _, _, ⟨d1, d2, rfl, ⟨hd1, h1, rfl⟩, ⟨hd2, h2, rfl⟩⟩, rfl⟩⟩, h3⟩
      · exact Or.inr ⟨m, h3⟩

theorem parse_ok_iff (r : Reader) (msg : GoString) (n : Int) (hn : n = 1 ∨ n = 2)
    (nums : List Int) : r.parseNumbers msg n = .ok nums ↔ LineGrammar n r.line nums := by
  constructor
  · intro h
    rcases parse_cases r msg n hn with ⟨nums', hg, h1⟩ | ⟨m, h1⟩
    · rw [h] at h1
      simp only [Run.ok.injEq] at h1
      rw [h1]
      exact hg
    · rw [h] at h1
      simp at h1
  · exact parse_of_grammar r msg n nums

/-! ## The reader in terms of lines -/

theorem bodyGrammar_no_newline {n : Int} {b : List Char} {nums : List Int}
    (h : BodyGrammar n b nums) : ∀ c ∈ b, c ≠ '\n' := by
  rcases h with ⟨-, k, ⟨⟨-, hd⟩, -, -⟩, -⟩ | ⟨-, u, v, ⟨d1, d2, hb, ⟨⟨-, hd1⟩, -, -⟩, ⟨⟨-, hd2⟩, -, -⟩⟩, -⟩
  · exact fun c hc => isDigit_ne_newline (hd c hc)
  · intro c hc
    rw [hb] at hc
    simp only [List.mem_append, List.mem_cons] at hc
    rcases hc with h1 | rfl | h1
    · exact isDigit_ne_newline (hd1 c h1)
    · decide
    · exact isDigit_ne_newline (hd2 c h1)

theorem lineGrammar_iff_body {n : Int} {line b : List Char} {nums : List Int}
    (hb : ∀ c ∈ b, c ≠ '\n') (hl : line = b ∨ line = b ++ ['\n']) :
    LineGrammar n line nums ↔ BodyGrammar n b nums := by
  constructor
  · rintro ⟨b', hl', hg⟩
    have hbn := bodyGrammar_no_newline hg
    have : b' = b := by
      rcases hl with h | h <;> rcases hl' with h' | h'
      · rw [h] at h'; exact h'.symm
      · rw [h] at h'
        exact absurd rfl (hb '\n' (by rw [h']; simp))
      · rw [h] at h'
        exact absurd rfl (hbn '\n' (by rw [← h']; simp))
      · rw [h] at h'
        exact (List.append_cancel_right h').symm
    rw [← this]
    exact hg
  · intro hg
    exact ⟨b, hl, hg⟩

/-- Method `strippedLine` after a read. -/
theorem strippedLine_of_line {r : Reader} {b : List Char} (hb : ∀ c ∈ b, c ≠ '\n')
    (hl : r.line = b ∨ r.line = b ++ ['\n']) : r.strippedLine = b := by
  unfold Reader.strippedLine
  rcases hl with h | h
  · rw [h, if_neg]
    rintro ⟨-, h2⟩
    exact hb _ (List.mem_of_getLast?_eq_some h2) rfl
  · rw [h, if_pos (by simp)]
    simp

/-- Method `readLine` when input is left: the first line of the text is consumed. -/
theorem readLine_lines (r : Reader) (h : r.reader ≠ []) :
    ∃ b, textLines r.reader = b :: textLines r.readLine.1.reader ∧ r.readLine.2 = none ∧
      (∀ c ∈ b, c ≠ '\n') ∧ (r.readLine.1.line = b ∨ r.readLine.1.line = b ++ ['\n']) ∧
      r.readLine.1.strippedLine = b := by
  cases hr : r.reader with
  | nil => exact absurd hr h
  | cons c t =>
    obtain ⟨b, h1, h2, h3⟩ := readString_lines c t
    have hb : ∀ x ∈ b, x ≠ '\n' := by simpa using h2
    have hline : r.readLine.1.line = b ∨ r.readLine.1.line = b ++ ['\n'] := by
      rw [readLine_fst, hr]
      rcases h3 with ⟨h4, -⟩ | ⟨h4, -⟩
      · exact Or.inr h4
      · exact Or.inl h4
    refine ⟨b, ?_, ?_, hb, hline, strippedLine_of_line hb hline⟩
    · rw [readLine_fst, hr]
      exact h1
    · apply readLine_snd_none
      rw [readLine_fst, hr]
      rcases h3 with ⟨h4, -⟩ | ⟨h4, -, h5, -⟩
      · simp [h4]
      · simp [h4, h5]

/-- Method `readLine` at the end of the input. -/
theorem readLine_eof (r : Reader) (h : r.reader = []) :
    r.readLine = ({ r with lineNum := r.lineNum + 1, line := [], reader := [] }, some .EOF) := by
  unfold Reader.readLine
  rw [h]
  rfl

theorem readLine_lineNum (r : Reader) : r.readLine.1.lineNum = r.lineNum + 1 := by
  rw [readLine_fst]

theorem readLine_caseNum (r : Reader) : r.readLine.1.caseNum = r.caseNum := by
  rw [readLine_fst]

/-- Method `readNumbers` when input is left: the first line of the text is consumed and the
grammar of its body decides the result. -/
theorem readNumbers_lines (r : Reader) (msg : GoString) (n : Int) (hn : n = 1 ∨ n = 2)
    (b : List Char) (ls : List (List Char)) (h : textLines r.reader = b :: ls) :
    textLines (r.readNumbers msg n).1.reader = ls ∧
      (r.readNumbers msg n).1.strippedLine = b ∧
      ((∃ nums, BodyGrammar n b nums ∧ (r.readNumbers msg n).2 = .ok nums) ∨
        ((∀ nums, ¬ BodyGrammar n b nums) ∧
          ∃ m, (r.readNumbers msg n).2 = .fail [] ((r.readNumbers msg n).1.Error m))) := by
  have hne : r.reader ≠ [] := by
    intro h0
    rw [h0] at h
    simp [textLines] at h
  obtain ⟨b', h1, h2, h3, h4, h5⟩ := readLine_lines r hne
  rw [h] at h1
  simp only [List.cons.injEq] at h1
  obtain ⟨rfl, rfl⟩ := h1
  rw [readNumbers_fst]
  refine ⟨rfl, h5, ?_⟩
  have hres : (r.readNumbers msg n).2 = r.readLine.1.parseNumbers msg n := by
    unfold Reader.readNumbers
    rcases hrl : r.readLine with ⟨r1, err⟩
    rw [hrl] at h2
    simp only at h2
    subst h2
    rfl
  rw [hres]
  rcases parse_cases r.readLine.1 msg n hn with ⟨nums, hg, hp⟩ | ⟨m, hp⟩
  · exact Or.inl ⟨nums, (lineGrammar_iff_body h3 h4).1 hg, hp⟩
  · right
    refine ⟨?_, m, hp⟩
    intro nums hg
    have := parse_of_grammar r.readLine.1 msg n nums ((lineGrammar_iff_body h3 h4).2 hg)
    rw [this] at hp
    simp at hp

/-- Method `readNumbers` at the end of the input. -/
theorem readNumbers_eof (r : Reader) (msg : GoString) (n : Int) (h : r.reader = []) :
    (r.readNumbers msg n).1.reader = [] ∧ (r.readNumbers msg n).1.strippedLine = [] ∧
      ∃ m, (r.readNumbers msg n).2 = .fail [] ((r.readNumbers msg n).1.Error m) := by
  unfold Reader.readNumbers
  rw [readLine_eof r h]
  exact ⟨rfl, rfl, _, rfl⟩

theorem readNumbers_lineNum (r : Reader) (msg : GoString) (n : Int) :
    (r.readNumbers msg n).1.lineNum = r.lineNum + 1 := by
  rw [readNumbers_fst, readLine_lineNum]

theorem readNumbers_caseNum (r : Reader) (msg : GoString) (n : Int) :
    (r.readNumbers msg n).1.caseNum = r.caseNum := by
  rw [readNumbers_fst, readLine_caseNum]

/-! ## Edges -/

theorem denotes_nonneg {d : List Char} {u : Int} (h : Denotes d u) : 0 ≤ u := by
  rw [h.2.2]
  exact Int.natCast_nonneg _

theorem pairLine_nonneg {b : List Char} {u v : Int} (h : PairLine b u v) : 0 ≤ u ∧ 0 ≤ v := by
  obtain ⟨d1, d2, -, h1, h2⟩ := h
  exact ⟨denotes_nonneg h1, denotes_nonneg h2⟩

theorem normEdge_ends (p : Int × Int) :
    (normEdge p).Ends = (min p.1 p.2, max p.1 p.2) := by
  unfold normEdge Edge.Normalize
  simp only
  split
  · rename_i h
    simp only [Prod.mk.injEq]
    constructor <;> omega
  · rename_i h
    cases p
    simp only [Prod.mk.injEq] at h ⊢
    constructor <;> omega

theorem edge_error_none_iff (e : Edge) :
    e.Error = none ↔ e.InRange ∧ e.Ends.1 ≠ e.Ends.2 := by
  unfold Edge.Error Edge.InRange
  split
  · simp only [reduceCtorEq, false_iff]; omega
  · split
    · simp only [reduceCtorEq, false_iff]; omega
    · split
      · simp only [reduceCtorEq, false_iff]; omega
      · simp only [true_iff]; omega

theorem normEdge_error_none_iff (p : Int × Int) (h0 : 0 ≤ p.1 ∧ 0 ≤ p.2) :
    (normEdge p).Error = none ↔ p.1 < MaxNumNodes ∧ p.2 < MaxNumNodes ∧ p.1 ≠ p.2 := by
  rw [edge_error_none_iff]
  unfold Edge.InRange
  rw [normEdge_ends]
  simp only
  omega

theorem normEdge_valid (p : Int × Int) (h0 : 0 ≤ p.1 ∧ 0 ≤ p.2)
    (h : (normEdge p).Error = none) : (normEdge p).Valid := by
  rw [normEdge_error_none_iff p h0] at h
  unfold Edge.Valid
  rw [normEdge_ends]
  simp only
  omega

theorem edgeSet_insert_of_not_mem (E : EdgeSet) (e : Edge) (h : e ∉ E) :
    E.insert e = E ++ [e] := by
  unfold EdgeSet.insert
  rw [if_neg h]

/-! ## The input reader in terms of lines -/

theorem bodyGrammar_two {b : List Char} {nums : List Int} (h : BodyGrammar 2 b nums) :
    ∃ u v, PairLine b u v ∧ nums = [u, v] := by
  rcases h with ⟨h1, -⟩ | ⟨-, h2⟩
  · exact absurd h1 (by decide)
  · exact h2

theorem bodyGrammar_one {b : List Char} {nums : List Int} (h : BodyGrammar 1 b nums) :
    ∃ k, NumLine b k ∧ nums = [k] := by
  rcases h with ⟨-, h1⟩ | ⟨h2, -⟩
  · exact h1
  · exact absurd h2 (by decide)

theorem index?_pair (u v : Int) : index? [u, v] 0 = some u ∧ index? [u, v] 1 = some v := by
  constructor <;> rfl

theorem index?_single (k : Int) : index? [k] 0 = some k := rfl

/-- A successful run of the edge loop of `ReadInputGraph` has consumed as many edge lines as
it had iterations, all with valid and mutually distinct edges. -/
theorem readInputEdges_ok : ∀ (k : Nat) (r : Reader) (E0 : EdgeSet) (r' : Reader) (E : EdgeSet),
    readInputEdges k r E0 = (r', .ok E) →
    ∃ ebs pairs, ebs.length = k ∧ textLines r.reader = ebs ++ textLines r'.reader ∧
      EdgeLines ebs pairs ∧ (∀ p ∈ pairs, (normEdge p).Error = none) ∧
      (pairs.map normEdge).Nodup ∧ (∀ p ∈ pairs, normEdge p ∉ E0) ∧
      E = E0 ++ pairs.map normEdge ∧ r'.caseNum = r.caseNum := by
  intro k
  induction k with
  | zero =>
    intro r E0 r' E h
    simp only [readInputEdges, Prod.mk.injEq, Run.ok.injEq] at h
    obtain ⟨rfl, rfl⟩ := h
    exact ⟨[], [], rfl, by simp, List.Forall₂.nil, by simp, by simp, by simp, by simp, rfl⟩
  | succ k ih =>
    intro r E0 r' E h
    rw [readInputEdges] at h
    have hcase := readNumbers_caseNum r "Cannot parse the next edge." 2
    cases hl : textLines r.reader with
    | nil =>
      obtain ⟨-, -, m, hm⟩ := readNumbers_eof r "Cannot parse the next edge." 2
        ((textLines_eq_nil_iff _).1 hl)
      rcases hres : r.readNumbers "Cannot parse the next edge." 2 with ⟨r1, run⟩
      rw [hres] at h hm
      simp only at hm
      subst hm
      simp at h
    | cons b ls =>
      obtain ⟨h1, -, h3⟩ := readNumbers_lines r "Cannot parse the next edge." 2 (Or.inr rfl) b ls hl
      rcases hres : r.readNumbers "Cannot parse the next edge." 2 with ⟨r1, run⟩
      rw [hres] at h h1 h3 hcase
      simp only at h1 h3 hcase
      rcases h3 with ⟨nums, hg, hrun⟩ | ⟨-, m, hrun⟩
      · subst hrun
        obtain ⟨u, v, hpl, rfl⟩ := bodyGrammar_two hg
        simp only [(index?_pair u v).1, (index?_pair u v).2] at h
        split at h
        · simp at h
        · rename_i herr
          split at h
          · simp at h
          · rename_i hmem
            rw [edgeSet_insert_of_not_mem _ _ hmem] at h
            obtain ⟨ebs, pairs, h4, h5, h6, h7, h8, h9, h10, h11⟩ := ih r1 _ r' E h
            refine ⟨b :: ebs, (u, v) :: pairs, by simp [h4], ?_, List.Forall₂.cons hpl h6,
              ?_, ?_, ?_, ?_, by rw [h11, hcase]⟩
            · rw [List.cons_append, ← h5, h1]
            · intro p hp
              rcases List.mem_cons.1 hp with rfl | hp
              · exact herr
              · exact h7 p hp
            · rw [List.map_cons, List.nodup_cons]
              refine ⟨?_, h8⟩
              intro hm
              obtain ⟨p, hp, hpe⟩ := List.mem_map.1 hm
              apply h9 p hp
              rw [hpe]
              simp [normEdge]
            · intro p hp
              rcases List.mem_cons.1 hp with rfl | hp
              · exact hmem
              · exact fun hm => h9 p hp (List.mem_append_left _ hm)
            · rw [h10]
              simp [normEdge]
      · subst hrun
        simp at h

/-- The edge loop of `ReadInputGraph` on edge lines with valid and mutually distinct edges. -/
theorem readInputEdges_of_lines : ∀ (ebs : List (List Char)) (pairs : List (Int × Int))
    (r : Reader) (E0 : EdgeSet) (rest : List (List Char)),
    textLines r.reader = ebs ++ rest → EdgeLines ebs pairs →
    (∀ p ∈ pairs, (normEdge p).Error = none) → (pairs.map normEdge).Nodup →
    (∀ p ∈ pairs, normEdge p ∉ E0) →
    ∃ r', readInputEdges ebs.length r E0 = (r', .ok (E0 ++ pairs.map normEdge)) ∧
      textLines r'.reader = rest ∧ r'.caseNum = r.caseNum ∧
      r'.lineNum = r.lineNum + ebs.length := by
  intro ebs
  induction ebs with
  | nil =>
    intro pairs r E0 rest hl he _ _ _
    cases he
    exact ⟨r, by simp [readInputEdges], by simpa using hl, rfl, by simp⟩
  | cons b ebs ih =>
    intro pairs r E0 rest hl he herr hnd hmem
    cases he with
    | cons hpl he' =>
      rename_i p pairs
      obtain ⟨h1, -, h3⟩ := readNumbers_lines r "Cannot parse the next edge." 2 (Or.inr rfl)
        b (ebs ++ rest) (by simpa using hl)
      have hcase := readNumbers_caseNum r "Cannot parse the next edge." 2
      have hline := readNumbers_lineNum r "Cannot parse the next edge." 2
      rcases hres : r.readNumbers "Cannot parse the next edge." 2 with ⟨r1, run⟩
      rw [hres] at h1 h3 hcase hline
      simp only at h1 h3 hcase hline
      have hg : BodyGrammar 2 b [p.1, p.2] := Or.inr ⟨rfl, p.1, p.2, hpl, rfl⟩
      rcases h3 with ⟨nums, hg', hrun⟩ | ⟨hno, -⟩
      · have hnums : nums = [p.1, p.2] := by
          obtain ⟨u, v, hpl', rfl⟩ := bodyGrammar_two hg'
          have h5 := parse_of_grammar { r1 with line := b } "" 2 [u, v] ⟨b, Or.inl rfl, hg'⟩
          have h6 := parse_of_grammar { r1 with line := b } "" 2 [p.1, p.2] ⟨b, Or.inl rfl, hg⟩
          rw [h5] at h6
          simpa using h6
        subst hnums
        subst hrun
        have hp1 : (normEdge p).Error = none := herr p (List.mem_cons_self _ _)
        have hp2 : normEdge p ∉ E0 := hmem p (List.mem_cons_self _ _)
        rw [List.map_cons, List.nodup_cons] at hnd
        obtain ⟨r', h7, h8, h9, h10⟩ := ih pairs r1 (E0 ++ [normEdge p]) rest h1 he'
          (fun q hq => herr q (List.mem_cons_of_mem _ hq)) hnd.2 (by
            intro q hq hm
            rcases List.mem_append.1 hm with h | h
            · exact hmem q (List.mem_cons_of_mem _ hq) h
            · rw [List.mem_singleton] at h
              exact hnd.1 (h ▸ List.mem_map_of_mem _ hq))
        refine ⟨r', ?_, h8, by rw [h9, hcase], by rw [h10, hline, List.length_cons]; push_cast; ring⟩
        rw [List.length_cons, readInputEdges, hres]
        simp only [(index?_pair p.1 p.2).1, (index?_pair p.1 p.2).2]
        have hpe : (Edge.mk (p.1, p.2)).Normalize = normEdge p := rfl
        rw [hpe, hp1]
        simp only [hp2, if_false, edgeSet_insert_of_not_mem _ _ hp2]
        rw [h7]
        simp
      · exact absurd hg (hno _)

theorem bodyGrammar_unique {n : Int} {b : List Char} {nums nums' : List Int}
    (h : BodyGrammar n b nums) (h' : BodyGrammar n b nums') : nums = nums' := by
  have h5 := parse_of_grammar { NewInFileReader [] with line := b } "" n nums ⟨b, Or.inl rfl, h⟩
  have h6 := parse_of_grammar { NewInFileReader [] with line := b } "" n nums' ⟨b, Or.inl rfl, h'⟩
  rw [h5] at h6
  simpa using h6

theorem numLine_unique {b : List Char} {k k' : Int} (h : NumLine b k) (h' : NumLine b k') :
    k = k' := by
  rw [h.2.2, h'.2.2]

/-- A successful `ReadInputGraph` has consumed the lines of one case. -/
theorem readInputGraph_ok (r r' : Reader) (E : EdgeSet)
    (h : r.ReadInputGraph = (r', .ok E)) :
    ∃ ls pairs, textLines r.reader = ls ++ textLines r'.reader ∧ CaseLines ls pairs ∧
      (pairs.length : Int) ≤ MaxNumEdges ∧ (∀ p ∈ pairs, (normEdge p).Error = none) ∧
      (pairs.map normEdge).Nodup ∧ E = pairs.map normEdge ∧ r'.caseNum = r.caseNum := by
  unfold Reader.ReadInputGraph at h
  have hcase := readNumbers_caseNum r "Cannot parse the number of edges." 1
  cases hl : textLines r.reader with
  | nil =>
    obtain ⟨-, -, m, hm⟩ := readNumbers_eof r "Cannot parse the number of edges." 1
      ((textLines_eq_nil_iff _).1 hl)
    rcases hres : r.readNumbers "Cannot parse the number of edges." 1 with ⟨r1, run⟩
    rw [hres] at h hm
    simp only at hm
    subst hm
    simp at h
  | cons b ls =>
    obtain ⟨h1, -, h3⟩ := readNumbers_lines r "Cannot parse the number of edges." 1 (Or.inl rfl)
      b ls hl
    rcases hres : r.readNumbers "Cannot parse the number of edges." 1 with ⟨r1, run⟩
    rw [hres] at h h1 h3 hcase
    simp only at h1 h3 hcase
    rcases h3 with ⟨nums, hg, hrun⟩ | ⟨-, m, hrun⟩
    · subst hrun
      obtain ⟨k, hk, rfl⟩ := bodyGrammar_one hg
      simp only [index?_single] at h
      split at h
      · simp at h
      · rename_i hmax
        obtain ⟨ebs, pairs, h4, h5, h6, h7, h8, -, h10, h11⟩ := readInputEdges_ok _ _ _ _ _ h
        have hk0 : 0 ≤ k := denotes_nonneg hk
        have hlen : (ebs.length : Int) = k := by rw [h4]; omega
        have hpl : pairs.length = ebs.length := (List.Forall₂.length_eq h6).symm
        refine ⟨b :: ebs, pairs, ?_, ⟨b, ebs, rfl, hlen ▸ hk, h6⟩, ?_, h7, h8, by simpa using h10,
          by rw [h11, hcase]⟩
        · rw [List.cons_append, ← h5, h1]
        · rw [hpl, hlen]
          omega
    · subst hrun
      simp at h

/-- Method `ReadInputGraph` on the lines of a case with valid and mutually distinct edges. -/
theorem readInputGraph_of_lines (r : Reader) (ls rest : List (List Char))
    (pairs : List (Int × Int)) (hl : textLines r.reader = ls ++ rest) (hc : CaseLines ls pairs)
    (hmax : (pairs.length : Int) ≤ MaxNumEdges) (herr : ∀ p ∈ pairs, (normEdge p).Error = none)
    (hnd : (pairs.map normEdge).Nodup) :
    ∃ r', r.ReadInputGraph = (r', .ok (pairs.map normEdge)) ∧ textLines r'.reader = rest ∧
      r'.caseNum = r.caseNum := by
  obtain ⟨mb, ebs, rfl, hm, he⟩ := hc
  have hpl : pairs.length = ebs.length := (List.Forall₂.length_eq he).symm
  obtain ⟨h1, -, h3⟩ := readNumbers_lines r "Cannot parse the number of edges." 1 (Or.inl rfl)
    mb (ebs ++ rest) (by simpa using hl)
  have hcase := readNumbers_caseNum r "Cannot parse the number of edges." 1
  rcases hres : r.readNumbers "Cannot parse the number of edges." 1 with ⟨r1, run⟩
  rw [hres] at h1 h3 hcase
  simp only at h1 h3 hcase
  have hg : BodyGrammar 1 mb [(ebs.length : Int)] := Or.inl ⟨rfl, _, hm, rfl⟩
  rcases h3 with ⟨nums, hg', hrun⟩ | ⟨hno, -⟩
  · have := bodyGrammar_unique hg' hg
    subst this
    subst hrun
    obtain ⟨r', h7, h8, h9, -⟩ := readInputEdges_of_lines ebs pairs r1 [] rest h1 he herr hnd
      (by simp)
    refine ⟨r', ?_, h8, by rw [h9, hcase]⟩
    unfold Reader.ReadInputGraph
    rw [hres]
    simp only [index?_single]
    rw [if_neg (by rw [← hpl]; omega)]
    simpa using h7
  · exact absurd hg (hno _)

/-- The connectivity check of `ReadInputFile` on an edge set of in-range edges. -/
theorem searched_oneComponent (E keys : List Edge) (hp : keys.Perm E)
    (hk : ∀ e ∈ E, e.InRange) :
    ∃ G, searchedGraph keys = .ok G ∧
      (G.EdgesInOneComponent = true ↔ E ≠ [] ∧ EdgeSet.EdgesConnected E) := by
  obtain ⟨G, h1, -, -, -, h5, -, -⟩ :=
    searchedGraph_spec keys (fun e he => hk e (hp.mem_iff.1 he))
  refine ⟨G, h1, ?_⟩
  unfold EdgeSet.EdgesConnected
  rw [← one_component_iff, ← toSimpleGraph_perm hp, ← nodes_perm hp]
  unfold Graph.EdgesInOneComponent
  rw [h5]
  simp only [beq_iff_eq]
  exact_mod_cast Iff.rfl

theorem caseLines_nonneg {ls : List (List Char)} {pairs : List (Int × Int)}
    (h : CaseLines ls pairs) : ∀ p ∈ pairs, 0 ≤ p.1 ∧ 0 ≤ p.2 := by
  obtain ⟨mb, ebs, -, -, he⟩ := h
  clear mb
  induction he with
  | nil => simp
  | cons hpl _ ih =>
    intro p hp
    rcases List.mem_cons.1 hp with rfl | hp
    · exact pairLine_nonneg hpl
    · exact ih p hp

theorem edges_inRange_of_error_none {pairs : List (Int × Int)}
    (h0 : ∀ p ∈ pairs, 0 ≤ p.1 ∧ 0 ≤ p.2) (herr : ∀ p ∈ pairs, (normEdge p).Error = none) :
    ∀ e ∈ pairs.map normEdge, e.Valid := by
  intro e he
  obtain ⟨p, hp, rfl⟩ := List.mem_map.1 he
  exact normEdge_valid p (h0 p hp) (herr p hp)

/-- A successful run of the case loop of `ReadInputFile` has consumed one valid case per
iteration. -/
theorem readInputCases_ok (order : MapOrder) (ho : order.Fair) :
    ∀ (k : Nat) (r : Reader) (acc : List EdgeSet) (r' : Reader) (sets : List EdgeSet),
    readInputCases order k r acc = (r', .ok sets) →
    ∃ cls news, news.length = k ∧ sets = acc ++ news ∧
      textLines r.reader = cls.flatten ++ textLines r'.reader ∧ List.Forall₂ (AllowedCase 1) cls news := by
  intro k
  induction k with
  | zero =>
    intro r acc r' sets h
    simp only [readInputCases, Prod.mk.injEq, Run.ok.injEq] at h
    obtain ⟨rfl, rfl⟩ := h
    exact ⟨[], [], rfl, by simp, by simp, List.Forall₂.nil⟩
  | succ k ih =>
    intro r acc r' sets h
    rw [readInputCases] at h
    rcases hres : r.ReadInputGraph with ⟨r1, run⟩
    rw [hres] at h
    cases run with
    | crash f => simp at h
    | fail a e => simp at h
    | ok E =>
      simp only at h
      obtain ⟨ls, pairs, h1, h2, h3, h4, h5, h6, -⟩ := readInputGraph_ok r r1 E hres
      have h0 := caseLines_nonneg h2
      have hv : ∀ e ∈ E, e.Valid := h6 ▸ edges_inRange_of_error_none h0 h4
      obtain ⟨G, hG, hone⟩ := searched_oneComponent E (order r1.lineNum E) (ho _ _)
        (fun e he => (hv e he).inRange)
      rw [hG] at h
      simp only at h
      split at h
      · simp at h
      · rename_i hconn
        simp only [Bool.not_eq_true, Bool.not_eq_false] at hconn
        simp only [Bool.not_eq_eq_eq_not, Bool.not_true, Bool.not_eq_false] at hconn
        obtain ⟨cls, news, h7, h8, h9, h10⟩ := ih _ _ _ _ h
        refine ⟨ls :: cls, E :: news, by simp [h7], by simp [h8], ?_, List.Forall₂.cons ?_ h10⟩
        · rw [List.flatten_cons, List.append_assoc, ← h9, h1]
        · have hne := (hone.1 hconn).1
          refine ⟨pairs, h2, ?_, h3,
            fun p hp => (normEdge_error_none_iff p (h0 p hp)).1 (h4 p hp), h5, h6,
            (hone.1 hconn).2⟩
          rw [h6] at hne
          cases pairs with
          | nil => exact absurd rfl hne
          | cons _ _ => simp

/-- The case loop of `ReadInputFile` on the lines of valid cases. -/
theorem readInputCases_of_lines (order : MapOrder) (ho : order.Fair) :
    ∀ (cls : List (List (List Char))) (news : List EdgeSet) (r : Reader) (acc : List EdgeSet)
      (rest : List (List Char)),
    List.Forall₂ (AllowedCase 1) cls news → textLines r.reader = cls.flatten ++ rest →
    ∃ r', readInputCases order news.length r acc = (r', .ok (acc ++ news)) ∧
      textLines r'.reader = rest := by
  intro cls news r acc rest hv
  induction hv generalizing r acc with
  | nil =>
    intro hl
    exact ⟨r, by simp [readInputCases], by simpa using hl⟩
  | @cons ls E cls news hcase _ ih =>
    intro hl
    obtain ⟨pairs, h1, hmin, h2, h3, h4, h5, h6⟩ := hcase
    have hne : E ≠ [] := by
      rw [h5]
      cases pairs with
      | nil => simp at hmin
      | cons _ _ => simp
    have h0 := caseLines_nonneg h1
    have herr : ∀ p ∈ pairs, (normEdge p).Error = none :=
      fun p hp => (normEdge_error_none_iff p (h0 p hp)).2 (h3 p hp)
    obtain ⟨r1, h7, h8, -⟩ := readInputGraph_of_lines r ls (cls.flatten ++ rest) pairs
      (by simpa using hl) h1 h2 herr h4
    have hv : ∀ e ∈ E, e.Valid := h5 ▸ edges_inRange_of_error_none h0 herr
    obtain ⟨G, hG, hone⟩ := searched_oneComponent E (order r1.lineNum E) (ho _ _)
      (fun e he => (hv e he).inRange)
    obtain ⟨r', h9, h10⟩ := ih { r1 with caseNum := r1.caseNum + 1 } (acc ++ [E]) h8
    refine ⟨r', ?_, h10⟩
    rw [List.length_cons, readInputCases, h7, ← h5]
    simp only [hG, hone.2 ⟨hne, h6⟩, Bool.not_true, Bool.false_eq_true, if_false]
    rw [h9]
    simp

/-! ### The allocation of the result of `ReadInputFile` -/

theorem makeslice_ok {n : Int} (h : Allocatable n) : makeslice wordSize n = .ok () := by
  unfold makeslice
  rw [if_neg]
  unfold Allocatable at h
  omega

theorem makeslice_error {n : Int} (h : ¬ Allocatable n) :
    makeslice wordSize n = .error .lenOutOfRange := by
  unfold makeslice
  rw [if_pos]
  unfold Allocatable at h
  omega

theorem allocatable_iff (n : Int) : Allocatable n ↔ 0 ≤ n ∧ n ≤ 2 ^ 45 := by
  unfold Allocatable wordSize maxAlloc
  constructor
  · rintro ⟨h0, h1⟩
    refine ⟨h0, ?_⟩
    norm_num at h1 ⊢
    omega
  · rintro ⟨h0, h1⟩
    refine ⟨h0, ?_⟩
    norm_num at h1 ⊢
    omega

/-- Method `ReadInputFile` accepts exactly the texts that the input format allows and whose
number of cases passes the run-time check of the allocation of the result, and returns the
edge sets of the cases. -/
theorem readInputFile_ok_iff (order : MapOrder) (ho : order.Fair) (r : Reader)
    (sets : List EdgeSet) :
    (r.ReadInputFile order).2 = .ok sets ↔
      AllowedInputFile 1 r.reader sets ∧ Allocatable (sets.length : Int) := by
  constructor
  · intro h
    unfold Reader.ReadInputFile at h
    cases hl : textLines r.reader with
    | nil =>
      obtain ⟨-, -, m, hm⟩ := readNumbers_eof r "Cannot parse the number of input graphs." 1
        ((textLines_eq_nil_iff _).1 hl)
      rcases hres : r.readNumbers "Cannot parse the number of input graphs." 1 with ⟨r1, run⟩
      rw [hres] at h hm
      simp only at hm
      subst hm
      simp at h
    | cons nb ls =>
      obtain ⟨h1, -, h3⟩ := readNumbers_lines r "Cannot parse the number of input graphs." 1
        (Or.inl rfl) nb ls hl
      rcases hres : r.readNumbers "Cannot parse the number of input graphs." 1 with ⟨r1, run⟩
      rw [hres] at h h1 h3
      simp only at h1 h3
      rcases h3 with ⟨nums, hg, hrun⟩ | ⟨-, m, hrun⟩
      · subst hrun
        obtain ⟨k, hk, rfl⟩ := bodyGrammar_one hg
        simp only [index?_single] at h
        by_cases hal : Allocatable k
        swap
        · rw [makeslice_error hal] at h
          simp at h
        rw [makeslice_ok hal] at h
        simp only at h
        rcases hcases : readInputCases order k.toNat { r1 with caseNum := 1 } [] with ⟨r2, run2⟩
        rw [hcases] at h
        cases run2 with
        | crash f => simp at h
        | fail a e => simp at h
        | ok sets' =>
          simp only at h
          obtain ⟨cls, news, h4, h5, h6, h7⟩ := readInputCases_ok order ho _ _ _ _ _ hcases
          simp only [List.nil_append] at h5
          subst h5
          by_cases hr2 : r2.reader = []
          · rw [readLine_eof r2 hr2] at h
            simp only [Run.ok.injEq] at h
            subst h
            have hk0 : 0 ≤ k := denotes_nonneg hk
            have hlen : (sets'.length : Int) = k := by rw [h4]; omega
            refine ⟨⟨nb, cls, ?_, ?_, h7⟩, by rw [hlen]; exact hal⟩
            · simp only at h6
              rw [hl, ← h1, h6, hr2]
              simp [textLines]
            · rw [hlen]
              exact hk
          · obtain ⟨b, -, h8, -⟩ := readLine_lines r2 hr2
            rcases hrl : r2.readLine with ⟨r3, err⟩
            rw [hrl] at h h8
            simp only at h8
            subst h8
            simp at h
      · subst hrun
        simp at h
  · rintro ⟨⟨nb, cls, hl, hn, hv⟩, hal⟩
    obtain ⟨h1, -, h3⟩ := readNumbers_lines r "Cannot parse the number of input graphs." 1
      (Or.inl rfl) nb cls.flatten hl
    rcases hres : r.readNumbers "Cannot parse the number of input graphs." 1 with ⟨r1, run⟩
    rw [hres] at h1 h3
    simp only at h1 h3
    have hg : BodyGrammar 1 nb [(sets.length : Int)] := Or.inl ⟨rfl, _, hn, rfl⟩
    rcases h3 with ⟨nums, hg', hrun⟩ | ⟨hno, -⟩
    · have := bodyGrammar_unique hg' hg
      subst this
      subst hrun
      obtain ⟨r2, h4, h5⟩ := readInputCases_of_lines order ho cls sets { r1 with caseNum := 1 } []
        [] hv (by simpa using h1)
      have hr2 : r2.reader = [] := (textLines_eq_nil_iff _).1 h5
      unfold Reader.ReadInputFile
      rw [hres]
      simp only [index?_single, makeslice_ok hal, Int.toNat_ofNat, h4, readLine_eof r2 hr2,
        List.nil_append]
    · exact absurd hg (hno _)

/-! ## The output reader in terms of lines -/

/-- A successful run of the edge loop of `ReadOutputGraph` has consumed as many edge lines as
it had iterations, all with mutually distinct edges of the input graph. -/
theorem readOutputEdges_ok (inE : EdgeSet) :
    ∀ (k : Nat) (r : Reader) (E0 : EdgeSet) (r' : Reader) (E : EdgeSet),
    readOutputEdges inE k r E0 = (r', .ok E) →
    ∃ ebs pairs, ebs.length = k ∧ textLines r.reader = ebs ++ textLines r'.reader ∧
      EdgeLines ebs pairs ∧ (∀ p ∈ pairs, normEdge p ∈ inE) ∧
      (pairs.map normEdge).Nodup ∧ (∀ p ∈ pairs, normEdge p ∉ E0) ∧
      E = E0 ++ pairs.map normEdge ∧ r'.caseNum = r.caseNum := by
  intro k
  induction k with
  | zero =>
    intro r E0 r' E h
    simp only [readOutputEdges, Prod.mk.injEq, Run.ok.injEq] at h
    obtain ⟨rfl, rfl⟩ := h
    exact ⟨[], [], rfl, by simp, List.Forall₂.nil, by simp, by simp, by simp, by simp, rfl⟩
  | succ k ih =>
    intro r E0 r' E h
    rw [readOutputEdges] at h
    have hcase := readNumbers_caseNum r "Cannot parse the next edge." 2
    cases hl : textLines r.reader with
    | nil =>
      obtain ⟨-, -, m, hm⟩ := readNumbers_eof r "Cannot parse the next edge." 2
        ((textLines_eq_nil_iff _).1 hl)
      rcases hres : r.readNumbers "Cannot parse the next edge." 2 with ⟨r1, run⟩
      rw [hres] at h hm
      simp only at hm
      subst hm
      simp at h
    | cons b ls =>
      obtain ⟨h1, -, h3⟩ := readNumbers_lines r "Cannot parse the next edge." 2 (Or.inr rfl) b ls hl
      rcases hres : r.readNumbers "Cannot parse the next edge." 2 with ⟨r1, run⟩
      rw [hres] at h h1 h3 hcase
      simp only at h1 h3 hcase
      rcases h3 with ⟨nums, hg, hrun⟩ | ⟨-, m, hrun⟩
      · subst hrun
        obtain ⟨u, v, hpl, rfl⟩ := bodyGrammar_two hg
        simp only [(index?_pair u v).1, (index?_pair u v).2] at h
        split at h
        · simp at h
        · rename_i hin
          simp only [not_not] at hin
          split at h
          · simp at h
          · rename_i hmem
            rw [edgeSet_insert_of_not_mem _ _ hmem] at h
            obtain ⟨ebs, pairs, h4, h5, h6, h7, h8, h9, h10, h11⟩ := ih r1 _ r' E h
            refine ⟨b :: ebs, (u, v) :: pairs, by simp [h4], ?_, List.Forall₂.cons hpl h6,
              ?_, ?_, ?_, ?_, by rw [h11, hcase]⟩
            · rw [List.cons_append, ← h5, h1]
            · intro p hp
              rcases List.mem_cons.1 hp with rfl | hp
              · exact hin
              · exact h7 p hp
            · rw [List.map_cons, List.nodup_cons]
              refine ⟨?_, h8⟩
              intro hm
              obtain ⟨p, hp, hpe⟩ := List.mem_map.1 hm
              apply h9 p hp
              rw [hpe]
              simp [normEdge]
            · intro p hp
              rcases List.mem_cons.1 hp with rfl | hp
              · exact hmem
              · exact fun hm => h9 p hp (List.mem_append_left _ hm)
            · rw [h10]
              simp [normEdge]
      · subst hrun
        simp at h

/-- The edge loop of `ReadOutputGraph` on edge lines whose edges all belong to the input
graph: it succeeds when the edges are mutually distinct and returns a diagnostic otherwise. -/
theorem readOutputEdges_of_lines (inE : EdgeSet) :
    ∀ (ebs : List (List Char)) (pairs : List (Int × Int))
    (r : Reader) (E0 : EdgeSet) (rest : List (List Char)),
    textLines r.reader = ebs ++ rest → EdgeLines ebs pairs →
    (∀ p ∈ pairs, normEdge p ∈ inE) →
    (((pairs.map normEdge).Nodup ∧ ∀ p ∈ pairs, normEdge p ∉ E0) ∧
      ∃ r', readOutputEdges inE ebs.length r E0 = (r', .ok (E0 ++ pairs.map normEdge)) ∧
        textLines r'.reader = rest ∧ r'.caseNum = r.caseNum ∧
        r'.lineNum = r.lineNum + ebs.length) ∨
    (¬ ((pairs.map normEdge).Nodup ∧ ∀ p ∈ pairs, normEdge p ∉ E0) ∧
      ∃ r' e, readOutputEdges inE ebs.length r E0 = (r', .fail [] e)) := by
  intro ebs
  induction ebs with
  | nil =>
    intro pairs r E0 rest hl he _
    cases he
    exact Or.inl ⟨by simp, r, by simp [readOutputEdges], by simpa using hl, rfl, by simp⟩
  | cons b ebs ih =>
    intro pairs r E0 rest hl he hin
    cases he with
    | @cons _ p _ pairs hpl he' =>
      obtain ⟨h1, -, h3⟩ := readNumbers_lines r "Cannot parse the next edge." 2 (Or.inr rfl)
        b (ebs ++ rest) (by simpa using hl)
      have hcase := readNumbers_caseNum r "Cannot parse the next edge." 2
      have hline := readNumbers_lineNum r "Cannot parse the next edge." 2
      rcases hres : r.readNumbers "Cannot parse the next edge." 2 with ⟨r1, run⟩
      rw [hres] at h1 h3 hcase hline
      simp only at h1 h3 hcase hline
      have hg : BodyGrammar 2 b [p.1, p.2] := Or.inr ⟨rfl, p.1, p.2, hpl, rfl⟩
      rcases h3 with ⟨nums, hg', hrun⟩ | ⟨hno, -⟩
      · have hnums := bodyGrammar_unique hg' hg
        subst hnums
        subst hrun
        have hp1 : normEdge p ∈ inE := hin p (List.mem_cons_self _ _)
        have hpe : (Edge.mk (p.1, p.2)).Normalize = normEdge p := rfl
        have hstep : readOutputEdges inE (b :: ebs).length r E0 =
            if normEdge p ∈ E0 then
              (r1, .fail [] (r1.Error ("Edge " ++ (normEdge p).String ++
                " (or its reverse) is duplicated.")))
            else readOutputEdges inE ebs.length r1 (E0 ++ [normEdge p]) := by
          rw [List.length_cons, readOutputEdges, hres]
          simp only [(index?_pair p.1 p.2).1, (index?_pair p.1 p.2).2, hpe, hp1,
            not_true_eq_false, if_false]
          split
          · rfl
          · rename_i hmem
            rw [edgeSet_insert_of_not_mem _ _ hmem]
        by_cases hp2 : normEdge p ∈ E0
        · right
          refine ⟨fun h => h.2 p (List.mem_cons_self _ _) hp2, r1,
            r1.Error ("Edge " ++ (normEdge p).String ++ " (or its reverse) is duplicated."), ?_⟩
          rw [hstep, if_pos hp2]
        · rw [hstep, if_neg hp2]
          rcases ih pairs r1 (E0 ++ [normEdge p]) rest h1 he'
            (fun q hq => hin q (List.mem_cons_of_mem _ hq)) with ⟨⟨h5, h6⟩, r', h7, h8, h9, h10⟩ |
            ⟨h5, r', e, h7⟩
          · left
            refine ⟨⟨?_, ?_⟩, r', ?_, h8, by rw [h9, hcase],
              by rw [h10, hline, List.length_cons]; push_cast; ring⟩
            · rw [List.map_cons, List.nodup_cons]
              refine ⟨?_, h5⟩
              intro hm
              obtain ⟨q, hq, hqe⟩ := List.mem_map.1 hm
              exact h6 q hq (by rw [hqe]; simp)
            · intro q hq
              rcases List.mem_cons.1 hq with rfl | hq
              · exact hp2
              · exact fun hm => h6 q hq (List.mem_append_left _ hm)
            · rw [h7]
              simp
          · right
            refine ⟨?_, r', e, h7⟩
            rintro ⟨h11, h12⟩
            apply h5
            rw [List.map_cons, List.nodup_cons] at h11
            refine ⟨h11.2, ?_⟩
            intro q hq hm
            rcases List.mem_append.1 hm with h | h
            · exact h12 q (List.mem_cons_of_mem _ hq) h
            · rw [List.mem_singleton] at h
              exact h11.1 (h ▸ List.mem_map_of_mem _ hq)
      · exact absurd hg (hno _)

/-! ## Summary of `Search` for an edge set of valid edges -/

theorem connected_iff_card {V : Type} (H : SimpleGraph V) :
    H.Connected ↔ Nat.card H.ConnectedComponent = 1 := by
  rw [Nat.card_eq_one_iff_unique, SimpleGraph.connected_iff]
  constructor
  · rintro ⟨hp, ⟨v⟩⟩
    exact ⟨hp.subsingleton_connectedComponent, ⟨H.connectedComponentMk v⟩⟩
  · rintro ⟨hs, ⟨c⟩⟩
    refine ⟨fun u v => SimpleGraph.ConnectedComponent.exact (hs.elim _ _), ?_⟩
    induction c using SimpleGraph.ConnectedComponent.ind with
    | h v => exact ⟨v⟩

theorem degree_perm {E keys : List Edge} (h : keys.Perm E) (u : Int) :
    EdgeSet.degree keys u = EdgeSet.degree E u := by
  unfold EdgeSet.degree
  exact h.countP_eq _

theorem nodes_finite (E : EdgeSet) (hk : ∀ e ∈ E, e.InRange) : (EdgeSet.nodes E).Finite := by
  apply (Set.finite_Ico (0 : Int) MaxNumNodes).subset
  rintro u ⟨e, he, h | h⟩
  · rw [← h]; exact (hk e he).1
  · rw [← h]; exact (hk e he).2

theorem nodes_mono {E F : EdgeSet} (h : ∀ e ∈ E, e ∈ F) : EdgeSet.nodes E ⊆ EdgeSet.nodes F := by
  rintro u ⟨e, he, hu⟩
  exact ⟨e, h e he, hu⟩

/-- What `EdgeSet.Graph` followed by `Search` computes for an edge set of valid, mutually
distinct edges, whatever the enumeration of the set. -/
theorem searched_summary (E keys : List Edge) (hp : keys.Perm E) (hv : ∀ e ∈ E, e.Valid)
    (hn : E.Nodup) :
    ∃ G, searchedGraph keys = .ok G ∧
      G.NumNodes = Set.ncard (EdgeSet.nodes E) ∧
      G.NumLeaves = Set.ncard {u : Int | EdgeSet.degree E u = 1} ∧
      (G.EdgesInOneComponent = true ↔ E ≠ [] ∧ EdgeSet.EdgesConnected E) ∧
      (G.HasCycle = true ↔ ¬ (EdgeSet.toSimpleGraph E).IsAcyclic) := by
  have hvk : ∀ e ∈ keys, e.Valid := fun e he => hv e (hp.mem_iff.1 he)
  have hnk : keys.Nodup := hp.nodup_iff.2 hn
  obtain ⟨G, h1, -, h3, h4, h5, h6, h7⟩ := searchedGraph_spec keys (fun e he => (hvk e he).inRange)
  refine ⟨G, h1, ?_, ?_, ?_, ?_⟩
  · rw [h3, nodes_perm hp]
  · rw [h4]
    congr 2
    ext u
    simp only [Set.mem_setOf_eq]
    rw [length_adjOf_valid keys hvk, degree_perm hp]
  · unfold EdgeSet.EdgesConnected
    rw [← one_component_iff, ← toSimpleGraph_perm hp, ← nodes_perm hp]
    unfold Graph.EdgesInOneComponent
    rw [h5]
    simp only [beq_iff_eq]
    exact_mod_cast Iff.rfl
  · rw [← toSimpleGraph_perm hp]
    exact hasCycle_iff_of_spec h6 (h7 hvk hnk)

/-- The node count that `ReadOutputGraph` computes for the input graph. -/
theorem searched_numNodes (E keys : List Edge) (hp : keys.Perm E) (hk : ∀ e ∈ E, e.InRange) :
    ∃ G, searchedGraph keys = .ok G ∧ G.NumNodes = Set.ncard (EdgeSet.nodes E) := by
  obtain ⟨G, h1, -, h3, -⟩ := searchedGraph_spec keys (fun e he => hk e (hp.mem_iff.1 he))
  exact ⟨G, h1, by rw [h3, nodes_perm hp]⟩

theorem mapped_valid {G : EdgeSet} {pairs : List (Int × Int)} (hG : ∀ e ∈ G, e.Valid)
    (hin : ∀ p ∈ pairs, normEdge p ∈ G) : ∀ e ∈ pairs.map normEdge, e.Valid := by
  intro e he
  obtain ⟨p, hp, rfl⟩ := List.mem_map.1 he
  exact hG _ (hin p hp)

theorem nodes_eq_of_ncard {E G : EdgeSet} (hG : ∀ e ∈ G, e.InRange) (hsub : ∀ e ∈ E, e ∈ G) :
    ((Set.ncard (EdgeSet.nodes E) : Int) = Set.ncard (EdgeSet.nodes G)) ↔
      EdgeSet.nodes E = EdgeSet.nodes G := by
  constructor
  · intro h
    exact Set.eq_of_subset_of_ncard_le (nodes_mono hsub) (by omega) (nodes_finite G hG)
  · intro h
    rw [h]

/-- Method `ReadOutputGraph` on the lines of a case whose edges all belong to the input graph:
it returns the leaf count when the listed edges pass all checks, and a diagnostic otherwise. -/
theorem readOutputGraph_cases (order : MapOrder) (ho : order.Fair) (r : Reader) (G : EdgeSet)
    (hG : ∀ e ∈ G, e.Valid) (mb : List Char) (M : Int) (ebs rest : List (List Char))
    (pairs : List (Int × Int)) (hl : textLines r.reader = mb :: (ebs ++ rest))
    (hM : NumLine mb M) (hlen : (ebs.length : Int) = M) (he : EdgeLines ebs pairs)
    (hin : ∀ p ∈ pairs, normEdge p ∈ G) :
    (Accepts G M (pairs.map normEdge) ∧
      (r.ReadOutputGraph order G).2 =
        .ok (Set.ncard {u : Int | EdgeSet.degree (pairs.map normEdge) u = 1} : Int) ∧
      textLines (r.ReadOutputGraph order G).1.reader = rest) ∨
    (¬ Accepts G M (pairs.map normEdge) ∧ ∃ e, (r.ReadOutputGraph order G).2 = .fail InvalidNumLeaves e) := by
  have hGr : ∀ e ∈ G, e.InRange := fun e h => (hG e h).inRange
  obtain ⟨h1, -, h3⟩ := readNumbers_lines r "Cannot parse the number of edges." 1 (Or.inl rfl)
    mb (ebs ++ rest) hl
  rcases hres : r.readNumbers "Cannot parse the number of edges." 1 with ⟨r1, run⟩
  rw [hres] at h1 h3
  simp only at h1 h3
  have hg : BodyGrammar 1 mb [M] := Or.inl ⟨rfl, _, hM, rfl⟩
  rcases h3 with ⟨nums, hg', hrun⟩ | ⟨hno, -⟩
  swap
  · exact absurd hg (hno _)
  have := bodyGrammar_unique hg' hg
  subst this
  subst hrun
  obtain ⟨Gin, hGin, hnodes⟩ := searched_numNodes G (order r1.lineNum G) (ho _ _) hGr
  unfold Reader.ReadOutputGraph
  rw [hres]
  simp only [hGin, index?_single]
  by_cases hcount : M = Gin.NumNodes - 1
  swap
  · right
    rw [if_pos hcount]
    refine ⟨fun h => hcount (by rw [hnodes]; exact h.2.1), _, rfl⟩
  rw [if_neg (not_not.2 hcount)]
  have hk : M.toNat = ebs.length := by omega
  rw [hk]
  rcases readOutputEdges_of_lines G ebs pairs r1 [] rest h1 he hin with
    ⟨⟨hnd, -⟩, r2, h5, h6, -, -⟩ | ⟨hnd, r2, e, h5⟩
  swap
  · right
    rw [h5]
    refine ⟨fun h => hnd ⟨h.1, by simp⟩, e, rfl⟩
  rw [h5]
  simp only [List.nil_append]
  have hEv : ∀ e ∈ pairs.map normEdge, e.Valid := mapped_valid hG hin
  have hsub : ∀ e ∈ pairs.map normEdge, e ∈ G := by
    intro e he
    obtain ⟨p, hp, rfl⟩ := List.mem_map.1 he
    exact hin p hp
  obtain ⟨Gout, hGout, hn, hleaves, hconn, hcyc⟩ :=
    searched_summary (pairs.map normEdge) (order r2.lineNum (pairs.map normEdge)) (ho _ _) hEv hnd
  simp only [hGout]
  by_cases hnn : Gout.NumNodes = Gin.NumNodes
  swap
  · right
    rw [if_pos hnn]
    refine ⟨fun h => hnn ?_, _, rfl⟩
    rw [hn, hnodes, h.2.2.1]
  rw [if_neg (not_not.2 hnn)]
  have hnodesEq : EdgeSet.nodes (pairs.map normEdge) = EdgeSet.nodes G :=
    (nodes_eq_of_ncard hGr hsub).1 (by rw [← hn, ← hnodes]; exact hnn)
  have hne : pairs.map normEdge ≠ [] := by
    intro hnil
    have h0 : EdgeSet.nodes (pairs.map normEdge) = ∅ := by
      rw [hnil]
      ext u
      simp [EdgeSet.nodes]
    rw [h0] at hn
    simp only [Set.ncard_empty, Nat.cast_zero] at hn
    omega
  by_cases hc : Gout.EdgesInOneComponent = true
  swap
  · right
    simp only [hc, Bool.not_false, if_true, Bool.false_eq_true, not_false_eq_true]
    refine ⟨fun h => hc (hconn.2 ⟨hne, h.2.2.2.1⟩), _, rfl⟩
  simp only [hc, Bool.not_true, Bool.false_eq_true, if_false]
  by_cases hcy : Gout.HasCycle = true
  · right
    rw [if_pos hcy]
    refine ⟨fun h => hcyc.1 hcy h.2.2.2.2, _, rfl⟩
  · left
    rw [if_neg hcy]
    refine ⟨⟨hnd, by rw [hcount, hnodes], hnodesEq, (hconn.1 hc).2, ?_⟩, ?_, h6⟩
    · by_contra hna
      exact hcy (hcyc.2 hna)
    · simp only [hleaves]

/-- A successful `ReadOutputGraph` has consumed the lines of one accepted case. -/
theorem readOutputGraph_ok (order : MapOrder) (ho : order.Fair) (r r' : Reader) (G : EdgeSet)
    (hG : ∀ e ∈ G, e.Valid) (L : Int) (h : r.ReadOutputGraph order G = (r', .ok L)) :
    ∃ ls, textLines r.reader = ls ++ textLines r'.reader ∧ OutputCase G ls L := by
  have h0 := h
  unfold Reader.ReadOutputGraph at h
  cases hl : textLines r.reader with
  | nil =>
    obtain ⟨-, -, m, hm⟩ := readNumbers_eof r "Cannot parse the number of edges." 1
      ((textLines_eq_nil_iff _).1 hl)
    rcases hres : r.readNumbers "Cannot parse the number of edges." 1 with ⟨r1, run⟩
    rw [hres] at h hm
    simp only at hm
    subst hm
    simp at h
  | cons b ls =>
    obtain ⟨h1, -, h3⟩ := readNumbers_lines r "Cannot parse the number of edges." 1 (Or.inl rfl)
      b ls hl
    rcases hres : r.readNumbers "Cannot parse the number of edges." 1 with ⟨r1, run⟩
    rw [hres] at h h1 h3
    simp only at h1 h3
    rcases h3 with ⟨nums, hg, hrun⟩ | ⟨-, m, hrun⟩
    swap
    · subst hrun
      simp at h
    subst hrun
    obtain ⟨M, hM, rfl⟩ := bodyGrammar_one hg
    simp only [index?_single] at h
    split at h
    · simp at h
    rename_i Gin hGin
    split at h
    · simp at h
    rcases hedges : readOutputEdges G M.toNat r1 [] with ⟨r2, run2⟩
    rw [hedges] at h
    cases run2 with
    | crash f => simp at h
    | fail a e => simp at h
    | ok E =>
      obtain ⟨ebs, pairs, h4, h5, h6, h7, h8, -, h10, -⟩ := readOutputEdges_ok G _ _ _ _ _ hedges
      have hM0 : 0 ≤ M := denotes_nonneg hM
      have hlen : (ebs.length : Int) = M := by rw [h4]; omega
      have hpl : pairs.length = ebs.length := (List.Forall₂.length_eq h6).symm
      have hlines : textLines r.reader = b :: (ebs ++ textLines r2.reader) := by
        rw [hl, ← h5, h1]
      rcases readOutputGraph_cases order ho r G hG b M ebs (textLines r2.reader) pairs hlines hM
        hlen h6 h7 with ⟨hacc, hok, hrest⟩ | ⟨-, e, hfail⟩
      · rw [h0] at hok hrest
        simp only [Run.ok.injEq] at hok
        simp only at hrest
        refine ⟨b :: ebs, ?_, pairs, ⟨b, ebs, rfl, hlen ▸ hM, h6⟩, h7, ?_, hok⟩
        · rw [hrest, ← h1, h5]
          simp
        · rw [hpl, hlen]
          exact hacc
      · rw [h0] at hfail
        simp at hfail

/-- Method `ReadOutputGraph` on the lines of an accepted case. -/
theorem readOutputGraph_of_case (order : MapOrder) (ho : order.Fair) (r : Reader) (G : EdgeSet)
    (hG : ∀ e ∈ G, e.Valid) (ls rest : List (List Char)) (L : Int)
    (hl : textLines r.reader = ls ++ rest) (hc : OutputCase G ls L) :
    ∃ r', r.ReadOutputGraph order G = (r', .ok L) ∧ textLines r'.reader = rest := by
  obtain ⟨pairs, ⟨mb, ebs, rfl, hM, he⟩, hin, hacc, hL⟩ := hc
  have hpl : pairs.length = ebs.length := (List.Forall₂.length_eq he).symm
  rcases readOutputGraph_cases order ho r G hG mb (ebs.length : Int) ebs rest pairs
    (by simpa using hl) hM rfl he hin with ⟨-, hok, hrest⟩ | ⟨hno, -⟩
  · exact ⟨(r.ReadOutputGraph order G).1, by rw [hL, ← hok], hrest⟩
  · rw [hpl] at hacc
    exact absurd hacc hno

/-- A successful run of the case loop of `ReadOutputFile` has consumed one accepted case per
input edge set. -/
theorem readOutputCases_ok (order : MapOrder) (ho : order.Fair) :
    ∀ (sets : List EdgeSet) (r : Reader) (acc : List Int) (r' : Reader) (leaves : List Int),
    (∀ G ∈ sets, ∀ e ∈ G, e.Valid) →
    readOutputCases order sets r acc = (r', .ok leaves) →
    ∃ xs : List (List (List Char) × Int), leaves = acc ++ xs.map Prod.snd ∧
      textLines r.reader = (xs.map Prod.fst).flatten ++ textLines r'.reader ∧
      List.Forall₂ (fun G (x : List (List Char) × Int) => OutputCase G x.1 x.2) sets xs := by
  intro sets
  induction sets with
  | nil =>
    intro r acc r' leaves _ h
    simp only [readOutputCases, Prod.mk.injEq, Run.ok.injEq] at h
    obtain ⟨rfl, rfl⟩ := h
    exact ⟨[], by simp, by simp, List.Forall₂.nil⟩
  | cons G sets ih =>
    intro r acc r' leaves hv h
    rw [readOutputCases] at h
    rcases hres : r.ReadOutputGraph order G with ⟨r1, run⟩
    rw [hres] at h
    cases run with
    | crash f => simp at h
    | fail a e => simp at h
    | ok L =>
      simp only at h
      obtain ⟨ls, h1, h2⟩ := readOutputGraph_ok order ho r r1 G
        (hv G (List.mem_cons_self _ _)) L hres
      obtain ⟨xs, h3, h4, h5⟩ := ih _ _ _ _ (fun G' hG' => hv G' (List.mem_cons_of_mem _ hG')) h
      refine ⟨(ls, L) :: xs, by simp [h3], ?_, List.Forall₂.cons h2 h5⟩
      simp only at h4
      rw [List.map_cons, List.flatten_cons, List.append_assoc, ← h4, h1]

/-- The case loop of `ReadOutputFile` on the lines of accepted cases. -/
theorem readOutputCases_of_cases (order : MapOrder) (ho : order.Fair) :
    ∀ (sets : List EdgeSet) (xs : List (List (List Char) × Int)) (r : Reader) (acc : List Int)
      (rest : List (List Char)),
    (∀ G ∈ sets, ∀ e ∈ G, e.Valid) →
    List.Forall₂ (fun G (x : List (List Char) × Int) => OutputCase G x.1 x.2) sets xs →
    textLines r.reader = (xs.map Prod.fst).flatten ++ rest →
    ∃ r', readOutputCases order sets r acc = (r', .ok (acc ++ xs.map Prod.snd)) ∧
      textLines r'.reader = rest := by
  intro sets xs r acc rest hv hf
  induction hf generalizing r acc with
  | nil =>
    intro hl
    exact ⟨r, by simp [readOutputCases], by simpa using hl⟩
  | @cons G x sets xs hcase _ ih =>
    intro hl
    obtain ⟨r1, h1, h2⟩ := readOutputGraph_of_case order ho r G (hv G (List.mem_cons_self _ _))
      x.1 ((xs.map Prod.fst).flatten ++ rest) x.2 (by simpa using hl) hcase
    obtain ⟨r', h3, h4⟩ := ih { r1 with caseNum := r1.caseNum + 1 } (acc ++ [x.2])
      (fun G' hG' => hv G' (List.mem_cons_of_mem _ hG')) h2
    refine ⟨r', ?_, h4⟩
    rw [readOutputCases, h1]
    simp only [h3]
    simp

/-- Method `ReadOutputFile` accepts exactly the texts that hold one accepted case per input
edge set, and returns the leaf counts of the cases. -/
theorem readOutputFile_ok_iff (order : MapOrder) (ho : order.Fair) (r : Reader)
    (sets : List EdgeSet) (hv : ∀ G ∈ sets, ∀ e ∈ G, e.Valid) (leaves : List Int) :
    (r.ReadOutputFile order sets).2 = .ok leaves ↔ ValidOutputFile sets r.reader leaves := by
  constructor
  · intro h
    unfold Reader.ReadOutputFile at h
    cases hl : textLines r.reader with
    | nil =>
      obtain ⟨-, -, m, hm⟩ := readNumbers_eof r "Cannot parse the number of output graphs." 1
        ((textLines_eq_nil_iff _).1 hl)
      rcases hres : r.readNumbers "Cannot parse the number of output graphs." 1 with ⟨r1, run⟩
      rw [hres] at h hm
      simp only at hm
      subst hm
      simp at h
    | cons nb ls =>
      obtain ⟨h1, -, h3⟩ := readNumbers_lines r "Cannot parse the number of output graphs." 1
        (Or.inl rfl) nb ls hl
      rcases hres : r.readNumbers "Cannot parse the number of output graphs." 1 with ⟨r1, run⟩
      rw [hres] at h h1 h3
      simp only at h1 h3
      rcases h3 with ⟨nums, hg, hrun⟩ | ⟨-, m, hrun⟩
      swap
      · subst hrun
        simp at h
      subst hrun
      obtain ⟨k, hk, rfl⟩ := bodyGrammar_one hg
      simp only [index?_single] at h
      split at h
      · simp at h
      rename_i hcount
      simp only [ne_eq, not_not] at hcount
      rcases hcases : readOutputCases order sets { r1 with caseNum := 1 } [] with ⟨r2, run2⟩
      rw [hcases] at h
      cases run2 with
      | crash f => simp at h
      | fail a e => simp at h
      | ok leaves' =>
        simp only at h
        obtain ⟨xs, h4, h5, h6⟩ := readOutputCases_ok order ho _ _ _ _ _ hv hcases
        simp only [List.nil_append] at h4
        by_cases hr2 : r2.reader = []
        · rw [readLine_eof r2 hr2] at h
          simp only [Run.ok.injEq] at h
          subst h
          refine ⟨nb, xs, ?_, hcount ▸ hk, h6, h4⟩
          simp only at h5
          rw [hl, ← h1, h5, hr2]
          simp [textLines]
        · obtain ⟨b, -, h8, -⟩ := readLine_lines r2 hr2
          rcases hrl : r2.readLine with ⟨r3, err⟩
          rw [hrl] at h h8
          simp only at h8
          subst h8
          simp at h
  · rintro ⟨nb, xs, hl, hn, hf, hleaves⟩
    obtain ⟨h1, -, h3⟩ := readNumbers_lines r "Cannot parse the number of output graphs." 1
      (Or.inl rfl) nb _ hl
    rcases hres : r.readNumbers "Cannot parse the number of output graphs." 1 with ⟨r1, run⟩
    rw [hres] at h1 h3
    simp only at h1 h3
    have hg : BodyGrammar 1 nb [(sets.length : Int)] := Or.inl ⟨rfl, _, hn, rfl⟩
    rcases h3 with ⟨nums, hg', hrun⟩ | ⟨hno, -⟩
    · have := bodyGrammar_unique hg' hg
      subst this
      subst hrun
      obtain ⟨r2, h4, h5⟩ := readOutputCases_of_cases order ho sets xs { r1 with caseNum := 1 } []
        [] hv hf (by simpa using h1)
      have hr2 : r2.reader = [] := (textLines_eq_nil_iff _).1 h5
      unfold Reader.ReadOutputFile
      rw [hres]
      simp only [index?_single, ne_eq, not_true_eq_false, if_false, h4, readLine_eof r2 hr2,
        List.nil_append, hleaves]
    · exact absurd hg (hno _)

/-! ## Positions and diagnostics -/

theorem stamped_error (r : Reader) (m : GoString) : Stamped r (r.Error m) :=
  ⟨rfl, rfl, rfl⟩

theorem synced_new (t : List Char) : Synced t (NewInFileReader t) :=
  ⟨by simp [NewInFileReader], by simp [NewInFileReader], by simp [NewInFileReader]⟩

theorem drop_eq_cons_getD {α : Type} {L : List α} {k : Nat} {b : α} {ls : List α} (d : α)
    (h : L.drop k = b :: ls) : L.drop (k + 1) = ls ∧ L.getD k d = b := by
  have hlt : k < L.length := by
    by_contra hge
    rw [List.drop_of_length_le (by omega)] at h
    simp at h
  rw [List.drop_eq_getElem_cons hlt] at h
  simp only [List.cons.injEq] at h
  refine ⟨h.2, ?_⟩
  rw [List.getD_eq_getElem _ _ hlt]
  exact h.1

theorem synced_readLine (t : List Char) (r : Reader) (h : Synced t r) :
    Synced t r.readLine.1 := by
  have hk : r.readLine.1.lineNum.toNat = r.lineNum.toNat + 1 := by
    rw [readLine_lineNum]
    have := h.nonneg
    omega
  by_cases hr : r.reader = []
  · rw [readLine_eof r hr]
    have h1 := h.rest
    rw [hr] at h1
    simp only [textLines_nil] at h1
    have hlen : (textLines t).length ≤ r.lineNum.toNat :=
      List.drop_eq_nil_iff.1 h1.symm
    refine ⟨by have := h.nonneg; simp only; omega, ?_, ?_⟩
    · simp only [textLines_nil]
      rw [List.drop_of_length_le]
      have := h.nonneg
      omega
    · intro _
      simp only [Reader.strippedLine, List.length_nil, gt_iff_lt, Nat.lt_irrefl, false_and,
        if_false]
      rw [List.getD_eq_default]
      have := h.nonneg
      omega
  · obtain ⟨b, h1, -, -, -, h5⟩ := readLine_lines r hr
    rw [h.rest] at h1
    obtain ⟨h6, h7⟩ := drop_eq_cons_getD [] h1
    refine ⟨by rw [readLine_lineNum]; have := h.nonneg; omega, ?_, ?_⟩
    · rw [hk, h6]
    · intro _
      rw [hk, h5, Nat.add_sub_cancel, h7]

theorem synced_caseNum (t : List Char) (r : Reader) (c : Int) (h : Synced t r) :
    Synced t { r with caseNum := c } :=
  ⟨h.nonneg, h.rest, h.line⟩

theorem synced_readNumbers (t : List Char) (r : Reader) (msg : GoString) (n : Int)
    (h : Synced t r) : Synced t (r.readNumbers msg n).1 := by
  rw [readNumbers_fst]
  exact synced_readLine t r h

theorem convertMatches_fail (r : Reader) (msg : GoString) (n : Int) :
    ∀ (ms : List (List Char)) (ints : List Int) (a : List Int) (e : Mlst.Error),
    convertMatches r msg n ms ints = .fail a e → a = [] ∧ Stamped r e := by
  intro ms
  induction ms with
  | nil =>
    intro ints a e h
    simp [convertMatches] at h
  | cons m ms ih =>
    intro ints a e h
    rw [convertMatches] at h
    split at h
    · simp only [Run.fail.injEq] at h
      exact ⟨h.1.symm, h.2 ▸ stamped_error _ _⟩
    · exact ih _ _ _ h

theorem convertMatches_not_crash (r : Reader) (msg : GoString) (n : Int) :
    ∀ (ms : List (List Char)) (ints : List Int) (f : Fault),
    convertMatches r msg n ms ints ≠ .crash f := by
  intro ms
  induction ms with
  | nil =>
    intro ints f h
    simp [convertMatches] at h
  | cons m ms ih =>
    intro ints f h
    rw [convertMatches] at h
    split at h
    · simp at h
    · exact ih _ _ h

/-- A diagnostic of `readNumbers` comes with no numbers and carries the position of the
reader after the read. -/
theorem readNumbers_fail (r : Reader) (msg : GoString) (n : Int) (r1 : Reader)
    (a : List Int) (e : Mlst.Error) (h : r.readNumbers msg n = (r1, .fail a e)) :
    a = [] ∧ Stamped r1 e := by
  unfold Reader.readNumbers at h
  rcases hrl : r.readLine with ⟨r0, err⟩
  rw [hrl] at h
  cases err with
  | some err =>
    simp only [Prod.mk.injEq, Run.fail.injEq] at h
    obtain ⟨rfl, h1, h2⟩ := h
    exact ⟨h1.symm, h2 ▸ stamped_error _ _⟩
  | none =>
    simp only [Prod.mk.injEq] at h
    obtain ⟨rfl, h2⟩ := h
    unfold Reader.parseNumbers at h2
    split at h2
    · simp at h2
    · simp only [Run.fail.injEq] at h2
      exact ⟨h2.1.symm, h2.2 ▸ stamped_error _ _⟩
    · split at h2
      · simp only [Run.fail.injEq] at h2
        exact ⟨h2.1.symm, h2.2 ▸ stamped_error _ _⟩
      · exact convertMatches_fail _ _ _ _ _ _ _ h2

/-- With arity one or two `readNumbers` does not panic. -/
theorem readNumbers_not_crash (r : Reader) (msg : GoString) (n : Int) (hn : n = 1 ∨ n = 2)
    (r1 : Reader) (f : Fault) : r.readNumbers msg n ≠ (r1, .crash f) := by
  intro h
  have h1 : (r.readNumbers msg n).2 = .crash f := by rw [h]
  unfold Reader.readNumbers at h1
  rcases hrl : r.readLine with ⟨r0, err⟩
  rw [hrl] at h1
  cases err with
  | some err => simp at h1
  | none =>
    simp only at h1
    rcases parse_cases r0 msg n hn with ⟨nums, -, hp⟩ | ⟨m, hp⟩
    · rw [hp] at h1; simp at h1
    · rw [hp] at h1; simp at h1

theorem readInputEdges_post (t : List Char) :
    ∀ (k : Nat) (r : Reader) (E0 : EdgeSet) (r' : Reader) (res : Run EdgeSet),
    readInputEdges k r E0 = (r', res) → Synced t r →
    Synced t r' ∧ r'.caseNum = r.caseNum ∧ ∀ a e, res = .fail a e → Stamped r' e := by
  intro k
  induction k with
  | zero =>
    intro r E0 r' res h hs
    simp only [readInputEdges, Prod.mk.injEq] at h
    obtain ⟨rfl, rfl⟩ := h
    exact ⟨hs, rfl, by simp⟩
  | succ k ih =>
    intro r E0 r' res h hs
    rw [readInputEdges] at h
    have hs1 := synced_readNumbers t r "Cannot parse the next edge." 2 hs
    have hc1 := readNumbers_caseNum r "Cannot parse the next edge." 2
    rcases hres : r.readNumbers "Cannot parse the next edge." 2 with ⟨r1, run⟩
    rw [hres] at h hs1 hc1
    simp only at hs1 hc1
    cases run with
    | crash f =>
      simp only [Prod.mk.injEq] at h
      obtain ⟨rfl, rfl⟩ := h
      exact ⟨hs1, hc1, by simp⟩
    | fail a e =>
      simp only [Prod.mk.injEq] at h
      obtain ⟨rfl, rfl⟩ := h
      refine ⟨hs1, hc1, ?_⟩
      intro a' e' he
      simp only [Run.fail.injEq] at he
      rw [← he.2]
      exact (readNumbers_fail _ _ _ _ _ _ hres).2
    | ok nums =>
      simp only at h
      split at h
      · split at h
        · simp only [Prod.mk.injEq] at h
          obtain ⟨rfl, rfl⟩ := h
          refine ⟨hs1, hc1, ?_⟩
          intro a' e' he
          simp only [Run.fail.injEq] at he
          rw [← he.2]
          exact stamped_error _ _
        · split at h
          · simp only [Prod.mk.injEq] at h
            obtain ⟨rfl, rfl⟩ := h
            refine ⟨hs1, hc1, ?_⟩
            intro a' e' he
            simp only [Run.fail.injEq] at he
            rw [← he.2]
            exact stamped_error _ _
          · obtain ⟨h1, h2, h3⟩ := ih _ _ _ _ h hs1
            exact ⟨h1, by rw [h2, hc1], h3⟩
      · simp only [Prod.mk.injEq] at h
        obtain ⟨rfl, rfl⟩ := h
        exact ⟨hs1, hc1, by simp⟩

theorem readInputGraph_post (t : List Char) (r r' : Reader) (res : Run EdgeSet)
    (h : r.ReadInputGraph = (r', res)) (hs : Synced t r) :
    Synced t r' ∧ r'.caseNum = r.caseNum ∧ ∀ a e, res = .fail a e → Stamped r' e := by
  unfold Reader.ReadInputGraph at h
  have hs1 := synced_readNumbers t r "Cannot parse the number of edges." 1 hs
  have hc1 := readNumbers_caseNum r "Cannot parse the number of edges." 1
  rcases hres : r.readNumbers "Cannot parse the number of edges." 1 with ⟨r1, run⟩
  rw [hres] at h hs1 hc1
  simp only at hs1 hc1
  cases run with
  | crash f =>
    simp only [Prod.mk.injEq] at h
    obtain ⟨rfl, rfl⟩ := h
    exact ⟨hs1, hc1, by simp⟩
  | fail a e =>
    simp only [Prod.mk.injEq] at h
    obtain ⟨rfl, rfl⟩ := h
    refine ⟨hs1, hc1, ?_⟩
    intro a' e' he
    simp only [Run.fail.injEq] at he
    rw [← he.2]
    exact (readNumbers_fail _ _ _ _ _ _ hres).2
  | ok nums =>
    simp only at h
    split at h
    · simp only [Prod.mk.injEq] at h
      obtain ⟨rfl, rfl⟩ := h
      exact ⟨hs1, hc1, by simp⟩
    · split at h
      · simp only [Prod.mk.injEq] at h
        obtain ⟨rfl, rfl⟩ := h
        refine ⟨hs1, hc1, ?_⟩
        intro a' e' he
        simp only [Run.fail.injEq] at he
        rw [← he.2]
        exact stamped_error _ _
      · obtain ⟨h1, h2, h3⟩ := readInputEdges_post t _ _ _ _ _ h hs1
        exact ⟨h1, by rw [h2, hc1], h3⟩

/-- One iteration of the case loop of `ReadInputFile` that returns a diagnostic. -/
theorem readInputCases_one_fail (order : MapOrder) (t : List Char) (r r' : Reader)
    (acc : List EdgeSet) (a : List EdgeSet) (e : Mlst.Error)
    (h : readInputCases order 1 r acc = (r', .fail a e)) (hs : Synced t r) :
    Synced t r' ∧ r'.caseNum = r.caseNum ∧ Stamped r' e ∧ a = [] := by
  rw [readInputCases] at h
  rcases hres : r.ReadInputGraph with ⟨r1, run⟩
  obtain ⟨hs1, hc1, hst⟩ := readInputGraph_post t r r1 run hres hs
  rw [hres] at h
  cases run with
  | crash f => simp at h
  | fail a1 e1 =>
    simp only [Prod.mk.injEq, Run.fail.injEq] at h
    obtain ⟨rfl, rfl, rfl⟩ := h
    exact ⟨hs1, hc1, hst _ _ rfl, rfl⟩
  | ok E =>
    simp only at h
    split at h
    · simp at h
    · split at h
      · simp only [Prod.mk.injEq, Run.fail.injEq] at h
        obtain ⟨rfl, rfl, rfl⟩ := h
        exact ⟨hs1, hc1, stamped_error _ _, rfl⟩
      · simp [readInputCases] at h

/-- A run of the case loop of `ReadInputFile` that returns a diagnostic: some iterations
succeed and the next one returns the diagnostic. -/
theorem readInputCases_fail (order : MapOrder) (t : List Char) :
    ∀ (k : Nat) (r : Reader) (acc : List EdgeSet) (r' : Reader) (a : List EdgeSet)
      (e : Mlst.Error),
    readInputCases order k r acc = (r', .fail a e) → Synced t r →
    ∃ (j : Nat) (rj : Reader) (sets : List EdgeSet), j < k ∧
      readInputCases order j r acc = (rj, .ok sets) ∧
      readInputCases order 1 rj sets = (r', .fail [] e) ∧ rj.caseNum = r.caseNum + j ∧
      Synced t rj := by
  intro k
  induction k with
  | zero =>
    intro r acc r' a e h _
    simp [readInputCases] at h
  | succ k ih =>
    intro r acc r' a e h hs
    have h0 := h
    rw [readInputCases] at h
    rcases hres : r.ReadInputGraph with ⟨r1, run⟩
    obtain ⟨hs1, hc1, -⟩ := readInputGraph_post t r r1 run hres hs
    rw [hres] at h
    have hfirst : ∀ (hh : readInputCases order 1 r acc = (r', .fail [] e)),
        ∃ (j : Nat) (rj : Reader) (sets : List EdgeSet), j < k + 1 ∧
          readInputCases order j r acc = (rj, .ok sets) ∧
          readInputCases order 1 rj sets = (r', .fail [] e) ∧ rj.caseNum = r.caseNum + j ∧
          Synced t rj :=
      fun hh => ⟨0, r, acc, by omega, by simp [readInputCases], hh, by simp, hs⟩
    cases run with
    | crash f => simp at h
    | fail a1 e1 =>
      simp only [Prod.mk.injEq, Run.fail.injEq] at h
      obtain ⟨rfl, -, rfl⟩ := h
      apply hfirst
      rw [readInputCases, hres]
    | ok E =>
      simp only at h
      split at h
      · simp at h
      · rename_i G hG
        split at h
        · rename_i hconn
          simp only [Prod.mk.injEq, Run.fail.injEq] at h
          obtain ⟨rfl, -, rfl⟩ := h
          apply hfirst
          rw [readInputCases, hres]
          simp only [hG, hconn, if_true]
        · rename_i hconn
          obtain ⟨j, rj, sets, h1, h2, h3, h4, h5⟩ := ih _ _ _ _ _ h
            (synced_caseNum t r1 _ hs1)
          refine ⟨j + 1, rj, sets, by omega, ?_, h3, ?_, h5⟩
          · rw [readInputCases, hres]
            simp only [hG, hconn, if_false]
            exact h2
          · rw [h4]
            simp only
            rw [hc1]
            push_cast
            ring

theorem readOutputEdges_post (t : List Char) (inE : EdgeSet) :
    ∀ (k : Nat) (r : Reader) (E0 : EdgeSet) (r' : Reader) (res : Run EdgeSet),
    readOutputEdges inE k r E0 = (r', res) → Synced t r →
    Synced t r' ∧ r'.caseNum = r.caseNum ∧ ∀ a e, res = .fail a e → Stamped r' e := by
  intro k
  induction k with
  | zero =>
    intro r E0 r' res h hs
    simp only [readOutputEdges, Prod.mk.injEq] at h
    obtain ⟨rfl, rfl⟩ := h
    exact ⟨hs, rfl, by simp⟩
  | succ k ih =>
    intro r E0 r' res h hs
    rw [readOutputEdges] at h
    have hs1 := synced_readNumbers t r "Cannot parse the next edge." 2 hs
    have hc1 := readNumbers_caseNum r "Cannot parse the next edge." 2
    rcases hres : r.readNumbers "Cannot parse the next edge." 2 with ⟨r1, run⟩
    rw [hres] at h hs1 hc1
    simp only at hs1 hc1
    cases run with
    | crash f =>
      simp only [Prod.mk.injEq] at h
      obtain ⟨rfl, rfl⟩ := h
      exact ⟨hs1, hc1, by simp⟩
    | fail a e =>
      simp only [Prod.mk.injEq] at h
      obtain ⟨rfl, rfl⟩ := h
      refine ⟨hs1, hc1, ?_⟩
      intro a' e' he
      simp only [Run.fail.injEq] at he
      rw [← he.2]
      exact (readNumbers_fail _ _ _ _ _ _ hres).2
    | ok nums =>
      simp only at h
      split at h
      · split at h
        · simp only [Prod.mk.injEq] at h
          obtain ⟨rfl, rfl⟩ := h
          refine ⟨hs1, hc1, ?_⟩
          intro a' e' he
          simp only [Run.fail.injEq] at he
          rw [← he.2]
          exact stamped_error _ _
        · split at h
          · simp only [Prod.mk.injEq] at h
            obtain ⟨rfl, rfl⟩ := h
            refine ⟨hs1, hc1, ?_⟩
            intro a' e' he
            simp only [Run.fail.injEq] at he
            rw [← he.2]
            exact stamped_error _ _
          · obtain ⟨h1, h2, h3⟩ := ih _ _ _ _ h hs1
            exact ⟨h1, by rw [h2, hc1], h3⟩
      · simp only [Prod.mk.injEq] at h
        obtain ⟨rfl, rfl⟩ := h
        exact ⟨hs1, hc1, by simp⟩

/-- Where `ReadOutputGraph` leaves the reader, and what a diagnostic of it carries: the
position of the reader, together with the count `InvalidNumLeaves`. -/
theorem readOutputGraph_post (order : MapOrder) (t : List Char) (r r' : Reader) (G : EdgeSet)
    (res : Run Int) (h : r.ReadOutputGraph order G = (r', res)) (hs : Synced t r) :
    Synced t r' ∧ r'.caseNum = r.caseNum ∧
      ∀ a e, res = .fail a e → Stamped r' e ∧ a = InvalidNumLeaves := by
  unfold Reader.ReadOutputGraph at h
  have hs1 := synced_readNumbers t r "Cannot parse the number of edges." 1 hs
  have hc1 := readNumbers_caseNum r "Cannot parse the number of edges." 1
  rcases hres : r.readNumbers "Cannot parse the number of edges." 1 with ⟨r1, run⟩
  rw [hres] at h hs1 hc1
  simp only at hs1 hc1
  cases run with
  | crash f =>
    simp only [Prod.mk.injEq] at h
    obtain ⟨rfl, rfl⟩ := h
    exact ⟨hs1, hc1, by simp⟩
  | fail a e =>
    simp only [Prod.mk.injEq] at h
    obtain ⟨rfl, rfl⟩ := h
    refine ⟨hs1, hc1, ?_⟩
    intro a' e' he
    simp only [Run.fail.injEq] at he
    rw [← he.2, ← he.1]
    exact ⟨(readNumbers_fail _ _ _ _ _ _ hres).2, rfl⟩
  | ok nums =>
    simp only at h
    split at h
    · simp only [Prod.mk.injEq] at h
      obtain ⟨rfl, rfl⟩ := h
      exact ⟨hs1, hc1, by simp⟩
    · split at h
      · simp only [Prod.mk.injEq] at h
        obtain ⟨rfl, rfl⟩ := h
        exact ⟨hs1, hc1, by simp⟩
      · split at h
        · simp only [Prod.mk.injEq] at h
          obtain ⟨rfl, rfl⟩ := h
          refine ⟨hs1, hc1, ?_⟩
          intro a' e' he
          simp only [Run.fail.injEq] at he
          rw [← he.2, ← he.1]
          exact ⟨stamped_error _ _, rfl⟩
        · rcases hedges : readOutputEdges G _ r1 [] with ⟨r2, run2⟩
          obtain ⟨hs2, hc2, hst2⟩ := readOutputEdges_post t G _ _ _ _ _ hedges hs1
          rw [hedges] at h
          cases run2 with
          | crash f =>
            simp only [Prod.mk.injEq] at h
            obtain ⟨rfl, rfl⟩ := h
            exact ⟨hs2, by rw [hc2, hc1], by simp⟩
          | fail a2 e2 =>
            simp only [Prod.mk.injEq] at h
            obtain ⟨rfl, rfl⟩ := h
            refine ⟨hs2, by rw [hc2, hc1], ?_⟩
            intro a' e' he
            simp only [Run.fail.injEq] at he
            rw [← he.2, ← he.1]
            exact ⟨hst2 _ _ rfl, rfl⟩
          | ok E =>
            simp only at h
            have hfin : ∀ m, (r', res) = (r2, Run.fail InvalidNumLeaves (r2.Error m)) →
                Synced t r' ∧ r'.caseNum = r.caseNum ∧
                  ∀ a e, res = .fail a e → Stamped r' e ∧ a = InvalidNumLeaves := by
              intro m hm
              simp only [Prod.mk.injEq] at hm
              obtain ⟨rfl, rfl⟩ := hm
              refine ⟨hs2, by rw [hc2, hc1], ?_⟩
              intro a' e' he
              simp only [Run.fail.injEq] at he
              rw [← he.2, ← he.1]
              exact ⟨stamped_error _ _, rfl⟩
            split at h
            · simp only [Prod.mk.injEq] at h
              obtain ⟨rfl, rfl⟩ := h
              exact ⟨hs2, by rw [hc2, hc1], by simp⟩
            · split at h
              · exact hfin _ h.symm
              · split at h
                · exact hfin _ h.symm
                · split at h
                  · exact hfin _ h.symm
                  · simp only [Prod.mk.injEq] at h
                    obtain ⟨rfl, rfl⟩ := h
                    exact ⟨hs2, by rw [hc2, hc1], by simp⟩

/-- A run of the case loop of `ReadOutputFile` that returns a diagnostic: some iterations
succeed and the next one returns the diagnostic. -/
theorem readOutputCases_fail (order : MapOrder) (t : List Char) :
    ∀ (sets : List EdgeSet) (r : Reader) (acc : List Int) (r' : Reader) (a : List Int)
      (e : Mlst.Error),
    readOutputCases order sets r acc = (r', .fail a e) → Synced t r →
    ∃ (j : Nat) (rj : Reader) (leaves : List Int) (G : EdgeSet) (r1 : Reader), j < sets.length ∧
      readOutputCases order (sets.take j) r acc = (rj, .ok leaves) ∧
      sets[j]? = some G ∧
      rj.ReadOutputGraph order G = (r1, .fail InvalidNumLeaves e) ∧ r' = r1 ∧ a = [] ∧
      rj.caseNum = r.caseNum + j ∧ Synced t rj ∧ Synced t r' ∧ Stamped r' e := by
  intro sets
  induction sets with
  | nil =>
    intro r acc r' a e h _
    simp [readOutputCases] at h
  | cons G sets ih =>
    intro r acc r' a e h hs
    rw [readOutputCases] at h
    rcases hres : r.ReadOutputGraph order G with ⟨r1, run⟩
    obtain ⟨hs1, hc1, hst⟩ := readOutputGraph_post order t r r1 G run hres hs
    rw [hres] at h
    cases run with
    | crash f => simp at h
    | fail a1 e1 =>
      simp only [Prod.mk.injEq, Run.fail.injEq] at h
      obtain ⟨rfl, rfl, rfl⟩ := h
      obtain ⟨h1, h2⟩ := hst _ _ rfl
      subst h2
      exact ⟨0, r, acc, G, r1, by simp, by simp [readOutputCases], by simp, hres, rfl, rfl,
        by simp, hs, hs1, h1⟩
    | ok L =>
      simp only at h
      obtain ⟨j, rj, leaves, G', r1', h1, h2, h3, h4, h5, h6, h7, h8, h9, h10⟩ :=
        ih _ _ _ _ _ h (synced_caseNum t r1 _ hs1)
      refine ⟨j + 1, rj, leaves, G', r1', by simp; omega, ?_, by simpa using h3, h4, h5, h6, ?_,
        h8, h9, h10⟩
      · rw [List.take_succ_cons, readOutputCases, hres]
        exact h2
      · rw [h7]
        simp only
        rw [hc1]
        push_cast
        ring

/-! ## Auxiliary facts for the main theorems -/

theorem idOrder_fair : idOrder.Fair := fun _ _ => List.Perm.refl _

theorem fair_nil {order : MapOrder} (ho : order.Fair) (k : Int) : order k [] = [] :=
  List.perm_nil.1 (ho k [])

theorem normEdge_eq_iff (p q : Int × Int) :
    normEdge p = normEdge q ↔ s(p.1, p.2) = s(q.1, q.2) := by
  have h1 := normEdge_ends p
  have h2 := normEdge_ends q
  rw [Sym2.eq_iff]
  constructor
  · intro h
    rw [h, h2] at h1
    simp only [Prod.mk.injEq] at h1
    omega
  · intro h
    have : (normEdge p).Ends = (normEdge q).Ends := by
      rw [h1, h2]
      simp only [Prod.mk.injEq]
      omega
    cases hp : normEdge p
    cases hq : normEdge q
    rw [hp, hq] at this
    simp only at this
    rw [this]

theorem nodup_normEdge_iff (pairs : List (Int × Int)) :
    (pairs.map normEdge).Nodup ↔ (pairs.map (fun p => s(p.1, p.2))).Nodup := by
  unfold List.Nodup
  rw [List.pairwise_map, List.pairwise_map]
  constructor
  · intro h
    exact h.imp (fun hne heq => hne ((normEdge_eq_iff _ _).2 heq))
  · intro h
    exact h.imp (fun hne heq => hne ((normEdge_eq_iff _ _).1 heq))

theorem string_head (a b : String) (c : Char) (cs : List Char) (h : a.data = c :: cs) :
    (a ++ b).data.head? = some c := by
  rw [String.data_append, h]
  rfl

theorem outOfRange_ne_selfLoop (n : Int) (e e' : Edge) : outOfRangeMsg n e ≠ selfLoopMsg e' := by
  intro h
  have h1 : (outOfRangeMsg n e).data.head? = some 'N' := by
    unfold outOfRangeMsg
    simp only [String.append_assoc]
    exact string_head "Node " _ 'N' _ rfl
  have h2 : (selfLoopMsg e').data.head? = some 'S' := by
    unfold selfLoopMsg
    simp only [String.append_assoc]
    exact string_head "Self-loop not allowed in edge " _ 'S' _ rfl
  rw [h, h2] at h1
  simp at h1

/-! ## Main theorems -/

/-- C1 (spanning-tree soundness of `ReadOutputGraph`).  Let `G` be an input edge set of valid
normalized edges and let the reader stand before a well-formed output case: a line with the
edge count `M`, then `M` edge lines holding `pairs`, all of which belong to `G`.  Then
`ReadOutputGraph` accepts iff the listed edges are pairwise distinct as unordered pairs,
`M` is the number of non-isolated nodes of `G` minus one, the listed edges touch exactly the
nodes of `G`, they form a connected graph, and they contain no cycle. -/
theorem readOutputGraph_spanning_tree (order : MapOrder) (ho : order.Fair) (r : Reader)
    (G : EdgeSet) (hG : ∀ e ∈ G, e.Valid) (mb : List Char) (M : Int)
    (ebs rest : List (List Char)) (pairs : List (Int × Int))
    (hl : textLines r.reader = mb :: (ebs ++ rest)) (hM : NumLine mb M)
    (hlen : (ebs.length : Int) = M) (he : EdgeLines ebs pairs)
    (hin : ∀ p ∈ pairs, normEdge p ∈ G) :
    (∃ L, (r.ReadOutputGraph order G).2 = .ok L) ↔
      ((pairs.map (fun p => s(p.1, p.2))).Nodup ∧
        M = (Set.ncard (EdgeSet.nodes G) : Int) - 1 ∧
        EdgeSet.nodes (pairs.map normEdge) = EdgeSet.nodes G ∧
        EdgeSet.EdgesConnected (pairs.map normEdge) ∧
        (EdgeSet.toSimpleGraph (pairs.map normEdge)).IsAcyclic) := by
  rw [← nodup_normEdge_iff]
  rcases readOutputGraph_cases order ho r G hG mb M ebs rest pairs hl hM hlen he hin with
    ⟨hacc, hok, _⟩ | ⟨hrej, e, hfail⟩
  · exact ⟨fun _ => hacc, fun _ => ⟨_, hok⟩⟩
  · constructor
    · rintro ⟨L, hL⟩
      rw [hfail] at hL
      cases hL
    · intro h
      exact absurd h hrej

theorem triangle_valid : ∀ e ∈ triangle, e.Valid := by decide

theorem triangle_nodup : triangle.Nodup := by decide

theorem numLine_two : NumLine "2".toList 2 :=
  ⟨⟨by decide, by decide⟩, by decide, by decide⟩

theorem pairLine_zero_one : PairLine "0 1".toList 0 1 :=
  ⟨"0".toList, "1".toList, by decide, ⟨⟨by decide, by decide⟩, by decide, by decide⟩,
    ⟨⟨by decide, by decide⟩, by decide, by decide⟩⟩

theorem pairLine_one_two : PairLine "1 2".toList 1 2 :=
  ⟨"1".toList, "2".toList, by decide, ⟨⟨by decide, by decide⟩, by decide, by decide⟩,
    ⟨⟨by decide, by decide⟩, by decide, by decide⟩⟩

/-- The two edge lines `0 1` and `1 2`. -/
theorem edgeLines_path : EdgeLines ["0 1".toList, "1 2".toList] [(0, 1), (1, 2)] :=
  List.Forall₂.cons pairLine_zero_one (List.Forall₂.cons pairLine_one_two List.Forall₂.nil)

/-- For the triangle as input, the output case `2`, `0 1`, `1 2` is accepted exactly when the
path `0-1-2` is a spanning tree of the triangle. -/
theorem readOutputGraph_spanning_tree_witness :
    (∃ L, ((NewOutFileReader "2\n0 1\n1 2\n".toList).ReadOutputGraph idOrder triangle).2
        = .ok L) ↔
      (([(0, 1), (1, 2)].map (fun p : Int × Int => s(p.1, p.2))).Nodup ∧
        (2 : Int) = (Set.ncard (EdgeSet.nodes triangle) : Int) - 1 ∧
        EdgeSet.nodes ([(0, 1), (1, 2)].map normEdge) = EdgeSet.nodes triangle ∧
        EdgeSet.EdgesConnected ([(0, 1), (1, 2)].map normEdge) ∧
        (EdgeSet.toSimpleGraph ([(0, 1), (1, 2)].map normEdge)).IsAcyclic) :=
  readOutputGraph_spanning_tree idOrder idOrder_fair (NewOutFileReader "2\n0 1\n1 2\n".toList)
    triangle triangle_valid "2".toList 2 ["0 1".toList, "1 2".toList] [] [(0, 1), (1, 2)]
    (by decide) numLine_two (by decide) edgeLines_path (by decide)

/-- The search of the triangle, with its edges added in the order of insertion, finds a
cycle. -/
theorem triangle_hasCycle :
    (match searchedGraph triangle with
      | .ok G => G.HasCycle
      | .error _ => false) = true := by
  decide

theorem triangle_not_acyclic : ¬ (EdgeSet.toSimpleGraph triangle).IsAcyclic := by
  obtain ⟨G, hG, _, _, _, hc⟩ :=
    searched_summary triangle triangle (List.Perm.refl _) triangle_valid triangle_nodup
  have h := triangle_hasCycle
  rw [hG] at h
  exact hc.mp h

/-- C2 (cycle detection of `Graph.Search`).  Let `E` be a set of normalized, in-range edges
without self-loops, and let `keys` be any enumeration of it.  The graph that `EdgeSet.Graph`
builds from `keys` and `Search` explores ends with `HasCycle` true iff the undirected graph of
`E` contains a cycle, which then has length at least 3; so `HasCycle` is false for every tree
and every forest.  For the triangle `0-1`, `1-2`, `0-2`, in any enumeration, it is true. -/
theorem search_cycle_detection (E keys : List Edge) (hp : keys.Perm E)
    (hv : ∀ e ∈ E, e.Valid) (hn : E.Nodup) :
    (∃ G, searchedGraph keys = .ok G ∧
      (G.HasCycle = true ↔
        ∃ (v : Int) (c : (EdgeSet.toSimpleGraph E).Walk v v), c.IsCycle ∧ 3 ≤ c.length) ∧
      ((EdgeSet.toSimpleGraph E).IsAcyclic → G.HasCycle = false)) ∧
    (∀ ks : List Edge, ks.Perm triangle →
      ∃ G, searchedGraph ks = .ok G ∧ G.HasCycle = true) := by
  constructor
  · obtain ⟨G, hG, _, _, _, hc⟩ := searched_summary E keys hp hv hn
    refine ⟨G, hG, ?_, ?_⟩
    · rw [hc, not_acyclic_iff]
    · intro hac
      cases hcy : G.HasCycle
      · rfl
      · exact absurd hac (hc.mp hcy)
  · intro ks hks
    obtain ⟨G, hG, _, _, _, hc⟩ := searched_summary triangle ks hks triangle_valid triangle_nodup
    exact ⟨G, hG, hc.mpr triangle_not_acyclic⟩

/-- The path `0-1`, `1-2`, enumerated in reverse, is searched without finding a cycle exactly
when it has none. -/
theorem search_cycle_detection_witness :
    (∃ G, searchedGraph [⟨(1, 2)⟩, ⟨(0, 1)⟩] = .ok G ∧
      (G.HasCycle = true ↔
        ∃ (v : Int) (c : (EdgeSet.toSimpleGraph [⟨(0, 1)⟩, ⟨(1, 2)⟩]).Walk v v),
          c.IsCycle ∧ 3 ≤ c.length) ∧
      ((EdgeSet.toSimpleGraph [⟨(0, 1)⟩, ⟨(1, 2)⟩]).IsAcyclic → G.HasCycle = false)) ∧
    (∀ ks : List Edge, ks.Perm triangle →
      ∃ G, searchedGraph ks = .ok G ∧ G.HasCycle = true) :=
  search_cycle_detection [⟨(0, 1)⟩, ⟨(1, 2)⟩] [⟨(1, 2)⟩, ⟨(0, 1)⟩]
    (List.Perm.swap _ _ _) (by decide) (by decide)

/-- C3 (component count of `Graph.Search`).  Let `E` be a set of in-range edges and `keys`
any enumeration of it.  After `Search`, `NumOfComponents` is the number of connected components
of the subgraph induced by the non-isolated nodes (the ends of the edges), and
`EdgesInOneComponent` is true iff that number is 1, that is, iff `E` is non-empty and all its
edges lie in one connected component. -/
theorem search_component_count (E keys : List Edge) (hp : keys.Perm E)
    (hk : ∀ e ∈ E, e.InRange) :
    ∃ G, searchedGraph keys = .ok G ∧
      G.NumOfComponents =
        Nat.card ((EdgeSet.toSimpleGraph E).induce (EdgeSet.nodes E)).ConnectedComponent ∧
      (G.EdgesInOneComponent = true ↔ G.NumOfComponents = 1) ∧
      (G.EdgesInOneComponent = true ↔ E ≠ [] ∧ EdgeSet.EdgesConnected E) := by
  have hk' : ∀ e ∈ keys, e.InRange := fun e he => hk e (hp.mem_iff.mp he)
  obtain ⟨G, hG, _, _, _, hc, _⟩ := searchedGraph_spec keys hk'
  obtain ⟨G', hG', hone⟩ := searched_oneComponent E keys hp hk
  rw [hG] at hG'
  cases hG'
  refine ⟨G, hG, ?_, ?_, hone⟩
  · rw [hc, toSimpleGraph_perm hp, nodes_perm hp]
  · unfold Graph.EdgesInOneComponent
    simp

/-- The two edges `0-1` and `2-3`, with a self-loop at `5`, enumerated in another order. -/
theorem search_component_count_witness :
    ∃ G, searchedGraph [⟨(5, 5)⟩, ⟨(2, 3)⟩, ⟨(0, 1)⟩] = .ok G ∧
      G.NumOfComponents =
        Nat.card ((EdgeSet.toSimpleGraph [⟨(0, 1)⟩, ⟨(2, 3)⟩, ⟨(5, 5)⟩]).induce
          (EdgeSet.nodes [⟨(0, 1)⟩, ⟨(2, 3)⟩, ⟨(5, 5)⟩])).ConnectedComponent ∧
      (G.EdgesInOneComponent = true ↔ G.NumOfComponents = 1) ∧
      (G.EdgesInOneComponent = true ↔
        ([⟨(0, 1)⟩, ⟨(2, 3)⟩, ⟨(5, 5)⟩] : List Edge) ≠ [] ∧
          EdgeSet.EdgesConnected [⟨(0, 1)⟩, ⟨(2, 3)⟩, ⟨(5, 5)⟩]) :=
  search_component_count [⟨(0, 1)⟩, ⟨(2, 3)⟩, ⟨(5, 5)⟩] [⟨(5, 5)⟩, ⟨(2, 3)⟩, ⟨(0, 1)⟩]
    (List.Perm.trans (List.Perm.swap _ _ _)
      (List.Perm.trans (List.Perm.cons _ (List.Perm.swap _ _ _)) (List.Perm.swap _ _ _)))
    (by decide)

/-- The text `"1\n0\n"` is a count line `1` followed by one case whose
edge-count line is `0 <= 2000`, with no edge line, hence no repeated pair and no edge outside
a single component, and nothing follows: it is an allowed input file when no lower bound is
put on the edge count.  Yet `ReadInputFile` rejects it on line 2, case 1, because
`EdgesInOneComponent` needs exactly one component and the empty graph has none. -/
theorem readInputFile_rejects_empty_case :
    AllowedInputFile 0 "1\n0\n".toList [[]] ∧
    ((NewInFileReader "1\n0\n".toList).ReadInputFile idOrder).2 =
      .fail [] ⟨2, 1, "0".toList,
        "Disconnected graph: after reading the last edge of this graph, the edges are not in the same component."⟩ := by
  refine ⟨⟨"1".toList, [["0".toList]], by decide, ⟨⟨by decide, by decide⟩, by decide, by decide⟩,
    List.Forall₂.cons ⟨[], ⟨"0".toList, [], rfl, ⟨⟨by decide, by decide⟩, by decide, by decide⟩,
      List.Forall₂.nil⟩, by decide, by decide, by simp, by simp, rfl, ?_⟩ List.Forall₂.nil⟩, by decide⟩
  intro u hu
  obtain ⟨e, he, _⟩ := hu
  simp at he

/-- The acceptance of a text does not depend on the enumeration order of the maps. -/
theorem readInputFile_ok_of_idOrder (order : MapOrder) (ho : order.Fair) (t : List Char)
    (sets : List EdgeSet) (h : ((NewInFileReader t).ReadInputFile idOrder).2 = .ok sets) :
    ((NewInFileReader t).ReadInputFile order).2 = .ok sets :=
  (readInputFile_ok_iff order ho _ sets).mpr ((readInputFile_ok_iff idOrder idOrder_fair _ sets).mp h)

/-- The number of a list of edge sets passes the run-time check of `make` iff it is at most
`2 ^ 45`. -/
theorem allocatable_length (sets : List EdgeSet) :
    Allocatable (sets.length : Int) ↔ (sets.length : Int) ≤ 2 ^ 45 := by
  rw [allocatable_iff]
  constructor
  · exact fun h => h.2
  · exact fun h => ⟨by omega, h⟩

/-- C4, amended (acceptance by the input validator).  `ReadInputFile` succeeds with the edge
sets `sets` iff line 1 is a valid count `N`, at most `2 ^ 45` (the largest length for which
the allocation `make([]EdgeSet, N)` of the result passes its run-time check, `maxAlloc`
being `2 ^ 48` bytes), it is followed by exactly `N` cases, each an
edge-count line `M` with `1 <= M <= MaxNumEdges` and `M` valid edge lines whose ends are below
`MaxNumNodes` and distinct, with no unordered pair repeated within the case and all edges of
the case in a single connected component, nothing follows the last case, and `sets` are the
`N` sets of normalized edges of the cases, in order.  Connectivity is judged per case: the
texts `"2\n1\n0 1\n1\n2 3\n"` and `"1\n3\n0 1\n1 2\n2 0\n"` are both accepted. -/
theorem readInputFile_acceptance (order : MapOrder) (ho : order.Fair) (t : List Char)
    (sets : List EdgeSet) :
    (((NewInFileReader t).ReadInputFile order).2 = .ok sets ↔
      AllowedInputFile 1 t sets ∧ (sets.length : Int) ≤ 2 ^ 45) ∧
    ((NewInFileReader "2\n1\n0 1\n1\n2 3\n".toList).ReadInputFile order).2 =
      .ok [[⟨(0, 1)⟩], [⟨(2, 3)⟩]] ∧
    ((NewInFileReader "1\n3\n0 1\n1 2\n2 0\n".toList).ReadInputFile order).2 = .ok [triangle] :=
  ⟨(readInputFile_ok_iff order ho (NewInFileReader t) sets).trans
      (and_congr_right fun _ => allocatable_length sets),
    readInputFile_ok_of_idOrder order ho _ _ (by decide),
    readInputFile_ok_of_idOrder order ho _ _ (by decide)⟩

/-- The two single-edge cases are accepted, in the order of insertion of the edges. -/
theorem readInputFile_acceptance_witness :
    (((NewInFileReader "2\n1\n0 1\n1\n2 3\n".toList).ReadInputFile idOrder).2 =
        .ok [[⟨(0, 1)⟩], [⟨(2, 3)⟩]] ↔
      AllowedInputFile 1 "2\n1\n0 1\n1\n2 3\n".toList [[⟨(0, 1)⟩], [⟨(2, 3)⟩]] ∧
        (([[⟨(0, 1)⟩], [⟨(2, 3)⟩]] : List EdgeSet).length : Int) ≤ 2 ^ 45) ∧
    ((NewInFileReader "2\n1\n0 1\n1\n2 3\n".toList).ReadInputFile idOrder).2 =
      .ok [[⟨(0, 1)⟩], [⟨(2, 3)⟩]] ∧
    ((NewInFileReader "1\n3\n0 1\n1 2\n2 0\n".toList).ReadInputFile idOrder).2 = .ok [triangle] :=
  readInputFile_acceptance idOrder idOrder_fair "2\n1\n0 1\n1\n2 3\n".toList
    [[⟨(0, 1)⟩], [⟨(2, 3)⟩]]

/-- The accepted output cases list pairs of numbers whose leaf counts are the second
components. -/
theorem outputCases_pairs {sets : List EdgeSet} {xs : List (List (List Char) × Int)}
    (h : List.Forall₂ (fun G (x : List (List Char) × Int) => OutputCase G x.1 x.2) sets xs) :
    ∃ cases : List (List (Int × Int)), List.Forall₂ CaseLines (xs.map Prod.fst) cases ∧
      xs.map Prod.snd = cases.map (fun pairs =>
        (Set.ncard {u : Int | EdgeSet.degree (pairs.map normEdge) u = 1} : Int)) := by
  induction h with
  | nil => exact ⟨[], List.Forall₂.nil, rfl⟩
  | @cons G x sets xs hx _ ih =>
    obtain ⟨cases, hc, hl⟩ := ih
    obtain ⟨pairs, hp, _, _, hL⟩ := hx
    refine ⟨pairs :: cases, List.Forall₂.cons hp hc, ?_⟩
    simp only [List.map_cons, hL, hl]

/-- The acceptance of an output text does not depend on the enumeration order of the maps. -/
theorem readOutputFile_ok_of_idOrder (order : MapOrder) (ho : order.Fair) (t : List Char)
    (sets : List EdgeSet) (hv : ∀ G ∈ sets, ∀ e ∈ G, e.Valid) (leaves : List Int)
    (h : ((NewOutFileReader t).ReadOutputFile idOrder sets).2 = .ok leaves) :
    ((NewOutFileReader t).ReadOutputFile order sets).2 = .ok leaves :=
  (readOutputFile_ok_iff order ho _ sets hv leaves).mpr
    ((readOutputFile_ok_iff idOrder idOrder_fair _ sets hv leaves).mp h)

theorem triangle_sets_valid : ∀ G ∈ [triangle], ∀ e ∈ G, e.Valid := by decide

/-- C5 (leaf counts on success).  Whenever `ReadOutputFile` succeeds on `N` validated input
edge sets, it returns exactly `N` integers, in case order: the text is a count line `N`
followed by `N` cases, and the i-th integer is the number of nodes of degree exactly 1 in the
graph of the edges that case i lists.  For the triangle as input, the outputs
`"1\n2\n0 1\n1 2\n"` and `"1\n2\n0 1\n2 0\n"` are both accepted with leaf count 2. -/
theorem readOutputFile_leaf_counts (order : MapOrder) (ho : order.Fair) (r : Reader)
    (sets : List EdgeSet) (hv : ∀ G ∈ sets, ∀ e ∈ G, e.Valid) (leaves : List Int)
    (h : (r.ReadOutputFile order sets).2 = .ok leaves) :
    (leaves.length = sets.length ∧
      ∃ (nb : List Char) (cls : List (List (List Char))) (cases : List (List (Int × Int))),
        textLines r.reader = nb :: cls.flatten ∧ NumLine nb (sets.length : Int) ∧
        cases.length = sets.length ∧ List.Forall₂ CaseLines cls cases ∧
        leaves = cases.map (fun pairs =>
          (Set.ncard {u : Int | EdgeSet.degree (pairs.map normEdge) u = 1} : Int))) ∧
    ((NewOutFileReader "1\n2\n0 1\n1 2\n".toList).ReadOutputFile order [triangle]).2 = .ok [2] ∧
    ((NewOutFileReader "1\n2\n0 1\n2 0\n".toList).ReadOutputFile order [triangle]).2 = .ok [2] := by
  refine ⟨?_, readOutputFile_ok_of_idOrder order ho _ _ triangle_sets_valid _ (by decide),
    readOutputFile_ok_of_idOrder order ho _ _ triangle_sets_valid _ (by decide)⟩
  obtain ⟨nb, xs, hl, hnb, hx, hleaves⟩ := (readOutputFile_ok_iff order ho r sets hv leaves).mp h
  obtain ⟨cases, hc, hs⟩ := outputCases_pairs hx
  have hlen : cases.length = sets.length := by
    have h1 := hc.length_eq
    have h2 := hx.length_eq
    simp at h1
    omega
  refine ⟨?_, nb, xs.map Prod.fst, cases, hl, hnb, hlen, hc, ?_⟩
  · rw [hleaves, List.length_map, hx.length_eq]
  · rw [hleaves, hs]

/-- The output `"1\n2\n0 1\n1 2\n"` for the triangle, in the order of insertion. -/
theorem readOutputFile_leaf_counts_witness :
    ((([2] : List Int).length = [triangle].length ∧
      ∃ (nb : List Char) (cls : List (List (List Char))) (cases : List (List (Int × Int))),
        textLines (NewOutFileReader "1\n2\n0 1\n1 2\n".toList).reader = nb :: cls.flatten ∧
        NumLine nb ([triangle].length : Int) ∧
        cases.length = [triangle].length ∧ List.Forall₂ CaseLines cls cases ∧
        [2] = cases.map (fun pairs =>
          (Set.ncard {u : Int | EdgeSet.degree (pairs.map normEdge) u = 1} : Int))) ∧
    ((NewOutFileReader "1\n2\n0 1\n1 2\n".toList).ReadOutputFile idOrder [triangle]).2 = .ok [2] ∧
    ((NewOutFileReader "1\n2\n0 1\n2 0\n".toList).ReadOutputFile idOrder [triangle]).2 = .ok [2]) :=
  readOutputFile_leaf_counts idOrder idOrder_fair (NewOutFileReader "1\n2\n0 1\n1 2\n".toList)
    [triangle] triangle_sets_valid [2] (by decide)

/-- The search of the triangle counts three non-isolated nodes. -/
theorem triangle_numNodes_eval :
    (match searchedGraph triangle with
      | .ok G => G.NumNodes
      | .error _ => 0) = 3 := by
  decide

theorem triangle_ncard_nodes : (Set.ncard (EdgeSet.nodes triangle) : Int) = 3 := by
  obtain ⟨G, hG, hn⟩ := searched_numNodes triangle triangle (List.Perm.refl _)
    (fun e he => (triangle_valid e he).inRange)
  have h := triangle_numNodes_eval
  rw [hG] at h
  simp only at h
  rw [← hn, h]

/-- A failure of `ReadOutputGraph` on the first case is the failure of `ReadOutputFile`. -/
theorem readOutputFile_first_case_fail (order : MapOrder) (r : Reader) (G : EdgeSet)
    (rest : List EdgeSet) (r1 r2 : Reader) (e : Mlst.Error) (a : Int)
    (h1 : r.readNumbers "Cannot parse the number of output graphs." 1 =
      (r1, .ok [((G :: rest).length : Int)]))
    (h2 : ({ r1 with caseNum := 1 } : Reader).ReadOutputGraph order G = (r2, .fail a e)) :
    r.ReadOutputFile order (G :: rest) = (r2, .fail [] e) := by
  unfold Reader.ReadOutputFile
  rw [h1]
  simp only [index?_single, ne_eq, not_true_eq_false, if_false, readOutputCases, h2]

/-- The edge-count check of `ReadOutputGraph`: what the call returns when the first line of
the case is a number other than the number of non-isolated nodes of the input minus one. -/
theorem readOutputGraph_count_mismatch (order : MapOrder) (ho : order.Fair) (r : Reader)
    (G : EdgeSet) (hG : ∀ e ∈ G, e.InRange) (mb : List Char) (M : Int)
    (rest : List (List Char)) (hl : textLines r.reader = mb :: rest) (hM : NumLine mb M)
    (hne : M ≠ (Set.ncard (EdgeSet.nodes G) : Int) - 1) :
    r.ReadOutputGraph order G =
        (r.readLine.1, .fail InvalidNumLeaves ⟨r.lineNum + 1, r.caseNum, mb,
          edgeCountMsg (Set.ncard (EdgeSet.nodes G)) M⟩) ∧
      textLines r.readLine.1.reader = rest := by
  obtain ⟨h1, h2, h3⟩ := readNumbers_lines r "Cannot parse the number of edges." 1 (Or.inl rfl)
    mb rest hl
  have hfst := readNumbers_fst r "Cannot parse the number of edges." 1
  rcases hres : r.readNumbers "Cannot parse the number of edges." 1 with ⟨r1, run⟩
  rw [hres] at h1 h2 h3 hfst
  simp only at h1 h2 h3 hfst
  have hg : BodyGrammar 1 mb [M] := Or.inl ⟨rfl, _, hM, rfl⟩
  rcases h3 with ⟨nums, hg', hrun⟩ | ⟨hno, -⟩
  swap
  · exact absurd hg (hno _)
  have := bodyGrammar_unique hg' hg
  subst this
  subst hrun
  obtain ⟨Gin, hGin, hnodes⟩ := searched_numNodes G (order r1.lineNum G) (ho _ _) hG
  unfold Reader.ReadOutputGraph
  rw [hres]
  simp only [hGin, index?_single]
  rw [if_pos (by rw [hnodes]; exact hne)]
  subst hfst
  refine ⟨?_, h1⟩
  rw [hnodes]
  unfold Reader.Error
  rw [h2, readLine_lineNum, readLine_caseNum]

/-- C6 (tree edge-count law).  Let `G` be an input edge set and let the first line of the
output case be a valid number `M` other than the number of non-isolated nodes of `G` minus
one.  Then `ReadOutputGraph` fails with the diagnostic that names the required count and the
count `M`, and it has read exactly one line: the reader it leaves is the one after a single
`readLine`, and the diagnostic carries the number and the text of the edge-count line.  For
the triangle and the output `"1\n3\n0 1\n1 2\n2 0\n"` the diagnostic is on line 2, case 1, and
cites 2 required edges and 3 listed. -/
theorem readOutputGraph_edge_count_law (order : MapOrder) (ho : order.Fair) (r : Reader)
    (G : EdgeSet) (hG : ∀ e ∈ G, e.InRange) (mb : List Char) (M : Int)
    (rest : List (List Char)) (hl : textLines r.reader = mb :: rest) (hM : NumLine mb M)
    (hne : M ≠ (Set.ncard (EdgeSet.nodes G) : Int) - 1) :
    (r.ReadOutputGraph order G =
        (r.readLine.1, .fail InvalidNumLeaves ⟨r.lineNum + 1, r.caseNum, mb,
          edgeCountMsg (Set.ncard (EdgeSet.nodes G)) M⟩) ∧
      textLines r.readLine.1.reader = rest) ∧
    ((NewOutFileReader "1\n3\n0 1\n1 2\n2 0\n".toList).ReadOutputFile order [triangle]).2 =
      .fail [] ⟨2, 1, "3".toList,
        "Input graph has 3 non-isolated nodes, output graph should have 2 edges, got 3 instead."⟩ := by
  refine ⟨readOutputGraph_count_mismatch order ho r G hG mb M rest hl hM hne, ?_⟩
  have h := (readOutputGraph_count_mismatch order ho
    ⟨"3\n0 1\n1 2\n2 0\n".toList, 1, 1, "1\n".toList⟩ triangle
    (fun e he => (triangle_valid e he).inRange) "3".toList 3
    ["0 1".toList, "1 2".toList, "2 0".toList] (by decide)
    ⟨⟨by decide, by decide⟩, by decide, by decide⟩
    (by rw [triangle_ncard_nodes]; decide)).1
  rw [readOutputFile_first_case_fail order _ triangle [] ⟨"3\n0 1\n1 2\n2 0\n".toList, 1, 0, "1\n".toList⟩ _ _ _ (by decide) h]
  rw [triangle_ncard_nodes]
  decide

/-- For the triangle, the count line `3` is rejected after one line. -/
theorem readOutputGraph_edge_count_law_witness :
    ((NewOutFileReader "3\n0 1\n".toList).ReadOutputGraph idOrder triangle =
        ((NewOutFileReader "3\n0 1\n".toList).readLine.1, .fail InvalidNumLeaves
          ⟨(NewOutFileReader "3\n0 1\n".toList).lineNum + 1,
            (NewOutFileReader "3\n0 1\n".toList).caseNum, "3".toList,
            edgeCountMsg (Set.ncard (EdgeSet.nodes triangle)) 3⟩) ∧
      textLines (NewOutFileReader "3\n0 1\n".toList).readLine.1.reader = ["0 1".toList]) ∧
    ((NewOutFileReader "1\n3\n0 1\n1 2\n2 0\n".toList).ReadOutputFile idOrder [triangle]).2 =
      .fail [] ⟨2, 1, "3".toList,
        "Input graph has 3 non-isolated nodes, output graph should have 2 edges, got 3 instead."⟩ :=
  readOutputGraph_edge_count_law idOrder idOrder_fair (NewOutFileReader "3\n0 1\n".toList)
    triangle (fun e he => (triangle_valid e he).inRange) "3".toList 3 ["0 1".toList]
    (by decide) ⟨⟨by decide, by decide⟩, by decide, by decide⟩
    (by rw [triangle_ncard_nodes]; decide)

/-! ## The range law of edges -/

/-- C7 (range law of `Edge.Error`).  For every pair of integers, `Edge.Error` returns the
out-of-range error iff some end is `< 0` or `>= MaxNumNodes`, returns the self-loop error iff
both ends are in range and equal, and returns nil iff both ends are in range and distinct; the
range check comes first, so the out-of-range error names the first end that is out of range.
Through `ReadInputFile`, the text `"1\n1\n0 0\n"` is rejected on line 3, case 1, with the
self-loop diagnostic naming edge `(0,0)`. -/
theorem edge_error_range_law (u v : Int) (order : MapOrder) :
    ((∃ node, (Edge.mk (u, v)).Error = some (outOfRangeMsg node ⟨(u, v)⟩)) ↔
      (u < 0 ∨ u ≥ MaxNumNodes) ∨ (v < 0 ∨ v ≥ MaxNumNodes)) ∧
    ((u < 0 ∨ u ≥ MaxNumNodes) → (Edge.mk (u, v)).Error = some (outOfRangeMsg u ⟨(u, v)⟩)) ∧
    (¬ (u < 0 ∨ u ≥ MaxNumNodes) → (v < 0 ∨ v ≥ MaxNumNodes) →
      (Edge.mk (u, v)).Error = some (outOfRangeMsg v ⟨(u, v)⟩)) ∧
    ((Edge.mk (u, v)).Error = some (selfLoopMsg ⟨(u, v)⟩) ↔
      (0 ≤ u ∧ u < MaxNumNodes) ∧ (0 ≤ v ∧ v < MaxNumNodes) ∧ u = v) ∧
    ((Edge.mk (u, v)).Error = none ↔
      (0 ≤ u ∧ u < MaxNumNodes) ∧ (0 ≤ v ∧ v < MaxNumNodes) ∧ u ≠ v) ∧
    ((NewInFileReader "1\n1\n0 0\n".toList).ReadInputFile order).2 =
      .fail [] ⟨3, 1, "0 0".toList, "Self-loop not allowed in edge (0,0)."⟩ := by
  refine ⟨?_, ?_, ?_, ?_, ?_, ?_⟩
  · unfold Edge.Error
    simp only
    split
    · rename_i h
      exact ⟨fun _ => Or.inl h, fun _ => ⟨u, rfl⟩⟩
    · rename_i h
      split
      · rename_i h'
        exact ⟨fun _ => Or.inr h', fun _ => ⟨v, rfl⟩⟩
      · rename_i h'
        split
        · constructor
          · rintro ⟨node, hn⟩
            simp only [Option.some.injEq] at hn
            exact absurd hn.symm (outOfRange_ne_selfLoop _ _ _)
          · intro hh
            rcases hh with hh | hh
            · exact absurd hh h
            · exact absurd hh h'
        · constructor
          · rintro ⟨node, hn⟩
            simp at hn
          · intro hh
            rcases hh with hh | hh
            · exact absurd hh h
            · exact absurd hh h'
  · intro h
    unfold Edge.Error
    simp only
    rw [if_pos h]
  · intro h h'
    unfold Edge.Error
    simp only
    rw [if_neg h, if_pos h']
  · unfold Edge.Error
    simp only
    split
    · rename_i h
      constructor
      · intro hh
        simp only [Option.some.injEq] at hh
        exact absurd hh (outOfRange_ne_selfLoop _ _ _)
      · intro hh
        omega
    · split
      · rename_i h
        constructor
        · intro hh
          simp only [Option.some.injEq] at hh
          exact absurd hh (outOfRange_ne_selfLoop _ _ _)
        · intro hh
          omega
      · split
        · rename_i h1 h2 h3
          exact ⟨fun _ => by omega, fun _ => rfl⟩
        · rename_i h1 h2 h3
          constructor
          · intro hh
            simp at hh
          · intro hh
            exact absurd hh.2.2 h3
  · have := edge_error_none_iff ⟨(u, v)⟩
    unfold Edge.InRange at this
    simp only at this
    rw [this]
    tauto
  · rfl

/-- The first step of the edge loop of `ReadInputGraph` on a valid edge line. -/
theorem readInputEdges_step (k : Nat) (r : Reader) (E0 : EdgeSet) (b : List Char)
    (rest : List (List Char)) (p : Int × Int) (hl : textLines r.reader = b :: rest)
    (hb : PairLine b p.1 p.2) (herr : (normEdge p).Error = none) :
    textLines r.readLine.1.reader = rest ∧
    readInputEdges (k + 1) r E0 =
      if normEdge p ∈ E0 then
        (r.readLine.1, .fail [] ⟨r.lineNum + 1, r.caseNum, b,
          "Edge " ++ (normEdge p).String ++ " (or its reverse) is duplicated."⟩)
      else readInputEdges k r.readLine.1 (E0 ++ [normEdge p]) := by
  obtain ⟨h1, h2, h3⟩ := readNumbers_lines r "Cannot parse the next edge." 2 (Or.inr rfl)
    b rest hl
  have hfst := readNumbers_fst r "Cannot parse the next edge." 2
  rcases hres : r.readNumbers "Cannot parse the next edge." 2 with ⟨r1, run⟩
  rw [hres] at h1 h2 h3 hfst
  simp only at h1 h2 h3 hfst
  have hg : BodyGrammar 2 b [p.1, p.2] := Or.inr ⟨rfl, p.1, p.2, hb, rfl⟩
  rcases h3 with ⟨nums, hg', hrun⟩ | ⟨hno, -⟩
  swap
  · exact absurd hg (hno _)
  have hnums := bodyGrammar_unique hg' hg
  subst hnums
  subst hrun
  subst hfst
  refine ⟨h1, ?_⟩
  have hpe : (Edge.mk (p.1, p.2)).Normalize = normEdge p := rfl
  rw [readInputEdges, hres]
  simp only [(index?_pair p.1 p.2).1, (index?_pair p.1 p.2).2]
  rw [hpe, herr]
  simp only
  split
  · unfold Reader.Error
    rw [h2, readLine_lineNum, readLine_caseNum]
  · rename_i hmem
    rw [edgeSet_insert_of_not_mem _ _ hmem]

/-- The first step of the edge loop of `ReadOutputGraph` on a valid edge line that lists an
edge of the input. -/
theorem readOutputEdges_step (inE : EdgeSet) (k : Nat) (r : Reader) (E0 : EdgeSet)
    (b : List Char) (rest : List (List Char)) (p : Int × Int)
    (hl : textLines r.reader = b :: rest) (hb : PairLine b p.1 p.2) (hin : normEdge p ∈ inE) :
    textLines r.readLine.1.reader = rest ∧
    readOutputEdges inE (k + 1) r E0 =
      if normEdge p ∈ E0 then
        (r.readLine.1, .fail [] ⟨r.lineNum + 1, r.caseNum, b,
          "Edge " ++ (normEdge p).String ++ " (or its reverse) is duplicated."⟩)
      else readOutputEdges inE k r.readLine.1 (E0 ++ [normEdge p]) := by
  obtain ⟨h1, h2, h3⟩ := readNumbers_lines r "Cannot parse the next edge." 2 (Or.inr rfl)
    b rest hl
  have hfst := readNumbers_fst r "Cannot parse the next edge." 2
  rcases hres : r.readNumbers "Cannot parse the next edge." 2 with ⟨r1, run⟩
  rw [hres] at h1 h2 h3 hfst
  simp only at h1 h2 h3 hfst
  have hg : BodyGrammar 2 b [p.1, p.2] := Or.inr ⟨rfl, p.1, p.2, hb, rfl⟩
  rcases h3 with ⟨nums, hg', hrun⟩ | ⟨hno, -⟩
  swap
  · exact absurd hg (hno _)
  have hnums := bodyGrammar_unique hg' hg
  subst hnums
  subst hrun
  subst hfst
  refine ⟨h1, ?_⟩
  have hpe : (Edge.mk (p.1, p.2)).Normalize = normEdge p := rfl
  rw [readOutputEdges, hres]
  simp only [(index?_pair p.1 p.2).1, (index?_pair p.1 p.2).2, hpe, hin, not_true_eq_false,
    if_false]
  split
  · unfold Reader.Error
    rw [h2, readLine_lineNum, readLine_caseNum]
  · rename_i hmem
    rw [edgeSet_insert_of_not_mem _ _ hmem]

/-- The edge loop of `ReadInputGraph` over a run of valid edge lines with new, mutually
distinct edges: the loop goes on with the iterations that remain. -/
theorem readInputEdges_advance : ∀ (ebs : List (List Char)) (pairs : List (Int × Int))
    (k : Nat) (r : Reader) (E0 : EdgeSet) (rest : List (List Char)),
    textLines r.reader = ebs ++ rest → EdgeLines ebs pairs →
    (∀ p ∈ pairs, (normEdge p).Error = none) → (pairs.map normEdge).Nodup →
    (∀ p ∈ pairs, normEdge p ∉ E0) →
    ∃ r', readInputEdges (ebs.length + k) r E0 = readInputEdges k r' (E0 ++ pairs.map normEdge) ∧
      textLines r'.reader = rest ∧ r'.caseNum = r.caseNum ∧
      r'.lineNum = r.lineNum + ebs.length := by
  intro ebs
  induction ebs with
  | nil =>
    intro pairs k r E0 rest hl he _ _ _
    cases he
    exact ⟨r, by simp, by simpa using hl, rfl, by simp⟩
  | cons b ebs ih =>
    intro pairs k r E0 rest hl he herr hnd hmem
    cases he with
    | @cons _ p _ pairs hpl he' =>
      have hp1 : (normEdge p).Error = none := herr p (List.mem_cons_self _ _)
      have hp2 : normEdge p ∉ E0 := hmem p (List.mem_cons_self _ _)
      obtain ⟨h1, hstep⟩ := readInputEdges_step (ebs.length + k) r E0 b (ebs ++ rest) p
        (by simpa using hl) hpl hp1
      rw [if_neg hp2] at hstep
      rw [List.map_cons, List.nodup_cons] at hnd
      obtain ⟨r', h7, h8, h9, h10⟩ := ih pairs k r.readLine.1 (E0 ++ [normEdge p]) rest h1 he'
        (fun q hq => herr q (List.mem_cons_of_mem _ hq)) hnd.2 (by
          intro q hq hm
          rcases List.mem_append.1 hm with h | h
          · exact hmem q (List.mem_cons_of_mem _ hq) h
          · rw [List.mem_singleton] at h
            exact hnd.1 (h ▸ List.mem_map_of_mem _ hq))
      refine ⟨r', ?_, h8, by rw [h9, readLine_caseNum],
        by rw [h10, readLine_lineNum, List.length_cons]; push_cast; ring⟩
      rw [List.length_cons, Nat.add_right_comm, hstep, h7]
      simp

/-- The edge loop of `ReadOutputGraph` over a run of valid edge lines with new, mutually
distinct edges of the input: the loop goes on with the iterations that remain. -/
theorem readOutputEdges_advance (inE : EdgeSet) : ∀ (ebs : List (List Char))
    (pairs : List (Int × Int)) (k : Nat) (r : Reader) (E0 : EdgeSet) (rest : List (List Char)),
    textLines r.reader = ebs ++ rest → EdgeLines ebs pairs →
    (∀ p ∈ pairs, normEdge p ∈ inE) → (pairs.map normEdge).Nodup →
    (∀ p ∈ pairs, normEdge p ∉ E0) →
    ∃ r', readOutputEdges inE (ebs.length + k) r E0 =
        readOutputEdges inE k r' (E0 ++ pairs.map normEdge) ∧
      textLines r'.reader = rest ∧ r'.caseNum = r.caseNum ∧
      r'.lineNum = r.lineNum + ebs.length := by
  intro ebs
  induction ebs with
  | nil =>
    intro pairs k r E0 rest hl he _ _ _
    cases he
    exact ⟨r, by simp, by simpa using hl, rfl, by simp⟩
  | cons b ebs ih =>
    intro pairs k r E0 rest hl he hin hnd hmem
    cases he with
    | @cons _ p _ pairs hpl he' =>
      have hp1 : normEdge p ∈ inE := hin p (List.mem_cons_self _ _)
      have hp2 : normEdge p ∉ E0 := hmem p (List.mem_cons_self _ _)
      obtain ⟨h1, hstep⟩ := readOutputEdges_step inE (ebs.length + k) r E0 b (ebs ++ rest) p
        (by simpa using hl) hpl hp1
      rw [if_neg hp2] at hstep
      rw [List.map_cons, List.nodup_cons] at hnd
      obtain ⟨r', h7, h8, h9, h10⟩ := ih pairs k r.readLine.1 (E0 ++ [normEdge p]) rest h1 he'
        (fun q hq => hin q (List.mem_cons_of_mem _ hq)) hnd.2 (by
          intro q hq hm
          rcases List.mem_append.1 hm with h | h
          · exact hmem q (List.mem_cons_of_mem _ hq) h
          · rw [List.mem_singleton] at h
            exact hnd.1 (h ▸ List.mem_map_of_mem _ hq))
      refine ⟨r', ?_, h8, by rw [h9, readLine_caseNum],
        by rw [h10, readLine_lineNum, List.length_cons]; push_cast; ring⟩
      rw [List.length_cons, Nat.add_right_comm, hstep, h7]
      simp

/-- The algebra of `Normalize`: the order of the ends does not matter, the result is ordered,
and normalizing twice is normalizing once. -/
theorem normalize_laws (a c : Int) :
    (Edge.mk (c, a)).Normalize = (Edge.mk (a, c)).Normalize ∧
      (Edge.mk (a, c)).Normalize.Ends.1 ≤ (Edge.mk (a, c)).Normalize.Ends.2 ∧
      (Edge.mk (a, c)).Normalize.Normalize = (Edge.mk (a, c)).Normalize := by
  have h1 := normEdge_ends (a, c)
  have h2 := normEdge_ends (c, a)
  have h3 := normEdge_ends (normEdge (a, c)).Ends
  have e1 : (Edge.mk (a, c)).Normalize = normEdge (a, c) := rfl
  have e2 : (Edge.mk (c, a)).Normalize = normEdge (c, a) := rfl
  have e3 : (normEdge (a, c)).Normalize = normEdge (normEdge (a, c)).Ends := rfl
  rw [e1, e2, e3]
  simp only at h1 h2 h3
  refine ⟨?_, ?_, ?_⟩
  · cases hx : normEdge (c, a)
    cases hy : normEdge (a, c)
    rw [hx] at h2
    rw [hy] at h1
    simp only at h1 h2
    rw [h1, h2, min_comm, max_comm]
  · rw [h1]
    exact le_trans (min_le_left _ _) (le_max_left _ _)
  · cases hx : normEdge (normEdge (a, c)).Ends
    cases hy : normEdge (a, c)
    rw [hx] at h3
    rw [hy] at h1 h3
    simp only at h1 h3
    rw [h3, h1]
    simp only [Edge.mk.injEq, Prod.mk.injEq]
    constructor
    · exact min_eq_left (le_trans (min_le_left _ _) (le_max_left _ _))
    · exact max_eq_right (le_trans (min_le_left _ _) (le_max_left _ _))

/-- An edge line that repeats an earlier pair, in either order, lists an edge stored
before. -/
theorem normEdge_mem_of_listed {pairs : List (Int × Int)} {u v : Int}
    (hdup : (u, v) ∈ pairs ∨ (v, u) ∈ pairs) : normEdge (u, v) ∈ pairs.map normEdge := by
  rcases hdup with h | h
  · exact List.mem_map_of_mem _ h
  · have : normEdge (u, v) = normEdge (v, u) := (normEdge_eq_iff _ _).2 Sym2.eq_swap
    rw [this]
    exact List.mem_map_of_mem _ h

/-- The duplicate check of `ReadInputGraph`. -/
theorem readInputGraph_duplicate (r : Reader) (mb : List Char) (M : Int)
    (ebs : List (List Char)) (b : List Char) (rest : List (List Char))
    (pairs : List (Int × Int)) (u v : Int)
    (hl : textLines r.reader = mb :: (ebs ++ b :: rest)) (hM : NumLine mb M)
    (hlen : (ebs.length : Int) < M) (he : EdgeLines ebs pairs)
    (hnd : (pairs.map normEdge).Nodup) (hb : PairLine b u v)
    (hdup : (u, v) ∈ pairs ∨ (v, u) ∈ pairs) (hmax : M ≤ MaxNumEdges)
    (herr : ∀ p ∈ pairs, (normEdge p).Error = none) :
    r.ReadInputGraph.2 = .fail [] ⟨r.lineNum + 2 + ebs.length, r.caseNum, b,
      "Edge " ++ (Edge.mk (u, v)).Normalize.String ++ " (or its reverse) is duplicated."⟩ := by
  obtain ⟨h1, -, h3⟩ := readNumbers_lines r "Cannot parse the number of edges." 1 (Or.inl rfl)
    mb (ebs ++ b :: rest) hl
  have hcase := readNumbers_caseNum r "Cannot parse the number of edges." 1
  have hline := readNumbers_lineNum r "Cannot parse the number of edges." 1
  rcases hres : r.readNumbers "Cannot parse the number of edges." 1 with ⟨r1, run⟩
  rw [hres] at h1 h3 hcase hline
  simp only at h1 h3 hcase hline
  have hg : BodyGrammar 1 mb [M] := Or.inl ⟨rfl, _, hM, rfl⟩
  rcases h3 with ⟨nums, hg', hrun⟩ | ⟨hno, -⟩
  swap
  · exact absurd hg (hno _)
  have := bodyGrammar_unique hg' hg
  subst this
  subst hrun
  have hmemE := normEdge_mem_of_listed hdup
  have herr' : (normEdge (u, v)).Error = none := by
    obtain ⟨p, hp, hpe⟩ := List.mem_map.1 hmemE
    rw [← hpe]
    exact herr p hp
  obtain ⟨k, hk⟩ : ∃ k : Nat, M.toNat = ebs.length + (k + 1) :=
    ⟨M.toNat - ebs.length - 1, by omega⟩
  obtain ⟨r', h5, h6, h7, h8⟩ := readInputEdges_advance ebs pairs (k + 1) r1 [] (b :: rest) h1 he
    herr hnd (fun _ _ => List.not_mem_nil _)
  obtain ⟨-, hstep⟩ := readInputEdges_step k r' ([] ++ pairs.map normEdge) b rest (u, v) h6 hb
    herr'
  rw [if_pos (by simpa using hmemE)] at hstep
  unfold Reader.ReadInputGraph
  rw [hres]
  simp only [index?_single]
  rw [if_neg (not_lt.2 hmax), hk, h5, hstep]
  simp only [Run.fail.injEq, true_and, Mlst.Error.mk.injEq, and_true]
  refine ⟨?_, ?_, rfl⟩
  · rw [h8, hline]
    ring
  · rw [h7, hcase]

/-- The duplicate check of `ReadOutputGraph`. -/
theorem readOutputGraph_duplicate (order : MapOrder) (ho : order.Fair) (r : Reader)
    (G : EdgeSet) (mb : List Char) (M : Int)
    (ebs : List (List Char)) (b : List Char) (rest : List (List Char))
    (pairs : List (Int × Int)) (u v : Int)
    (hl : textLines r.reader = mb :: (ebs ++ b :: rest)) (hM : NumLine mb M)
    (hlen : (ebs.length : Int) < M) (he : EdgeLines ebs pairs)
    (hnd : (pairs.map normEdge).Nodup) (hb : PairLine b u v)
    (hdup : (u, v) ∈ pairs ∨ (v, u) ∈ pairs) (hG : ∀ e ∈ G, e.InRange)
    (hcount : M = (Set.ncard (EdgeSet.nodes G) : Int) - 1)
    (hin : ∀ p ∈ pairs, normEdge p ∈ G) :
    (r.ReadOutputGraph order G).2 = .fail InvalidNumLeaves
      ⟨r.lineNum + 2 + ebs.length, r.caseNum, b,
        "Edge " ++ (Edge.mk (u, v)).Normalize.String ++ " (or its reverse) is duplicated."⟩ := by
  obtain ⟨h1, -, h3⟩ := readNumbers_lines r "Cannot parse the number of edges." 1 (Or.inl rfl)
    mb (ebs ++ b :: rest) hl
  have hcase := readNumbers_caseNum r "Cannot parse the number of edges." 1
  have hline := readNumbers_lineNum r "Cannot parse the number of edges." 1
  rcases hres : r.readNumbers "Cannot parse the number of edges." 1 with ⟨r1, run⟩
  rw [hres] at h1 h3 hcase hline
  simp only at h1 h3 hcase hline
  have hg : BodyGrammar 1 mb [M] := Or.inl ⟨rfl, _, hM, rfl⟩
  rcases h3 with ⟨nums, hg', hrun⟩ | ⟨hno, -⟩
  swap
  · exact absurd hg (hno _)
  have := bodyGrammar_unique hg' hg
  subst this
  subst hrun
  have hmemE := normEdge_mem_of_listed hdup
  have hin' : normEdge (u, v) ∈ G := by
    obtain ⟨p, hp, hpe⟩ := List.mem_map.1 hmemE
    rw [← hpe]
    exact hin p hp
  obtain ⟨k, hk⟩ : ∃ k : Nat, M.toNat = ebs.length + (k + 1) :=
    ⟨M.toNat - ebs.length - 1, by omega⟩
  obtain ⟨r', h5, h6, h7, h8⟩ := readOutputEdges_advance G ebs pairs (k + 1) r1 [] (b :: rest) h1
    he hin hnd (fun _ _ => List.not_mem_nil _)
  obtain ⟨-, hstep⟩ := readOutputEdges_step G k r' ([] ++ pairs.map normEdge) b rest (u, v) h6
    hb hin'
  rw [if_pos (by simpa using hmemE)] at hstep
  obtain ⟨Gin, hGin, hnodes⟩ := searched_numNodes G (order r1.lineNum G) (ho _ _) hG
  unfold Reader.ReadOutputGraph
  rw [hres]
  simp only [hGin, index?_single]
  rw [if_neg (not_not.2 (by rw [hnodes]; exact hcount)), hk, h5, hstep]
  simp only [Run.fail.injEq, true_and, Mlst.Error.mk.injEq, and_true]
  refine ⟨?_, ?_, rfl⟩
  · rw [h8, hline]
    ring
  · rw [h7, hcase]

/-- C8, counterexample.  A case that lists the edge `0 1` and later `1 0` need not fail with
the duplicate diagnostic at the second occurrence, because the readers stop at the first
failure.  In the input `"1\n3\n0 1\n5 5\n1 0\n"` the second occurrence is on line 5, but
`ReadInputGraph` fails on line 4 with the self-loop diagnostic.  In the output
`"1\n3\n0 1\n1 2\n1 0\n"` for the triangle the second occurrence is on line 5, but
`ReadOutputGraph` fails on the edge-count line 2. -/
theorem duplicate_diagnostic_preempted :
    ((NewInFileReader "3\n0 1\n5 5\n1 0\n".toList).ReadInputGraph).2 =
      .fail [] ⟨3, 0, "5 5".toList, "Self-loop not allowed in edge (5,5)."⟩ ∧
    ((NewInFileReader "1\n3\n0 1\n5 5\n1 0\n".toList).ReadInputFile idOrder).2 =
      .fail [] ⟨4, 1, "5 5".toList, "Self-loop not allowed in edge (5,5)."⟩ ∧
    ((NewOutFileReader "1\n3\n0 1\n1 2\n1 0\n".toList).ReadOutputFile idOrder [triangle]).2 =
      .fail [] ⟨2, 1, "3".toList,
        "Input graph has 3 non-isolated nodes, output graph should have 2 edges, got 3 instead."⟩ := by
  refine ⟨by decide, by decide, by decide⟩

/-- C8, amended (normalization and duplicate rejection).  For all integers `a`, `c`,
`Normalize` of `(c,a)` is `Normalize` of `(a,c)`, the result has `Ends[0] <= Ends[1]`, and
`Normalize` is idempotent.  Consequently, let a case start with a valid edge count `M`
followed by fewer than `M` valid edge lines with pairwise distinct edges, and let the next
line `b` list `u v` where `u v` or `v u` is among those earlier lines.  If every line before
`b` is accepted by `ReadInputGraph` (`M <= MaxNumEdges`, every earlier edge valid), then
`ReadInputGraph` fails with the duplicated-edge diagnostic at line `b`; and if every line
before `b` is accepted by `ReadOutputGraph` (`M` is the number of non-isolated nodes of the
input `G` minus one, every earlier edge is in `G`), then so does `ReadOutputGraph`. -/
theorem normalize_duplicate_rejection (order : MapOrder) (ho : order.Fair) (r : Reader)
    (G : EdgeSet) (mb : List Char) (M : Int) (ebs : List (List Char)) (b : List Char)
    (rest : List (List Char)) (pairs : List (Int × Int)) (u v : Int)
    (hl : textLines r.reader = mb :: (ebs ++ b :: rest)) (hM : NumLine mb M)
    (hlen : (ebs.length : Int) < M) (he : EdgeLines ebs pairs)
    (hnd : (pairs.map normEdge).Nodup) (hb : PairLine b u v)
    (hdup : (u, v) ∈ pairs ∨ (v, u) ∈ pairs) :
    (∀ a c : Int, (Edge.mk (c, a)).Normalize = (Edge.mk (a, c)).Normalize ∧
      (Edge.mk (a, c)).Normalize.Ends.1 ≤ (Edge.mk (a, c)).Normalize.Ends.2 ∧
      (Edge.mk (a, c)).Normalize.Normalize = (Edge.mk (a, c)).Normalize) ∧
    (M ≤ MaxNumEdges → (∀ p ∈ pairs, (normEdge p).Error = none) →
      r.ReadInputGraph.2 = .fail [] ⟨r.lineNum + 2 + ebs.length, r.caseNum, b,
        "Edge " ++ (Edge.mk (u, v)).Normalize.String ++ " (or its reverse) is duplicated."⟩) ∧
    ((∀ e ∈ G, e.InRange) → M = (Set.ncard (EdgeSet.nodes G) : Int) - 1 →
      (∀ p ∈ pairs, normEdge p ∈ G) →
      (r.ReadOutputGraph order G).2 = .fail InvalidNumLeaves
        ⟨r.lineNum + 2 + ebs.length, r.caseNum, b,
          "Edge " ++ (Edge.mk (u, v)).Normalize.String ++ " (or its reverse) is duplicated."⟩) :=
  ⟨normalize_laws,
    readInputGraph_duplicate r mb M ebs b rest pairs u v hl hM hlen he hnd hb hdup,
    readOutputGraph_duplicate order ho r G mb M ebs b rest pairs u v hl hM hlen he hnd hb hdup⟩

theorem pairLine_one_zero : PairLine "1 0".toList 1 0 :=
  ⟨"1".toList, "0".toList, by decide, ⟨⟨by decide, by decide⟩, by decide, by decide⟩,
    ⟨⟨by decide, by decide⟩, by decide, by decide⟩⟩

/-- The case `2`, `0 1`, `1 0`, as an input case and as an output case for the triangle:
both readers report the duplicate on the third line. -/
theorem normalize_duplicate_rejection_witness :
    ((NewInFileReader "2\n0 1\n1 0\n".toList).ReadInputGraph).2 =
      .fail [] ⟨3, 0, "1 0".toList, "Edge (0,1) (or its reverse) is duplicated."⟩ ∧
    ((NewInFileReader "2\n0 1\n1 0\n".toList).ReadOutputGraph idOrder triangle).2 =
      .fail InvalidNumLeaves
        ⟨3, 0, "1 0".toList, "Edge (0,1) (or its reverse) is duplicated."⟩ :=
  have h := normalize_duplicate_rejection idOrder idOrder_fair
    (NewInFileReader "2\n0 1\n1 0\n".toList) triangle "2".toList 2 ["0 1".toList]
    "1 0".toList [] [(0, 1)] 1 0 (by decide) numLine_two (by decide)
    (List.Forall₂.cons pairLine_zero_one List.Forall₂.nil) (by decide) pairLine_one_zero
    (Or.inr (by decide))
  ⟨h.2.1 (by decide) (by decide),
    h.2.2 (fun e he => (triangle_valid e he).inRange) (by rw [triangle_ncard_nodes]; decide)
      (by decide)⟩

/-- The empty line holds no numbers. -/
theorem lineGrammar_nil (n : Int) (nums : List Int) : ¬ LineGrammar n [] nums := by
  rintro ⟨b, hb, hg⟩
  have hb' : b = [] := by
    rcases hb with h | h
    · exact h.symm
    · exact absurd h.symm (by simp)
  subst hb'
  rcases hg with ⟨_, k, hk, _⟩ | ⟨_, u, v, ⟨d1, d2, hd, _, _⟩, _⟩
  · exact hk.1.1 rfl
  · exact absurd hd (by simp)

/-- The numbers of a line of arity `n` are `n` numbers. -/
theorem lineGrammar_length {n : Int} {line : List Char} {nums : List Int}
    (h : LineGrammar n line nums) : (nums.length : Int) = n := by
  obtain ⟨b, -, hg⟩ := h
  rcases hg with ⟨hn, k, _, hk⟩ | ⟨hn, u, v, _, huv⟩
  · rw [hn, hk]
    rfl
  · rw [hn, huv]
    rfl

/-- C9 (exact grammar of `readNumbers`).  For arity `n` in `{1, 2}`, `readNumbers` succeeds
with `nums` iff the line read, after removing at most one trailing newline, consists of
exactly `n` non-empty runs of ASCII decimal digits, separated when `n = 2` by exactly one
space, with no other character, every run denoting a value that fits the integer type, and
`nums` are the decimal values of the runs in textual order; so it returns exactly `n`
integers.  On any other line, and when no line can be read, it returns a diagnostic and no
numbers. -/
theorem readNumbers_grammar (r : Reader) (msg : GoString) (n : Int) (hn : n = 1 ∨ n = 2) :
    (∀ nums, (r.readNumbers msg n).2 = .ok nums ↔ LineGrammar n r.readLine.1.line nums) ∧
    (∀ nums, (r.readNumbers msg n).2 = .ok nums → (nums.length : Int) = n) ∧
    ((∀ nums, ¬ LineGrammar n r.readLine.1.line nums) →
      ∃ e, (r.readNumbers msg n).2 = .fail [] e) ∧
    (r.readLine.2 ≠ none → ∃ e, (r.readNumbers msg n).2 = .fail [] e) := by
  have key : ∀ nums, (r.readNumbers msg n).2 = .ok nums ↔
      LineGrammar n r.readLine.1.line nums := by
    intro nums
    unfold Reader.readNumbers
    rcases hrl : r.readLine with ⟨r1, _ | err⟩
    · simp only
      exact parse_ok_iff r1 msg n hn nums
    · simp only
      have hnil := readLine_line_nil r (by rw [hrl]; simp)
      rw [hrl] at hnil
      simp only at hnil
      rw [hnil]
      constructor
      · intro h
        cases h
      · intro h
        exact absurd h (lineGrammar_nil n nums)
  have hfail : (∀ nums, ¬ LineGrammar n r.readLine.1.line nums) →
      ∃ e, (r.readNumbers msg n).2 = .fail [] e := by
    intro hno
    unfold Reader.readNumbers
    rcases hrl : r.readLine with ⟨r1, _ | err⟩
    · simp only
      rcases parse_cases r1 msg n hn with ⟨nums, hg, _⟩ | ⟨m, hm⟩
      · rw [hrl] at hno
        exact absurd hg (hno nums)
      · exact ⟨_, hm⟩
    · exact ⟨_, rfl⟩
  refine ⟨key, fun nums h => lineGrammar_length ((key nums).1 h), hfail, ?_⟩
  intro hne
  apply hfail
  intro nums
  rw [readLine_line_nil r hne]
  exact lineGrammar_nil n nums

/-- The line `007 08` with its newline is read as the two numbers 7 and 8. -/
theorem readNumbers_grammar_witness :
    ((∀ nums, ((NewInFileReader "007 08\n1\n".toList).readNumbers "Cannot parse." 2).2 = .ok nums ↔
        LineGrammar 2 (NewInFileReader "007 08\n1\n".toList).readLine.1.line nums) ∧
      (∀ nums, ((NewInFileReader "007 08\n1\n".toList).readNumbers "Cannot parse." 2).2 = .ok nums →
        (nums.length : Int) = 2) ∧
      ((∀ nums, ¬ LineGrammar 2 (NewInFileReader "007 08\n1\n".toList).readLine.1.line nums) →
        ∃ e, ((NewInFileReader "007 08\n1\n".toList).readNumbers "Cannot parse." 2).2 =
          .fail [] e) ∧
      ((NewInFileReader "007 08\n1\n".toList).readLine.2 ≠ none →
        ∃ e, ((NewInFileReader "007 08\n1\n".toList).readNumbers "Cannot parse." 2).2 =
          .fail [] e)) ∧
    ((NewInFileReader "007 08\n1\n".toList).readNumbers "Cannot parse." 2).2 = .ok [7, 8] :=
  ⟨readNumbers_grammar (NewInFileReader "007 08\n1\n".toList) "Cannot parse." 2 (Or.inr rfl),
    by decide⟩

/-- The edge loop of `ReadInputGraph` never decreases the line number. -/
theorem readInputEdges_lineNum : ∀ (k : Nat) (r : Reader) (E0 : EdgeSet) (r' : Reader)
    (res : Run EdgeSet), readInputEdges k r E0 = (r', res) → r.lineNum ≤ r'.lineNum := by
  intro k
  induction k with
  | zero =>
    intro r E0 r' res h
    simp only [readInputEdges, Prod.mk.injEq] at h
    rw [← h.1]
  | succ k ih =>
    intro r E0 r' res h
    rw [readInputEdges] at h
    have hl1 := readNumbers_lineNum r "Cannot parse the next edge." 2
    rcases hres : r.readNumbers "Cannot parse the next edge." 2 with ⟨r1, run⟩
    rw [hres] at h hl1
    simp only at hl1
    cases run with
    | crash f =>
      simp only [Prod.mk.injEq] at h
      rw [← h.1, hl1]
      omega
    | fail a e =>
      simp only [Prod.mk.injEq] at h
      rw [← h.1, hl1]
      omega
    | ok nums =>
      simp only at h
      split at h
      · split at h
        · simp only [Prod.mk.injEq] at h
          rw [← h.1, hl1]
          omega
        · split at h
          · simp only [Prod.mk.injEq] at h
            rw [← h.1, hl1]
            omega
          · have := ih _ _ _ _ h
            omega
      · simp only [Prod.mk.injEq] at h
        rw [← h.1, hl1]
        omega

/-- A call of `ReadInputGraph` reads at least one line. -/
theorem readInputGraph_lineNum (r r' : Reader) (res : Run EdgeSet)
    (h : r.ReadInputGraph = (r', res)) : r.lineNum + 1 ≤ r'.lineNum := by
  unfold Reader.ReadInputGraph at h
  have hl1 := readNumbers_lineNum r "Cannot parse the number of edges." 1
  rcases hres : r.readNumbers "Cannot parse the number of edges." 1 with ⟨r1, run⟩
  rw [hres] at h hl1
  simp only at hl1
  cases run with
  | crash f =>
    simp only [Prod.mk.injEq] at h
    rw [← h.1, hl1]
  | fail a e =>
    simp only [Prod.mk.injEq] at h
    rw [← h.1, hl1]
  | ok nums =>
    simp only at h
    split at h
    · simp only [Prod.mk.injEq] at h
      rw [← h.1, hl1]
    · split at h
      · simp only [Prod.mk.injEq] at h
        rw [← h.1, hl1]
      · have := readInputEdges_lineNum _ _ _ _ _ h
        omega

/-- The edge loop of `ReadOutputGraph` never decreases the line number. -/
theorem readOutputEdges_lineNum (inE : EdgeSet) : ∀ (k : Nat) (r : Reader) (E0 : EdgeSet)
    (r' : Reader) (res : Run EdgeSet),
    readOutputEdges inE k r E0 = (r', res) → r.lineNum ≤ r'.lineNum := by
  intro k
  induction k with
  | zero =>
    intro r E0 r' res h
    simp only [readOutputEdges, Prod.mk.injEq] at h
    rw [← h.1]
  | succ k ih =>
    intro r E0 r' res h
    rw [readOutputEdges] at h
    have hl1 := readNumbers_lineNum r "Cannot parse the next edge." 2
    rcases hres : r.readNumbers "Cannot parse the next edge." 2 with ⟨r1, run⟩
    rw [hres] at h hl1
    simp only at hl1
    cases run with
    | crash f =>
      simp only [Prod.mk.injEq] at h
      rw [← h.1, hl1]
      omega
    | fail a e =>
      simp only [Prod.mk.injEq] at h
      rw [← h.1, hl1]
      omega
    | ok nums =>
      simp only at h
      split at h
      · split at h
        · simp only [Prod.mk.injEq] at h
          rw [← h.1, hl1]
          omega
        · split at h
          · simp only [Prod.mk.injEq] at h
            rw [← h.1, hl1]
            omega
          · have := ih _ _ _ _ h
            omega
      · simp only [Prod.mk.injEq] at h
        rw [← h.1, hl1]
        omega

/-- A call of `ReadOutputGraph` that returns a diagnostic has read at least one line. -/
theorem readOutputGraph_lineNum (order : MapOrder) (r r' : Reader) (G : EdgeSet) (a : Int)
    (e : Mlst.Error) (h : r.ReadOutputGraph order G = (r', .fail a e)) :
    r.lineNum + 1 ≤ r'.lineNum := by
  unfold Reader.ReadOutputGraph at h
  have hl1 := readNumbers_lineNum r "Cannot parse the number of edges." 1
  rcases hres : r.readNumbers "Cannot parse the number of edges." 1 with ⟨r1, run⟩
  rw [hres] at h hl1
  simp only at hl1
  cases run with
  | crash f => simp at h
  | fail a e =>
    simp only [Prod.mk.injEq] at h
    rw [← h.1, hl1]
  | ok nums =>
    simp only at h
    split at h
    · simp at h
    · split at h
      · simp at h
      · split at h
        · simp only [Prod.mk.injEq] at h
          rw [← h.1, hl1]
        · rcases hed : readOutputEdges G _ r1 [] with ⟨r2, run2⟩
          have hl2 := readOutputEdges_lineNum _ _ _ _ _ _ hed
          rw [hed] at h
          cases run2 with
          | crash f => simp at h
          | fail a2 e2 =>
            simp only [Prod.mk.injEq] at h
            rw [← h.1]
            omega
          | ok E =>
            simp only at h
            split at h
            · simp at h
            · split at h
              · simp only [Prod.mk.injEq] at h
                rw [← h.1]
                omega
              · split at h
                · simp only [Prod.mk.injEq] at h
                  rw [← h.1]
                  omega
                · split at h
                  · simp only [Prod.mk.injEq] at h
                    rw [← h.1]
                    omega
                  · simp at h

/-- Where a successful run of the case loop of `ReadInputFile` leaves the reader. -/
theorem readInputCases_ok_post (order : MapOrder) (t : List Char) :
    ∀ (k : Nat) (r : Reader) (acc : List EdgeSet) (r' : Reader) (sets : List EdgeSet),
    readInputCases order k r acc = (r', .ok sets) → Synced t r →
    Synced t r' ∧ r'.caseNum = r.caseNum + k := by
  intro k
  induction k with
  | zero =>
    intro r acc r' sets h hs
    simp only [readInputCases, Prod.mk.injEq] at h
    rw [← h.1]
    exact ⟨hs, by simp⟩
  | succ k ih =>
    intro r acc r' sets h hs
    rw [readInputCases] at h
    rcases hres : r.ReadInputGraph with ⟨r1, run⟩
    obtain ⟨hs1, hc1, -⟩ := readInputGraph_post t r r1 run hres hs
    rw [hres] at h
    cases run with
    | crash f => simp at h
    | fail a1 e1 => simp at h
    | ok E =>
      simp only at h
      split at h
      · simp at h
      · split at h
        · simp at h
        · obtain ⟨h1, h2⟩ := ih _ _ _ _ h (synced_caseNum t r1 _ hs1)
          refine ⟨h1, ?_⟩
          rw [h2]
          simp only
          rw [hc1]
          push_cast
          ring

/-- Where a successful run of the case loop of `ReadOutputFile` leaves the reader. -/
theorem readOutputCases_ok_post (order : MapOrder) (t : List Char) :
    ∀ (sets : List EdgeSet) (r : Reader) (acc : List Int) (r' : Reader) (leaves : List Int),
    readOutputCases order sets r acc = (r', .ok leaves) → Synced t r →
    Synced t r' ∧ r'.caseNum = r.caseNum + sets.length := by
  intro sets
  induction sets with
  | nil =>
    intro r acc r' leaves h hs
    simp only [readOutputCases, Prod.mk.injEq] at h
    rw [← h.1]
    exact ⟨hs, by simp⟩
  | cons G sets ih =>
    intro r acc r' leaves h hs
    rw [readOutputCases] at h
    rcases hres : r.ReadOutputGraph order G with ⟨r1, run⟩
    obtain ⟨hs1, hc1, -⟩ := readOutputGraph_post order t r r1 G run hres hs
    rw [hres] at h
    cases run with
    | crash f => simp at h
    | fail a1 e1 => simp at h
    | ok L =>
      simp only at h
      obtain ⟨h1, h2⟩ := ih _ _ _ _ h (synced_caseNum t r1 _ hs1)
      refine ⟨h1, ?_⟩
      rw [h2]
      simp only
      rw [hc1, List.length_cons]
      push_cast
      ring

/-- A diagnostic stamped by a reader that has read at least one line of the text `t` carries
the text of the line with that number, or the empty line past the end of the text. -/
theorem stamped_line (t : List Char) (r : Reader) (e : Mlst.Error) (hs : Synced t r)
    (hst : Stamped r e) (h1 : 1 ≤ r.lineNum) :
    e.lineNum = r.lineNum ∧ 1 ≤ e.lineNum ∧
      e.line = (textLines t).getD (e.lineNum.toNat - 1) [] := by
  obtain ⟨hl, -, hline⟩ := hst
  refine ⟨hl, by rw [hl]; exact h1, ?_⟩
  rw [hline, hl]
  exact hs.line h1

/-- A failing iteration of the case loop of `ReadInputFile` has read at least one line. -/
theorem readInputCases_one_lineNum (order : MapOrder) (r r' : Reader) (acc a : List EdgeSet)
    (e : Mlst.Error) (h : readInputCases order 1 r acc = (r', .fail a e)) :
    r.lineNum + 1 ≤ r'.lineNum := by
  rw [readInputCases] at h
  rcases hres : r.ReadInputGraph with ⟨r1, run⟩
  have hl := readInputGraph_lineNum r r1 run hres
  rw [hres] at h
  cases run with
  | crash f => simp at h
  | fail a1 e1 =>
    simp only [Prod.mk.injEq] at h
    rw [← h.1]
    exact hl
  | ok E =>
    simp only at h
    split at h
    · simp at h
    · split at h
      · simp only [Prod.mk.injEq] at h
        rw [← h.1]
        exact hl
      · simp [readInputCases] at h

/-- The causes of a diagnostic of `ReadInputFile`: the first line, a case, or a line after
the last case; with the position that the diagnostic carries in each case. -/
theorem readInputFile_fail (order : MapOrder) (t : List Char) (r' : Reader)
    (a : List EdgeSet) (e : Mlst.Error)
    (h : (NewInFileReader t).ReadInputFile order = (r', .fail a e)) :
    (Synced t r' ∧ e.lineNum = r'.lineNum ∧ 1 ≤ e.lineNum ∧
      e.line = (textLines t).getD (e.lineNum.toNat - 1) []) ∧
    ((((NewInFileReader t).readNumbers "Cannot parse the number of input graphs." 1).2 =
          .fail [] e ∧ e.lineNum = 1 ∧ e.caseNum = 0) ∨
      (∃ (N : Int) (r1 : Reader) (nums : List Int) (j : Nat) (rj : Reader)
          (done : List EdgeSet),
        (NewInFileReader t).readNumbers "Cannot parse the number of input graphs." 1 =
          (r1, .ok nums) ∧ index? nums 0 = some N ∧ Allocatable N ∧ j < N.toNat ∧
        readInputCases order j { r1 with caseNum := 1 } [] = (rj, .ok done) ∧
        readInputCases order 1 rj done = (r', .fail [] e) ∧ e.caseNum = (j : Int) + 1) ∨
      (∃ (N : Int) (r1 : Reader) (nums : List Int) (r2 : Reader) (done : List EdgeSet),
        (NewInFileReader t).readNumbers "Cannot parse the number of input graphs." 1 =
          (r1, .ok nums) ∧ index? nums 0 = some N ∧ Allocatable N ∧
        readInputCases order N.toNat { r1 with caseNum := 1 } [] = (r2, .ok done) ∧
        r2.readLine = (r', none) ∧ e.caseNum = (N.toNat : Int) + 1)) := by
  unfold Reader.ReadInputFile at h
  have hs0 := synced_new t
  have hs1 := synced_readNumbers t (NewInFileReader t)
    "Cannot parse the number of input graphs." 1 hs0
  have hc1 := readNumbers_caseNum (NewInFileReader t)
    "Cannot parse the number of input graphs." 1
  have hl1 := readNumbers_lineNum (NewInFileReader t)
    "Cannot parse the number of input graphs." 1
  rcases hres : (NewInFileReader t).readNumbers "Cannot parse the number of input graphs." 1
    with ⟨r1, run⟩
  rw [hres] at h hs1 hc1 hl1
  simp only at hs1 hc1 hl1
  have hc1' : r1.caseNum = 0 := hc1
  have hl1' : r1.lineNum = 1 := by rw [hl1]; rfl
  cases run with
  | crash f => simp at h
  | fail a1 e1 =>
    simp only [Prod.mk.injEq, Run.fail.injEq] at h
    obtain ⟨rfl, -, rfl⟩ := h
    obtain ⟨rfl, hst⟩ := readNumbers_fail _ _ _ _ _ _ hres
    refine ⟨⟨hs1, stamped_line t _ _ hs1 hst (by omega)⟩, Or.inl ⟨rfl, ?_, ?_⟩⟩
    · rw [hst.1, hl1']
    · rw [hst.2.1, hc1']
  | ok nums =>
    simp only at h
    split at h
    · simp at h
    · rename_i N hN
      by_cases hal : Allocatable N
      swap
      · rw [makeslice_error hal] at h
        simp at h
      rw [makeslice_ok hal] at h
      simp only at h
      rcases hcs : readInputCases order N.toNat { r1 with caseNum := 1 } [] with ⟨r2, run2⟩
      rw [hcs] at h
      have hsc : Synced t { r1 with caseNum := 1 } := synced_caseNum t r1 1 hs1
      cases run2 with
      | crash f => simp at h
      | fail a2 e2 =>
        simp only [Prod.mk.injEq, Run.fail.injEq] at h
        obtain ⟨rfl, -, rfl⟩ := h
        obtain ⟨j, rj, done, hj, hok, hfail, hcj, hsj⟩ :=
          readInputCases_fail order t _ _ _ _ _ _ hcs hsc
        obtain ⟨hs2, hc2, hst, -⟩ := readInputCases_one_fail order t _ _ _ _ _ hfail hsj
        have hl2 := readInputCases_one_lineNum order _ _ _ _ _ hfail
        have hnn := hsj.nonneg
        refine ⟨⟨hs2, stamped_line t _ _ hs2 hst (by omega)⟩,
          Or.inr (Or.inl ⟨N, r1, nums, j, rj, done, rfl, hN, hal, hj, hok, hfail, ?_⟩)⟩
        rw [hst.2.1, hc2, hcj]
        simp only
        ring
      | ok done =>
        simp only at h
        obtain ⟨hs2, hc2⟩ := readInputCases_ok_post order t _ _ _ _ _ hcs hsc
        have hs3 := synced_readLine t r2 hs2
        have hl3 := readLine_lineNum r2
        have hc3 := readLine_caseNum r2
        have hnn := hs2.nonneg
        rcases hrl : r2.readLine with ⟨r3, _ | err⟩
        · rw [hrl] at h hs3 hl3 hc3
          simp only [Prod.mk.injEq, Run.fail.injEq] at h hs3 hl3 hc3
          obtain ⟨rfl, -, rfl⟩ := h
          have hst : Stamped r3 (r3.ErrorWithExpected (extraLinesMsg N) "Expecting EOF.") :=
            stamped_error _ _
          refine ⟨⟨hs3, stamped_line t _ _ hs3 hst (by omega)⟩,
            Or.inr (Or.inr ⟨N, r1, nums, r2, done, rfl, hN, hal, hcs, hrl, ?_⟩)⟩
          rw [hst.2.1, hc3, hc2]
          simp only
          ring
        · rw [hrl] at h
          cases err
          simp at h

/-- The causes of a diagnostic of `ReadOutputFile`: the first line (unreadable, or a count
other than the number of input graphs), a case, or a line after the last case; with the
position that the diagnostic carries in each case. -/
theorem readOutputFile_fail (order : MapOrder) (t : List Char) (sets : List EdgeSet)
    (r' : Reader) (a : List Int) (e : Mlst.Error)
    (h : (NewOutFileReader t).ReadOutputFile order sets = (r', .fail a e)) :
    (Synced t r' ∧ e.lineNum = r'.lineNum ∧ 1 ≤ e.lineNum ∧
      e.line = (textLines t).getD (e.lineNum.toNat - 1) []) ∧
    ((((NewOutFileReader t).readNumbers "Cannot parse the number of output graphs." 1).2 =
          .fail [] e ∧ e.lineNum = 1 ∧ e.caseNum = 0) ∨
      (∃ (n0 : Int) (r1 : Reader) (nums : List Int),
        (NewOutFileReader t).readNumbers "Cannot parse the number of output graphs." 1 =
          (r1, .ok nums) ∧ index? nums 0 = some n0 ∧ n0 ≠ (sets.length : Int) ∧
        e = r1.Error (caseCountMsg n0 sets.length) ∧ e.lineNum = 1 ∧ e.caseNum = 0) ∨
      (∃ (r1 : Reader) (nums : List Int) (j : Nat) (rj : Reader) (leaves : List Int)
          (G : EdgeSet),
        (NewOutFileReader t).readNumbers "Cannot parse the number of output graphs." 1 =
          (r1, .ok nums) ∧ j < sets.length ∧
        readOutputCases order (sets.take j) { r1 with caseNum := 1 } [] = (rj, .ok leaves) ∧
        sets[j]? = some G ∧ rj.ReadOutputGraph order G = (r', .fail InvalidNumLeaves e) ∧
        e.caseNum = (j : Int) + 1) ∨
      (∃ (r1 : Reader) (nums : List Int) (r2 : Reader) (leaves : List Int),
        (NewOutFileReader t).readNumbers "Cannot parse the number of output graphs." 1 =
          (r1, .ok nums) ∧
        readOutputCases order sets { r1 with caseNum := 1 } [] = (r2, .ok leaves) ∧
        r2.readLine = (r', none) ∧ e.caseNum = (sets.length : Int) + 1)) := by
  unfold Reader.ReadOutputFile at h
  have hs0 : Synced t (NewOutFileReader t) := synced_new t
  have hs1 := synced_readNumbers t (NewOutFileReader t)
    "Cannot parse the number of output graphs." 1 hs0
  have hc1 := readNumbers_caseNum (NewOutFileReader t)
    "Cannot parse the number of output graphs." 1
  have hl1 := readNumbers_lineNum (NewOutFileReader t)
    "Cannot parse the number of output graphs." 1
  rcases hres : (NewOutFileReader t).readNumbers "Cannot parse the number of output graphs." 1
    with ⟨r1, run⟩
  rw [hres] at h hs1 hc1 hl1
  simp only at hs1 hc1 hl1
  have hc1' : r1.caseNum = 0 := hc1
  have hl1' : r1.lineNum = 1 := by rw [hl1]; rfl
  cases run with
  | crash f => simp at h
  | fail a1 e1 =>
    simp only [Prod.mk.injEq, Run.fail.injEq] at h
    obtain ⟨rfl, -, rfl⟩ := h
    obtain ⟨rfl, hst⟩ := readNumbers_fail _ _ _ _ _ _ hres
    refine ⟨⟨hs1, stamped_line t _ _ hs1 hst (by omega)⟩, Or.inl ⟨rfl, ?_, ?_⟩⟩
    · rw [hst.1, hl1']
    · rw [hst.2.1, hc1']
  | ok nums =>
    simp only at h
    split at h
    · simp at h
    · rename_i n0 hn0
      split at h
      · rename_i hne
        simp only [Prod.mk.injEq, Run.fail.injEq] at h
        obtain ⟨rfl, -, rfl⟩ := h
        have hst : Stamped r1 (r1.Error (caseCountMsg n0 sets.length)) := stamped_error _ _
        refine ⟨⟨hs1, stamped_line t _ _ hs1 hst (by omega)⟩,
          Or.inr (Or.inl ⟨n0, r1, nums, rfl, hn0, hne, rfl, ?_, ?_⟩)⟩
        · rw [hst.1, hl1']
        · rw [hst.2.1, hc1']
      · rcases hcs : readOutputCases order sets { r1 with caseNum := 1 } [] with ⟨r2, run2⟩
        rw [hcs] at h
        have hsc : Synced t { r1 with caseNum := 1 } := synced_caseNum t r1 1 hs1
        cases run2 with
        | crash f => simp at h
        | fail a2 e2 =>
          simp only [Prod.mk.injEq, Run.fail.injEq] at h
          obtain ⟨rfl, -, rfl⟩ := h
          obtain ⟨j, rj, leaves, G, r3, hj, hok, hG, hfail, rfl, -, hcj, hsj, hs2, hst⟩ :=
            readOutputCases_fail order t _ _ _ _ _ _ hcs hsc
          obtain ⟨-, hc2, -⟩ := readOutputGraph_post order t _ _ _ _ hfail hsj
          have hl2 := readOutputGraph_lineNum order _ _ _ _ _ hfail
          have hnn := hsj.nonneg
          refine ⟨⟨hs2, stamped_line t _ _ hs2 hst (by omega)⟩,
            Or.inr (Or.inr (Or.inl ⟨r1, nums, j, rj, leaves, G, rfl, hj, hok, hG, hfail, ?_⟩))⟩
          rw [hst.2.1, hc2, hcj]
          simp only
          ring
        | ok leaves =>
          simp only at h
          obtain ⟨hs2, hc2⟩ := readOutputCases_ok_post order t _ _ _ _ _ hcs hsc
          have hs3 := synced_readLine t r2 hs2
          have hl3 := readLine_lineNum r2
          have hc3 := readLine_caseNum r2
          have hnn := hs2.nonneg
          rcases hrl : r2.readLine with ⟨r3, _ | err⟩
          · rw [hrl] at h hs3 hl3 hc3
            simp only [Prod.mk.injEq, Run.fail.injEq] at h hs3 hl3 hc3
            obtain ⟨rfl, -, rfl⟩ := h
            have hst : Stamped r3
                (r3.ErrorWithExpected (extraLinesMsg sets.length) "Expecting EOF.") :=
              stamped_error _ _
            refine ⟨⟨hs3, stamped_line t _ _ hs3 hst (by omega)⟩,
              Or.inr (Or.inr (Or.inr ⟨r1, nums, r2, leaves, rfl, hcs, hrl, ?_⟩))⟩
            rw [hst.2.1, hc3, hc2]
            simp only
            ring
          · rw [hrl] at h
            cases err
            simp at h

/-! ### The line number of a reader counts the lines it has attempted to read -/

theorem before_new (t : List Char) : Before t (NewInFileReader t) := by
  unfold Before NewInFileReader
  simp

theorem readLine_line_ne_nil (r : Reader) (h : r.reader ≠ []) : r.readLine.1.line ≠ [] := by
  rw [readLine_fst]
  simp only
  cases hr : r.reader with
  | nil => exact absurd hr h
  | cons c t =>
    obtain ⟨b, -, -, h3⟩ := readString_lines c t
    rcases h3 with ⟨h4, -⟩ | ⟨h4, -, h6, -⟩
    · rw [h4]
      simp
    · rw [h4]
      exact h6

theorem readLine_reached (t : List Char) (r : Reader) (h : Before t r) :
    (r.reader ≠ [] → Held t r.readLine.1) ∧ (r.reader = [] → PastEnd t r.readLine.1) := by
  unfold Before at h
  constructor
  · intro hr
    refine ⟨readLine_line_ne_nil r hr, ?_⟩
    obtain ⟨b, h1, -⟩ := readLine_lines r hr
    unfold Before
    rw [readLine_lineNum]
    rw [h1] at h
    simp only [List.length_cons, Nat.cast_add, Nat.cast_one] at h
    omega
  · intro hr
    rw [readLine_eof r hr]
    rw [hr] at h
    simp only [textLines_nil, List.length_nil, Nat.cast_zero, add_zero] at h
    exact ⟨rfl, rfl, by simp only; omega⟩

theorem readLine_none_reader (r r3 : Reader) (h : r.readLine = (r3, none)) : r.reader ≠ [] := by
  intro hr
  rw [readLine_eof r hr] at h
  simp at h

/-- After `readNumbers`, the reader has attempted one more line, and on success it holds
that line. -/
theorem readNumbers_reached (t : List Char) (r : Reader) (msg : GoString) (n : Int)
    (r' : Reader) (res : Run (List Int)) (hres : r.readNumbers msg n = (r', res))
    (h : Before t r) :
    Reached t r' ∧ (∀ nums, res = .ok nums → Held t r') := by
  have hfst := readNumbers_fst r msg n
  rw [hres] at hfst
  simp only at hfst
  obtain ⟨h1, h2⟩ := readLine_reached t r h
  by_cases hr : r.reader = []
  · refine ⟨Or.inr (hfst ▸ h2 hr), ?_⟩
    intro nums hn
    obtain ⟨-, -, m, hm⟩ := readNumbers_eof r msg n hr
    rw [hres] at hm
    simp only at hm
    rw [hn] at hm
    simp at hm
  · exact ⟨Or.inl (hfst ▸ h1 hr), fun _ _ => hfst ▸ h1 hr⟩

theorem readInputEdges_reached (t : List Char) :
    ∀ (k : Nat) (r : Reader) (E0 : EdgeSet) (r' : Reader) (res : Run EdgeSet),
    readInputEdges k r E0 = (r', res) → Held t r →
    Reached t r' ∧ (∀ E, res = .ok E → Held t r') := by
  intro k
  induction k with
  | zero =>
    intro r E0 r' res h hs
    simp only [readInputEdges, Prod.mk.injEq] at h
    obtain ⟨rfl, rfl⟩ := h
    exact ⟨Or.inl hs, fun _ _ => hs⟩
  | succ k ih =>
    intro r E0 r' res h hs
    rw [readInputEdges] at h
    rcases hres : r.readNumbers "Cannot parse the next edge." 2 with ⟨r1, run⟩
    obtain ⟨hr1, hk1⟩ := readNumbers_reached t r _ _ r1 run hres hs.2
    rw [hres] at h
    cases run with
    | crash f =>
      simp only [Prod.mk.injEq] at h
      obtain ⟨rfl, rfl⟩ := h
      exact ⟨hr1, by simp⟩
    | fail a e =>
      simp only [Prod.mk.injEq] at h
      obtain ⟨rfl, rfl⟩ := h
      exact ⟨hr1, by simp⟩
    | ok nums =>
      have hh := hk1 nums rfl
      simp only at h
      split at h
      · split at h
        · simp only [Prod.mk.injEq] at h
          obtain ⟨rfl, rfl⟩ := h
          exact ⟨hr1, by simp⟩
        · split at h
          · simp only [Prod.mk.injEq] at h
            obtain ⟨rfl, rfl⟩ := h
            exact ⟨hr1, by simp⟩
          · exact ih _ _ _ _ h hh
      · simp only [Prod.mk.injEq] at h
        obtain ⟨rfl, rfl⟩ := h
        exact ⟨hr1, by simp⟩

theorem readInputGraph_reached (t : List Char) (r r' : Reader) (res : Run EdgeSet)
    (h : r.ReadInputGraph = (r', res)) (hs : Before t r) :
    Reached t r' ∧ (∀ E, res = .ok E → Held t r') := by
  unfold Reader.ReadInputGraph at h
  rcases hres : r.readNumbers "Cannot parse the number of edges." 1 with ⟨r1, run⟩
  obtain ⟨hr1, hk1⟩ := readNumbers_reached t r _ _ r1 run hres hs
  rw [hres] at h
  cases run with
  | crash f =>
    simp only [Prod.mk.injEq] at h
    obtain ⟨rfl, rfl⟩ := h
    exact ⟨hr1, by simp⟩
  | fail a e =>
    simp only [Prod.mk.injEq] at h
    obtain ⟨rfl, rfl⟩ := h
    exact ⟨hr1, by simp⟩
  | ok nums =>
    have hh := hk1 nums rfl
    simp only at h
    split at h
    · simp only [Prod.mk.injEq] at h
      obtain ⟨rfl, rfl⟩ := h
      exact ⟨hr1, by simp⟩
    · split at h
      · simp only [Prod.mk.injEq] at h
        obtain ⟨rfl, rfl⟩ := h
        exact ⟨hr1, by simp⟩
      · exact readInputEdges_reached t _ _ _ _ _ h hh

theorem readInputCases_reached (order : MapOrder) (t : List Char) :
    ∀ (k : Nat) (r : Reader) (acc : List EdgeSet) (r' : Reader) (res : Run (List EdgeSet)),
    readInputCases order k r acc = (r', res) → Before t r →
    (∀ sets, res = .ok sets → Before t r') ∧ (∀ a e, res = .fail a e → Reached t r') := by
  intro k
  induction k with
  | zero =>
    intro r acc r' res h hs
    simp only [readInputCases, Prod.mk.injEq] at h
    obtain ⟨rfl, rfl⟩ := h
    exact ⟨fun _ _ => hs, by simp⟩
  | succ k ih =>
    intro r acc r' res h hs
    rw [readInputCases] at h
    rcases hres : r.ReadInputGraph with ⟨r1, run⟩
    obtain ⟨hr1, hk1⟩ := readInputGraph_reached t r r1 run hres hs
    rw [hres] at h
    cases run with
    | crash f =>
      simp only [Prod.mk.injEq] at h
      obtain ⟨rfl, rfl⟩ := h
      exact ⟨by simp, by simp⟩
    | fail a e =>
      simp only [Prod.mk.injEq] at h
      obtain ⟨rfl, rfl⟩ := h
      exact ⟨by simp, fun _ _ _ => hr1⟩
    | ok E =>
      have hh := hk1 E rfl
      simp only at h
      split at h
      · simp only [Prod.mk.injEq] at h
        obtain ⟨rfl, rfl⟩ := h
        exact ⟨by simp, by simp⟩
      · split at h
        · simp only [Prod.mk.injEq] at h
          obtain ⟨rfl, rfl⟩ := h
          exact ⟨by simp, fun _ _ _ => hr1⟩
        · exact ih _ _ _ _ h hh.2

/-- A diagnostic of `ReadInputFile` leaves the reader at the line it has attempted last. -/
theorem readInputFile_reached (order : MapOrder) (t : List Char) (r' : Reader)
    (a : List EdgeSet) (e : Mlst.Error)
    (h : (NewInFileReader t).ReadInputFile order = (r', .fail a e)) : Reached t r' := by
  unfold Reader.ReadInputFile at h
  rcases hres : (NewInFileReader t).readNumbers "Cannot parse the number of input graphs." 1
    with ⟨r1, run⟩
  obtain ⟨hr1, hk1⟩ := readNumbers_reached t _ _ _ r1 run hres (before_new t)
  rw [hres] at h
  cases run with
  | crash f => simp at h
  | fail a1 e1 =>
    simp only [Prod.mk.injEq] at h
    rw [← h.1]
    exact hr1
  | ok nums =>
    have hh := hk1 nums rfl
    simp only at h
    split at h
    · simp at h
    · rename_i N hN
      by_cases hal : Allocatable N
      swap
      · rw [makeslice_error hal] at h
        simp at h
      rw [makeslice_ok hal] at h
      simp only at h
      rcases hcs : readInputCases order N.toNat { r1 with caseNum := 1 } [] with ⟨r2, run2⟩
      obtain ⟨hb2, hf2⟩ := readInputCases_reached order t _ _ _ _ _ hcs hh.2
      rw [hcs] at h
      cases run2 with
      | crash f => simp at h
      | fail a2 e2 =>
        simp only [Prod.mk.injEq] at h
        rw [← h.1]
        exact hf2 _ _ rfl
      | ok done =>
        simp only at h
        rcases hrl : r2.readLine with ⟨r3, _ | err⟩
        · rw [hrl] at h
          simp only [Prod.mk.injEq] at h
          rw [← h.1]
          have := (readLine_reached t r2 (hb2 _ rfl)).1 (readLine_none_reader r2 r3 hrl)
          rw [hrl] at this
          exact Or.inl this
        · rw [hrl] at h
          cases err
          simp at h

theorem readOutputEdges_reached (t : List Char) (inE : EdgeSet) :
    ∀ (k : Nat) (r : Reader) (E0 : EdgeSet) (r' : Reader) (res : Run EdgeSet),
    readOutputEdges inE k r E0 = (r', res) → Held t r →
    Reached t r' ∧ (∀ E, res = .ok E → Held t r') := by
  intro k
  induction k with
  | zero =>
    intro r E0 r' res h hs
    simp only [readOutputEdges, Prod.mk.injEq] at h
    obtain ⟨rfl, rfl⟩ := h
    exact ⟨Or.inl hs, fun _ _ => hs⟩
  | succ k ih =>
    intro r E0 r' res h hs
    rw [readOutputEdges] at h
    rcases hres : r.readNumbers "Cannot parse the next edge." 2 with ⟨r1, run⟩
    obtain ⟨hr1, hk1⟩ := readNumbers_reached t r _ _ r1 run hres hs.2
    rw [hres] at h
    cases run with
    | crash f =>
      simp only [Prod.mk.injEq] at h
      obtain ⟨rfl, rfl⟩ := h
      exact ⟨hr1, by simp⟩
    | fail a e =>
      simp only [Prod.mk.injEq] at h
      obtain ⟨rfl, rfl⟩ := h
      exact ⟨hr1, by simp⟩
    | ok nums =>
      have hh := hk1 nums rfl
      simp only at h
      split at h
      · split at h
        · simp only [Prod.mk.injEq] at h
          obtain ⟨rfl, rfl⟩ := h
          exact ⟨hr1, by simp⟩
        · split at h
          · simp only [Prod.mk.injEq] at h
            obtain ⟨rfl, rfl⟩ := h
            exact ⟨hr1, by simp⟩
          · exact ih _ _ _ _ h hh
      · simp only [Prod.mk.injEq] at h
        obtain ⟨rfl, rfl⟩ := h
        exact ⟨hr1, by simp⟩

theorem readOutputGraph_reached (order : MapOrder) (t : List Char) (r r' : Reader)
    (G : EdgeSet) (res : Run Int) (h : r.ReadOutputGraph order G = (r', res))
    (hs : Before t r) :
    Reached t r' ∧ (∀ L, res = .ok L → Held t r') := by
  unfold Reader.ReadOutputGraph at h
  rcases hres : r.readNumbers "Cannot parse the number of edges." 1 with ⟨r1, run⟩
  obtain ⟨hr1, hk1⟩ := readNumbers_reached t r _ _ r1 run hres hs
  rw [hres] at h
  cases run with
  | crash f =>
    simp only [Prod.mk.injEq] at h
    obtain ⟨rfl, rfl⟩ := h
    exact ⟨hr1, by simp⟩
  | fail a e =>
    simp only [Prod.mk.injEq] at h
    obtain ⟨rfl, rfl⟩ := h
    exact ⟨hr1, by simp⟩
  | ok nums =>
    have hh := hk1 nums rfl
    simp only at h
    split at h
    · simp only [Prod.mk.injEq] at h
      obtain ⟨rfl, rfl⟩ := h
      exact ⟨hr1, by simp⟩
    · split at h
      · simp only [Prod.mk.injEq] at h
        obtain ⟨rfl, rfl⟩ := h
        exact ⟨hr1, by simp⟩
      · split at h
        · simp only [Prod.mk.injEq] at h
          obtain ⟨rfl, rfl⟩ := h
          exact ⟨hr1, by simp⟩
        · rcases hedges : readOutputEdges G _ r1 [] with ⟨r2, run2⟩
          obtain ⟨hr2, hk2⟩ := readOutputEdges_reached t G _ _ _ _ _ hedges hh
          rw [hedges] at h
          cases run2 with
          | crash f =>
            simp only [Prod.mk.injEq] at h
            obtain ⟨rfl, rfl⟩ := h
            exact ⟨hr2, by simp⟩
          | fail a2 e2 =>
            simp only [Prod.mk.injEq] at h
            obtain ⟨rfl, rfl⟩ := h
            exact ⟨hr2, by simp⟩
          | ok E =>
            have hh2 := hk2 E rfl
            simp only at h
            have hfin : ∀ x, (r', res) = (r2, x) →
                Reached t r' ∧ (∀ L, res = .ok L → Held t r') := by
              intro x hx
              simp only [Prod.mk.injEq] at hx
              rw [hx.1]
              exact ⟨hr2, fun _ _ => hh2⟩
            split at h
            · exact hfin _ h.symm
            · split at h
              · exact hfin _ h.symm
              · split at h
                · exact hfin _ h.symm
                · split at h
                  · exact hfin _ h.symm
                  · exact hfin _ h.symm

theorem readOutputCases_reached (order : MapOrder) (t : List Char) :
    ∀ (sets : List EdgeSet) (r : Reader) (acc : List Int) (r' : Reader)
      (res : Run (List Int)),
    readOutputCases order sets r acc = (r', res) → Before t r →
    (∀ leaves, res = .ok leaves → Before t r') ∧
      (∀ a e, res = .fail a e → Reached t r') := by
  intro sets
  induction sets with
  | nil =>
    intro r acc r' res h hs
    simp only [readOutputCases, Prod.mk.injEq] at h
    obtain ⟨rfl, rfl⟩ := h
    exact ⟨fun _ _ => hs, by simp⟩
  | cons G rest ih =>
    intro r acc r' res h hs
    rw [readOutputCases] at h
    rcases hres : r.ReadOutputGraph order G with ⟨r1, run⟩
    obtain ⟨hr1, hk1⟩ := readOutputGraph_reached order t r r1 G run hres hs
    rw [hres] at h
    cases run with
    | crash f =>
      simp only [Prod.mk.injEq] at h
      obtain ⟨rfl, rfl⟩ := h
      exact ⟨by simp, by simp⟩
    | fail a e =>
      simp only [Prod.mk.injEq] at h
      obtain ⟨rfl, rfl⟩ := h
      exact ⟨by simp, fun _ _ _ => hr1⟩
    | ok L =>
      exact ih _ _ _ _ h (hk1 L rfl).2

/-- A diagnostic of `ReadOutputFile` leaves the reader at the line it has attempted last. -/
theorem readOutputFile_reached (order : MapOrder) (t : List Char) (sets : List EdgeSet)
    (r' : Reader) (a : List Int) (e : Mlst.Error)
    (h : (NewOutFileReader t).ReadOutputFile order sets = (r', .fail a e)) :
    Reached t r' := by
  unfold Reader.ReadOutputFile at h
  rcases hres : (NewOutFileReader t).readNumbers "Cannot parse the number of output graphs." 1
    with ⟨r1, run⟩
  obtain ⟨hr1, hk1⟩ := readNumbers_reached t _ _ _ r1 run hres (before_new t)
  rw [hres] at h
  cases run with
  | crash f => simp at h
  | fail a1 e1 =>
    simp only [Prod.mk.injEq] at h
    rw [← h.1]
    exact hr1
  | ok nums =>
    have hh := hk1 nums rfl
    simp only at h
    split at h
    · simp at h
    · split at h
      · simp only [Prod.mk.injEq] at h
        rw [← h.1]
        exact hr1
      · rcases hcs : readOutputCases order sets { r1 with caseNum := 1 } [] with ⟨r2, run2⟩
        obtain ⟨hb2, hf2⟩ := readOutputCases_reached order t _ _ _ _ _ hcs hh.2
        rw [hcs] at h
        cases run2 with
        | crash f => simp at h
        | fail a2 e2 =>
          simp only [Prod.mk.injEq] at h
          rw [← h.1]
          exact hf2 _ _ rfl
        | ok leaves =>
          simp only at h
          rcases hrl : r2.readLine with ⟨r3, _ | err⟩
          · rw [hrl] at h
            simp only [Prod.mk.injEq] at h
            rw [← h.1]
            have := (readLine_reached t r2 (hb2 _ rfl)).1 (readLine_none_reader r2 r3 hrl)
            rw [hrl] at this
            exact Or.inl this
          · rw [hrl] at h
            cases err
            simp at h

/-- C10 (line-accurate diagnostics).  `readLine` increases the line number by exactly one.
For every text on which `ReadInputFile` or `ReadOutputFile` returns a diagnostic, the reader
has read as many lines of the text as its line number says, the diagnostic carries that line
number, which is the 1-based index of the last line the reader attempted to read, and its
line field is that line of the text without its newline.  That index is exact: either the
last read returned a line, and then the line number plus the number of unread lines is the
number of lines of the text; or the last read met the end of the text prematurely, and then
nothing is unread, the line number is the number of lines of the text plus one and the line
field is empty.  The diagnostic has one of these causes: the first line (the case-count line), and
then its line number is 1 and its case number is 0; case `i = j + 1`, read after `j` accepted
cases, and then its case number is `i`; a line after the last case, and then its case number
is the number of cases plus one. -/
theorem reached_position (t : List Char) (r' : Reader) (e : Mlst.Error)
    (hl : e.lineNum = r'.lineNum)
    (hline : e.line = (textLines t).getD (e.lineNum.toNat - 1) []) (hr : Reached t r') :
    e.lineNum ≤ ((textLines t).length : Int) + 1 ∧
      ((r'.line ≠ [] ∧
          e.lineNum + ((textLines r'.reader).length : Int) = ((textLines t).length : Int)) ∨
        (r'.line = [] ∧ r'.reader = [] ∧
          e.lineNum = ((textLines t).length : Int) + 1 ∧ e.line = [])) := by
  rcases hr with ⟨hne, hb⟩ | ⟨h1, h2, h3⟩
  · unfold Before at hb
    rw [← hl] at hb
    exact ⟨by omega, Or.inl ⟨hne, hb⟩⟩
  · rw [← hl] at h3
    refine ⟨by omega, Or.inr ⟨h1, h2, h3, ?_⟩⟩
    rw [hline, h3]
    apply List.getD_eq_default
    simp

theorem diagnostics_line_accurate (order : MapOrder) (t : List Char) (sets : List EdgeSet)
    (r' : Reader) (e : Mlst.Error) :
    (∀ r : Reader, r.readLine.1.lineNum = r.lineNum + 1) ∧
    (∀ a, (NewInFileReader t).ReadInputFile order = (r', .fail a e) →
      (Synced t r' ∧ e.lineNum = r'.lineNum ∧ 1 ≤ e.lineNum ∧
        e.line = (textLines t).getD (e.lineNum.toNat - 1) []) ∧
      (e.lineNum ≤ ((textLines t).length : Int) + 1 ∧
        ((r'.line ≠ [] ∧
            e.lineNum + ((textLines r'.reader).length : Int) = ((textLines t).length : Int)) ∨
          (r'.line = [] ∧ r'.reader = [] ∧
            e.lineNum = ((textLines t).length : Int) + 1 ∧ e.line = []))) ∧
      ((((NewInFileReader t).readNumbers "Cannot parse the number of input graphs." 1).2 =
            .fail [] e ∧ e.lineNum = 1 ∧ e.caseNum = 0) ∨
        (∃ (N : Int) (r1 : Reader) (nums : List Int) (j : Nat) (rj : Reader)
            (done : List EdgeSet),
          (NewInFileReader t).readNumbers "Cannot parse the number of input graphs." 1 =
            (r1, .ok nums) ∧ index? nums 0 = some N ∧ Allocatable N ∧ j < N.toNat ∧
          readInputCases order j { r1 with caseNum := 1 } [] = (rj, .ok done) ∧
          readInputCases order 1 rj done = (r', .fail [] e) ∧ e.caseNum = (j : Int) + 1) ∨
        (∃ (N : Int) (r1 : Reader) (nums : List Int) (r2 : Reader) (done : List EdgeSet),
          (NewInFileReader t).readNumbers "Cannot parse the number of input graphs." 1 =
            (r1, .ok nums) ∧ index? nums 0 = some N ∧ Allocatable N ∧
          readInputCases order N.toNat { r1 with caseNum := 1 } [] = (r2, .ok done) ∧
          r2.readLine = (r', none) ∧ e.caseNum = (N.toNat : Int) + 1))) ∧
    (∀ a, (NewOutFileReader t).ReadOutputFile order sets = (r', .fail a e) →
      (Synced t r' ∧ e.lineNum = r'.lineNum ∧ 1 ≤ e.lineNum ∧
        e.line = (textLines t).getD (e.lineNum.toNat - 1) []) ∧
      (e.lineNum ≤ ((textLines t).length : Int) + 1 ∧
        ((r'.line ≠ [] ∧
            e.lineNum + ((textLines r'.reader).length : Int) = ((textLines t).length : Int)) ∨
          (r'.line = [] ∧ r'.reader = [] ∧
            e.lineNum = ((textLines t).length : Int) + 1 ∧ e.line = []))) ∧
      ((((NewOutFileReader t).readNumbers "Cannot parse the number of output graphs." 1).2 =
            .fail [] e ∧ e.lineNum = 1 ∧ e.caseNum = 0) ∨
        (∃ (n0 : Int) (r1 : Reader) (nums : List Int),
          (NewOutFileReader t).readNumbers "Cannot parse the number of output graphs." 1 =
            (r1, .ok nums) ∧ index? nums 0 = some n0 ∧ n0 ≠ (sets.length : Int) ∧
          e = r1.Error (caseCountMsg n0 sets.length) ∧ e.lineNum = 1 ∧ e.caseNum = 0) ∨
        (∃ (r1 : Reader) (nums : List Int) (j : Nat) (rj : Reader) (leaves : List Int)
            (G : EdgeSet),
          (NewOutFileReader t).readNumbers "Cannot parse the number of output graphs." 1 =
            (r1, .ok nums) ∧ j < sets.length ∧
          readOutputCases order (sets.take j) { r1 with caseNum := 1 } [] = (rj, .ok leaves) ∧
          sets[j]? = some G ∧ rj.ReadOutputGraph order G = (r', .fail InvalidNumLeaves e) ∧
          e.caseNum = (j : Int) + 1) ∨
        (∃ (r1 : Reader) (nums : List Int) (r2 : Reader) (leaves : List Int),
          (NewOutFileReader t).readNumbers "Cannot parse the number of output graphs." 1 =
            (r1, .ok nums) ∧
          readOutputCases order sets { r1 with caseNum := 1 } [] = (r2, .ok leaves) ∧
          r2.readLine = (r', none) ∧ e.caseNum = (sets.length : Int) + 1))) :=
  ⟨readLine_lineNum,
    fun a h =>
      have key := readInputFile_fail order t r' a e h
      ⟨key.1, reached_position t r' e key.1.2.1 key.1.2.2.2
        (readInputFile_reached order t r' a e h), key.2⟩,
    fun a h =>
      have key := readOutputFile_fail order t sets r' a e h
      ⟨key.1, reached_position t r' e key.1.2.1 key.1.2.2.2
        (readOutputFile_reached order t sets r' a e h), key.2⟩⟩

/-- The input `"2\n1\n0 1\n1\n7 7\n"` fails in case 2, on line 5: the diagnostic carries the
line number 5 of the reader, the text `7 7` of line 5 and the case number 2.  The input
`"2\n1\n0 1\n"` announces two cases and ends after the first: the diagnostic carries the
line number 4, one past the three lines of the text, and an empty line. -/
theorem diagnostics_line_accurate_witness :
    (Synced "2\n1\n0 1\n1\n7 7\n".toList ⟨[], 5, 2, "7 7\n".toList⟩ ∧
      (5 : Int) = (⟨[], 5, 2, "7 7\n".toList⟩ : Reader).lineNum ∧ (1 : Int) ≤ 5 ∧
      "7 7".toList = (textLines "2\n1\n0 1\n1\n7 7\n".toList).getD ((5 : Int).toNat - 1) []) ∧
    ((NewInFileReader "2\n1\n0 1\n1\n7 7\n".toList).ReadInputFile idOrder).2 =
      .fail [] ⟨5, 2, "7 7".toList, "Self-loop not allowed in edge (7,7)."⟩ ∧
    ((NewInFileReader "2\n1\n0 1\n".toList).ReadInputFile idOrder =
        (⟨[], 4, 2, []⟩, .fail [] ⟨4, 2, [],
          "Cannot parse the number of edges. (EOF) Expecting the next line."⟩) ∧
      (4 : Int) ≤ ((textLines "2\n1\n0 1\n".toList).length : Int) + 1) :=
  ⟨((diagnostics_line_accurate idOrder "2\n1\n0 1\n1\n7 7\n".toList []
      ⟨[], 5, 2, "7 7\n".toList⟩
      ⟨5, 2, "7 7".toList, "Self-loop not allowed in edge (7,7)."⟩).2.1 [] (by decide)).1,
    by decide, by decide,
    ((diagnostics_line_accurate idOrder "2\n1\n0 1\n".toList [] ⟨[], 4, 2, []⟩
      ⟨4, 2, [], "Cannot parse the number of edges. (EOF) Expecting the next line."⟩).2.1 []
      (by decide)).2.1.1⟩

/-! ## Texts with further content -/

/-- The lines of a text that ends with a newline, followed by more text, are the lines of
the text followed by the lines of the rest. -/
theorem textLines_append_newline (V0 X : List Char) :
    textLines ((V0 ++ ['\n']) ++ X) = textLines (V0 ++ ['\n']) ++ textLines X := by
  induction V0 with
  | nil =>
    simp only [List.nil_append, List.singleton_append, textLines_cons_newline, textLines_nil]
  | cons c V0 ih =>
    by_cases hc : c = '\n'
    · subst hc
      simp only [List.cons_append, textLines_cons_newline]
      rw [ih]
    · rcases htl : textLines (V0 ++ ['\n']) with _ | ⟨l, ls⟩
      · rw [textLines_eq_nil_iff] at htl
        simp at htl
      · rw [htl] at ih
        simp only [List.cons_append] at ih ⊢
        rw [textLines_cons_other c _ hc l (ls ++ textLines X) (by simpa using ih),
          textLines_cons_other c _ hc l ls htl]
        simp

/-- A reader in step with the text, with lines left to read, has read the lines before
them. -/
theorem synced_position {t : List Char} {r : Reader} (hs : Synced t r)
    (pre : List (List Char)) (hl : textLines t = pre ++ textLines r.reader)
    (hne : textLines r.reader ≠ []) : r.lineNum = (pre.length : Int) := by
  have h1 := hs.rest
  have h2 := congrArg List.length h1
  rw [List.length_drop, hl, List.length_append] at h2
  have h3 : 0 < (textLines r.reader).length := List.length_pos.2 hne
  have h4 := hs.nonneg
  omega

/-- The case loop of `ReadInputFile` run for `j + k` iterations is the loop run for `j`
iterations, when these succeed, followed by the loop run for `k` iterations. -/
theorem readInputCases_add (order : MapOrder) (k : Nat) :
    ∀ (j : Nat) (r : Reader) (acc : List EdgeSet) (rj : Reader) (sets : List EdgeSet),
    readInputCases order j r acc = (rj, .ok sets) →
    readInputCases order (j + k) r acc = readInputCases order k rj sets := by
  intro j
  induction j with
  | zero =>
    intro r acc rj sets h
    simp only [readInputCases, Prod.mk.injEq, Run.ok.injEq] at h
    obtain ⟨rfl, rfl⟩ := h
    simp
  | succ j ih =>
    intro r acc rj sets h
    rw [readInputCases] at h
    rw [Nat.add_right_comm, readInputCases]
    rcases hres : r.ReadInputGraph with ⟨r1, run⟩
    rw [hres] at h
    cases run with
    | crash f => simp at h
    | fail a1 e1 => simp at h
    | ok E =>
      simp only at h ⊢
      split at h
      · simp at h
      · rename_i G hG
        split at h
        · simp at h
        · rename_i hconn
          simp only [hG, hconn, if_false]
          exact ih _ _ _ _ h

/-- The run of `ReadInputFile` over a valid count line and valid cases: the count is read,
the case loop accepts the cases, and the reader stands right after them. -/
theorem readInputFile_after_cases (order : MapOrder) (ho : order.Fair) (t nb : List Char)
    (N : Int) (cls : List (List (List Char))) (done : List EdgeSet) (rest : List (List Char))
    (hl : textLines t = nb :: (cls.flatten ++ rest)) (hN : NumLine nb N)
    (hc : List.Forall₂ (AllowedCase 1) cls done) :
    ∃ r1 rj, (NewInFileReader t).readNumbers "Cannot parse the number of input graphs." 1 =
        (r1, .ok [N]) ∧
      readInputCases order done.length { r1 with caseNum := 1 } [] = (rj, .ok done) ∧
      textLines rj.reader = rest ∧ rj.caseNum = 1 + (done.length : Int) ∧ Synced t rj ∧
      (rest ≠ [] → rj.lineNum = 1 + (cls.flatten.length : Int)) := by
  obtain ⟨h1, -, h3⟩ := readNumbers_lines (NewInFileReader t)
    "Cannot parse the number of input graphs." 1 (Or.inl rfl) nb (cls.flatten ++ rest) hl
  have hs1 := synced_readNumbers t (NewInFileReader t)
    "Cannot parse the number of input graphs." 1 (synced_new t)
  rcases hres : (NewInFileReader t).readNumbers "Cannot parse the number of input graphs." 1
    with ⟨r1, run⟩
  rw [hres] at h1 h3 hs1
  simp only at h1 h3 hs1
  have hg : BodyGrammar 1 nb [N] := Or.inl ⟨rfl, _, hN, rfl⟩
  rcases h3 with ⟨nums, hg', hrun⟩ | ⟨hno, -⟩
  swap
  · exact absurd hg (hno _)
  have := bodyGrammar_unique hg' hg
  subst this
  subst hrun
  obtain ⟨rj, h5, h6⟩ := readInputCases_of_lines order ho cls done { r1 with caseNum := 1 } []
    rest hc h1
  simp only [List.nil_append] at h5
  obtain ⟨hsj, hcj⟩ := readInputCases_ok_post order t _ _ _ _ _ h5 (synced_caseNum t r1 1 hs1)
  refine ⟨r1, rj, rfl, h5, h6, ?_, hsj, ?_⟩
  · rw [hcj]
  · intro hne
    have := synced_position hsj (nb :: cls.flatten) (by rw [hl, h6]; simp) (by rw [h6]; exact hne)
    rw [this]
    simp only [List.length_cons]
    push_cast
    ring

/-- The result of `ReadInputFile` when the case loop returns a diagnostic. -/
theorem readInputFile_of_cases_fail (order : MapOrder) (r r1 r2 : Reader) (N : Int)
    (a : List EdgeSet) (e : Mlst.Error)
    (h : r.readNumbers "Cannot parse the number of input graphs." 1 = (r1, .ok [N]))
    (hal : Allocatable N)
    (hc : readInputCases order N.toNat { r1 with caseNum := 1 } [] = (r2, .fail a e)) :
    r.ReadInputFile order = (r2, .fail [] e) := by
  unfold Reader.ReadInputFile
  rw [h]
  simp only [index?_single, makeslice_ok hal]
  rw [hc]

/-- The result of `ReadInputFile` when the allocation of the result is refused. -/
theorem readInputFile_of_refused (order : MapOrder) (r r1 : Reader) (N : Int)
    (h : r.readNumbers "Cannot parse the number of input graphs." 1 = (r1, .ok [N]))
    (hal : ¬ Allocatable N) :
    r.ReadInputFile order = (r1, .crash .lenOutOfRange) := by
  unfold Reader.ReadInputFile
  rw [h]
  simp only [index?_single, makeslice_error hal]

/-- The result of `ReadInputFile` when the case loop succeeds and a line follows. -/
theorem readInputFile_of_cases_extra (order : MapOrder) (r r1 r2 r3 : Reader) (N : Int)
    (sets : List EdgeSet)
    (h : r.readNumbers "Cannot parse the number of input graphs." 1 = (r1, .ok [N]))
    (hal : Allocatable N)
    (hc : readInputCases order N.toNat { r1 with caseNum := 1 } [] = (r2, .ok sets))
    (hr : r2.readLine = (r3, none)) :
    r.ReadInputFile order =
      (r3, .fail [] (r3.ErrorWithExpected (extraLinesMsg N) "Expecting EOF.")) := by
  unfold Reader.ReadInputFile
  rw [h]
  simp only [index?_single, makeslice_ok hal]
  rw [hc]
  simp only
  rw [hr]

/-- The read after the last case, when a line follows: the diagnostic of `ReadInputFile` and
`ReadOutputFile` for extra lines, with its position. -/
theorem extra_line_error (rj : Reader) (x : List Char) (rest : List (List Char)) (m : GoString)
    (hl : textLines rj.reader = x :: rest) :
    rj.readLine = (rj.readLine.1, none) ∧
      rj.readLine.1.ErrorWithExpected m "Expecting EOF." =
        ⟨rj.lineNum + 1, rj.caseNum, x, m ++ " " ++ "Expecting EOF."⟩ := by
  have hne : rj.reader ≠ [] := by
    intro h
    rw [h] at hl
    simp [textLines] at hl
  obtain ⟨b, h1, h2, -, -, h5⟩ := readLine_lines rj hne
  rw [hl] at h1
  simp only [List.cons.injEq] at h1
  refine ⟨Prod.ext rfl h2, ?_⟩
  unfold Reader.ErrorWithExpected Reader.Error
  rw [h5, readLine_lineNum, readLine_caseNum, h1.1]

/-- The diagnostic of `ReadInputFile` for a line that follows the last case. -/
theorem readInputFile_extra (order : MapOrder) (ho : order.Fair) (t nb : List Char)
    (cls : List (List (List Char))) (done : List EdgeSet) (x : List Char)
    (rest : List (List Char))
    (hl : textLines t = nb :: (cls.flatten ++ x :: rest))
    (hN : NumLine nb (done.length : Int)) (hal : Allocatable (done.length : Int))
    (hc : List.Forall₂ (AllowedCase 1) cls done) :
    ((NewInFileReader t).ReadInputFile order).2 =
      .fail [] ⟨(cls.flatten.length : Int) + 2, (done.length : Int) + 1, x,
        extraLinesMsg done.length ++ " " ++ "Expecting EOF."⟩ := by
  obtain ⟨r1, rj, h1, h2, h3, h4, -, h6⟩ :=
    readInputFile_after_cases order ho t nb _ cls done (x :: rest) hl hN hc
  obtain ⟨h7, h8⟩ := extra_line_error rj x rest (extraLinesMsg done.length) h3
  rw [readInputFile_of_cases_extra order _ r1 rj _ _ done h1 hal
    (by rw [Int.toNat_ofNat]; exact h2) h7]
  simp only
  rw [h8, h4, h6 (by simp)]
  simp only [Run.fail.injEq, true_and, Mlst.Error.mk.injEq, and_true]
  constructor <;> ring

/-- The run of `ReadOutputFile` over a valid count line and accepted cases: the count is
read, the case loop accepts the cases, and the reader stands right after them. -/
theorem readOutputFile_after_cases (order : MapOrder) (ho : order.Fair) (t nb : List Char)
    (sets : List EdgeSet) (hv : ∀ G ∈ sets, ∀ e ∈ G, e.Valid)
    (xs : List (List (List Char) × Int)) (rest : List (List Char))
    (hl : textLines t = nb :: ((xs.map Prod.fst).flatten ++ rest))
    (hN : NumLine nb (sets.length : Int))
    (hc : List.Forall₂ (fun G (x : List (List Char) × Int) => OutputCase G x.1 x.2) sets xs) :
    ∃ r1 rj, (NewOutFileReader t).readNumbers "Cannot parse the number of output graphs." 1 =
        (r1, .ok [(sets.length : Int)]) ∧
      readOutputCases order sets { r1 with caseNum := 1 } [] = (rj, .ok (xs.map Prod.snd)) ∧
      textLines rj.reader = rest ∧ rj.caseNum = 1 + (sets.length : Int) ∧ Synced t rj ∧
      (rest ≠ [] → rj.lineNum = 1 + ((xs.map Prod.fst).flatten.length : Int)) := by
  obtain ⟨h1, -, h3⟩ := readNumbers_lines (NewOutFileReader t)
    "Cannot parse the number of output graphs." 1 (Or.inl rfl) nb _ hl
  have hs0 : Synced t (NewOutFileReader t) := synced_new t
  have hs1 := synced_readNumbers t (NewOutFileReader t)
    "Cannot parse the number of output graphs." 1 hs0
  rcases hres : (NewOutFileReader t).readNumbers "Cannot parse the number of output graphs." 1
    with ⟨r1, run⟩
  rw [hres] at h1 h3 hs1
  simp only at h1 h3 hs1
  have hg : BodyGrammar 1 nb [(sets.length : Int)] := Or.inl ⟨rfl, _, hN, rfl⟩
  rcases h3 with ⟨nums, hg', hrun⟩ | ⟨hno, -⟩
  swap
  · exact absurd hg (hno _)
  have := bodyGrammar_unique hg' hg
  subst this
  subst hrun
  obtain ⟨rj, h5, h6⟩ := readOutputCases_of_cases order ho sets xs { r1 with caseNum := 1 } []
    rest hv hc h1
  simp only [List.nil_append] at h5
  obtain ⟨hsj, hcj⟩ := readOutputCases_ok_post order t _ _ _ _ _ h5 (synced_caseNum t r1 1 hs1)
  refine ⟨r1, rj, rfl, h5, h6, ?_, hsj, ?_⟩
  · rw [hcj]
  · intro hne
    have := synced_position hsj (nb :: (xs.map Prod.fst).flatten) (by rw [hl, h6]; simp)
      (by rw [h6]; exact hne)
    rw [this]
    simp only [List.length_cons]
    push_cast
    ring

/-- The result of `ReadOutputFile` when the case loop succeeds and a line follows. -/
theorem readOutputFile_of_cases_extra (order : MapOrder) (r r1 r2 r3 : Reader)
    (sets : List EdgeSet) (leaves : List Int)
    (h : r.readNumbers "Cannot parse the number of output graphs." 1 =
      (r1, .ok [(sets.length : Int)]))
    (hc : readOutputCases order sets { r1 with caseNum := 1 } [] = (r2, .ok leaves))
    (hr : r2.readLine = (r3, none)) :
    r.ReadOutputFile order sets =
      (r3, .fail [] (r3.ErrorWithExpected (extraLinesMsg sets.length) "Expecting EOF.")) := by
  unfold Reader.ReadOutputFile
  rw [h]
  simp only [index?_single, ne_eq, not_true_eq_false, if_false]
  rw [hc]
  simp only
  rw [hr]

/-- The diagnostic of `ReadOutputFile` for a line that follows the last case. -/
theorem readOutputFile_extra (order : MapOrder) (ho : order.Fair) (t nb : List Char)
    (sets : List EdgeSet) (hv : ∀ G ∈ sets, ∀ e ∈ G, e.Valid)
    (xs : List (List (List Char) × Int)) (x : List Char) (rest : List (List Char))
    (hl : textLines t = nb :: ((xs.map Prod.fst).flatten ++ x :: rest))
    (hN : NumLine nb (sets.length : Int))
    (hc : List.Forall₂ (fun G (x : List (List Char) × Int) => OutputCase G x.1 x.2) sets xs) :
    ((NewOutFileReader t).ReadOutputFile order sets).2 =
      .fail [] ⟨((xs.map Prod.fst).flatten.length : Int) + 2, (sets.length : Int) + 1, x,
        extraLinesMsg sets.length ++ " " ++ "Expecting EOF."⟩ := by
  obtain ⟨r1, rj, h1, h2, h3, h4, -, h6⟩ :=
    readOutputFile_after_cases order ho t nb sets hv xs (x :: rest) hl hN hc
  obtain ⟨h7, h8⟩ := extra_line_error rj x rest (extraLinesMsg sets.length) h3
  rw [readOutputFile_of_cases_extra order _ r1 rj _ sets _ h1 h2 h7]
  simp only
  rw [h8, h4, h6 (by simp)]
  simp only [Run.fail.injEq, true_and, Mlst.Error.mk.injEq, and_true]
  constructor <;> ring

/-- The case-count check of `ReadOutputFile`: a first line with a number other than the
number of input graphs. -/
theorem readOutputFile_count_mismatch (order : MapOrder) (r : Reader) (sets : List EdgeSet)
    (nb : List Char) (n0 : Int) (rest : List (List Char))
    (hl : textLines r.reader = nb :: rest) (hN : NumLine nb n0)
    (hne : n0 ≠ (sets.length : Int)) :
    r.ReadOutputFile order sets =
        (r.readLine.1, .fail [] ⟨r.lineNum + 1, r.caseNum, nb, caseCountMsg n0 sets.length⟩) ∧
      textLines r.readLine.1.reader = rest := by
  obtain ⟨h1, h2, h3⟩ := readNumbers_lines r "Cannot parse the number of output graphs." 1
    (Or.inl rfl) nb rest hl
  have hfst := readNumbers_fst r "Cannot parse the number of output graphs." 1
  rcases hres : r.readNumbers "Cannot parse the number of output graphs." 1 with ⟨r1, run⟩
  rw [hres] at h1 h2 h3 hfst
  simp only at h1 h2 h3 hfst
  have hg : BodyGrammar 1 nb [n0] := Or.inl ⟨rfl, _, hN, rfl⟩
  rcases h3 with ⟨nums, hg', hrun⟩ | ⟨hno, -⟩
  swap
  · exact absurd hg (hno _)
  have := bodyGrammar_unique hg' hg
  subst this
  subst hrun
  subst hfst
  refine ⟨?_, h1⟩
  unfold Reader.ReadOutputFile
  rw [hres]
  simp only [index?_single]
  rw [if_pos hne]
  unfold Reader.Error
  rw [h2, readLine_lineNum, readLine_caseNum]

/-- The call of `ReadInputGraph` on a case that declares no edge: it reads the count line
and returns the empty edge set. -/
theorem readInputGraph_zero (r : Reader) (zb : List Char) (rest : List (List Char))
    (hl : textLines r.reader = zb :: rest) (hz : NumLine zb 0) :
    r.ReadInputGraph = (r.readLine.1, .ok []) ∧ r.readLine.1.strippedLine = zb := by
  obtain ⟨-, h2, h3⟩ := readNumbers_lines r "Cannot parse the number of edges." 1 (Or.inl rfl)
    zb rest hl
  have hfst := readNumbers_fst r "Cannot parse the number of edges." 1
  rcases hres : r.readNumbers "Cannot parse the number of edges." 1 with ⟨r1, run⟩
  rw [hres] at h2 h3 hfst
  simp only at h2 h3 hfst
  have hg : BodyGrammar 1 zb [0] := Or.inl ⟨rfl, _, hz, rfl⟩
  rcases h3 with ⟨nums, hg', hrun⟩ | ⟨hno, -⟩
  swap
  · exact absurd hg (hno _)
  have := bodyGrammar_unique hg' hg
  subst this
  subst hrun
  subst hfst
  refine ⟨?_, h2⟩
  unfold Reader.ReadInputGraph
  rw [hres]
  simp only [index?_single]
  rw [if_neg (by decide)]
  rfl

/-- The iteration of the case loop of `ReadInputFile` on a case that declares no edge: the
disconnected-graph diagnostic, on the line of the count. -/
theorem readInputCases_zero (order : MapOrder) (ho : order.Fair) (k : Nat) (r : Reader)
    (acc : List EdgeSet) (zb : List Char) (rest : List (List Char))
    (hl : textLines r.reader = zb :: rest) (hz : NumLine zb 0) :
    readInputCases order (k + 1) r acc =
      (r.readLine.1, .fail [] ⟨r.lineNum + 1, r.caseNum, zb,
        "Disconnected graph: after reading the last edge of this graph, the edges are not in the same component."⟩) := by
  obtain ⟨h1, h2⟩ := readInputGraph_zero r zb rest hl hz
  obtain ⟨G, hG, hone⟩ := searched_oneComponent [] [] (List.Perm.refl _) (by simp)
  have hfalse : G.EdgesInOneComponent = false := by
    cases hb : G.EdgesInOneComponent
    · rfl
    · exact absurd rfl (hone.1 hb).1
  rw [readInputCases, h1]
  simp only [fair_nil ho, hG, hfalse, Bool.not_false, if_true]
  unfold Reader.Error
  rw [h2, readLine_lineNum, readLine_caseNum]
  rfl

/-- The diagnostic of `ReadInputFile` for a case that declares no edge, after valid cases. -/
theorem readInputFile_zero (order : MapOrder) (ho : order.Fair) (t nb : List Char) (N : Int)
    (cls : List (List (List Char))) (done : List EdgeSet) (zb : List Char)
    (rest : List (List Char))
    (hl : textLines t = nb :: (cls.flatten ++ zb :: rest)) (hN : NumLine nb N)
    (hal : Allocatable N)
    (hc : List.Forall₂ (AllowedCase 1) cls done) (hlt : (done.length : Int) < N)
    (hz : NumLine zb 0) :
    ((NewInFileReader t).ReadInputFile order).2 =
      .fail [] ⟨(cls.flatten.length : Int) + 2, (done.length : Int) + 1, zb,
        "Disconnected graph: after reading the last edge of this graph, the edges are not in the same component."⟩ := by
  obtain ⟨r1, rj, h1, h2, h3, h4, -, h6⟩ :=
    readInputFile_after_cases order ho t nb N cls done (zb :: rest) hl hN hc
  obtain ⟨k, hk⟩ : ∃ k : Nat, N.toNat = done.length + (k + 1) :=
    ⟨N.toNat - done.length - 1, by omega⟩
  have h7 := readInputCases_add order (k + 1) _ _ _ _ _ h2
  rw [readInputCases_zero order ho k rj done zb rest h3 hz] at h7
  rw [readInputFile_of_cases_fail order _ r1 _ N _ _ h1 hal (by rw [hk]; exact h7)]
  simp only [Run.fail.injEq, true_and, Mlst.Error.mk.injEq, and_true]
  rw [h4, h6 (by simp)]
  constructor <;> ring

/-- A read that reports the end of the input has found no byte. -/
theorem readLine_eof_iff (r : Reader) (r3 : Reader) (h : r.readLine = (r3, some .EOF)) :
    r.reader = [] ∧ r3.line = [] := by
  by_cases hr : r.reader = []
  · have := readLine_eof r hr
    rw [this] at h
    simp only [Prod.mk.injEq, and_true] at h
    rw [← h]
    exact ⟨hr, rfl⟩
  · obtain ⟨b, -, h2, -⟩ := readLine_lines r hr
    rw [h] at h2
    simp at h2

/-- An accepted input file: after the last case the reader finds the end of the input, with
no byte left. -/
theorem readInputFile_ok_eof (order : MapOrder) (r r' : Reader) (sets : List EdgeSet)
    (h : r.ReadInputFile order = (r', .ok sets)) :
    ∃ (N : Int) (r1 : Reader) (nums : List Int) (r2 : Reader),
      r.readNumbers "Cannot parse the number of input graphs." 1 = (r1, .ok nums) ∧
      index? nums 0 = some N ∧
      readInputCases order N.toNat { r1 with caseNum := 1 } [] = (r2, .ok sets) ∧
      r2.readLine = (r', some .EOF) ∧ r2.reader = [] ∧ r'.line = [] := by
  unfold Reader.ReadInputFile at h
  rcases hres : r.readNumbers "Cannot parse the number of input graphs." 1 with ⟨r1, run⟩
  rw [hres] at h
  cases run with
  | crash f => simp at h
  | fail a1 e1 => simp at h
  | ok nums =>
    simp only at h
    split at h
    · simp at h
    · rename_i N hN
      by_cases hal : Allocatable N
      swap
      · rw [makeslice_error hal] at h
        simp at h
      rw [makeslice_ok hal] at h
      simp only at h
      rcases hcs : readInputCases order N.toNat { r1 with caseNum := 1 } [] with ⟨r2, run2⟩
      rw [hcs] at h
      cases run2 with
      | crash f => simp at h
      | fail a2 e2 => simp at h
      | ok done =>
        simp only at h
        rcases hrl : r2.readLine with ⟨r3, _ | err⟩
        · rw [hrl] at h
          simp at h
        · rw [hrl] at h
          cases err
          simp only [Prod.mk.injEq, Run.ok.injEq] at h
          obtain ⟨rfl, rfl⟩ := h
          obtain ⟨h1, h2⟩ := readLine_eof_iff r2 r3 hrl
          exact ⟨N, r1, nums, r2, rfl, hN, hcs, hrl, h1, h2⟩

/-- An accepted output file: after the last case the reader finds the end of the input, with
no byte left. -/
theorem readOutputFile_ok_eof (order : MapOrder) (r r' : Reader) (sets : List EdgeSet)
    (leaves : List Int) (h : r.ReadOutputFile order sets = (r', .ok leaves)) :
    ∃ (r1 : Reader) (nums : List Int) (r2 : Reader),
      r.readNumbers "Cannot parse the number of output graphs." 1 = (r1, .ok nums) ∧
      index? nums 0 = some (sets.length : Int) ∧
      readOutputCases order sets { r1 with caseNum := 1 } [] = (r2, .ok leaves) ∧
      r2.readLine = (r', some .EOF) ∧ r2.reader = [] ∧ r'.line = [] := by
  unfold Reader.ReadOutputFile at h
  rcases hres : r.readNumbers "Cannot parse the number of output graphs." 1 with ⟨r1, run⟩
  rw [hres] at h
  cases run with
  | crash f => simp at h
  | fail a1 e1 => simp at h
  | ok nums =>
    simp only at h
    split at h
    · simp at h
    · rename_i n0 hn0
      split at h
      · simp at h
      · rename_i heq
        rcases hcs : readOutputCases order sets { r1 with caseNum := 1 } [] with ⟨r2, run2⟩
        rw [hcs] at h
        cases run2 with
        | crash f => simp at h
        | fail a2 e2 => simp at h
        | ok done =>
          simp only at h
          rcases hrl : r2.readLine with ⟨r3, _ | err⟩
          · rw [hrl] at h
            simp at h
          · rw [hrl] at h
            cases err
            simp only [Prod.mk.injEq, Run.ok.injEq] at h
            obtain ⟨rfl, rfl⟩ := h
            obtain ⟨h1, h2⟩ := readLine_eof_iff r2 r3 hrl
            refine ⟨r1, nums, r2, rfl, ?_, hcs, hrl, h1, h2⟩
            rw [hn0]
            simp only [ne_eq, not_not] at heq
            rw [heq]

/-- The case `1`, `0 1` of one edge is an allowed input case. -/
theorem allowedCase_single_edge :
    AllowedCase 1 ["1".toList, "0 1".toList] [⟨(0, 1)⟩] := by
  obtain ⟨⟨nb, cls, hl, -, hc⟩, -⟩ := (readInputFile_ok_iff idOrder idOrder_fair
    (NewInFileReader "1\n1\n0 1\n".toList) [[⟨(0, 1)⟩]]).mp (by decide)
  have hl2 : textLines (NewInFileReader "1\n1\n0 1\n".toList).reader =
      ["1".toList, "1".toList, "0 1".toList] := by decide
  rw [hl2] at hl
  cases hc with
  | cons h1 h2 =>
    cases h2
    simp only [List.flatten_cons, List.flatten_nil, List.append_nil, List.cons.injEq] at hl
    rw [hl.2]
    exact h1

theorem textLines_flatten_replicate (n : Nat) (c0 : List Char) :
    textLines (List.replicate n (c0 ++ ['\n'])).flatten =
      (List.replicate n (textLines (c0 ++ ['\n']))).flatten := by
  induction n with
  | zero => simp [textLines]
  | succ n ih =>
    simp only [List.replicate_succ, List.flatten_cons]
    rw [textLines_append_newline, ih]

theorem forall₂_replicate {α β : Type} (R : α → β → Prop) (n : Nat) (a : α) (b : β)
    (h : R a b) : List.Forall₂ R (List.replicate n a) (List.replicate n b) := by
  induction n with
  | zero => exact List.Forall₂.nil
  | succ n ih => exact List.Forall₂.cons h ih

theorem allowedCase_mono {ls : List (List Char)} {E : EdgeSet} (h : AllowedCase 1 ls E) :
    AllowedCase 0 ls E := by
  obtain ⟨pairs, h1, -, h3⟩ := h
  exact ⟨pairs, h1, Nat.zero_le _, h3⟩

/-- A text of `n` single-edge cases after the count line `nb`. -/
theorem textLines_single_edge_cases (nb : List Char) (n : Nat) :
    textLines ((nb ++ ['\n']) ++ (List.replicate n ("1\n0 1".toList ++ ['\n'])).flatten) =
      textLines (nb ++ ['\n']) ++
        (List.replicate n ["1".toList, "0 1".toList]).flatten := by
  rw [textLines_append_newline, textLines_flatten_replicate]
  rfl

/-- The input file of `35184372088833 = 2 ^ 45 + 1` single-edge cases is allowed, and
`ReadInputFile` stops on the allocation of its result. -/
theorem readInputFile_large_count :
    AllowedInputFile 0
        (("35184372088833".toList ++ ['\n']) ++
          (List.replicate 35184372088833 ("1\n0 1".toList ++ ['\n'])).flatten)
        (List.replicate 35184372088833 [⟨(0, 1)⟩]) ∧
      ((NewInFileReader (("35184372088833".toList ++ ['\n']) ++
          (List.replicate 35184372088833 ("1\n0 1".toList ++ ['\n'])).flatten)).ReadInputFile
        idOrder).2 = .crash .lenOutOfRange := by
  have hl := textLines_single_edge_cases "35184372088833".toList 35184372088833
  have hnb : textLines ("35184372088833".toList ++ ['\n']) = ["35184372088833".toList] := by
    decide
  rw [hnb] at hl
  have hlen : ((List.replicate 35184372088833 ([⟨(0, 1)⟩] : EdgeSet)).length : Int) =
      35184372088833 := by
    rw [List.length_replicate]
    rfl
  have hN : NumLine "35184372088833".toList 35184372088833 :=
    ⟨⟨by decide, by decide⟩, by decide, by decide⟩
  have hc := forall₂_replicate (AllowedCase 1) 35184372088833
    ["1".toList, "0 1".toList] [⟨(0, 1)⟩] allowedCase_single_edge
  refine ⟨⟨"35184372088833".toList, _, hl, by rw [hlen]; exact hN,
    forall₂_replicate (AllowedCase 0) _ _ _ (allowedCase_mono allowedCase_single_edge)⟩, ?_⟩
  obtain ⟨r1, rj, h1, -⟩ := readInputFile_after_cases idOrder idOrder_fair _
    "35184372088833".toList 35184372088833 _ _ [] (by rw [List.append_nil]; exact hl) hN hc
  rw [readInputFile_of_refused idOrder _ r1 _ h1
    (fun hal => absurd ((allocatable_iff _).1 hal).2 (by norm_num))]

/-- C4, counterexample.  The text `"1\n0\n"` is a count line `1` followed by one case whose
edge-count line is `0 <= 2000`, with no edge line, hence no repeated pair and no edge outside
a single component, and nothing follows: it meets the conditions of the claim.  Yet
`ReadInputFile` rejects it on line 2, case 1, because `EdgesInOneComponent` needs exactly
one component and the empty graph has none.  The text of the count line `35184372088833`
(that is `2 ^ 45 + 1`) followed by that many single-edge cases `1`, `0 1` meets the
conditions of the claim as well.  Yet `ReadInputFile` does not succeed on it: the allocation
`make([]EdgeSet, NumCases)` of the result panics with `makeslice: len out of range`. -/
theorem allowed_files_not_accepted :
    (AllowedInputFile 0 "1\n0\n".toList [[]] ∧
      ((NewInFileReader "1\n0\n".toList).ReadInputFile idOrder).2 =
        .fail [] ⟨2, 1, "0".toList,
          "Disconnected graph: after reading the last edge of this graph, the edges are not in the same component."⟩) ∧
    (AllowedInputFile 0
        (("35184372088833".toList ++ ['\n']) ++
          (List.replicate 35184372088833 ("1\n0 1".toList ++ ['\n'])).flatten)
        (List.replicate 35184372088833 [⟨(0, 1)⟩]) ∧
      ((NewInFileReader (("35184372088833".toList ++ ['\n']) ++
          (List.replicate 35184372088833 ("1\n0 1".toList ++ ['\n'])).flatten)).ReadInputFile
        idOrder).2 = .crash .lenOutOfRange) :=
  ⟨readInputFile_rejects_empty_case, readInputFile_large_count⟩

/-- C14 (output case-count check).  For every list of `N` input edge sets and every output
text whose first line is a valid number `n0` other than `N`, `ReadOutputFile` fails with the
diagnostic that states `n0` and `N`, on line 1 with case number 0 and the text of the first
line; it returns no leaf count, and it has read exactly one line: the reader it leaves is
the one after a single `readLine`, with all further lines unread. -/
theorem readOutputFile_case_count (order : MapOrder) (t : List Char) (sets : List EdgeSet)
    (nb : List Char) (n0 : Int) (rest : List (List Char))
    (hl : textLines t = nb :: rest) (hN : NumLine nb n0) (hne : n0 ≠ (sets.length : Int)) :
    (NewOutFileReader t).ReadOutputFile order sets =
        ((NewOutFileReader t).readLine.1,
          .fail [] ⟨1, 0, nb, "The number of output graphs (" ++ fmtInt n0 ++
            ") should equal the number of input graphs (" ++ fmtInt sets.length ++ ")."⟩) ∧
      (NewOutFileReader t).readLine.1.lineNum = 1 ∧
      textLines (NewOutFileReader t).readLine.1.reader = rest := by
  obtain ⟨h1, h2⟩ := readOutputFile_count_mismatch order (NewOutFileReader t) sets nb n0 rest
    hl hN hne
  exact ⟨h1, by rw [readLine_lineNum]; rfl, h2⟩

/-- The output `"2\n1\n0 1\n"` for one input graph. -/
theorem readOutputFile_case_count_witness :
    (NewOutFileReader "2\n1\n0 1\n".toList).ReadOutputFile idOrder [triangle] =
        ((NewOutFileReader "2\n1\n0 1\n".toList).readLine.1,
          .fail [] ⟨1, 0, "2".toList, "The number of output graphs (" ++ fmtInt 2 ++
            ") should equal the number of input graphs (" ++
            fmtInt ([triangle].length : Int) ++ ")."⟩) ∧
      (NewOutFileReader "2\n1\n0 1\n".toList).readLine.1.lineNum = 1 ∧
      textLines (NewOutFileReader "2\n1\n0 1\n".toList).readLine.1.reader =
        ["1".toList, "0 1".toList] :=
  readOutputFile_case_count idOrder "2\n1\n0 1\n".toList [triangle] "2".toList 2
    ["1".toList, "0 1".toList] (by decide) numLine_two (by decide)

/-- The search of the empty graph counts no component. -/
theorem empty_graph_components :
    ∃ G, searchedGraph [] = .ok G ∧ G.NumOfComponents = 0 ∧ G.EdgesInOneComponent = false := by
  obtain ⟨G, hG, -, -, -, hc, -⟩ := searchedGraph_spec [] (by simp)
  have h : (match searchedGraph [] with
      | .ok G => decide (G.NumOfComponents = 0 ∧ G.EdgesInOneComponent = false)
      | .error _ => false) = true := by decide
  rw [hG] at h
  simp only [decide_eq_true_eq] at h
  exact ⟨G, hG, h⟩

/-- C18, counterexample.  The text `"9223372036854775807\n0\n"` holds a valid count line,
no earlier case, and for case 1 a line that declares the edge count 0.  Yet `ReadInputFile`
returns no diagnostic: the allocation `make([]EdgeSet, NumCases)` of the result panics with
`makeslice: len out of range` before case 1 is read. -/
theorem readInputFile_empty_case_refused :
    (textLines "9223372036854775807\n0\n".toList =
        "9223372036854775807".toList ::
          (([] : List (List (List Char))).flatten ++ "0".toList :: []) ∧
      NumLine "9223372036854775807".toList 9223372036854775807 ∧
      List.Forall₂ (AllowedCase 1) [] [] ∧
      ((([] : List EdgeSet).length : Int) < 9223372036854775807) ∧
      NumLine "0".toList 0) ∧
    ((NewInFileReader "9223372036854775807\n0\n".toList).ReadInputFile idOrder).2 =
      .crash .lenOutOfRange ∧
    ((NewInFileReader "9223372036854775807\n0\n".toList).ReadInputFile idOrder).2 ≠
      .fail [] ⟨2, 1, "0".toList,
        "Disconnected graph: after reading the last edge of this graph, the edges are not in the same component."⟩ :=
  ⟨⟨by decide, ⟨⟨by decide, by decide⟩, by decide, by decide⟩, List.Forall₂.nil, by decide,
    ⟨⟨by decide, by decide⟩, by decide, by decide⟩⟩, by decide, by decide⟩

/-- C18, amended (a case with no edges is rejected).  Let the text hold a valid count line
`N`, then valid cases `1 .. i-1` with `i <= N`, then a line that declares the edge count 0
for case `i`.  If `N` is at most `2 ^ 45`, the largest length for which the allocation
`make([]EdgeSet, N)` of the result passes its run-time check, then `ReadInputFile` fails with
the disconnected-graph diagnostic for case `i`, on the line that holds the 0: the empty graph
has 0 components, not 1.  If `N` exceeds `2 ^ 45`, the allocation panics and no diagnostic
is returned.  The text `"0\n"`, which declares no case, is accepted with the empty list. -/
theorem readInputFile_empty_case (order : MapOrder) (ho : order.Fair) (t nb : List Char)
    (N : Int) (cls : List (List (List Char))) (done : List EdgeSet) (zb : List Char)
    (rest : List (List Char))
    (hl : textLines t = nb :: (cls.flatten ++ zb :: rest)) (hN : NumLine nb N)
    (hc : List.Forall₂ (AllowedCase 1) cls done) (hlt : (done.length : Int) < N)
    (hz : NumLine zb 0) :
    (N ≤ 2 ^ 45 →
      ((NewInFileReader t).ReadInputFile order).2 =
        .fail [] ⟨(cls.flatten.length : Int) + 2, (done.length : Int) + 1, zb,
          "Disconnected graph: after reading the last edge of this graph, the edges are not in the same component."⟩) ∧
    (2 ^ 45 < N → ((NewInFileReader t).ReadInputFile order).2 = .crash .lenOutOfRange) ∧
    (textLines t).getD (cls.flatten.length + 1) [] = zb ∧
    (∃ G, searchedGraph [] = .ok G ∧ G.NumOfComponents = 0 ∧
      G.EdgesInOneComponent = false) ∧
    ((NewInFileReader "0\n".toList).ReadInputFile order).2 = .ok [] := by
  refine ⟨fun hb => readInputFile_zero order ho t nb N cls done zb rest hl hN
      ((allocatable_iff N).2 ⟨by omega, hb⟩) hc hlt hz, fun hb => ?_, ?_,
    empty_graph_components, readInputFile_ok_of_idOrder order ho _ _ (by decide)⟩
  · obtain ⟨r1, rj, h1, -⟩ :=
      readInputFile_after_cases order ho t nb N cls done (zb :: rest) hl hN hc
    rw [readInputFile_of_refused order _ r1 N h1
      (fun hal => absurd ((allocatable_iff N).1 hal).2 (by omega))]
  · rw [hl, List.getD_cons_succ, List.getD_eq_getElem?_getD,
      List.getElem?_append_right (le_refl _)]
    simp

/-- The text `"2\n1\n0 1\n0\n"`: the second case declares no edge and is rejected on
line 4. -/
theorem readInputFile_empty_case_witness :
    ((NewInFileReader "2\n1\n0 1\n0\n".toList).ReadInputFile idOrder).2 =
      .fail [] ⟨4, 2, "0".toList,
        "Disconnected graph: after reading the last edge of this graph, the edges are not in the same component."⟩ :=
  (readInputFile_empty_case idOrder idOrder_fair "2\n1\n0 1\n0\n".toList "2".toList 2
    [["1".toList, "0 1".toList]] [[⟨(0, 1)⟩]] "0".toList [] (by decide) numLine_two
    (List.Forall₂.cons allowedCase_single_edge List.Forall₂.nil) (by decide)
    ⟨⟨by decide, by decide⟩, by decide, by decide⟩).1 (by norm_num)

/-- An accepted input file that ends with a newline, followed by further text, is rejected
for its extra lines. -/
theorem readInputFile_trailing (order : MapOrder) (ho : order.Fair) (V0 X : List Char)
    (hX : X ≠ []) (sets : List EdgeSet)
    (h : ((NewInFileReader (V0 ++ ['\n'])).ReadInputFile order).2 = .ok sets) :
    ∃ x xs, textLines X = x :: xs ∧
      ((NewInFileReader ((V0 ++ ['\n']) ++ X)).ReadInputFile order).2 =
        .fail [] ⟨((textLines (V0 ++ ['\n'])).length : Int) + 1, (sets.length : Int) + 1, x,
          extraLinesMsg sets.length ++ " " ++ "Expecting EOF."⟩ := by
  obtain ⟨⟨nb, cls, hl, hN, hc⟩, hal⟩ := (readInputFile_ok_iff order ho _ sets).mp h
  have hl' : textLines (V0 ++ ['\n']) = nb :: cls.flatten := hl
  rcases hx : textLines X with _ | ⟨x, xs⟩
  · exact absurd ((textLines_eq_nil_iff X).1 hx) hX
  refine ⟨x, xs, rfl, ?_⟩
  have h1 := readInputFile_extra order ho ((V0 ++ ['\n']) ++ X) nb cls sets x xs
    (by rw [textLines_append_newline, hl', hx]; simp) hN hal hc
  rw [h1, hl']
  simp only [List.length_cons, Run.fail.injEq, true_and, Mlst.Error.mk.injEq, and_true]
  push_cast
  ring

/-- An accepted output file that ends with a newline, followed by further text, is rejected
for its extra lines. -/
theorem readOutputFile_trailing (order : MapOrder) (ho : order.Fair) (V0 X : List Char)
    (hX : X ≠ []) (sets : List EdgeSet) (hv : ∀ G ∈ sets, ∀ e ∈ G, e.Valid)
    (leaves : List Int)
    (h : ((NewOutFileReader (V0 ++ ['\n'])).ReadOutputFile order sets).2 = .ok leaves) :
    ∃ x xs, textLines X = x :: xs ∧
      ((NewOutFileReader ((V0 ++ ['\n']) ++ X)).ReadOutputFile order sets).2 =
        .fail [] ⟨((textLines (V0 ++ ['\n'])).length : Int) + 1, (sets.length : Int) + 1, x,
          extraLinesMsg sets.length ++ " " ++ "Expecting EOF."⟩ := by
  obtain ⟨nb, ys, hl, hN, hc, -⟩ := (readOutputFile_ok_iff order ho _ sets hv leaves).mp h
  have hl' : textLines (V0 ++ ['\n']) = nb :: (ys.map Prod.fst).flatten := hl
  rcases hx : textLines X with _ | ⟨x, xs⟩
  · exact absurd ((textLines_eq_nil_iff X).1 hx) hX
  refine ⟨x, xs, rfl, ?_⟩
  have h1 := readOutputFile_extra order ho ((V0 ++ ['\n']) ++ X) nb sets hv ys x xs
    (by rw [textLines_append_newline, hl', hx]; simp) hN hc
  rw [h1, hl']
  simp only [List.length_cons, Run.fail.injEq, true_and, Mlst.Error.mk.injEq, and_true]
  push_cast
  ring

/-- C11 (no trailing content).  Let `V` be a text that ends with a newline and `X` a
non-empty text, for instance the single empty line `"\n"`.  If `ReadInputFile` accepts `V`,
it rejects `V ++ X` with the diagnostic `Extra lines ... Expecting EOF.`, on the first line
of `X`; and so does `ReadOutputFile` for given validated input edge sets.  A file is accepted
only if the read after the last case reports the end of the input with no byte. -/
theorem no_trailing_content (order : MapOrder) (ho : order.Fair) (V0 X : List Char)
    (hX : X ≠ []) :
    (∀ sets, ((NewInFileReader (V0 ++ ['\n'])).ReadInputFile order).2 = .ok sets →
      ∃ x xs, textLines X = x :: xs ∧
        ((NewInFileReader ((V0 ++ ['\n']) ++ X)).ReadInputFile order).2 =
          .fail [] ⟨((textLines (V0 ++ ['\n'])).length : Int) + 1, (sets.length : Int) + 1, x,
            "Extra lines after Graph #" ++ fmtInt sets.length ++
              " (line 1 says the number of graphs is " ++ fmtInt sets.length ++ ")." ++
              " " ++ "Expecting EOF."⟩) ∧
    (∀ (sets : List EdgeSet) (leaves : List Int), (∀ G ∈ sets, ∀ e ∈ G, e.Valid) →
      ((NewOutFileReader (V0 ++ ['\n'])).ReadOutputFile order sets).2 = .ok leaves →
      ∃ x xs, textLines X = x :: xs ∧
        ((NewOutFileReader ((V0 ++ ['\n']) ++ X)).ReadOutputFile order sets).2 =
          .fail [] ⟨((textLines (V0 ++ ['\n'])).length : Int) + 1, (sets.length : Int) + 1, x,
            "Extra lines after Graph #" ++ fmtInt sets.length ++
              " (line 1 says the number of graphs is " ++ fmtInt sets.length ++ ")." ++
              " " ++ "Expecting EOF."⟩) ∧
    (∀ (r r' : Reader) (sets : List EdgeSet), r.ReadInputFile order = (r', .ok sets) →
      ∃ (N : Int) (r1 : Reader) (nums : List Int) (r2 : Reader),
        r.readNumbers "Cannot parse the number of input graphs." 1 = (r1, .ok nums) ∧
        index? nums 0 = some N ∧
        readInputCases order N.toNat { r1 with caseNum := 1 } [] = (r2, .ok sets) ∧
        r2.readLine = (r', some .EOF) ∧ r2.reader = [] ∧ r'.line = []) ∧
    (∀ (r r' : Reader) (sets : List EdgeSet) (leaves : List Int),
      r.ReadOutputFile order sets = (r', .ok leaves) →
      ∃ (r1 : Reader) (nums : List Int) (r2 : Reader),
        r.readNumbers "Cannot parse the number of output graphs." 1 = (r1, .ok nums) ∧
        index? nums 0 = some (sets.length : Int) ∧
        readOutputCases order sets { r1 with caseNum := 1 } [] = (r2, .ok leaves) ∧
        r2.readLine = (r', some .EOF) ∧ r2.reader = [] ∧ r'.line = []) :=
  ⟨fun sets h => readInputFile_trailing order ho V0 X hX sets h,
    fun sets leaves hv h => readOutputFile_trailing order ho V0 X hX sets hv leaves h,
    fun r r' sets h => readInputFile_ok_eof order r r' sets h,
    fun r r' sets leaves h => readOutputFile_ok_eof order r r' sets leaves h⟩

/-- The accepted input `"1\n1\n0 1\n"` and the accepted output `"1\n2\n0 1\n1 2\n"` for the
triangle, each followed by a single empty line: both are rejected on the line after the
last case. -/
theorem no_trailing_content_witness :
    (∃ x xs, textLines "\n".toList = x :: xs ∧
      ((NewInFileReader ("1\n1\n0 1".toList ++ ['\n'] ++ "\n".toList)).ReadInputFile idOrder).2 =
        .fail [] ⟨((textLines ("1\n1\n0 1".toList ++ ['\n'])).length : Int) + 1,
          (([[⟨(0, 1)⟩]] : List EdgeSet).length : Int) + 1, x,
          "Extra lines after Graph #" ++ fmtInt ([[⟨(0, 1)⟩]] : List EdgeSet).length ++
            " (line 1 says the number of graphs is " ++
            fmtInt ([[⟨(0, 1)⟩]] : List EdgeSet).length ++ ")." ++ " " ++ "Expecting EOF."⟩) ∧
    (∃ x xs, textLines "\n".toList = x :: xs ∧
      ((NewOutFileReader ("1\n2\n0 1\n1 2".toList ++ ['\n'] ++ "\n".toList)).ReadOutputFile
          idOrder [triangle]).2 =
        .fail [] ⟨((textLines ("1\n2\n0 1\n1 2".toList ++ ['\n'])).length : Int) + 1,
          (([triangle] : List EdgeSet).length : Int) + 1, x,
          "Extra lines after Graph #" ++ fmtInt ([triangle] : List EdgeSet).length ++
            " (line 1 says the number of graphs is " ++
            fmtInt ([triangle] : List EdgeSet).length ++ ")." ++ " " ++ "Expecting EOF."⟩) :=
  ⟨(no_trailing_content idOrder idOrder_fair "1\n1\n0 1".toList "\n".toList (by decide)).1
      [[⟨(0, 1)⟩]] (by decide),
    (no_trailing_content idOrder idOrder_fair "1\n2\n0 1\n1 2".toList "\n".toList
      (by decide)).2.1 [triangle] [2] triangle_sets_valid (by decide)⟩

/-! ## Index safety -/

/-- A successful `readNumbers` of arity `n` returns `n` numbers. -/
theorem readNumbers_ok_length (r : Reader) (msg : GoString) (n : Int) (hn : n = 1 ∨ n = 2)
    (r1 : Reader) (nums : List Int) (h : r.readNumbers msg n = (r1, .ok nums)) :
    (nums.length : Int) = n := by
  unfold Reader.readNumbers at h
  rcases hrl : r.readLine with ⟨r2, _ | err⟩
  · rw [hrl] at h
    simp only [Prod.mk.injEq] at h
    obtain ⟨rfl, h2⟩ := h
    exact lineGrammar_length ((parse_ok_iff r2 msg n hn nums).1 h2)
  · rw [hrl] at h
    simp at h

theorem readNumbers_ok_two (r : Reader) (msg : GoString) (r1 : Reader) (nums : List Int)
    (h : r.readNumbers msg 2 = (r1, .ok nums)) : ∃ u v, nums = [u, v] := by
  have hl := readNumbers_ok_length r msg 2 (Or.inr rfl) r1 nums h
  match nums, hl with
  | [u, v], _ => exact ⟨u, v, rfl⟩
  | [], hl => simp at hl
  | [_], hl => simp at hl
  | _ :: _ :: _ :: _, hl =>
    simp only [List.length_cons] at hl
    omega

theorem readNumbers_ok_one (r : Reader) (msg : GoString) (r1 : Reader) (nums : List Int)
    (h : r.readNumbers msg 1 = (r1, .ok nums)) : ∃ k, nums = [k] := by
  have hl := readNumbers_ok_length r msg 1 (Or.inl rfl) r1 nums h
  match nums, hl with
  | [k], _ => exact ⟨k, rfl⟩
  | [], hl => simp at hl
  | _ :: _ :: _, hl =>
    simp only [List.length_cons] at hl
    omega

/-- The edge loop of `ReadInputGraph` never indexes `nums` out of range. -/
theorem readInputEdges_not_crash : ∀ (k : Nat) (r : Reader) (E0 : EdgeSet) (f : Fault),
    (readInputEdges k r E0).2 ≠ .crash f := by
  intro k
  induction k with
  | zero =>
    intro r E0 f
    simp [readInputEdges]
  | succ k ih =>
    intro r E0 f
    rw [readInputEdges]
    rcases hres : r.readNumbers "Cannot parse the next edge." 2 with ⟨r1, run⟩
    cases run with
    | crash g => exact absurd hres (readNumbers_not_crash r _ 2 (Or.inr rfl) r1 g)
    | fail a e => simp
    | ok nums =>
      obtain ⟨u, v, rfl⟩ := readNumbers_ok_two r _ r1 nums hres
      simp only [(index?_pair u v).1, (index?_pair u v).2]
      split
      · simp
      · split
        · simp
        · exact ih _ _ f

/-- The function `ReadInputGraph` never indexes `nums` out of range. -/
theorem readInputGraph_not_crash (r : Reader) (f : Fault) : r.ReadInputGraph.2 ≠ .crash f := by
  unfold Reader.ReadInputGraph
  rcases hres : r.readNumbers "Cannot parse the number of edges." 1 with ⟨r1, run⟩
  cases run with
  | crash g => exact absurd hres (readNumbers_not_crash r _ 1 (Or.inl rfl) r1 g)
  | fail a e => simp
  | ok nums =>
    obtain ⟨k, rfl⟩ := readNumbers_ok_one r _ r1 nums hres
    simp only [index?_single]
    split
    · simp
    · exact readInputEdges_not_crash _ _ _ f

/-- The edges that `ReadInputGraph` stores are normalized, in range and without self-loop,
and they are mutually distinct. -/
theorem readInputGraph_valid (r r' : Reader) (E : EdgeSet)
    (h : r.ReadInputGraph = (r', .ok E)) : (∀ e ∈ E, e.Valid) ∧ E.Nodup := by
  obtain ⟨ls, pairs, -, hc, -, herr, hnd, rfl, -⟩ := readInputGraph_ok r r' E h
  exact ⟨edges_inRange_of_error_none (caseLines_nonneg hc) herr, hnd⟩

/-- The case loop of `ReadInputFile` never indexes out of range. -/
theorem readInputCases_not_crash (order : MapOrder) (ho : order.Fair) :
    ∀ (k : Nat) (r : Reader) (acc : List EdgeSet) (f : Fault),
    (readInputCases order k r acc).2 ≠ .crash f := by
  intro k
  induction k with
  | zero =>
    intro r acc f
    simp [readInputCases]
  | succ k ih =>
    intro r acc f
    rw [readInputCases]
    rcases hres : r.ReadInputGraph with ⟨r1, run⟩
    cases run with
    | crash g =>
      have := readInputGraph_not_crash r g
      rw [hres] at this
      exact absurd rfl this
    | fail a e => simp
    | ok E =>
      obtain ⟨hv, -⟩ := readInputGraph_valid r r1 E hres
      obtain ⟨G, hG, -⟩ := searchedGraph_spec (order r1.lineNum E)
        (fun e he => (hv e ((ho _ _).mem_iff.1 he)).inRange)
      simp only [hG]
      split
      · simp
      · exact ih _ _ f

/-- The function `ReadInputFile` never indexes out of range: its only run-time fault is the
refusal of the allocation of the result, for a count line whose number exceeds what `make`
accepts. -/
theorem readInputFile_crash (order : MapOrder) (ho : order.Fair) (r : Reader) (f : Fault)
    (h : (r.ReadInputFile order).2 = .crash f) :
    f = .lenOutOfRange ∧
      ∃ r1 N, r.readNumbers "Cannot parse the number of input graphs." 1 = (r1, .ok [N]) ∧
        ¬ Allocatable N := by
  unfold Reader.ReadInputFile at h
  rcases hres : r.readNumbers "Cannot parse the number of input graphs." 1 with ⟨r1, run⟩
  rw [hres] at h
  cases run with
  | crash g => exact absurd hres (readNumbers_not_crash r _ 1 (Or.inl rfl) r1 g)
  | fail a e => simp at h
  | ok nums =>
    obtain ⟨k, rfl⟩ := readNumbers_ok_one r _ r1 nums hres
    simp only [index?_single] at h
    by_cases hal : Allocatable k
    swap
    · rw [makeslice_error hal] at h
      simp only [Run.crash.injEq] at h
      exact ⟨h.symm, r1, k, rfl, hal⟩
    rw [makeslice_ok hal] at h
    simp only at h
    rcases hcs : readInputCases order k.toNat { r1 with caseNum := 1 } [] with ⟨r2, run2⟩
    rw [hcs] at h
    cases run2 with
    | crash g =>
      have := readInputCases_not_crash order ho k.toNat { r1 with caseNum := 1 } [] g
      rw [hcs] at this
      exact absurd rfl this
    | fail a e => simp at h
    | ok sets =>
      simp only at h
      rcases hrl : r2.readLine with ⟨r3, _ | err⟩
      · rw [hrl] at h
        simp at h
      · rw [hrl] at h
        cases err
        simp at h

/-- The edges of an allowed case are normalized, in range and without self-loop, and they
are mutually distinct. -/
theorem allowedCase_valid {m : Nat} {ls : List (List Char)} {E : EdgeSet}
    (h : AllowedCase m ls E) : (∀ e ∈ E, e.Valid) ∧ E.Nodup := by
  obtain ⟨pairs, h1, -, -, h3, h4, h5, -⟩ := h
  have h0 := caseLines_nonneg h1
  have herr : ∀ p ∈ pairs, (normEdge p).Error = none :=
    fun p hp => (normEdge_error_none_iff p (h0 p hp)).2 (h3 p hp)
  rw [h5]
  exact ⟨edges_inRange_of_error_none h0 herr, h4⟩

/-- The edge sets that `ReadInputFile` returns hold normalized edges in range, without
self-loop. -/
theorem readInputFile_sets_valid (order : MapOrder) (ho : order.Fair) (r : Reader)
    (sets : List EdgeSet) (h : (r.ReadInputFile order).2 = .ok sets) :
    ∀ G ∈ sets, (∀ e ∈ G, e.Valid) ∧ G.Nodup := by
  obtain ⟨⟨nb, cls, -, -, hc⟩, -⟩ := (readInputFile_ok_iff order ho r sets).mp h
  clear h
  intro G hG
  induction hc with
  | nil => simp at hG
  | cons h1 _ ih =>
    rcases List.mem_cons.1 hG with rfl | hG
    · exact allowedCase_valid h1
    · exact ih hG

/-- The edge loop of `ReadOutputGraph` never indexes `nums` out of range, and every edge it
stores is an edge of the input edge set. -/
theorem readOutputEdges_safe (inE : EdgeSet) : ∀ (k : Nat) (r : Reader) (E0 : EdgeSet),
    (∀ f, (readOutputEdges inE k r E0).2 ≠ .crash f) ∧
    (∀ E, (readOutputEdges inE k r E0).2 = .ok E → ∀ e ∈ E, e ∈ E0 ∨ e ∈ inE) := by
  intro k
  induction k with
  | zero =>
    intro r E0
    simp only [readOutputEdges, ne_eq, not_false_eq_true, implies_true, Run.ok.injEq,
      true_and, reduceCtorEq]
    intro E hE e he
    rw [← hE] at he
    exact Or.inl he
  | succ k ih =>
    intro r E0
    rw [readOutputEdges]
    rcases hres : r.readNumbers "Cannot parse the next edge." 2 with ⟨r1, run⟩
    cases run with
    | crash g => exact absurd hres (readNumbers_not_crash r _ 2 (Or.inr rfl) r1 g)
    | fail a e => simp
    | ok nums =>
      obtain ⟨u, v, rfl⟩ := readNumbers_ok_two r _ r1 nums hres
      simp only [(index?_pair u v).1, (index?_pair u v).2]
      split
      · simp
      · rename_i hin
        split
        · simp
        · rename_i hnew
          obtain ⟨h1, h2⟩ := ih r1 (E0.insert (Edge.mk (u, v)).Normalize)
          refine ⟨h1, ?_⟩
          intro E hE e he
          rcases h2 E hE e he with h | h
          · rw [edgeSet_insert_of_not_mem _ _ hnew] at h
            rcases List.mem_append.1 h with h | h
            · exact Or.inl h
            · rw [List.mem_singleton] at h
              rw [h]
              exact Or.inr (not_not.1 hin)
          · exact Or.inr h

/-- The function `ReadOutputGraph`, given an input edge set of edges in range, never indexes
out of range. -/
theorem readOutputGraph_not_crash (order : MapOrder) (ho : order.Fair) (r : Reader)
    (G : EdgeSet) (hG : ∀ e ∈ G, e.InRange) (f : Fault) :
    (r.ReadOutputGraph order G).2 ≠ .crash f := by
  unfold Reader.ReadOutputGraph
  rcases hres : r.readNumbers "Cannot parse the number of edges." 1 with ⟨r1, run⟩
  cases run with
  | crash g => exact absurd hres (readNumbers_not_crash r _ 1 (Or.inl rfl) r1 g)
  | fail a e => simp
  | ok nums =>
    obtain ⟨k, rfl⟩ := readNumbers_ok_one r _ r1 nums hres
    obtain ⟨Gin, hGin, -⟩ := searchedGraph_spec (order r1.lineNum G)
      (fun e he => hG e ((ho _ _).mem_iff.1 he))
    simp only [hGin, index?_single]
    split
    · simp
    · obtain ⟨h1, h2⟩ := readOutputEdges_safe G k.toNat r1 []
      rcases hed : readOutputEdges G k.toNat r1 [] with ⟨r2, run2⟩
      rw [hed] at h1 h2
      cases run2 with
      | crash g => exact absurd rfl (h1 g)
      | fail a e => simp
      | ok E =>
        have hE : ∀ e ∈ E, e.InRange := by
          intro e he
          rcases h2 E rfl e he with h | h
          · simp at h
          · exact hG e h
        obtain ⟨Gout, hGout, -⟩ := searchedGraph_spec (order r2.lineNum E)
          (fun e he => hE e ((ho _ _).mem_iff.1 he))
        simp only [hGout]
        split
        · simp
        · split
          · simp
          · split <;> simp

/-- The case loop of `ReadOutputFile`, given input edge sets of edges in range, never
indexes out of range. -/
theorem readOutputCases_not_crash (order : MapOrder) (ho : order.Fair) :
    ∀ (sets : List EdgeSet) (r : Reader) (acc : List Int) (f : Fault),
    (∀ G ∈ sets, ∀ e ∈ G, e.InRange) → (readOutputCases order sets r acc).2 ≠ .crash f := by
  intro sets
  induction sets with
  | nil =>
    intro r acc f _
    simp [readOutputCases]
  | cons G sets ih =>
    intro r acc f hv
    rw [readOutputCases]
    rcases hres : r.ReadOutputGraph order G with ⟨r1, run⟩
    cases run with
    | crash g =>
      have := readOutputGraph_not_crash order ho r G (hv G (List.mem_cons_self _ _)) g
      rw [hres] at this
      exact absurd rfl this
    | fail a e => simp
    | ok L => exact ih _ _ f (fun H hH => hv H (List.mem_cons_of_mem _ hH))

/-- The function `ReadOutputFile`, given input edge sets of edges in range, never indexes
out of range. -/
theorem readOutputFile_not_crash (order : MapOrder) (ho : order.Fair) (r : Reader)
    (sets : List EdgeSet) (hv : ∀ G ∈ sets, ∀ e ∈ G, e.InRange) (f : Fault) :
    (r.ReadOutputFile order sets).2 ≠ .crash f := by
  unfold Reader.ReadOutputFile
  rcases hres : r.readNumbers "Cannot parse the number of output graphs." 1 with ⟨r1, run⟩
  cases run with
  | crash g => exact absurd hres (readNumbers_not_crash r _ 1 (Or.inl rfl) r1 g)
  | fail a e => simp
  | ok nums =>
    obtain ⟨k, rfl⟩ := readNumbers_ok_one r _ r1 nums hres
    simp only [index?_single]
    split
    · simp
    · rcases hcs : readOutputCases order sets { r1 with caseNum := 1 } [] with ⟨r2, run2⟩
      cases run2 with
      | crash g =>
        have := readOutputCases_not_crash order ho sets { r1 with caseNum := 1 } [] g hv
        rw [hcs] at this
        exact absurd rfl this
      | fail a e => simp
      | ok leaves =>
        simp only
        rcases hrl : r2.readLine with ⟨r3, _ | err⟩
        · simp
        · cases err
          simp

/-- C17 (index safety under validation).  Every edge that `ReadInputGraph` stores, hence
every edge of the edge sets that `ReadInputFile` returns, has
`0 <= Ends[0] < Ends[1] < MaxNumNodes`; for every enumeration of such an edge set
`EdgeSet.Graph` and `Search` return without a run-time fault, and `ReadInputFile` as a whole
never indexes out of range: its only run-time fault is the refusal of the allocation
`make([]EdgeSet, N)` of the result for a count line `N` that `make` does not accept, before
any case is read.  Likewise `ReadOutputGraph`, given an input edge set with that
property, only ever stores edges that are members of it, and neither it nor `ReadOutputFile`
ever indexes out of range. -/
theorem index_safety (order : MapOrder) (ho : order.Fair) (r : Reader) :
    (∀ (r0 r' : Reader) (E : EdgeSet), r0.ReadInputGraph = (r', .ok E) →
      ∀ e ∈ E, 0 ≤ e.Ends.1 ∧ e.Ends.1 < e.Ends.2 ∧ e.Ends.2 < MaxNumNodes) ∧
    (∀ sets, (r.ReadInputFile order).2 = .ok sets →
      ∀ G ∈ sets, ∀ e ∈ G, 0 ≤ e.Ends.1 ∧ e.Ends.1 < e.Ends.2 ∧ e.Ends.2 < MaxNumNodes) ∧
    (∀ f, (r.ReadInputFile order).2 = .crash f →
      f = .lenOutOfRange ∧
        ∃ r1 N, r.readNumbers "Cannot parse the number of input graphs." 1 = (r1, .ok [N]) ∧
          ¬ Allocatable N) ∧
    (∀ (E keys : List Edge), keys.Perm E → (∀ e ∈ E, e.Valid) →
      (∃ G, EdgeSet.Graph keys = .ok G) ∧ ∃ H, searchedGraph keys = .ok H) ∧
    (∀ G : EdgeSet, (∀ e ∈ G, e.Valid) →
      (∀ f, (r.ReadOutputGraph order G).2 ≠ .crash f) ∧
      (∀ (k : Nat) (r0 : Reader) (E : EdgeSet), (readOutputEdges G k r0 []).2 = .ok E →
        ∀ e ∈ E, e ∈ G)) ∧
    (∀ sets : List EdgeSet, (∀ G ∈ sets, ∀ e ∈ G, e.Valid) →
      ∀ f, (r.ReadOutputFile order sets).2 ≠ .crash f) := by
  refine ⟨?_, ?_, ?_, ?_, ?_, ?_⟩
  · intro r0 r' E h e he
    exact (readInputGraph_valid r0 r' E h).1 e he
  · intro sets h G hG e he
    exact (readInputFile_sets_valid order ho r sets h G hG).1 e he
  · exact fun f h => readInputFile_crash order ho r f h
  · intro E keys hp hv
    have hk : ∀ e ∈ keys, e.InRange := fun e he => (hv e (hp.mem_iff.1 he)).inRange
    obtain ⟨G, hG, -⟩ := edgeSetGraph_spec keys hk
    obtain ⟨H, hH, -⟩ := searchedGraph_spec keys hk
    exact ⟨⟨G, hG⟩, H, hH⟩
  · intro G hG
    refine ⟨fun f => readOutputGraph_not_crash order ho r G (fun e he => (hG e he).inRange) f,
      ?_⟩
    intro k r0 E hE e he
    rcases (readOutputEdges_safe G k r0 []).2 E hE e he with h | h
    · simp at h
    · exact h
  · intro sets hv f
    exact readOutputFile_not_crash order ho r sets
      (fun G hG e he => (hv G hG e he).inRange) f

/-- The triangle file: the edge set that `ReadInputFile` returns holds valid edges, and its
graph is built and searched without a fault. -/
theorem index_safety_witness :
    (∀ G ∈ [triangle], ∀ e ∈ G,
      0 ≤ e.Ends.1 ∧ e.Ends.1 < e.Ends.2 ∧ e.Ends.2 < MaxNumNodes) ∧
    ((∃ G, EdgeSet.Graph triangle = .ok G) ∧ ∃ H, searchedGraph triangle = .ok H) :=
  ⟨(index_safety idOrder idOrder_fair (NewInFileReader "1\n3\n0 1\n1 2\n2 0\n".toList)).2.1
      [triangle] (by decide),
    (index_safety idOrder idOrder_fair (NewInFileReader "1\n3\n0 1\n1 2\n2 0\n".toList)).2.2.2.1
      triangle triangle (List.Perm.refl _) triangle_valid⟩

/-! ## Degrees -/

/-- A node has positive degree iff it is an end of some edge. -/
theorem degree_pos_iff (E : EdgeSet) (u : Int) : 1 ≤ EdgeSet.degree E u ↔ u ∈ EdgeSet.nodes E := by
  unfold EdgeSet.degree EdgeSet.nodes
  rw [Nat.succ_le_iff, List.countP_pos_iff]
  simp

theorem nodes_eq_degree_pos (E : EdgeSet) : EdgeSet.nodes E = {u : Int | 1 ≤ EdgeSet.degree E u} := by
  ext u
  exact (degree_pos_iff E u).symm

/-- The nodes of an edge set in range are node indices. -/
theorem nodes_lt (E : EdgeSet) (hk : ∀ e ∈ E, e.InRange) (u : Int) (hu : u ∈ EdgeSet.nodes E) :
    0 ≤ u ∧ u < MaxNumNodes := by
  obtain ⟨e, he, h⟩ := hu
  have hr := hk e he
  unfold Edge.InRange at hr
  rcases h with h | h <;> (rw [← h]; omega)

theorem sum_indicator (a : Int) (n : Nat) :
    ((List.range n).map (fun i : Nat => if a = (i : Int) then 1 else 0)).sum =
      if 0 ≤ a ∧ a < (n : Int) then 1 else 0 := by
  induction n with
  | zero =>
    simp only [List.range_zero, List.map_nil, List.sum_nil]
    rw [if_neg (by push_cast; omega)]
  | succ n ih =>
    rw [List.range_succ, List.map_append, List.sum_append, ih]
    simp only [List.map_cons, List.map_nil, List.sum_cons, List.sum_nil, add_zero]
    by_cases h1 : a = (n : Int)
    · rw [if_pos h1, if_neg (by omega), if_pos (by push_cast; omega)]
    · rw [if_neg h1]
      by_cases h2 : 0 ≤ a ∧ a < (n : Int)
      · rw [if_pos h2, if_pos (by push_cast; omega)]
      · rw [if_neg h2, if_neg (by push_cast; omega)]

theorem sum_map_add {α : Type} (l : List α) (f g : α → Nat) :
    (l.map (fun i => f i + g i)).sum = (l.map f).sum + (l.map g).sum := by
  induction l with
  | nil => simp
  | cons a l ih =>
    simp only [List.map_cons, List.sum_cons, ih]
    omega

/-- The degrees of the nodes add up to twice the number of edges. -/
theorem handshake (E : EdgeSet) (hv : ∀ e ∈ E, e.Valid) :
    ((List.range MaxNumNodes.toNat).map (fun i : Nat => EdgeSet.degree E (i : Int))).sum =
      2 * E.length := by
  induction E with
  | nil => simp [EdgeSet.degree]
  | cons e E ih =>
    have he := hv e (List.mem_cons_self _ _)
    unfold Edge.Valid at he
    have hstep : ∀ i : Nat, EdgeSet.degree (e :: E) (i : Int) =
        ((if e.Ends.1 = (i : Int) then 1 else 0) + (if e.Ends.2 = (i : Int) then 1 else 0)) +
          EdgeSet.degree E (i : Int) := by
      intro i
      unfold EdgeSet.degree
      rw [List.countP_cons]
      by_cases h1 : e.Ends.1 = (i : Int) <;> by_cases h2 : e.Ends.2 = (i : Int) <;>
        simp only [h1, h2, decide_True, decide_False, if_true, if_false, or_true, true_or,
          or_self, Bool.false_eq_true] <;> omega
    have hfun : (fun i : Nat => EdgeSet.degree (e :: E) (i : Int)) =
        fun i : Nat => ((if e.Ends.1 = (i : Int) then 1 else 0) +
          (if e.Ends.2 = (i : Int) then 1 else 0)) + EdgeSet.degree E (i : Int) :=
      funext hstep
    rw [hfun, sum_map_add, sum_map_add, sum_indicator, sum_indicator,
      ih (fun e' he' => hv e' (List.mem_cons_of_mem _ he'))]
    have hM : ((MaxNumNodes.toNat : Nat) : Int) = MaxNumNodes := by decide
    rw [if_pos (by rw [hM]; omega), if_pos (by rw [hM]; omega), List.length_cons]
    omega

/-- In a list of numbers, the sum together with the number of ones is at least twice the
number of positive entries. -/
theorem sum_add_ones_ge (l : List Nat) :
    2 * l.countP (fun d => decide (1 ≤ d)) ≤ l.sum + l.countP (fun d => decide (d = 1)) := by
  induction l with
  | nil => simp
  | cons d l ih =>
    simp only [List.countP_cons, List.sum_cons]
    by_cases h1 : d = 1
    · subst h1
      simp only [decide_True, if_true, le_refl]
      omega
    · by_cases h2 : 1 ≤ d
      · simp only [h1, h2, decide_True, decide_False, if_true, if_false, Bool.false_eq_true]
        omega
      · simp only [h1, h2, decide_False, if_false, Bool.false_eq_true]
        omega

/-- Counting the node indices with a property of the degree that degree 0 lacks. -/
theorem countP_degree (E : EdgeSet) (hk : ∀ e ∈ E, e.InRange) (p : Nat → Bool)
    (hp : p 0 = false) :
    ((List.range MaxNumNodes.toNat).map (fun i : Nat => EdgeSet.degree E (i : Int))).countP p =
      Set.ncard {u : Int | p (EdgeSet.degree E u) = true} := by
  have h1 := countP_map_range (fun adj => p adj.length)
    (fun u => List.replicate (EdgeSet.degree E u) 0) MaxNumNodes.toNat
  simp only [List.length_replicate] at h1
  have h2 : ((List.range MaxNumNodes.toNat).map
      (fun i : Nat => EdgeSet.degree E (i : Int))).countP p =
      ((List.range MaxNumNodes.toNat).map
        (fun i : Nat => List.replicate (EdgeSet.degree E (i : Int)) (0 : Int))).countP
          (fun adj => p adj.length) := by
    rw [List.countP_map, List.countP_map]
    congr 1
    funext i
    simp
  rw [h2, h1]
  congr 1
  ext u
  simp only [Set.mem_setOf_eq]
  constructor
  · exact fun h => h.2.2
  · intro h
    have hpos : 1 ≤ EdgeSet.degree E u := by
      by_contra hc
      have : EdgeSet.degree E u = 0 := by omega
      rw [this, hp] at h
      exact absurd h (by simp)
    have := nodes_lt E hk u ((degree_pos_iff E u).1 hpos)
    have hM : ((MaxNumNodes.toNat : Nat) : Int) = MaxNumNodes := by decide
    exact ⟨this.1, by rw [hM]; exact this.2, h⟩

/-- C13 (node and leaf counts of `Graph.Search`).  Let `E` be a set of distinct, normalized,
in-range edges without self-loops, and `keys` any enumeration of it.  After `Search`,
`NumNodes` is the number of nodes of degree at least 1 and `NumLeaves` the number of nodes of
degree exactly 1, the degree of a node being the number of edges of `E` incident to it.  The
adjacency list of a node has as many entries as its degree, without repetition, one for each
incident edge; so every edge contributes exactly one entry in each direction, and the lists
hold twice as many entries as there are edges. -/
theorem search_node_leaf_counts (E keys : List Edge) (hp : keys.Perm E)
    (hv : ∀ e ∈ E, e.Valid) (hn : E.Nodup) :
    ∃ G, searchedGraph keys = .ok G ∧
      G.NumNodes = (Set.ncard {u : Int | 1 ≤ EdgeSet.degree E u} : Int) ∧
      G.NumLeaves = (Set.ncard {u : Int | EdgeSet.degree E u = 1} : Int) ∧
      (∀ u, 0 ≤ u → u < MaxNumNodes →
        ∃ adj, index? G.Neighbors u = some adj ∧ adj.length = EdgeSet.degree E u ∧
          adj.Nodup ∧ ∀ v, v ∈ adj ↔ (Edge.mk (u, v) ∈ E ∨ Edge.mk (v, u) ∈ E)) ∧
      (∀ e ∈ E, ∃ a b, index? G.Neighbors e.Ends.1 = some a ∧
        index? G.Neighbors e.Ends.2 = some b ∧ a.count e.Ends.2 = 1 ∧ b.count e.Ends.1 = 1) ∧
      (G.Neighbors.map List.length).sum = 2 * E.length := by
  have hvk : ∀ e ∈ keys, e.Valid := fun e he => hv e (hp.mem_iff.1 he)
  have hnk : keys.Nodup := hp.nodup_iff.2 hn
  have hk : ∀ e ∈ keys, e.InRange := fun e he => (hvk e he).inRange
  obtain ⟨G, h1, hA, h3, h4, -⟩ := searchedGraph_spec keys hk
  have hadj : ∀ u, 0 ≤ u → u < MaxNumNodes →
      ∃ adj, index? G.Neighbors u = some adj ∧ adj.length = EdgeSet.degree E u ∧
        adj.Nodup ∧ ∀ v, v ∈ adj ↔ (Edge.mk (u, v) ∈ E ∨ Edge.mk (v, u) ∈ E) := by
    intro u h0 hu
    refine ⟨adjOf keys u, hA.2 u h0 hu, ?_, adjOf_nodup keys hvk hnk u, ?_⟩
    · rw [length_adjOf_valid keys hvk, degree_perm hp]
    · intro v
      rw [mem_adjOf_iff, hp.mem_iff, hp.mem_iff]
  refine ⟨G, h1, ?_, ?_, hadj, ?_, ?_⟩
  · rw [h3, nodes_perm hp, nodes_eq_degree_pos]
  · rw [h4]
    congr 2
    ext u
    simp only [Set.mem_setOf_eq]
    rw [length_adjOf_valid keys hvk, degree_perm hp]
  · intro e he
    have hr := (hv e he).inRange
    unfold Edge.InRange at hr
    obtain ⟨a, ha, -, hna, hma⟩ := hadj e.Ends.1 hr.1.1 hr.1.2
    obtain ⟨b, hb, -, hnb, hmb⟩ := hadj e.Ends.2 hr.2.1 hr.2.2
    refine ⟨a, b, ha, hb, ?_, ?_⟩
    · exact List.count_eq_one_of_mem hna ((hma _).2 (Or.inl he))
    · exact List.count_eq_one_of_mem hnb ((hmb _).2 (Or.inr he))
  · rw [adjAre_eq_map hA, List.map_map]
    have hfun : (List.length ∘ fun i : Nat => adjOf keys (i : Int)) =
        fun i : Nat => EdgeSet.degree keys (i : Int) := by
      funext i
      simp only [Function.comp]
      exact length_adjOf_valid keys hvk _
    rw [hfun, handshake keys hvk, hp.length_eq]

/-- The path `0-1`, `1-2`, enumerated in reverse. -/
theorem search_node_leaf_counts_witness :
    ∃ G, searchedGraph [⟨(1, 2)⟩, ⟨(0, 1)⟩] = .ok G ∧
      G.NumNodes = (Set.ncard {u : Int | 1 ≤ EdgeSet.degree [⟨(0, 1)⟩, ⟨(1, 2)⟩] u} : Int) ∧
      G.NumLeaves = (Set.ncard {u : Int | EdgeSet.degree [⟨(0, 1)⟩, ⟨(1, 2)⟩] u = 1} : Int) ∧
      (∀ u, 0 ≤ u → u < MaxNumNodes →
        ∃ adj, index? G.Neighbors u = some adj ∧
          adj.length = EdgeSet.degree [⟨(0, 1)⟩, ⟨(1, 2)⟩] u ∧ adj.Nodup ∧
          ∀ v, v ∈ adj ↔ (Edge.mk (u, v) ∈ ([⟨(0, 1)⟩, ⟨(1, 2)⟩] : List Edge) ∨
            Edge.mk (v, u) ∈ ([⟨(0, 1)⟩, ⟨(1, 2)⟩] : List Edge))) ∧
      (∀ e ∈ ([⟨(0, 1)⟩, ⟨(1, 2)⟩] : List Edge), ∃ a b,
        index? G.Neighbors e.Ends.1 = some a ∧ index? G.Neighbors e.Ends.2 = some b ∧
        a.count e.Ends.2 = 1 ∧ b.count e.Ends.1 = 1) ∧
      (G.Neighbors.map List.length).sum = 2 * ([⟨(0, 1)⟩, ⟨(1, 2)⟩] : List Edge).length :=
  search_node_leaf_counts [⟨(0, 1)⟩, ⟨(1, 2)⟩] [⟨(1, 2)⟩, ⟨(0, 1)⟩]
    (List.Perm.swap _ _ _) (by decide) (by decide)

/-- A set of `n - 1` distinct valid edges on `n` nodes has at least two nodes of degree 1,
and at most `n`. -/
theorem leaves_bounds (E : EdgeSet) (hv : ∀ e ∈ E, e.Valid)
    (hcount : (E.length : Int) = (Set.ncard (EdgeSet.nodes E) : Int) - 1) :
    2 ≤ Set.ncard {u : Int | EdgeSet.degree E u = 1} ∧
      Set.ncard {u : Int | EdgeSet.degree E u = 1} ≤ Set.ncard (EdgeSet.nodes E) := by
  have hk : ∀ e ∈ E, e.InRange := fun e he => (hv e he).inRange
  have h1 := handshake E hv
  have h2 := sum_add_ones_ge
    ((List.range MaxNumNodes.toNat).map (fun i : Nat => EdgeSet.degree E (i : Int)))
  have h3 := countP_degree E hk (fun d => decide (1 ≤ d)) (by decide)
  have h4 := countP_degree E hk (fun d => decide (d = 1)) (by decide)
  have h5 : {u : Int | decide (1 ≤ EdgeSet.degree E u) = true} = EdgeSet.nodes E := by
    rw [nodes_eq_degree_pos]
    ext u
    simp
  have h6 : {u : Int | decide (EdgeSet.degree E u = 1) = true} =
      {u : Int | EdgeSet.degree E u = 1} := by
    ext u
    simp
  rw [h5] at h3
  rw [h6] at h4
  rw [h1, h3, h4] at h2
  constructor
  · omega
  · apply Set.ncard_le_ncard _ (nodes_finite E hk)
    intro u hu
    simp only [Set.mem_setOf_eq] at hu
    exact (degree_pos_iff E u).1 (by omega)

/-- Every failure of `ReadOutputGraph` returns the count `InvalidNumLeaves`. -/
theorem readOutputGraph_fail_value (order : MapOrder) (r r' : Reader) (G : EdgeSet) (a : Int)
    (e : Mlst.Error) (h : r.ReadOutputGraph order G = (r', .fail a e)) :
    a = InvalidNumLeaves := by
  unfold Reader.ReadOutputGraph at h
  rcases hres : r.readNumbers "Cannot parse the number of edges." 1 with ⟨r1, run⟩
  rw [hres] at h
  cases run with
  | crash f => simp at h
  | fail a1 e1 =>
    simp only [Prod.mk.injEq, Run.fail.injEq] at h
    exact h.2.1.symm
  | ok nums =>
    simp only at h
    split at h
    · simp at h
    · split at h
      · simp at h
      · split at h
        · simp only [Prod.mk.injEq, Run.fail.injEq] at h
          exact h.2.1.symm
        · rcases hed : readOutputEdges G _ r1 [] with ⟨r2, run2⟩
          rw [hed] at h
          cases run2 with
          | crash f => simp at h
          | fail a2 e2 =>
            simp only [Prod.mk.injEq, Run.fail.injEq] at h
            exact h.2.1.symm
          | ok E =>
            simp only at h
            split at h
            · simp at h
            · split at h
              · simp only [Prod.mk.injEq, Run.fail.injEq] at h
                exact h.2.1.symm
              · split at h
                · simp only [Prod.mk.injEq, Run.fail.injEq] at h
                  exact h.2.1.symm
                · split at h
                  · simp only [Prod.mk.injEq, Run.fail.injEq] at h
                    exact h.2.1.symm
                  · simp at h

/-- C19 (every accepted tree has at least two leaves).  Let `G` be an input edge set of
valid edges.  If `ReadOutputGraph` succeeds, the leaf count `L` it returns satisfies
`2 <= L <= NumNodes` of the input graph, so it is never the sentinel `InvalidNumLeaves`,
which is `-1`; and on every failure the count returned is exactly `-1`. -/
theorem leaf_count_bounds (order : MapOrder) (ho : order.Fair) (r : Reader) (G : EdgeSet)
    (hG : ∀ e ∈ G, e.Valid) :
    (∀ (r' : Reader) (L : Int), r.ReadOutputGraph order G = (r', .ok L) →
      2 ≤ L ∧ L ≤ (Set.ncard (EdgeSet.nodes G) : Int) ∧ L ≠ InvalidNumLeaves ∧
      ∀ keys : List Edge, keys.Perm G →
        ∃ Gin, searchedGraph keys = .ok Gin ∧ L ≤ Gin.NumNodes) ∧
    (∀ (r' : Reader) (a : Int) (e : Mlst.Error), r.ReadOutputGraph order G = (r', .fail a e) →
      a = -1) ∧
    InvalidNumLeaves = -1 := by
  refine ⟨?_, ?_, rfl⟩
  · intro r' L h
    obtain ⟨ls, -, pairs, hc, hin, hacc, hL⟩ := readOutputGraph_ok order ho r r' G hG L h
    obtain ⟨-, hM, hnodes, -, -⟩ := hacc
    have hv := mapped_valid hG hin
    have hb := leaves_bounds (pairs.map normEdge) hv (by
      rw [List.length_map, hnodes]
      exact hM)
    rw [hnodes] at hb
    have h2 : 2 ≤ L := by
      rw [hL]
      exact_mod_cast hb.1
    have h3 : L ≤ (Set.ncard (EdgeSet.nodes G) : Int) := by
      rw [hL]
      exact_mod_cast hb.2
    refine ⟨h2, h3, ?_, ?_⟩
    · unfold InvalidNumLeaves
      omega
    · intro keys hp
      obtain ⟨Gin, hGin, hn⟩ := searched_numNodes G keys hp (fun e he => (hG e he).inRange)
      exact ⟨Gin, hGin, by rw [hn]; exact h3⟩
  · intro r' a e h
    exact readOutputGraph_fail_value order r r' G a e h

/-- The triangle with the accepted output case `2`, `0 1`, `1 2`: the leaf count is 2. -/
theorem leaf_count_bounds_witness :
    (2 ≤ (2 : Int) ∧ (2 : Int) ≤ (Set.ncard (EdgeSet.nodes triangle) : Int) ∧
      (2 : Int) ≠ InvalidNumLeaves ∧
      ∀ keys : List Edge, keys.Perm triangle →
        ∃ Gin, searchedGraph keys = .ok Gin ∧ (2 : Int) ≤ Gin.NumNodes) ∧
    ((NewOutFileReader "2\n0 1\n1 2\n".toList).ReadOutputGraph idOrder triangle).2 = .ok 2 :=
  ⟨(leaf_count_bounds idOrder idOrder_fair (NewOutFileReader "2\n0 1\n1 2\n".toList) triangle
      triangle_valid).1 ((NewOutFileReader "2\n0 1\n1 2\n".toList).ReadOutputGraph idOrder
        triangle).1 2 (by decide),
    by decide⟩

/-! ## Connected graphs with one edge less than nodes -/

/-- Removing an edge whose ends stay connected keeps every pair of connected vertices
connected. -/
theorem reachable_delete_nonbridge {V : Type} (H : SimpleGraph V) (v w : V)
    (h : (H \ SimpleGraph.fromEdgeSet {s(v, w)}).Reachable v w) {a b : V}
    (hab : H.Reachable a b) : (H \ SimpleGraph.fromEdgeSet {s(v, w)}).Reachable a b := by
  obtain ⟨p⟩ := hab
  induction p with
  | nil => exact SimpleGraph.Reachable.refl _
  | @cons x y z hxy _ ih =>
    refine SimpleGraph.Reachable.trans ?_ ih
    by_cases he : s(x, y) = s(v, w)
    · rcases Sym2.eq_iff.1 he with ⟨h1, h2⟩ | ⟨h1, h2⟩
      · rw [h1, h2]
        exact h
      · rw [h1, h2]
        exact h.symm
    · have hadj : (H \ SimpleGraph.fromEdgeSet {s(v, w)}).Adj x y := by
        rw [SimpleGraph.sdiff_adj, SimpleGraph.fromEdgeSet_adj]
        exact ⟨hxy, fun hh => he hh.1⟩
      exact hadj.reachable

/-- The edges of a graph without one of its edges. -/
theorem ncard_edgeSet_delete {V : Type} [Finite V] (H : SimpleGraph V) (v w : V)
    (hvw : H.Adj v w) :
    (H \ SimpleGraph.fromEdgeSet {s(v, w)}).edgeSet.ncard + 1 = H.edgeSet.ncard := by
  have hfin : H.edgeSet.Finite := Set.toFinite _
  have hmem : s(v, w) ∈ H.edgeSet := (SimpleGraph.mem_edgeSet H).2 hvw
  have hset : (H \ SimpleGraph.fromEdgeSet {s(v, w)}).edgeSet = H.edgeSet \ {s(v, w)} := by
    rw [SimpleGraph.edgeSet_sdiff, SimpleGraph.edgeSet_fromEdgeSet]
    ext z
    simp only [Set.mem_diff, Set.mem_singleton_iff, Set.mem_setOf_eq, not_and, not_not]
    constructor
    · rintro ⟨hz, h⟩
      refine ⟨hz, fun hzz => ?_⟩
      have := h hzz
      rw [hzz] at this
      exact hvw.ne (Sym2.mk_isDiag_iff.1 this)
    · rintro ⟨hz, h⟩
      exact ⟨hz, fun hzz => absurd hzz h⟩
  rw [hset, Set.ncard_diff_singleton_of_mem hmem hfin]
  have : 0 < H.edgeSet.ncard := (Set.ncard_pos hfin).2 ⟨_, hmem⟩
  omega

/-- A connected graph has at least as many edges as nodes minus one. -/
theorem connected_card_le {V : Type} [Finite V] :
    ∀ (n : Nat) (H : SimpleGraph V), H.edgeSet.ncard = n → H.Connected →
      Nat.card V ≤ n + 1 := by
  intro n
  induction n using Nat.strong_induction_on with
  | _ n ih =>
    intro H hn hc
    by_cases hac : H.IsAcyclic
    · classical
      haveI : Fintype V := Fintype.ofFinite V
      haveI : Fintype H.edgeSet := Fintype.ofFinite _
      have h1 := SimpleGraph.IsTree.card_edgeFinset (G := H) ⟨hc, hac⟩
      rw [Nat.card_eq_fintype_card, ← h1, ← hn, Set.ncard_eq_toFinset_card']
    · rw [SimpleGraph.isAcyclic_iff_forall_adj_isBridge] at hac
      push_neg at hac
      obtain ⟨v, w, hvw, hnb⟩ := hac
      rw [SimpleGraph.isBridge_iff] at hnb
      have hr : (H \ SimpleGraph.fromEdgeSet {s(v, w)}).Reachable v w := by
        by_contra hcon
        exact hnb ⟨hvw, hcon⟩
      have hcard := ncard_edgeSet_delete H v w hvw
      have hc' : (H \ SimpleGraph.fromEdgeSet {s(v, w)}).Connected := by
        haveI := hc.nonempty
        exact SimpleGraph.Connected.mk
          (fun a b => reachable_delete_nonbridge H v w hr (hc.preconnected a b))
      have := ih _ (by omega) (H \ SimpleGraph.fromEdgeSet {s(v, w)}) rfl hc'
      omega

/-- A connected graph with one edge less than nodes has no cycle. -/
theorem acyclic_of_connected_card {V : Type} [Finite V] (H : SimpleGraph V)
    (hc : H.Connected) (hcard : H.edgeSet.ncard + 1 = Nat.card V) : H.IsAcyclic := by
  by_contra hac
  rw [SimpleGraph.isAcyclic_iff_forall_adj_isBridge] at hac
  push_neg at hac
  obtain ⟨v, w, hvw, hnb⟩ := hac
  rw [SimpleGraph.isBridge_iff] at hnb
  have hr : (H \ SimpleGraph.fromEdgeSet {s(v, w)}).Reachable v w := by
    by_contra hcon
    exact hnb ⟨hvw, hcon⟩
  have hcard' := ncard_edgeSet_delete H v w hvw
  have hc' : (H \ SimpleGraph.fromEdgeSet {s(v, w)}).Connected := by
    haveI := hc.nonempty
    exact SimpleGraph.Connected.mk
      (fun a b => reachable_delete_nonbridge H v w hr (hc.preconnected a b))
  have := connected_card_le _ (H \ SimpleGraph.fromEdgeSet {s(v, w)}) rfl hc'
  omega

/-- The edges of the graph of a set of valid edges are the unordered pairs of the edges. -/
theorem edgeSet_toSimpleGraph (E : EdgeSet) (hv : ∀ e ∈ E, e.Valid) :
    (EdgeSet.toSimpleGraph E).edgeSet =
      (fun e : Edge => s(e.Ends.1, e.Ends.2)) '' {e | e ∈ E} := by
  ext z
  induction z using Sym2.ind with
  | _ a b =>
    rw [SimpleGraph.mem_edgeSet]
    unfold EdgeSet.toSimpleGraph
    rw [SimpleGraph.fromRel_adj]
    simp only [Set.mem_image, Set.mem_setOf_eq]
    constructor
    · rintro ⟨-, h | h⟩
      · exact ⟨_, h, rfl⟩
      · exact ⟨_, h, Sym2.eq_swap⟩
    · rintro ⟨e, he, heq⟩
      have hval := hv e he
      unfold Edge.Valid at hval
      rcases Sym2.eq_iff.1 heq with ⟨h1, h2⟩ | ⟨h1, h2⟩
      · refine ⟨by omega, Or.inl ?_⟩
        rw [← h1, ← h2]
        exact he
      · refine ⟨by omega, Or.inr ?_⟩
        rw [← h1, ← h2]
        exact he

/-- The graph of a set of distinct valid edges has as many edges as the set. -/
theorem ncard_edgeSet_toSimpleGraph (E : EdgeSet) (hv : ∀ e ∈ E, e.Valid) (hn : E.Nodup) :
    (EdgeSet.toSimpleGraph E).edgeSet.ncard = E.length := by
  rw [edgeSet_toSimpleGraph E hv, Set.ncard_image_of_injOn]
  · have : {e : Edge | e ∈ E} = ↑E.toFinset := by
      ext e
      simp
    rw [this, Set.ncard_coe_Finset, List.toFinset_card_of_nodup hn]
  · intro e he e' he' heq
    have h1 := hv e he
    have h2 := hv e' he'
    unfold Edge.Valid at h1 h2
    simp only at heq
    cases e with
    | mk p =>
      cases e' with
      | mk q =>
        simp only at h1 h2 heq
        rcases Sym2.eq_iff.1 heq with ⟨h3, h4⟩ | ⟨h3, h4⟩
        · congr 1
          exact Prod.ext h3 h4
        · omega

/-- Restricting a graph to a set of nodes that holds the ends of all edges keeps the number
of edges. -/
theorem ncard_edgeSet_induce (G : SimpleGraph Int) (S : Set Int)
    (hadj : ∀ a b, G.Adj a b → a ∈ S ∧ b ∈ S) :
    (G.induce S).edgeSet.ncard = G.edgeSet.ncard := by
  have hinj : Function.Injective (Sym2.map (Subtype.val : S → Int)) :=
    Sym2.map.injective Subtype.val_injective
  rw [← Set.ncard_image_of_injective _ hinj]
  congr 1
  ext z
  induction z using Sym2.ind with
  | _ a b =>
    rw [SimpleGraph.mem_edgeSet]
    simp only [Set.mem_image]
    constructor
    · rintro ⟨y, hy, hyz⟩
      induction y using Sym2.ind with
      | _ c d =>
        rw [SimpleGraph.mem_edgeSet, SimpleGraph.comap_adj] at hy
        rw [Sym2.map_pair_eq] at hyz
        have := (SimpleGraph.mem_edgeSet G).2 hy
        rw [Function.Embedding.coe_subtype] at this
        rw [hyz] at this
        exact (SimpleGraph.mem_edgeSet G).1 this
    · intro h
      obtain ⟨ha, hb⟩ := hadj a b h
      refine ⟨s(⟨a, ha⟩, ⟨b, hb⟩), ?_, by rw [Sym2.map_pair_eq]⟩
      rw [SimpleGraph.mem_edgeSet, SimpleGraph.comap_adj]
      exact h

/-- A graph is acyclic when its restriction to a set of nodes that holds the ends of all
edges is. -/
theorem acyclic_of_induce (G : SimpleGraph Int) (S : Set Int)
    (hadj : ∀ a b, G.Adj a b → a ∈ S ∧ b ∈ S) (h : (G.induce S).IsAcyclic) : G.IsAcyclic := by
  rw [SimpleGraph.isAcyclic_iff_forall_adj_isBridge] at h ⊢
  intro v w hvw
  obtain ⟨hv, hw⟩ := hadj v w hvw
  have hb := @h ⟨v, hv⟩ ⟨w, hw⟩ (by rw [SimpleGraph.comap_adj]; exact hvw)
  rw [SimpleGraph.isBridge_iff] at hb ⊢
  refine ⟨hvw, fun hr => hb.2 ?_⟩
  have hadj2 : ∀ a b, (G \ SimpleGraph.fromEdgeSet {s(v, w)}).Adj a b → a ∈ S ∧ b ∈ S :=
    fun a b hab => hadj a b ((SimpleGraph.sdiff_adj _ _ _ _).1 hab).1
  have hr2 := (induce_reachable_iff _ S hadj2 ⟨v, hv⟩ ⟨w, hw⟩).2 hr
  refine SimpleGraph.Reachable.mono ?_ hr2
  intro a b hab
  rw [SimpleGraph.comap_adj, SimpleGraph.sdiff_adj, SimpleGraph.fromEdgeSet_adj] at hab
  rw [SimpleGraph.sdiff_adj, SimpleGraph.fromEdgeSet_adj, SimpleGraph.comap_adj]
  refine ⟨hab.1, fun hh => hab.2 ⟨?_, fun heq => hh.2 (Subtype.ext heq)⟩⟩
  have := congrArg (Sym2.map (Subtype.val : S → Int)) hh.1
  simpa using this

/-- A set of `n - 1` distinct valid edges that connects its `n` nodes has no cycle. -/
theorem tree_of_counts (E : EdgeSet) (hv : ∀ e ∈ E, e.Valid) (hn : E.Nodup) (hne : E ≠ [])
    (hconn : EdgeSet.EdgesConnected E)
    (hcount : (E.length : Int) = (Set.ncard (EdgeSet.nodes E) : Int) - 1) :
    (EdgeSet.toSimpleGraph E).IsAcyclic := by
  have hk : ∀ e ∈ E, e.InRange := fun e he => (hv e he).inRange
  have hadj := toSimpleGraph_adj_nodes E
  have hfin := nodes_finite E hk
  haveI : Finite (EdgeSet.nodes E) := hfin
  have hnonempty : Nonempty (EdgeSet.nodes E) := (nodes_nonempty_iff E).2 hne
  apply acyclic_of_induce _ (EdgeSet.nodes E) hadj
  apply acyclic_of_connected_card
  · haveI := hnonempty
    exact SimpleGraph.Connected.mk (fun a b =>
      (induce_reachable_iff _ _ hadj a b).2 (hconn a.1 a.2 b.1 b.2))
  · rw [ncard_edgeSet_induce _ _ hadj, ncard_edgeSet_toSimpleGraph E hv hn,
      Set.Nat.card_coe_set_eq]
    have hpos : 0 < Set.ncard (EdgeSet.nodes E) :=
      (Set.ncard_pos hfin).2 (Set.nonempty_coe_sort.1 hnonempty)
    omega

/-! ## The texts of the diagnostics -/

theorem beginsWith_append {p : List Char} {a : GoString} (b : GoString)
    (h : BeginsWith p a) : BeginsWith p (a ++ b) := by
  unfold BeginsWith at h ⊢
  have hlen : p.length ≤ a.data.length := by
    have := congrArg List.length h
    rw [List.length_take] at this
    omega
  rw [String.data_append, List.take_append_of_le_length hlen, h]

theorem ne_of_beginsWith {p : List Char} {x c : GoString} (hx : BeginsWith p x)
    (hc : ¬ BeginsWith p c) : x ≠ c := by
  intro h
  rw [h] at hx
  exact hc hx

/-- A diagnostic of the conversion loop of `readNumbers` starts with the message given. -/
theorem convertMatches_fail_begins (p : List Char) (r : Reader) (msg : GoString) (n : Int)
    (hp : BeginsWith p msg) :
    ∀ (ms : List (List Char)) (ints : List Int) (a : List Int) (e : Mlst.Error),
    convertMatches r msg n ms ints = .fail a e → BeginsWith p e.message := by
  intro ms
  induction ms with
  | nil =>
    intro ints a e h
    simp [convertMatches] at h
  | cons m ms ih =>
    intro ints a e h
    rw [convertMatches] at h
    split at h
    · simp only [Run.fail.injEq] at h
      rw [← h.2]
      exact beginsWith_append _ (beginsWith_append _ (beginsWith_append _
        (beginsWith_append _ (beginsWith_append _ hp))))
    · exact ih _ _ _ h

/-- A diagnostic of `readNumbers` starts with the message given. -/
theorem readNumbers_fail_begins (p : List Char) (r : Reader) (msg : GoString) (n : Int)
    (hp : BeginsWith p msg) (r1 : Reader) (a : List Int) (e : Mlst.Error)
    (h : r.readNumbers msg n = (r1, .fail a e)) : BeginsWith p e.message := by
  unfold Reader.readNumbers at h
  rcases hrl : r.readLine with ⟨r2, _ | err⟩
  · rw [hrl] at h
    simp only [Prod.mk.injEq] at h
    obtain ⟨-, h2⟩ := h
    unfold Reader.parseNumbers at h2
    split at h2
    · simp at h2
    · simp only [Run.fail.injEq] at h2
      rw [← h2.2]
      exact beginsWith_append _ (beginsWith_append _ hp)
    · split at h2
      · simp only [Run.fail.injEq] at h2
        rw [← h2.2]
        exact beginsWith_append _ (beginsWith_append _ hp)
      · exact convertMatches_fail_begins p r2 msg n hp _ _ _ _ h2
  · rw [hrl] at h
    simp only [Prod.mk.injEq, Run.fail.injEq] at h
    rw [← h.2.2]
    exact beginsWith_append _ (beginsWith_append _ (beginsWith_append _
      (beginsWith_append _ (beginsWith_append _ hp))))

/-- A diagnostic of the edge loop of `ReadOutputGraph` starts with `Ca` (a line that cannot
be parsed) or with `E` (an edge that is absent or duplicated). -/
theorem readOutputEdges_fail_begins (inE : EdgeSet) :
    ∀ (k : Nat) (r : Reader) (E0 : EdgeSet) (r' : Reader) (a : EdgeSet) (e : Mlst.Error),
    readOutputEdges inE k r E0 = (r', .fail a e) →
    BeginsWith ['C', 'a'] e.message ∨ BeginsWith ['E'] e.message := by
  intro k
  induction k with
  | zero =>
    intro r E0 r' a e h
    simp [readOutputEdges] at h
  | succ k ih =>
    intro r E0 r' a e h
    rw [readOutputEdges] at h
    rcases hres : r.readNumbers "Cannot parse the next edge." 2 with ⟨r1, run⟩
    rw [hres] at h
    cases run with
    | crash f => simp at h
    | fail a1 e1 =>
      simp only [Prod.mk.injEq, Run.fail.injEq] at h
      rw [← h.2.2]
      exact Or.inl (readNumbers_fail_begins _ r _ 2 (by unfold BeginsWith; decide) r1 a1 e1 hres)
    | ok nums =>
      simp only at h
      split at h
      · split at h
        · simp only [Prod.mk.injEq, Run.fail.injEq] at h
          rw [← h.2.2]
          refine Or.inr (beginsWith_append _ (beginsWith_append _ (beginsWith_append _ ?_)))
          unfold BeginsWith
          decide
        · split at h
          · simp only [Prod.mk.injEq, Run.fail.injEq] at h
            rw [← h.2.2]
            refine Or.inr (beginsWith_append _ (beginsWith_append _ ?_))
            unfold BeginsWith
            decide
          · exact ih _ _ _ _ _ h
      · simp at h

/-- When the checks of `ReadOutputGraph` that precede the cycle check have passed, the search
of the output graph has found no cycle. -/
theorem hasCycle_false_of_checks (G E keysIn keysOut : List Edge) (Gin Gout : Graph)
    (hG : ∀ e ∈ G, e.Valid) (hpi : keysIn.Perm G) (hpo : keysOut.Perm E)
    (hsub : ∀ e ∈ E, e ∈ G) (hn : E.Nodup)
    (hin : searchedGraph keysIn = .ok Gin) (hout : searchedGraph keysOut = .ok Gout)
    (hcount : (E.length : Int) = Gin.NumNodes - 1)
    (hnodes : Gout.NumNodes = Gin.NumNodes)
    (hone : Gout.EdgesInOneComponent = true) : Gout.HasCycle = false := by
  have hvE : ∀ e ∈ E, e.Valid := fun e he => hG e (hsub e he)
  obtain ⟨G1, h1, h2, -, h4, h5⟩ := searched_summary E keysOut hpo hvE hn
  rw [hout] at h1
  cases h1
  obtain ⟨G2, h6, h7⟩ := searched_numNodes G keysIn hpi (fun e he => (hG e he).inRange)
  rw [hin] at h6
  cases h6
  obtain ⟨hne, hconn⟩ := h4.1 hone
  have hac := tree_of_counts E hvE hn hne hconn (by rw [hcount, ← hnodes, h2])
  cases hc : Gout.HasCycle
  · rfl
  · exact absurd hac (h5.1 hc)

/-- The function `ReadOutputGraph`, given an input edge set of valid edges, never returns
the diagnostic of the cycle check. -/
theorem readOutputGraph_no_cycle_message (order : MapOrder) (ho : order.Fair) (r r' : Reader)
    (G : EdgeSet) (hG : ∀ e ∈ G, e.Valid) (a : Int) (e : Mlst.Error)
    (h : r.ReadOutputGraph order G = (r', .fail a e)) :
    e.message ≠
      "Cycle detected: after reading the last edge, the output graph should not have cycles to be a spanning tree." := by
  have hCa : ¬ BeginsWith ['C', 'a']
      "Cycle detected: after reading the last edge, the output graph should not have cycles to be a spanning tree." := by
    unfold BeginsWith
    decide
  unfold Reader.ReadOutputGraph at h
  rcases hres : r.readNumbers "Cannot parse the number of edges." 1 with ⟨r1, run⟩
  rw [hres] at h
  cases run with
  | crash f => simp at h
  | fail a1 e1 =>
    simp only [Prod.mk.injEq, Run.fail.injEq] at h
    rw [← h.2.2]
    exact ne_of_beginsWith
      (readNumbers_fail_begins _ r _ 1 (by unfold BeginsWith; decide) r1 a1 e1 hres) hCa
  | ok nums =>
    simp only at h
    split at h
    · simp at h
    · rename_i Gin hGin
      split at h
      · simp at h
      · rename_i NumEdges hNum
        split at h
        · simp only [Prod.mk.injEq, Run.fail.injEq] at h
          rw [← h.2.2]
          refine ne_of_beginsWith (p := ['I']) ?_ (by unfold BeginsWith; decide)
          exact beginsWith_append _ (beginsWith_append _ (beginsWith_append _
            (beginsWith_append _ (beginsWith_append _ (beginsWith_append _
              (by unfold BeginsWith; decide))))))
        · rename_i hcount
          rcases hed : readOutputEdges G NumEdges.toNat r1 [] with ⟨r2, run2⟩
          rw [hed] at h
          cases run2 with
          | crash f => simp at h
          | fail a2 e2 =>
            simp only [Prod.mk.injEq, Run.fail.injEq] at h
            rw [← h.2.2]
            rcases readOutputEdges_fail_begins G _ _ _ _ _ _ hed with hb | hb
            · exact ne_of_beginsWith hb hCa
            · exact ne_of_beginsWith hb (by unfold BeginsWith; decide)
          | ok E =>
            simp only at h
            split at h
            · simp at h
            · rename_i Gout hGout
              split at h
              · simp only [Prod.mk.injEq, Run.fail.injEq] at h
                rw [← h.2.2]
                refine ne_of_beginsWith (p := ['A']) ?_ (by unfold BeginsWith; decide)
                exact beginsWith_append _ (beginsWith_append _ (beginsWith_append _
                  (beginsWith_append _ (by unfold BeginsWith; decide))))
              · rename_i hnodes
                split at h
                · simp only [Prod.mk.injEq, Run.fail.injEq] at h
                  rw [← h.2.2]
                  exact ne_of_beginsWith (p := ['D'])
                    (beginsWith_append _ (by unfold BeginsWith; decide))
                    (by unfold BeginsWith; decide)
                · rename_i hone
                  split at h
                  · rename_i hcyc
                    exfalso
                    obtain ⟨ebs, pairs, hk, -, he, hin, hnd, -, hE, -⟩ :=
                      readOutputEdges_ok G _ _ _ _ _ hed
                    simp only [List.nil_append] at hE
                    have hlenE : E.length = NumEdges.toNat := by
                      rw [hE, List.length_map, ← hk]
                      exact (List.Forall₂.length_eq he).symm
                    have hsub : ∀ e ∈ E, e ∈ G := by
                      intro e he'
                      rw [hE] at he'
                      obtain ⟨p, hp, rfl⟩ := List.mem_map.1 he'
                      exact hin p hp
                    have hone' : Gout.EdgesInOneComponent = true := by simpa using hone
                    have hvE : ∀ e ∈ E, e.Valid := fun e he' => hG e (hsub e he')
                    obtain ⟨G1, h1, -, -, h4, -⟩ := searched_summary E (order r2.lineNum E)
                      (ho _ _) hvE (hE ▸ hnd)
                    rw [hGout] at h1
                    cases h1
                    have hne := (h4.1 hone').1
                    have hpos : 0 < E.length := List.length_pos.2 hne
                    have hfalse := hasCycle_false_of_checks G E (order r1.lineNum G)
                      (order r2.lineNum E) Gin Gout hG (ho _ _) (ho _ _) hsub (hE ▸ hnd) hGin
                      hGout (by
                        have : NumEdges = Gin.NumNodes - 1 := by simpa using hcount
                        omega) (by simpa using hnodes) hone'
                    rw [hfalse] at hcyc
                    exact absurd hcyc (by simp)
                  · simp at h

/-- C16 (the cycle check of `ReadOutputGraph` is unreachable).  Let `G` be an input edge set
of normalized, in-range edges without self-loops.  For every output text, `ReadOutputGraph`
never returns the `Cycle detected` diagnostic: whenever the edge-count check
(`M = NumNodes - 1`), the membership and uniqueness checks of the edges, the node-count
equality and the single-component check have all passed, the search of the output graph
has left `HasCycle` false. -/
theorem cycle_check_unreachable (order : MapOrder) (ho : order.Fair) (r : Reader)
    (G : EdgeSet) (hG : ∀ e ∈ G, e.Valid) :
    (∀ (r' : Reader) (a : Int) (e : Mlst.Error),
      r.ReadOutputGraph order G = (r', .fail a e) →
      e.message ≠
        "Cycle detected: after reading the last edge, the output graph should not have cycles to be a spanning tree.") ∧
    (∀ (E keysIn keysOut : List Edge) (Gin Gout : Graph),
      keysIn.Perm G → keysOut.Perm E → (∀ e ∈ E, e ∈ G) → E.Nodup →
      searchedGraph keysIn = .ok Gin → searchedGraph keysOut = .ok Gout →
      (E.length : Int) = Gin.NumNodes - 1 → Gout.NumNodes = Gin.NumNodes →
      Gout.EdgesInOneComponent = true → Gout.HasCycle = false) :=
  ⟨fun r' a e h => readOutputGraph_no_cycle_message order ho r r' G hG a e h,
    fun E keysIn keysOut Gin Gout hpi hpo hsub hn hin hout hcount hnodes hone =>
      hasCycle_false_of_checks G E keysIn keysOut Gin Gout hG hpi hpo hsub hn hin hout hcount
        hnodes hone⟩

/-- The triangle with an output case that lists all three edges: the case is rejected by
the edge-count check, not by the cycle check. -/
theorem cycle_check_unreachable_witness :
    ((NewOutFileReader "3\n0 1\n1 2\n0 2\n".toList).ReadOutputGraph idOrder triangle).2 =
      .fail (-1) ⟨1, 0, "3".toList,
        "Input graph has 3 non-isolated nodes, output graph should have 2 edges, got 3 instead."⟩ ∧
    "Input graph has 3 non-isolated nodes, output graph should have 2 edges, got 3 instead." ≠
      "Cycle detected: after reading the last edge, the output graph should not have cycles to be a spanning tree." :=
  ⟨by decide,
    (cycle_check_unreachable idOrder idOrder_fair
      (NewOutFileReader "3\n0 1\n1 2\n0 2\n".toList) triangle triangle_valid).1
      ((NewOutFileReader "3\n0 1\n1 2\n0 2\n".toList).ReadOutputGraph idOrder triangle).1 (-1)
      ⟨1, 0, "3".toList,
        "Input graph has 3 non-isolated nodes, output graph should have 2 edges, got 3 instead."⟩
      (by decide)⟩

/-! ### The traversal on arbitrary adjacency lists: the loop invariant -/

theorem plain_mono {N : List AdjList} {w : Int} {P Q : Int → Prop} (h : ∀ y, P y → Q y)
    (hp : Plain N w P) : Plain N w Q := by
  intro adj hadj
  refine ⟨(hp adj hadj).1, fun y => ?_⟩
  rcases (hp adj hadj).2 y with h1 | h1
  · exact Or.inl (h y h1)
  · exact Or.inr h1

theorem count_singleton_ne {y z : Int} (h : z ≠ y) : [y].count z = 0 := by
  rw [List.count_eq_zero]
  simpa using h

theorem rangeInv_init {N : List AdjList} {x p : Int} {s0 : DfsState} :
    RangeInv N x p s0 [] (mark s0 x) := by
  refine ⟨mark_length _ _, fun _ h => h, ?_, fun h => h, le_refl _, ?_, ?_⟩
  · intro y hy
    simp at hy
  · intro _
    simp
  · intro _ _ w hw
    exact absurd hw.1 hw.2

theorem rangeInv_skip {N : List AdjList} {x p : Int} {s0 t : DfsState} {done : List Int}
    (hpx : p ≠ x) (hinv : RangeInv N x p s0 done t) :
    RangeInv N x p s0 (done ++ [p]) t := by
  refine ⟨hinv.len, hinv.mono, ?_, hinv.flagMono, hinv.fewer, ?_, ?_⟩
  · intro y hy hyp
    rcases List.mem_append.1 hy with h | h
    · exact hinv.doneVis y h hyp
    · simp at h
      exact absurd h hyp
  · intro hf
    obtain ⟨h1, h2⟩ := hinv.plainDone hf
    refine ⟨?_, ?_⟩
    · simp [h1, hpx.symm]
    · intro y hyp
      rw [List.count_append, count_singleton_ne hyp]
      exact h2 y hyp
  · intro hm hf w hw
    exact plain_mono (fun y hy => ⟨hy.1, List.mem_append_left _ hy.2⟩)
      (hinv.plainKids hm hf w hw)

theorem rangeInv_flag {N : List AdjList} {x p y : Int} {s0 t : DfsState} {done : List Int}
    (hyv : Vis t y) (hinv : RangeInv N x p s0 done t) :
    RangeInv N x p s0 (done ++ [y]) { t with HasCycle := true } := by
  refine ⟨hinv.len, hinv.mono, ?_, fun _ => rfl, hinv.fewer, ?_, ?_⟩
  · intro z hz hzp
    rcases List.mem_append.1 hz with h | h
    · exact hinv.doneVis z h hzp
    · simp at h
      subst h
      exact hyv
  · intro hf
    simp at hf
  · intro _ hf
    simp at hf

theorem rangeInv_call {N : List AdjList} {x p y : Int} {s0 t u : DfsState} {done : List Int}
    (hfx : index? s0.visited x = some false) (hyp : y ≠ p)
    (hb : index? t.visited y = some false)
    (hinv : RangeInv N x p s0 done t) (hpost : CallPost N y x t u) :
    RangeInv N x p s0 (done ++ [y]) u := by
  have hft : u.HasCycle = false → t.HasCycle = false :=
    fun h => flag_false_of_post hpost.flagMono h
  have hyx : y ≠ x := by
    rintro rfl
    exact not_vis_of_fresh hb (hinv.mono _ (vis_mark_self hfx))
  have hyd : y ∉ done := fun h => not_vis_of_fresh hb (hinv.doneVis y h hyp)
  refine ⟨hpost.len.trans hinv.len, fun v hv => hpost.mono _ (hinv.mono _ hv), ?_,
    fun h => hpost.flagMono (hinv.flagMono h), le_trans (le_of_lt hpost.fewer) hinv.fewer,
    ?_, ?_⟩
  · intro z hz hzp
    rcases List.mem_append.1 hz with h | h
    · exact hpost.mono _ (hinv.doneVis z h hzp)
    · simp at h
      subst h
      exact hpost.self
  · intro hf
    obtain ⟨h1, h2⟩ := hinv.plainDone (hft hf)
    refine ⟨?_, ?_⟩
    · simp [h1, hyx.symm]
    · intro z hzp
      rw [List.count_append]
      by_cases hzy : z = y
      · subst hzy
        rw [List.count_eq_zero.2 hyd]
        simp
      · rw [count_singleton_ne hzy]
        exact h2 z hzp
  · intro hm hf w hw
    rcases kids_call_cases (t := t) hw with h | h
    · exact plain_mono (fun z hz => ⟨hz.1, List.mem_append_left _ hz.2⟩)
        (hinv.plainKids hm (hft hf) w h)
    · exact plain_mono (fun z hz => ⟨hz.2, by rw [hz.1]; simp⟩) (hpost.plain hm hf w h)

theorem callPost_of_rangeInv {N : List AdjList} {x p : Int} {s0 t : DfsState}
    {nbrs : AdjList} (hfx : index? s0.visited x = some false)
    (hp : Vis s0 p ∨ p < 0) (hx : index? N x = some nbrs)
    (hinv : RangeInv N x p s0 nbrs t) : CallPost N x p s0 t := by
  refine ⟨hinv.len, fun v hv => hinv.mono _ (vis_mark_of_vis hfx hv),
    hinv.mono _ (vis_mark_self hfx), hinv.flagMono, ?_, ?_⟩
  · have h1 := unvisited_mark s0 x hfx
    have h2 := hinv.fewer
    omega
  · intro hm hf w hw
    rcases new_cases hfx hw with h | h
    · rw [h]
      intro adj hadj
      rw [hx] at hadj
      cases hadj
      obtain ⟨h1, h2⟩ := hinv.plainDone hf
      refine ⟨h1, fun y => ?_⟩
      by_cases hyp : y = p
      · exact Or.inl ⟨rfl, hyp⟩
      · exact Or.inr (h2 y hyp)
    · have hwp : w ≠ p := by
        rintro rfl
        rcases hp with hp | hp
        · exact h.2 (vis_mark_of_vis hfx hp)
        · have := h.1.range
          omega
      intro adj hadj
      obtain ⟨h1, h2⟩ := hinv.plainKids hm hf w h adj hadj
      refine ⟨h1, fun y => ?_⟩
      rcases h2 y with ⟨rfl, -⟩ | h3
      · right
        rw [hm w y adj nbrs hadj hx]
        exact (hinv.plainDone hf).2 w hwp
      · exact Or.inr h3

/-! ### The traversal on arbitrary adjacency lists: the closure `dfsFunc` -/

theorem dfsRange_basic {N : List AdjList} {x p : Int} {s0 : DfsState} {nbrs : AdjList}
    (hfx : index? s0.visited x = some false) (hpx : p ≠ x)
    (hx : index? N x = some nbrs)
    (call : Int → DfsState → Except Fault DfsState) (d : Nat)
    (hcall : ∀ n t, index? t.visited n = some false → Vis t x →
      t.visited.length = s0.visited.length → unvisited t ≤ d →
      (∀ u, call n t = .ok u → CallPost N n x t u) ∧
      (∀ f, call n t = .error f → f = .indexOutOfRange ∧ ¬ InRange N s0.visited.length))
    (hd : unvisited (mark s0 x) ≤ d) :
    ∀ rest done t, done ++ rest = nbrs → RangeInv N x p s0 done t →
      (∀ u, dfsRange call p rest t = .ok u → RangeInv N x p s0 nbrs u) ∧
      (∀ f, dfsRange call p rest t = .error f →
        f = .indexOutOfRange ∧ ¬ InRange N s0.visited.length) := by
  intro rest
  induction rest with
  | nil =>
    intro done t hdr hinv
    simp only [List.append_nil] at hdr
    subst hdr
    refine ⟨fun u hu => ?_, fun f hf => ?_⟩
    · simp only [dfsRange, Except.ok.injEq] at hu
      rw [← hu]
      exact hinv
    · simp [dfsRange] at hf
  | cons y rest ih =>
    intro done t hdr hinv
    have hynb : y ∈ nbrs := by rw [← hdr]; simp
    have hxy : Entry N x y := (entry_iff_mem hx y).2 hynb
    have hnext : (done ++ [y]) ++ rest = nbrs := by rw [← hdr]; simp
    unfold dfsRange dfsStep
    by_cases hyp : y = p
    · subst hyp
      simp only [ne_eq, not_true_eq_false, if_false]
      exact ih (done ++ [y]) t hnext (rangeInv_skip hpx hinv)
    · simp only [ne_eq, hyp, not_false_eq_true, if_true]
      cases hb : index? t.visited y with
      | none =>
        simp only []
        refine ⟨fun u hu => by simp at hu, fun f hf => ?_⟩
        simp only [Except.error.injEq] at hf
        refine ⟨hf.symm, fun hN => ?_⟩
        have hyr := hN.range x y hxy
        obtain ⟨b, hb'⟩ := index?_isSome (a := t.visited) hyr.1 (by rw [hinv.len]; exact hyr.2)
        rw [hb] at hb'
        simp at hb'
      | some b =>
        cases b with
        | true =>
          simp only []
          exact ih (done ++ [y]) _ hnext (rangeInv_flag hb hinv)
        | false =>
          simp only []
          have hcnt : unvisited t ≤ d :=
            le_trans hinv.fewer hd
          have hc := hcall y t hb (hinv.mono _ (vis_mark_self hfx)) hinv.len hcnt
          cases hu : call y t with
          | error f =>
            simp only []
            refine ⟨fun u hu' => by simp at hu', fun g hg => ?_⟩
            simp only [Except.error.injEq] at hg
            rw [← hg]
            exact hc.2 f hu
          | ok u =>
            simp only []
            exact ih (done ++ [y]) u hnext (rangeInv_call hfx hyp hb hinv (hc.1 u hu))

/-- The closure `dfsFunc` on arbitrary adjacency lists: entered on an unmarked node with a
depth bound that is at least the number of unmarked nodes, it either returns in a state
described by `CallPost` or stops on an index out of range, which adjacency lists with all
entries in range exclude; the depth bound is never reached. -/
theorem dfsFunc_basic (N : List AdjList) :
    ∀ depth node parent s, index? s.visited node = some false →
      (Vis s parent ∨ parent < 0) → unvisited s ≤ depth →
      (∀ t, dfsFunc N depth node parent s = .ok t → CallPost N node parent s t) ∧
      (∀ f, dfsFunc N depth node parent s = .error f →
        f = .indexOutOfRange ∧ ¬ InRange N s.visited.length) := by
  intro depth
  induction depth with
  | zero =>
    intro node parent s hfx _ hcnt
    have := unvisited_mark s node hfx
    omega
  | succ d ih =>
    intro node parent s hfx hp hcnt
    have hr := index?_lt hfx
    have hpx : parent ≠ node := by
      rintro rfl
      rcases hp with hp | hp
      · exact not_vis_of_fresh hfx hp
      · omega
    have hd : unvisited (mark s node) ≤ d := by
      have := unvisited_mark s node hfx
      omega
    unfold dfsFunc
    rw [if_pos hr]
    cases hx : index? N node with
    | none =>
      simp only []
      refine ⟨fun u hu => by simp at hu, fun f hf => ?_⟩
      simp only [Except.error.injEq] at hf
      refine ⟨hf.symm, fun hN => ?_⟩
      obtain ⟨b, hb⟩ := index?_isSome (a := N) hr.1 (by rw [hN.len]; exact hr.2)
      rw [hx] at hb
      simp at hb
    | some nbrs =>
      simp only []
      have key := dfsRange_basic hfx hpx hx (fun n s1 => dfsFunc N d n node s1) d
        (fun n t h1 h2 h3 h4 => by
          have := ih n node t h1 (Or.inl h2) h4
          rw [h3] at this
          exact this) hd nbrs [] (mark s node) rfl rangeInv_init
      exact ⟨fun t ht => callPost_of_rangeInv hfx hp hx (key.1 t ht), key.2⟩

/-! ### The traversal on arbitrary adjacency lists: the main loop of `Search` -/

theorem sweepInv_init (N : List AdjList) : SweepInv N [] searchInit := by
  have hnv : ∀ v, ¬ Vis searchInit.dfs v := fun v h => index?_replicate_false _ v h
  refine ⟨by simp [searchInit], ?_, ?_⟩
  · intro i hi
    simp at hi
  · exact fun _ _ w hw => absurd hw (hnv w)

theorem sweepInv_next {N : List AdjList} {done rest : List AdjList} {adj : AdjList}
    {a b : SearchState} (hdr : done ++ adj :: rest = N) (hinv : SweepInv N done a)
    (hlen : b.dfs.visited.length = MaxNumNodes.toNat)
    (hmono : ∀ v, Vis a.dfs v → Vis b.dfs v)
    (hflag : a.dfs.HasCycle = true → b.dfs.HasCycle = true)
    (hseen : adj ≠ [] → Vis b.dfs (done.length : Int))
    (hplain : MultSym N → b.dfs.HasCycle = false →
      ∀ w, Vis b.dfs w → ¬ Vis a.dfs w → Plain N w (fun y => y = -1)) :
    SweepInv N (done ++ [adj]) b := by
  refine ⟨hlen, ?_, ?_⟩
  · intro i hi hne
    simp only [List.length_append, List.length_singleton] at hi
    by_cases h : i < done.length
    · exact hmono _ (hinv.seen i h hne)
    · have hid : i = done.length := by omega
      subst hid
      obtain ⟨adj', h1, h2⟩ := hne
      rw [← hdr, List.getElem?_append_right (Nat.le_refl _)] at h1
      simp at h1
      subst h1
      exact hseen h2
  · intro hm hf w hw
    by_cases h : Vis a.dfs w
    · exact hinv.plain hm (flag_false_of_post hflag hf) w h
    · exact hplain hm hf w hw h

theorem searchStep_basic {N : List AdjList} {done rest : List AdjList}
    {adj : AdjList} {a : SearchState}
    (hdr : done ++ adj :: rest = N) (hinv : SweepInv N done a) :
    (∀ b, searchStep N done.length adj a = .ok b → SweepInv N (done ++ [adj]) b) ∧
    (∀ f, searchStep N done.length adj a = .error f →
      f = .indexOutOfRange ∧ ¬ InRange N MaxNumNodes.toNat) := by
  have hi : index? N (done.length : Int) = some adj := by
    rw [← hdr]; exact index?_append_cons _ _ _
  have hiL := index?_lt hi
  unfold searchStep
  by_cases hadj : 0 < adj.length
  · simp only [gt_iff_lt, hadj, if_true]
    have hdfs : (if adj.length = 1 then
        ({ a with NumNodes := a.NumNodes + 1, NumLeaves := a.NumLeaves + 1 } : SearchState)
       else { a with NumNodes := a.NumNodes + 1 }).dfs = a.dfs := by
      split <;> rfl
    rw [hdfs]
    cases hv : index? a.dfs.visited (done.length : Int) with
    | none =>
      simp only []
      refine ⟨fun u hu => by simp at hu, fun f hf => ?_⟩
      simp only [Except.error.injEq] at hf
      refine ⟨hf.symm, fun hN => ?_⟩
      obtain ⟨b, hb⟩ := index?_isSome (a := a.dfs.visited) hiL.1
        (by rw [hinv.len, ← hN.len]; exact hiL.2)
      rw [hv] at hb
      simp at hb
    | some v =>
      cases v with
      | true =>
        simp only []
        refine ⟨fun b hb => ?_, fun f hf => by simp at hf⟩
        simp only [Except.ok.injEq] at hb
        subst hb
        refine sweepInv_next hdr hinv ?_ ?_ ?_ ?_ ?_
        · rw [hdfs]; exact hinv.len
        · rw [hdfs]; exact fun _ h => h
        · rw [hdfs]; exact fun h => h
        · rw [hdfs]; exact fun _ => hv
        · rw [hdfs]; exact fun _ _ w h1 h2 => absurd h1 h2
      | false =>
        simp only []
        have hcnt : unvisited a.dfs ≤ MaxNumNodes.toNat := by
          unfold unvisited
          rw [← hinv.len]
          exact count_le_length_false _
        have key := dfsFunc_basic N MaxNumNodes.toNat (done.length : Int) (-1) a.dfs hv
          (Or.inr (by omega)) hcnt
        cases hd : dfsFunc N MaxNumNodes.toNat (done.length : Int) (-1) a.dfs with
        | error f =>
          simp only []
          refine ⟨fun u hu => by simp at hu, fun g hg => ?_⟩
          simp only [Except.error.injEq] at hg
          rw [← hg]
          have := key.2 f hd
          rw [hinv.len] at this
          exact this
        | ok d =>
          simp only []
          refine ⟨fun b hb => ?_, fun f hf => by simp at hf⟩
          simp only [Except.ok.injEq] at hb
          subst hb
          have hpost := key.1 d hd
          refine sweepInv_next hdr hinv ?_ hpost.mono hpost.flagMono (fun _ => hpost.self) ?_
          · exact hpost.len.trans hinv.len
          · intro hm hf w h1 h2
            exact plain_mono (fun y hy => hy.2) (hpost.plain hm hf w ⟨h1, h2⟩)
  · simp only [gt_iff_lt, hadj, if_false]
    refine ⟨fun b hb => ?_, fun f hf => by simp at hf⟩
    simp only [Except.ok.injEq] at hb
    subst hb
    refine sweepInv_next hdr hinv hinv.len (fun _ h => h) (fun h => h) ?_
      (fun _ _ w h1 h2 => absurd h1 h2)
    intro hne
    cases adj with
    | nil => exact absurd rfl hne
    | cons _ _ => simp at hadj

theorem searchLoop_basic {N : List AdjList} :
    ∀ rest done a, done ++ rest = N → SweepInv N done a →
      (∀ b, searchLoop N done.length rest a = .ok b → SweepInv N N b) ∧
      (∀ f, searchLoop N done.length rest a = .error f →
        f = .indexOutOfRange ∧ ¬ InRange N MaxNumNodes.toNat) := by
  intro rest
  induction rest with
  | nil =>
    intro done a hdr hinv
    simp only [List.append_nil] at hdr
    subst hdr
    refine ⟨fun b hb => ?_, fun f hf => by simp [searchLoop] at hf⟩
    simp only [searchLoop, Except.ok.injEq] at hb
    rw [← hb]
    exact hinv
  | cons adj rest ih =>
    intro done a hdr hinv
    have key := searchStep_basic hdr hinv
    unfold searchLoop
    cases hs : searchStep N done.length adj a with
    | error f =>
      simp only []
      refine ⟨fun u hu => by simp at hu, fun g hg => ?_⟩
      simp only [Except.error.injEq] at hg
      rw [← hg]
      exact key.2 f hs
    | ok b =>
      simp only []
      have := ih (done ++ [adj]) b (by rw [← hdr]; simp) (key.1 b hs)
      simpa using this

/-- Method `Graph.Search` on arbitrary adjacency lists: it either returns or stops on an index
out of range, which adjacency lists of the shape that `EdgeSet.Graph` builds exclude; and
when it returns without flagging a cycle, adjacency lists with symmetric multiplicities have
no self-loop and no repeated entry. -/
theorem search_basic (G : Graph) :
    (∀ H, G.Search = .ok H → H.Neighbors = G.Neighbors ∧
      (MultSym G.Neighbors → (∀ x y, Entry G.Neighbors x y → 0 ≤ y) → H.HasCycle = false →
        Simple G.Neighbors)) ∧
    (∀ f, G.Search = .error f →
      f = .indexOutOfRange ∧ ¬ InRange G.Neighbors MaxNumNodes.toNat) := by
  have key := searchLoop_basic (N := G.Neighbors) G.Neighbors [] searchInit rfl
    (sweepInv_init _)
  simp only [List.length_nil] at key
  unfold Graph.Search
  cases hs : searchLoop G.Neighbors 0 G.Neighbors searchInit with
  | error f =>
    simp only []
    refine ⟨fun u hu => by simp at hu, fun g hg => ?_⟩
    simp only [Except.error.injEq] at hg
    rw [← hg]
    exact key.2 f hs
  | ok b =>
    simp only []
    refine ⟨fun H hH => ?_, fun f hf => by simp at hf⟩
    simp only [Except.ok.injEq] at hH
    subst hH
    refine ⟨rfl, fun hm hnn hf => ?_⟩
    have hinv := key.1 b hs
    have hplain : ∀ x adj, index? G.Neighbors x = some adj → x ∉ adj ∧ adj.Nodup := by
      intro x adj hx
      by_cases hne : adj = []
      · subst hne
        simp
      · have hr := index?_lt hx
        have hx' : G.Neighbors[x.toNat]? = some adj := by
          unfold index? at hx
          rw [if_pos hr.1] at hx
          exact hx
        have hv := hinv.seen x.toNat hr.2 ⟨adj, hx', hne⟩
        rw [Int.toNat_of_nonneg hr.1] at hv
        obtain ⟨h1, h2⟩ := hinv.plain hm hf x hv adj hx
        refine ⟨h1, List.nodup_iff_count_le_one.2 fun y => ?_⟩
        rcases h2 y with h3 | h3
        · subst h3
          have : (-1 : Int) ∉ adj := fun hmem => by
            have := hnn x (-1) ⟨adj, hx, hmem⟩
            omega
          rw [List.count_eq_zero.2 this]
          omega
        · exact h3
    refine ⟨fun x adj hx => (hplain x adj hx).2, ?_⟩
    rintro x ⟨adj, hx, hmem⟩
    exact (hplain x adj hx).1 hmem

/-! ### Termination of the traversal -/

theorem dfsStep_congr (call1 call2 : Int → DfsState → Except Fault DfsState)
    (parent : Int) (s : DfsState) (n : Int)
    (h : index? s.visited n = some false → call1 n s = call2 n s) :
    dfsStep call1 parent s n = dfsStep call2 parent s n := by
  unfold dfsStep
  by_cases hn : n = parent
  · simp [hn]
  · simp only [ne_eq, hn, not_false_eq_true, if_true]
    cases hb : index? s.visited n with
    | none => rfl
    | some b =>
      cases b with
      | true => rfl
      | false => exact h hb

theorem searchStep_visited {N : List AdjList} {i : Nat} {adj : AdjList} {a b : SearchState}
    (hv : index? a.dfs.visited (i : Int) ≠ some false) (h : searchStep N i adj a = .ok b) :
    b.dfs = a.dfs := by
  unfold searchStep at h
  by_cases hadj : 0 < adj.length
  · simp only [gt_iff_lt, hadj, if_true] at h
    have hdfs : (if adj.length = 1 then
        ({ a with NumNodes := a.NumNodes + 1, NumLeaves := a.NumLeaves + 1 } : SearchState)
       else { a with NumNodes := a.NumNodes + 1 }).dfs = a.dfs := by
      split <;> rfl
    rw [hdfs] at h
    cases hb : index? a.dfs.visited (i : Int) with
    | none =>
      rw [hb] at h
      simp at h
    | some c =>
      cases c with
      | true =>
        rw [hb] at h
        simp only [Except.ok.injEq] at h
        rw [← h]
        exact hdfs
      | false => exact absurd hb hv
  · simp only [gt_iff_lt, hadj, if_false, Except.ok.injEq] at h
    rw [h]

/-- C15. The traversal terminates within its depth bound.  For every graph, `Search` never
reaches the depth bound `MaxNumNodes` of the recursion, and for adjacency lists of the
shape that `EdgeSet.Graph` builds (one list per node index, all entries in
`[0, MaxNumNodes)`) it returns normally.  Each call of the closure `dfsFunc` on an unmarked
node, with a depth bound that is at least the number of unmarked nodes, stays within the
bound, and on return has marked its node, kept every mark, and strictly decreased the number
of unmarked nodes, so no node is entered twice.  The recursive call in the loop body is only
made on an unmarked entry, and the main loop starts a traversal only on an unmarked index. -/
theorem search_bounded_recursion (G : Graph) :
    G.Search ≠ .error .depthExceeded ∧
    (InRange G.Neighbors MaxNumNodes.toNat → ∃ H, G.Search = .ok H) ∧
    (∀ (depth : Nat) (node parent : Int) (s : DfsState),
      index? s.visited node = some false → (Vis s parent ∨ parent < 0) →
      unvisited s ≤ depth →
      dfsFunc G.Neighbors depth node parent s ≠ .error .depthExceeded ∧
      ∀ t, dfsFunc G.Neighbors depth node parent s = .ok t →
        Vis t node ∧ (∀ v, Vis s v → Vis t v) ∧ unvisited t < unvisited s) ∧
    (∀ (call1 call2 : Int → DfsState → Except Fault DfsState) (parent : Int) (s : DfsState)
      (n : Int), (index? s.visited n = some false → call1 n s = call2 n s) →
      dfsStep call1 parent s n = dfsStep call2 parent s n) ∧
    (∀ (i : Nat) (adj : AdjList) (a b : SearchState),
      index? a.dfs.visited (i : Int) ≠ some false →
      searchStep G.Neighbors i adj a = .ok b → b.dfs = a.dfs) := by
  refine ⟨?_, ?_, ?_, dfsStep_congr, fun i adj a b => searchStep_visited⟩
  · intro h
    have := ((search_basic G).2 _ h).1
    simp at this
  · intro hN
    cases h : G.Search with
    | ok H => exact ⟨H, rfl⟩
    | error f => exact absurd hN ((search_basic G).2 f h).2
  · intro depth node parent s hf hp hd
    have key := dfsFunc_basic G.Neighbors depth node parent s hf hp hd
    refine ⟨fun h => ?_, fun t ht => ?_⟩
    · have := (key.2 _ h).1
      simp at this
    · have hpost := key.1 t ht
      exact ⟨hpost.self, hpost.mono, hpost.fewer⟩

/-- The graph of the triangle is searched to the end. -/
theorem search_bounded_recursion_witness :
    ∃ G H, EdgeSet.Graph triangle = .ok G ∧ G.Search = .ok H := by
  obtain ⟨G, hG, hA⟩ := edgeSetGraph_spec triangle (fun e he => (triangle_valid e he).inRange)
  obtain ⟨H, hH⟩ := (search_bounded_recursion G).2.1
    (adjAre_inRange (fun e he => (triangle_valid e he).inRange) hA)
  exact ⟨G, H, hG, hH⟩

/-! ### Adjacency lists under a change of the enumeration -/

theorem adjOf_perm {keys1 keys2 : List Edge} (h : keys1.Perm keys2) (u : Int) :
    (adjOf keys1 u).Perm (adjOf keys2 u) := by
  induction h with
  | nil => exact List.Perm.refl _
  | cons e _ ih =>
    simp only [adjOf]
    exact List.Perm.append_left _ (List.Perm.append_left _ ih)
  | swap a b l =>
    rw [adjOf_cons b (a :: l) u, adjOf_cons a l u, adjOf_cons a (b :: l) u, adjOf_cons b l u,
      ← List.append_assoc, ← List.append_assoc]
    exact List.Perm.append_right _ List.perm_append_comm
  | trans _ _ ih1 ih2 => exact ih1.trans ih2

theorem count_adjOf (keys : List Edge) (a b : Int) :
    (adjOf keys a).count b = (adjOf keys b).count a := by
  induction keys with
  | nil => simp [adjOf]
  | cons e es ih =>
    rw [adjOf_cons e es a, adjOf_cons e es b, List.count_append, List.count_append, ih]
    congr 1
    simp only [adjOf, List.append_nil, List.count_append]
    by_cases h1 : e.Ends.1 = a <;> by_cases h2 : e.Ends.2 = a <;>
      by_cases h3 : e.Ends.1 = b <;> by_cases h4 : e.Ends.2 = b <;>
      simp_all [List.count_cons, List.count_nil]

theorem adjAre_index {N : List AdjList} {f : Int → AdjList} (hA : AdjAre N f) {u : Int}
    {adj : AdjList} (h : index? N u = some adj) : adj = f u := by
  have hr := index?_lt h
  rw [hA.1] at hr
  rw [hA.2 u hr.1 (by unfold MaxNumNodes at *; omega)] at h
  simp only [Option.some.injEq] at h
  exact h.symm

theorem adjAre_multSym {N : List AdjList} {keys : List Edge} (hA : AdjAre N (adjOf keys)) :
    MultSym N := by
  intro a b adjA adjB ha hb
  rw [adjAre_index hA ha, adjAre_index hA hb]
  exact count_adjOf keys a b

theorem adjAre_simple_iff {N : List AdjList} {keys : List Edge} (hk : ∀ e ∈ keys, e.InRange)
    (hA : AdjAre N (adjOf keys)) :
    Simple N ↔ ∀ u, (adjOf keys u).Nodup ∧ u ∉ adjOf keys u := by
  constructor
  · intro hs u
    by_cases hu : 0 ≤ u ∧ u < MaxNumNodes
    · have hx := hA.2 u hu.1 hu.2
      exact ⟨hs.nodup u _ hx, fun hm => hs.irrefl u ⟨_, hx, hm⟩⟩
    · rw [adjOf_nil_of_out_of_range keys hk u hu]
      simp
  · intro h
    refine ⟨fun x adj hx => ?_, ?_⟩
    · rw [adjAre_index hA hx]
      exact (h x).1
    · rintro x ⟨adj, hx, hm⟩
      rw [adjAre_index hA hx] at hm
      exact (h x).2 hm

theorem adjAre_simple_perm {N1 N2 : List AdjList} {keys1 keys2 : List Edge}
    (hp : keys1.Perm keys2) (hk : ∀ e ∈ keys1, e.InRange)
    (hA1 : AdjAre N1 (adjOf keys1)) (hA2 : AdjAre N2 (adjOf keys2)) :
    Simple N1 ↔ Simple N2 := by
  have hk2 : ∀ e ∈ keys2, e.InRange := fun e he => hk e (hp.mem_iff.2 he)
  rw [adjAre_simple_iff hk hA1, adjAre_simple_iff hk2 hA2]
  refine forall_congr' fun u => ?_
  rw [(adjOf_perm hp u).nodup_iff, (adjOf_perm hp u).mem_iff]

/-! ### Edges out of range -/

theorem addEdge_eq (G : Graph) (e : Edge) :
    G.AddEdge e =
      if (0 ≤ e.Ends.1 ∧ e.Ends.1.toNat < G.Neighbors.length) ∧
          (0 ≤ e.Ends.2 ∧ e.Ends.2.toNat < G.Neighbors.length) then
        .ok { G with Neighbors := (G.Neighbors.modify (fun l => l ++ [e.Ends.2])
          e.Ends.1.toNat).modify (fun l => l ++ [e.Ends.1]) e.Ends.2.toNat }
      else .error .indexOutOfRange := by
  unfold Graph.AddEdge Graph.addEdgeUV Graph.addDirectedEdgeUV
  by_cases h1 : 0 ≤ e.Ends.1 ∧ e.Ends.1.toNat < G.Neighbors.length
  · by_cases h2 : 0 ≤ e.Ends.2 ∧ e.Ends.2.toNat < G.Neighbors.length
    · simp [h1, h2, List.length_modify]
    · simp [h1, h2, List.length_modify]
  · simp [h1]

theorem addEdge_length (G G1 : Graph) (e : Edge) (h : G.AddEdge e = .ok G1) :
    G1.Neighbors.length = G.Neighbors.length := by
  rw [addEdge_eq] at h
  split_ifs at h
  simp only [Except.ok.injEq] at h
  rw [← h]
  simp

theorem addEdge_error (G : Graph) (e : Edge) (f : Fault) (h : G.AddEdge e = .error f) :
    f = .indexOutOfRange := by
  rw [addEdge_eq] at h
  split_ifs at h
  simp only [Except.error.injEq] at h
  exact h.symm

theorem addEdge_out_of_range (G : Graph) (e : Edge)
    (hG : G.Neighbors.length = MaxNumNodes.toNat) (he : ¬ e.InRange) :
    G.AddEdge e = .error .indexOutOfRange := by
  rw [addEdge_eq, if_neg]
  intro h
  apply he
  rw [hG] at h
  unfold Edge.InRange
  unfold MaxNumNodes at *
  omega

theorem addEdges_out_of_range (keys : List Edge) (hk : ¬ ∀ e ∈ keys, e.InRange) :
    ∀ G : Graph, G.Neighbors.length = MaxNumNodes.toNat →
      addEdges keys G = .error .indexOutOfRange := by
  induction keys with
  | nil => exact absurd (fun e he => by simp at he) hk
  | cons e es ih =>
    intro G hG
    unfold addEdges
    by_cases he : e.InRange
    · cases h : G.AddEdge e with
      | error f => simp only [addEdge_error G e f h]
      | ok G1 =>
        simp only []
        refine ih (fun hes => hk ?_) G1 ((addEdge_length G G1 e h).trans hG)
        intro e' he'
        rcases List.mem_cons.1 he' with h1 | h1
        · rw [h1]; exact he
        · exact hes e' h1
    · rw [addEdge_out_of_range G e hG he]

theorem searchedGraph_out_of_range (keys : List Edge) (hk : ¬ ∀ e ∈ keys, e.InRange) :
    searchedGraph keys = .error .indexOutOfRange := by
  unfold searchedGraph EdgeSet.Graph
  rw [addEdges_out_of_range keys hk _ newEmptyGraph_adjAre.1]

/-! ### `Search` under a change of the enumeration -/

/-- The cycle flag that `Search` computes on the graph of in-range edges is clear exactly
when the adjacency lists have no self-loop and no repeated entry and the graph of the edges
is acyclic. -/
theorem searchedGraph_flag (keys : List Edge) (hk : ∀ e ∈ keys, e.InRange) :
    ∃ G, searchedGraph keys = .ok G ∧ AdjAre G.Neighbors (adjOf keys) ∧
      (G.HasCycle = false ↔
        Simple G.Neighbors ∧ (EdgeSet.toSimpleGraph keys).IsAcyclic) := by
  obtain ⟨G0, h0, hA⟩ := edgeSetGraph_spec keys hk
  obtain ⟨G, h1, hN, -, -, -, hacyc, hcyc⟩ :=
    search_spec G0 (adjAre_inRange hk hA) (adjAre_symmetric hk hA)
  have hb := (search_basic G0).1 G h1
  refine ⟨G, by unfold searchedGraph; simp only [h0, h1], hN ▸ hA, ?_⟩
  rw [hN, ← adjAre_graphOf hk hA]
  constructor
  · intro hf
    exact ⟨hb.2 (adjAre_multSym hA)
      (fun x y hxy => ((adjAre_inRange hk hA).range x y hxy).1) hf, hacyc hf⟩
  · rintro ⟨hs, hac⟩
    by_contra hf
    exact hcyc hs (by simpa using hf) hac

theorem card_components_congr (H1 H2 : SimpleGraph Int) (S1 S2 : Set Int) (hH : H1 = H2)
    (hS : S1 = S2) :
    Nat.card (H1.induce S1).ConnectedComponent = Nat.card (H2.induce S2).ConnectedComponent := by
  subst hH
  subst hS
  rfl

theorem bool_eq_of_false_iff {a b : Bool} (h : a = false ↔ b = false) : a = b := by
  cases a <;> cases b <;> simp at h ⊢

/-- The outcome of `EdgeSet.Graph` followed by `Search` does not depend on the order in
which the keys are enumerated: the same fault, or the same four values. -/
theorem searchedGraph_perm {keys1 keys2 : List Edge} (hp : keys1.Perm keys2) :
    (∀ f, searchedGraph keys1 = .error f ↔ searchedGraph keys2 = .error f) ∧
    ∀ G1 G2, searchedGraph keys1 = .ok G1 → searchedGraph keys2 = .ok G2 →
      G1.NumNodes = G2.NumNodes ∧ G1.NumLeaves = G2.NumLeaves ∧
      G1.NumOfComponents = G2.NumOfComponents ∧ G1.HasCycle = G2.HasCycle := by
  by_cases hk : ∀ e ∈ keys1, e.InRange
  · have hk2 : ∀ e ∈ keys2, e.InRange := fun e he => hk e (hp.mem_iff.2 he)
    obtain ⟨A1, hA1, -, hn1, hl1, hc1, -, -⟩ := searchedGraph_spec keys1 hk
    obtain ⟨A2, hA2, -, hn2, hl2, hc2, -, -⟩ := searchedGraph_spec keys2 hk2
    obtain ⟨B1, hB1, hadj1, hf1⟩ := searchedGraph_flag keys1 hk
    obtain ⟨B2, hB2, hadj2, hf2⟩ := searchedGraph_flag keys2 hk2
    rw [hA1] at hB1
    rw [hA2] at hB2
    simp only [Except.ok.injEq] at hB1 hB2
    subst hB1
    subst hB2
    refine ⟨fun f => by rw [hA1, hA2]; simp, fun G1 G2 h1 h2 => ?_⟩
    rw [hA1] at h1
    rw [hA2] at h2
    simp only [Except.ok.injEq] at h1 h2
    subst h1
    subst h2
    refine ⟨?_, ?_, ?_, ?_⟩
    · rw [hn1, hn2, nodes_perm hp]
    · rw [hl1, hl2]
      congr 3
      ext u
      simp only [Set.mem_setOf_eq]
      rw [(adjOf_perm hp u).length_eq]
    · rw [hc1, hc2]
      congr 1
      exact card_components_congr _ _ _ _ (toSimpleGraph_perm hp) (nodes_perm hp)
    · apply bool_eq_of_false_iff
      rw [hf1, hf2, adjAre_simple_perm hp hk hadj1 hadj2, toSimpleGraph_perm hp]
  · have hk2 : ¬ ∀ e ∈ keys2, e.InRange := fun h => hk (fun e he => h e (hp.mem_iff.1 he))
    have e1 := searchedGraph_out_of_range keys1 hk
    have e2 := searchedGraph_out_of_range keys2 hk2
    refine ⟨fun f => by rw [e1, e2], fun G1 G2 h1 _ => ?_⟩
    rw [e1] at h1
    simp at h1

/-! ### The readers under a change of the enumeration -/

theorem revOrder_fair : revOrder.Fair := fun _ E => List.reverse_perm E

theorem searchedGraph_perm_cases {keys1 keys2 : List Edge} (hp : keys1.Perm keys2) :
    (∃ f, searchedGraph keys1 = .error f ∧ searchedGraph keys2 = .error f) ∨
    (∃ G1 G2, searchedGraph keys1 = .ok G1 ∧ searchedGraph keys2 = .ok G2 ∧
      G1.NumNodes = G2.NumNodes ∧ G1.NumLeaves = G2.NumLeaves ∧
      G1.NumOfComponents = G2.NumOfComponents ∧ G1.HasCycle = G2.HasCycle) := by
  have key := searchedGraph_perm hp
  cases e1 : searchedGraph keys1 with
  | error f => exact Or.inl ⟨f, rfl, (key.1 f).1 e1⟩
  | ok G1 =>
    cases e2 : searchedGraph keys2 with
    | error f =>
      have := (key.1 f).2 e2
      rw [e1] at this
      simp at this
    | ok G2 => exact Or.inr ⟨G1, G2, rfl, rfl, key.2 G1 G2 e1 e2⟩

theorem fair_perm {order1 order2 : MapOrder} (h1 : order1.Fair) (h2 : order2.Fair) (k : Int)
    (E : EdgeSet) : (order1 k E).Perm (order2 k E) :=
  (h1 k E).trans (h2 k E).symm

theorem readInputCases_order (order1 order2 : MapOrder) (h1 : order1.Fair)
    (h2 : order2.Fair) :
    ∀ k r acc, readInputCases order1 k r acc = readInputCases order2 k r acc := by
  intro k
  induction k with
  | zero => intro r acc; rfl
  | succ k ih =>
    intro r acc
    simp only [readInputCases]
    rcases hg : r.ReadInputGraph with ⟨r1, res⟩
    cases res with
    | crash f => rfl
    | fail a e => rfl
    | ok edgeSet =>
      simp only []
      rcases searchedGraph_perm_cases (fair_perm h1 h2 r1.lineNum edgeSet) with
        ⟨f, e1, e2⟩ | ⟨G1, G2, e1, e2, -, -, hc, -⟩
      · simp only [e1, e2]
      · simp only [e1, e2]
        have : G1.EdgesInOneComponent = G2.EdgesInOneComponent := by
          unfold Graph.EdgesInOneComponent
          rw [hc]
        rw [this, ih]

theorem readInputFile_order (order1 order2 : MapOrder) (h1 : order1.Fair)
    (h2 : order2.Fair) (r : Reader) : r.ReadInputFile order1 = r.ReadInputFile order2 := by
  unfold Reader.ReadInputFile
  simp only [readInputCases_order order1 order2 h1 h2]

theorem readOutputGraph_order (order1 order2 : MapOrder) (h1 : order1.Fair)
    (h2 : order2.Fair) (r : Reader) (G : EdgeSet) :
    r.ReadOutputGraph order1 G = r.ReadOutputGraph order2 G := by
  unfold Reader.ReadOutputGraph
  rcases hn : r.readNumbers "Cannot parse the number of edges." 1 with ⟨r1, res⟩
  cases res with
  | crash f => rfl
  | fail a e => rfl
  | ok nums =>
    simp only []
    rcases searchedGraph_perm_cases (fair_perm h1 h2 r1.lineNum G) with
      ⟨f, e1, e2⟩ | ⟨G1, G2, e1, e2, hnn, -, -, -⟩
    · simp only [e1, e2]
    · simp only [e1, e2]
      rw [hnn]
      cases index? nums 0 with
      | none => rfl
      | some NumEdges =>
        simp only []
        by_cases hne : NumEdges ≠ G2.NumNodes - 1
        · rw [if_pos hne, if_pos hne]
        · rw [if_neg hne, if_neg hne]
          rcases hro : readOutputEdges G NumEdges.toNat r1 [] with ⟨r2, res2⟩
          cases res2 with
          | crash f => rfl
          | fail a e => rfl
          | ok outEdgeSet =>
            simp only []
            rcases searchedGraph_perm_cases (fair_perm h1 h2 r2.lineNum outEdgeSet) with
              ⟨f, e3, e4⟩ | ⟨H1, H2, e3, e4, kn, kl, kc, kf⟩
            · simp only [e3, e4]
            · simp only [e3, e4]
              have : H1.EdgesInOneComponent = H2.EdgesInOneComponent := by
                unfold Graph.EdgesInOneComponent
                rw [kc]
              rw [kn, kl, kf, this]

theorem readOutputCases_order (order1 order2 : MapOrder) (h1 : order1.Fair)
    (h2 : order2.Fair) :
    ∀ sets r acc, readOutputCases order1 sets r acc = readOutputCases order2 sets r acc := by
  intro sets
  induction sets with
  | nil => intro r acc; rfl
  | cons G rest ih =>
    intro r acc
    simp only [readOutputCases, readOutputGraph_order order1 order2 h1 h2, ih]

theorem readOutputFile_order (order1 order2 : MapOrder) (h1 : order1.Fair)
    (h2 : order2.Fair) (r : Reader) (sets : List EdgeSet) :
    r.ReadOutputFile order1 sets = r.ReadOutputFile order2 sets := by
  unfold Reader.ReadOutputFile
  simp only [readOutputCases_order order1 order2 h1 h2]

/-- C12. The readers and the traversal do not depend on the order in which the keys of an
edge set are enumerated.  For any two enumerations that list exactly the keys of each set,
`ReadInputFile` returns the same reader state and the same result (accepted edge sets, or
diagnostic with its line number, case number, line and message) from every reader, and so does
`ReadOutputFile` for every list of input edge sets.  For every edge set and every two
enumerations of its keys, `EdgeSet.Graph` followed by `Search` stops on the same fault or
returns graphs with the same `NumNodes`, `NumLeaves`, `NumOfComponents` and `HasCycle`. -/
theorem enumeration_order_independent (order1 order2 : MapOrder) (h1 : order1.Fair)
    (h2 : order2.Fair) :
    (∀ r : Reader, r.ReadInputFile order1 = r.ReadInputFile order2) ∧
    (∀ (r : Reader) (sets : List EdgeSet),
      r.ReadOutputFile order1 sets = r.ReadOutputFile order2 sets) ∧
    (∀ (E : EdgeSet) (keys1 keys2 : List Edge), keys1.Perm E → keys2.Perm E →
      (∀ f, searchedGraph keys1 = .error f ↔ searchedGraph keys2 = .error f) ∧
      ∀ G1 G2, searchedGraph keys1 = .ok G1 → searchedGraph keys2 = .ok G2 →
        G1.NumNodes = G2.NumNodes ∧ G1.NumLeaves = G2.NumLeaves ∧
        G1.NumOfComponents = G2.NumOfComponents ∧ G1.HasCycle = G2.HasCycle) :=
  ⟨readInputFile_order order1 order2 h1 h2, readOutputFile_order order1 order2 h1 h2,
    fun _ _ _ p1 p2 => searchedGraph_perm (p1.trans p2.symm)⟩

/-- The triangle file and a spanning path of it are read with the same results whether the
edge sets are enumerated in the order of insertion or against it. -/
theorem enumeration_order_independent_witness :
    (NewInFileReader "1\n3\n0 1\n1 2\n2 0\n".toList).ReadInputFile idOrder =
      (NewInFileReader "1\n3\n0 1\n1 2\n2 0\n".toList).ReadInputFile revOrder ∧
    (NewOutFileReader "1\n2\n0 1\n1 2\n".toList).ReadOutputFile idOrder [triangle] =
      (NewOutFileReader "1\n2\n0 1\n1 2\n".toList).ReadOutputFile revOrder [triangle] :=
  ⟨(enumeration_order_independent idOrder revOrder idOrder_fair revOrder_fair).1 _,
    (enumeration_order_independent idOrder revOrder idOrder_fair revOrder_fair).2.1 _ _⟩

end Mlst
